import Mathlib

/-! The kube-bench configuration updater: a shallow embedding.

Go strings are modelled as lists of characters (`GoString`).  Every separator
and marker the program looks for is ASCII, so scanning characters and scanning
bytes agree.  Paths follow the Unix rules of `path/filepath` (separator `/`,
no volume names).
-/

set_option autoImplicit false

/-- A Go string, as the list of its characters. -/
abbrev GoString := List Char

/-! ## Package `strings` -/

namespace strings

/-- Go `strings.HasPrefix`. -/
def HasPrefix (s pre : GoString) : Bool := pre.isPrefixOf s

/-- Go `strings.Contains`: `sub` occurs somewhere in `s`. -/
def Contains : GoString → GoString → Bool
  | [], sub => sub.isEmpty
  | c :: cs, sub => HasPrefix (c :: cs) sub || Contains cs sub

/-- Go `strings.Split(s, sep)` for a one-character separator. -/
def Split (sep : Char) : GoString → List GoString
  | [] => [[]]
  | c :: cs =>
    if c = sep then [] :: Split sep cs
    else
      match Split sep cs with
      | [] => [[c]]
      | h :: t => (c :: h) :: t

/-- Go `strings.Join(elems, sep)`. -/
def Join (elems : List GoString) (sep : GoString) : GoString :=
  sep.intercalate elems

/-- Go `strings.TrimPrefix`. -/
def TrimPrefix (s pre : GoString) : GoString :=
  if HasPrefix s pre then s.drop pre.length else s

/-- Go `strings.TrimLeft(s, cutset)` for a one-character cutset. -/
def TrimLeft (s : GoString) (c : Char) : GoString := s.dropWhile (fun x => x == c)

/-- Go `strings.TrimRight(s, cutset)` for a one-character cutset. -/
def TrimRight (s : GoString) (c : Char) : GoString :=
  (s.reverse.dropWhile (fun x => x == c)).reverse

/-- Lower-case mapping of one character.  Go's `unicode.ToLower` on the ASCII
range; characters outside ASCII are left as they are (Go also maps the
non-ASCII upper-case letters, none of which becomes a hexadecimal digit). -/
def toLowerRune (c : Char) : Char := c.toLower

/-- Go `strings.ToLower`. -/
def ToLower (s : GoString) : GoString := s.map toLowerRune

end strings

/-! ## Package `path/filepath` (Unix) -/

namespace filepath

/-- The name of the parent directory inside a path, `..`. -/
def dotdot : GoString := ['.', '.']

/-- A path is rooted when it starts with the separator. -/
def isRooted : GoString → Bool
  | '/' :: _ => true
  | _ => false

/-- One step of `Clean`: the elements kept so far are held newest first.
An empty element and `.` are dropped; `..` removes the last kept element when
there is one that is not itself `..`, is dropped at the root of a rooted
path, and is kept otherwise; any other element is kept. -/
def cleanStep (rooted : Bool) (kept : List GoString) (e : GoString) : List GoString :=
  if e = [] ∨ e = ['.'] then kept
  else if e = dotdot then
    match kept with
    | [] => if rooted then [] else [dotdot]
    | top :: rest => if top = dotdot then dotdot :: top :: rest else rest
  else e :: kept

/-- The elements of a path after lexical cleaning, in path order. -/
def cleanElems (rooted : Bool) (elems : List GoString) : List GoString :=
  (elems.foldl (cleanStep rooted) []).reverse

/-- Writes a list of cleaned elements back as a path. -/
def render (rooted : Bool) (elems : List GoString) : GoString :=
  if rooted then '/' :: strings.Join elems ['/']
  else if elems = [] then ['.'] else strings.Join elems ['/']

/-- Go `filepath.Clean`: the shortest path name equivalent to `path` by purely
lexical processing. -/
def Clean (path : GoString) : GoString :=
  render (isRooted path) (cleanElems (isRooted path) (strings.Split '/' path))

/-- Go `filepath.Join`: empty leading elements are ignored, the rest is joined
with the separator and cleaned; the result is empty when all elements are. -/
def Join (elems : List GoString) : GoString :=
  match elems.dropWhile (fun e => e.isEmpty) with
  | [] => []
  | rest => Clean (strings.Join rest ['/'])

/-- Go `filepath.Dir`: everything up to the last separator, cleaned. -/
def Dir (path : GoString) : GoString :=
  Clean (path.reverse.dropWhile (fun c => c != '/')).reverse

/-- Go `filepath.Base`: the last element of the path; trailing separators are
removed first. -/
def Base (path : GoString) : GoString :=
  if path = [] then ['.']
  else
    let p := strings.TrimRight path '/'
    let last := (p.reverse.takeWhile (fun c => c != '/')).reverse
    if last = [] then ['/'] else last

/-- The elements of a cleaned path: the pieces between separators, without the
empty pieces and without a lone dot. -/
def elemsOf (path : GoString) : List GoString :=
  (strings.Split '/' path).filter (fun e => !(e.isEmpty || e == ['.']))

/-- The elements that the comparison loop of `filepath.Rel` visits in a
cleaned path: the pieces between separators (the root path has one, empty). -/
def relParts (p : GoString) : List GoString :=
  if p = [] then [] else if p = ['/'] then [[]] else strings.Split '/' p

/-- The comparison loop of `filepath.Rel`: skips the common leading elements;
`none` when the first differing base element is the parent directory. -/
def relWalk : List GoString → List GoString → Option (List GoString × List GoString)
  | b :: bs, t :: ts =>
    if t = b then relWalk bs ts
    else if b = dotdot then none
    else some (b :: bs, t :: ts)
  | bs, ts => some (bs, ts)

/-- Go `filepath.Rel(basepath, targpath)`; `none` stands for its error
"Rel: can't make targpath relative to basepath". -/
def Rel (basepath targpath : GoString) : Option GoString :=
  let base := Clean basepath
  let targ := Clean targpath
  if targ = base then some ['.']
  else
    let base := if base = ['.'] then [] else base
    if isRooted base != isRooted targ then none
    else
      match relWalk (relParts base) (relParts targ) with
      | none => none
      | some (bs, ts) =>
        let rest := strings.Join ts ['/']
        if bs = [] then some rest
        else
          let ups := strings.Join (bs.map (fun _ => dotdot)) ['/']
          if rest = [] then some ups else some (ups ++ '/' :: rest)

end filepath

/-! ## Errors -/

/-- Go `error` values of the updater, one constructor per message format. -/
inductive Err where
  /-- `path traversal detected: %s` -/
  | pathTraversal (filePath : GoString)
  /-- `Rel: can't make %s relative to %s` (from `filepath.Rel`) -/
  | relError (targpath basepath : GoString)
  /-- `sha256 mismatch: got %s want %s` -/
  | sha256Mismatch (got want : GoString)
  /-- `file too large: %s (%d bytes > %d bytes)` -/
  | fileTooLarge (name : GoString) (size : Int) (maxSize : Int)
  /-- An error with a fixed text. -/
  | text (msg : GoString)
  /-- `unexpected status %s from %s` -/
  | unexpectedStatus (status : Nat) (url : GoString)
  /-- `cannot parse owner/repo from source %q` -/
  | cannotParse (source : GoString)
  /-- `cfg not found in tarball at %s` -/
  | cfgNotFound (path : GoString)
  /-- `no directory found in %s` -/
  | noDirectory (root : GoString)
  /-- An error reported by the operating system or a library for a call. -/
  | os (call : GoString) (path : GoString)
  /-- `prefix: %w`: an error wrapped with the stage that met it. -/
  | wrap (stage : GoString) (inner : Err)
  deriving DecidableEq, Repr

deriving instance DecidableEq for Except

/-! ## Path validation (`internal/updater/updater.go`, `cmd/utils.go`) -/

namespace updater

/-- Transcription of `validateFilePath`: ensures that the file path is safe and
prevents directory traversal attacks. -/
def validateFilePath (baseDir filePath : GoString) : Except Err GoString :=
  let cleanPath := filepath.Clean filePath
  if strings.Contains cleanPath filepath.dotdot then
    .error (.pathTraversal filePath)
  else
    let fullPath := filepath.Join [baseDir, cleanPath]
    let fullPath := filepath.Clean fullPath
    match filepath.Rel baseDir fullPath with
    | none => .error (.wrap "failed to get relative path".data (.relError fullPath baseDir))
    | some relPath =>
      if strings.HasPrefix relPath filepath.dotdot then
        .error (.pathTraversal filePath)
      else
        .ok fullPath

/-- Transcription of `safeFilePath`. -/
def safeFilePath (baseDir filePath : GoString) : Except Err GoString :=
  validateFilePath baseDir filePath

end updater

/-! ## Bytes, `encoding/hex`, `crypto/sha256` -/

/-- A byte string; every element is read modulo 256. -/
abbrev Bytes := List Nat

namespace hex

/-- The digit table of `encoding/hex`. -/
def hextable : List Char := "0123456789abcdef".data

/-- One hexadecimal digit. -/
def digit (n : Nat) : Char := hextable.getD (n % 16) '0'

/-- Go `hex.EncodeToString`: two lower-case digits for each byte. -/
def EncodeToString (src : Bytes) : GoString :=
  src.flatMap (fun v => [digit (v % 256 / 16), digit (v % 16)])

end hex

namespace sha256

/-- The round constants of SHA-256. -/
def K : List Nat := [
  0x428a2f98, 0x71374491, 0xb5c0fbcf, 0xe9b5dba5, 0x3956c25b, 0x59f111f1, 0x923f82a4, 0xab1c5ed5,
  0xd807aa98, 0x12835b01, 0x243185be, 0x550c7dc3, 0x72be5d74, 0x80deb1fe, 0x9bdc06a7, 0xc19bf174,
  0xe49b69c1, 0xefbe4786, 0x0fc19dc6, 0x240ca1cc, 0x2de92c6f, 0x4a7484aa, 0x5cb0a9dc, 0x76f988da,
  0x983e5152, 0xa831c66d, 0xb00327c8, 0xbf597fc7, 0xc6e00bf3, 0xd5a79147, 0x06ca6351, 0x14292967,
  0x27b70a85, 0x2e1b2138, 0x4d2c6dfc, 0x53380d13, 0x650a7354, 0x766a0abb, 0x81c2c92e, 0x92722c85,
  0xa2bfe8a1, 0xa81a664b, 0xc24b8b70, 0xc76c51a3, 0xd192e819, 0xd6990624, 0xf40e3585, 0x106aa070,
  0x19a4c116, 0x1e376c08, 0x2748774c, 0x34b0bcb5, 0x391c0cb3, 0x4ed8aa4a, 0x5b9cca4f, 0x682e6ff3,
  0x748f82ee, 0x78a5636f, 0x84c87814, 0x8cc70208, 0x90befffa, 0xa4506ceb, 0xbef9a3f7, 0xc67178f2]

/-- The initial hash value of SHA-256. -/
def init : List Nat :=
  [0x6a09e667, 0xbb67ae85, 0x3c6ef372, 0xa54ff53a, 0x510e527f, 0x9b05688c, 0x1f83d9ab, 0x5be0cd19]

/-- Rotation to the right of a 32-bit word. -/
def rotr (x n : Nat) : Nat := ((x >>> n) ||| (x <<< (32 - n))) % 4294967296

/-- Addition of 32-bit words. -/
def add32 (a b : Nat) : Nat := (a + b) % 4294967296

/-- The big-endian 32-bit words of a byte string. -/
def words : Bytes → List Nat
  | a :: b :: c :: d :: rest =>
    ((((a % 256) * 256 + b % 256) * 256 + c % 256) * 256 + d % 256) :: words rest
  | _ => []

/-- The padded message: a one bit, zeros, and the bit length on 64 bits. -/
def pad (msg : Bytes) : Bytes :=
  let l := msg.length
  msg ++ [0x80] ++ List.replicate ((119 - l % 64) % 64) 0 ++
    [7, 6, 5, 4, 3, 2, 1, 0].map (fun i => (l * 8) / 256 ^ i % 256)

/-- The message schedule, newest word first. -/
def extend : Nat → List Nat → List Nat
  | 0, w => w
  | n + 1, w =>
    match w with
    | _ :: w2 :: _ :: _ :: _ :: _ :: w7 :: _ :: _ :: _ :: _ :: _ :: _ :: _ :: w15 :: w16 :: _ =>
      let s0 := rotr w15 7 ^^^ rotr w15 18 ^^^ (w15 >>> 3)
      let s1 := rotr w2 17 ^^^ rotr w2 19 ^^^ (w2 >>> 10)
      extend n (add32 (add32 w16 s0) (add32 w7 s1) :: w)
    | _ => w

/-- One round of the compression function. -/
def round (s : List Nat) (kw : Nat × Nat) : List Nat :=
  match s with
  | [a, b, c, d, e, f, g, h] =>
    let S1 := rotr e 6 ^^^ rotr e 11 ^^^ rotr e 25
    let ch := (e &&& f) ^^^ ((4294967295 ^^^ e) &&& g)
    let t1 := add32 (add32 (add32 h S1) (add32 ch kw.1)) kw.2
    let S0 := rotr a 2 ^^^ rotr a 13 ^^^ rotr a 22
    let maj := (a &&& b) ^^^ (a &&& c) ^^^ (b &&& c)
    [add32 t1 (add32 S0 maj), a, b, c, add32 d t1, e, f, g]
  | _ => s

/-- The compression of one block of sixteen words. -/
def block (h : List Nat) (w16 : List Nat) : List Nat :=
  List.zipWith add32 h ((K.zip (extend 48 w16.reverse).reverse).foldl round h)

/-- The blocks of sixteen words of a word list. -/
def chunks16 : Nat → List Nat → List (List Nat)
  | 0, _ => []
  | n + 1, ws => if ws = [] then [] else ws.take 16 :: chunks16 n (ws.drop 16)

/-- The SHA-256 digest (32 bytes) of a byte string. -/
def Sum256 (msg : Bytes) : Bytes :=
  let ws := words (pad msg)
  ((chunks16 ws.length ws).foldl block init).flatMap
    (fun x => [x / 16777216 % 256, x / 65536 % 256, x / 256 % 256, x % 256])

end sha256

/-! ## The file system -/

/-- A file-system object: a regular file with its mode and bytes, or a
directory with its mode.  Symbolic links and special files are not modelled. -/
inductive Node where
  | file (mode : Nat) (data : Bytes)
  | dir (mode : Nat)
  deriving DecidableEq, Repr

/-- Whether a node is a directory. -/
def Node.isDir : Node → Bool
  | .dir _ => true
  | .file _ _ => false

/-- An absolute location: the names on the way from the root directory. -/
abbrev Loc := List GoString

/-- A name that a directory entry can have. -/
def validName (n : GoString) : Bool :=
  !n.isEmpty && !n.contains '/' && n != ['.'] && n != filepath.dotdot

/-- All names of a location are entry names. -/
def validPath (p : Loc) : Bool := p.all validName

/-- The location named by the elements `elems` when resolution starts at
`start`: empty and dot elements are skipped, `..` goes to the parent (the
root is its own parent). -/
def resolveFrom (start : Loc) (elems : List GoString) : Loc :=
  (elems.foldl (filepath.cleanStep true) start.reverse).reverse

/-- The location a path string names, for a process whose working directory
is `cwd`: `..` is resolved on the text.  This is where the kernel arrives when
it can walk the path; whether it can is `os.walk`, which `os.Stat`,
`os.Rename`, `os.RemoveAll` and `os.MkdirTemp` consult, the calls that `Update`
makes on a path as the caller or the environment wrote it.  The other calls
take the location as it is: `Update` hands them results of `filepath.Join`,
where `..` can only lead the path and the two readings agree. -/
def pathKey (cwd : Loc) (p : GoString) : Loc :=
  if filepath.isRooted p then resolveFrom [] (strings.Split '/' p)
  else resolveFrom cwd (strings.Split '/' p)

/-- A file system: a finite map from locations to nodes in which every object
lies in a directory and every name is an entry name.  `dom` lists (at least)
the locations in use. -/
structure FS where
  node : Loc → Option Node
  dom : List Loc
  complete : ∀ p, node p ≠ none → p ∈ dom
  parents : ∀ p n, node (p ++ [n]) ≠ none → ∃ mode, node p = some (Node.dir mode)
  names : ∀ p, node p ≠ none → validPath p = true

namespace FS

/-- Whether a directory is at `p`. -/
def isDir (fs : FS) (p : Loc) : Bool :=
  match fs.node p with
  | some (.dir _) => true
  | _ => false

/-- The file system with no object at all. -/
def empty : FS where
  node := fun _ => none
  dom := []
  complete := by intro p h; exact absurd rfl h
  parents := by intro p n h; exact absurd rfl h
  names := by intro p h; exact absurd rfl h

/-- Puts node `n` at `p`. -/
def setNode (fs : FS) (p : Loc) (n : Node) (hv : validPath p = true)
    (hp : ∀ q m, p = q ++ [m] → ∃ mode, fs.node q = some (Node.dir mode))
    (hc : ∀ m, fs.node (p ++ [m]) ≠ none → ∃ mode, n = Node.dir mode) : FS where
  node := fun q => if q = p then some n else fs.node q
  dom := p :: fs.dom
  complete := by
    intro q h
    by_cases hq : q = p
    · simp [hq]
    · simp only [hq, if_false] at h
      exact List.mem_cons_of_mem _ (fs.complete q h)
  parents := by
    intro q m h
    have hne : q ≠ q ++ [m] := by
      intro e
      have := congrArg List.length e
      simp at this
    by_cases hq : q ++ [m] = p
    · obtain ⟨mode, hm⟩ := hp q m hq.symm
      refine ⟨mode, ?_⟩
      have : q ≠ p := by rw [← hq]; exact hne
      simp [this, hm]
    · simp only [hq, if_false] at h
      obtain ⟨mode, hm⟩ := fs.parents q m h
      by_cases hqp : q = p
      · subst hqp
        obtain ⟨mode2, h2⟩ := hc m h
        exact ⟨mode2, by simp [h2]⟩
      · exact ⟨mode, by simp [hqp, hm]⟩
  names := by
    intro q h
    by_cases hq : q = p
    · rw [hq]; exact hv
    · simp only [hq, if_false] at h
      exact fs.names q h

/-- The parent directory of `p` is there (the root has none). -/
def parentOk (fs : FS) (p : Loc) : Bool := p.isEmpty || fs.isDir p.dropLast

theorem parentOk_spec (fs : FS) (p : Loc) (h : fs.parentOk p = true) :
    ∀ q m, p = q ++ [m] → ∃ mode, fs.node q = some (Node.dir mode) := by
  intro q m e
  subst e
  simp only [parentOk, List.dropLast_concat, Bool.or_eq_true, List.isEmpty_eq_true] at h
  rcases h with h | h
  · simp at h
  · simp only [isDir] at h
    split at h
    · exact ⟨_, by assumption⟩
    · exact absurd h (by simp)

theorem no_child_of_absent (fs : FS) (p : Loc) (h : fs.node p = none) (m : GoString) :
    fs.node (p ++ [m]) = none := by
  by_contra hc
  obtain ⟨mode, hm⟩ := fs.parents p m hc
  rw [h] at hm
  exact absurd hm (by simp)

theorem no_child_of_file (fs : FS) (p : Loc) (mode : Nat) (data : Bytes)
    (h : fs.node p = some (Node.file mode data)) (m : GoString) :
    fs.node (p ++ [m]) = none := by
  by_contra hc
  obtain ⟨mode2, hm⟩ := fs.parents p m hc
  rw [h] at hm
  exact absurd hm (by simp)

/-- The system call `mkdir`: a new directory at `p`, whose parent must be a
directory and where nothing may be yet. -/
def mkdir (fs : FS) (p : Loc) (mode : Nat) : Option FS :=
  if h : validPath p = true ∧ fs.node p = none ∧ fs.parentOk p = true then
    some (fs.setNode p (.dir mode) h.1 (fs.parentOk_spec p h.2.2) (fun _ _ => ⟨mode, rfl⟩))
  else none

/-- Go `os.MkdirAll` on the reversed location: a directory that is there is
left as it is, a file in the way is an error, and a missing directory is
made after its parents. -/
def mkdirAllRev (fs : FS) (mode : Nat) : List GoString → Option FS
  | [] =>
    match fs.node [] with
    | some (.dir _) => some fs
    | some (.file _ _) => none
    | none => fs.mkdir [] mode
  | n :: rest =>
    match fs.node (n :: rest).reverse with
    | some (.dir _) => some fs
    | some (.file _ _) => none
    | none =>
      match mkdirAllRev fs mode rest with
      | none => none
      | some fs1 => fs1.mkdir (n :: rest).reverse mode

/-- Go `os.MkdirAll` at a location. -/
def mkdirAll (fs : FS) (p : Loc) (mode : Nat) : Option FS := fs.mkdirAllRev mode p.reverse

/-- Opening with `O_CREATE|O_RDWR|O_TRUNC`: a new empty file with the given
mode, or an existing file emptied (its mode stays); a directory cannot be
opened for writing and the parent must be a directory. -/
def create (fs : FS) (p : Loc) (mode : Nat) : Option FS :=
  match h : fs.node p with
  | some (.dir _) => none
  | some (.file m d) =>
    some (fs.setNode p (.file m []) (fs.names p (by simp [h]))
      (fun q n e => fs.parents q n (by rw [← e, h]; simp))
      (fun n hn => absurd (fs.no_child_of_file p m d h n) hn))
  | none =>
    if hc : validPath p = true ∧ fs.parentOk p = true ∧ p ≠ [] then
      some (fs.setNode p (.file mode []) hc.1 (fs.parentOk_spec p hc.2.1)
        (fun n hn => absurd (fs.no_child_of_absent p h n) hn))
    else none

/-- Writing `data` to the (just emptied) file at `p`. -/
def write (fs : FS) (p : Loc) (data : Bytes) : Option FS :=
  match h : fs.node p with
  | some (.file m d) =>
    some (fs.setNode p (.file m data) (fs.names p (by simp [h]))
      (fun q n e => fs.parents q n (by rw [← e, h]; simp))
      (fun n hn => absurd (fs.no_child_of_file p m d h n) hn))
  | _ => none

/-- Go `os.RemoveAll`: the object at `p` and everything below it is gone. -/
def removeAll (fs : FS) (p : Loc) : FS where
  node := fun q => if p.isPrefixOf q then none else fs.node q
  dom := fs.dom
  complete := by
    intro q h
    by_cases hq : p.isPrefixOf q = true
    · simp [hq] at h
    · simp only [hq] at h
      exact fs.complete q h
  parents := by
    intro q m h
    by_cases hq : p.isPrefixOf (q ++ [m]) = true
    · simp [hq] at h
    · simp only [hq] at h
      obtain ⟨mode, hm⟩ := fs.parents q m h
      have : ¬ p.isPrefixOf q = true := by
        intro hpq
        apply hq
        rw [List.isPrefixOf_iff_prefix] at hpq ⊢
        exact hpq.trans (List.prefix_append q [m])
      exact ⟨mode, by simp [this, hm]⟩
  names := by
    intro q h
    by_cases hq : p.isPrefixOf q = true
    · simp [hq] at h
    · simp only [hq] at h
      exact fs.names q h

/-- Whether the directory at `p` has no entry. -/
def isEmptyDir (fs : FS) (p : Loc) : Bool :=
  fs.dom.all (fun q => !(p.isPrefixOf q && q != p && (fs.node q).isSome))

/-- What `rename(2)` asks of the two locations: the old object is there, the
new parent is a directory, neither location lies inside the other, and the
new location is free, or holds an empty directory that a directory replaces,
or a file that a file replaces. -/
def renameOk (fs : FS) (old new : Loc) : Bool :=
  validPath new && fs.parentOk new && !new.isEmpty && !old.isPrefixOf new && !new.isPrefixOf old &&
  (match fs.node old, fs.node new with
   | some _, none => true
   | some (.dir _), some (.dir _) => fs.isEmptyDir new
   | some (.file _ _), some (.file _ _) => true
   | _, _ => false)

end FS

namespace FS

/-- The system call `rename(2)` on a tree: the object at `old`, with everything
below it, is afterwards at `new`, and `old` is gone. -/
def rename (fs : FS) (old new : Loc) : Option FS :=
  if old = new then (if fs.node old = none then none else some fs)
  else if h : fs.renameOk old new = true then
    some
      { node := fun q =>
          if new.isPrefixOf q then fs.node (old ++ q.drop new.length)
          else if old.isPrefixOf q then none
          else fs.node q
        dom := fs.dom ++ fs.dom.filterMap
          (fun q => if old.isPrefixOf q then some (new ++ q.drop old.length) else none)
        complete := by
          intro q hq
          by_cases hn : new.isPrefixOf q = true
          · simp only [hn, if_true] at hq
            have hmem := fs.complete _ hq
            apply List.mem_append_right
            rw [List.mem_filterMap]
            refine ⟨old ++ q.drop new.length, hmem, ?_⟩
            have hpre : old.isPrefixOf (old ++ q.drop new.length) = true := by
              rw [List.isPrefixOf_iff_prefix]; exact List.prefix_append _ _
            rw [List.isPrefixOf_iff_prefix] at hn
            obtain ⟨t, rfl⟩ := hn
            simp [hpre]
          · simp only [hn] at hq
            by_cases ho : old.isPrefixOf q = true
            · simp [ho] at hq
            · simp only [ho] at hq
              exact List.mem_append_left _ (fs.complete q hq)
        parents := by
          intro q m hq
          simp only [renameOk, Bool.and_eq_true, Bool.not_eq_true'] at h
          obtain ⟨⟨⟨⟨⟨_, hpar⟩, hne⟩, hon⟩, _⟩, _⟩ := h
          by_cases hn : new.isPrefixOf (q ++ [m]) = true
          · simp only [hn, if_true] at hq
            rw [List.isPrefixOf_iff_prefix, List.prefix_concat_iff] at hn
            rcases hn with hn | hn
            · -- the new location itself: its parent is a directory
              have hnq : ¬ new.isPrefixOf q = true := by
                rw [List.isPrefixOf_iff_prefix, hn]
                intro hp
                have := hp.length_le
                simp at this
              have hoq : ¬ old.isPrefixOf q = true := by
                intro ho
                rw [List.isPrefixOf_iff_prefix] at ho
                have : old.isPrefixOf new = true := by
                  rw [List.isPrefixOf_iff_prefix, hn]
                  exact ho.trans (List.prefix_append q [m])
                rw [this] at hon
                exact absurd hon (by simp)
              obtain ⟨mode, hm⟩ := fs.parentOk_spec new hpar q m hn
              exact ⟨mode, by simp only [hnq, hoq]; simpa using hm⟩
            · have hn2 : new.isPrefixOf q = true := by
                rw [List.isPrefixOf_iff_prefix]; exact hn
              obtain ⟨t, rfl⟩ := hn
              simp only [List.append_assoc, List.drop_left] at hq
              rw [← List.append_assoc] at hq
              obtain ⟨mode, hm⟩ := fs.parents _ m hq
              exact ⟨mode, by simp only [hn2, if_true, List.drop_left]; exact hm⟩
          · simp only [hn] at hq
            by_cases ho : old.isPrefixOf (q ++ [m]) = true
            · simp [ho] at hq
            · simp only [ho] at hq
              obtain ⟨mode, hm⟩ := fs.parents q m hq
              have hnq : ¬ new.isPrefixOf q = true := by
                intro hp
                apply hn
                rw [List.isPrefixOf_iff_prefix] at hp ⊢
                exact hp.trans (List.prefix_append q [m])
              have hoq : ¬ old.isPrefixOf q = true := by
                intro hp
                apply ho
                rw [List.isPrefixOf_iff_prefix] at hp ⊢
                exact hp.trans (List.prefix_append q [m])
              exact ⟨mode, by simp only [hnq, hoq]; simpa using hm⟩
        names := by
          intro q hq
          simp only [renameOk, Bool.and_eq_true] at h
          obtain ⟨⟨⟨⟨⟨hv, _⟩, _⟩, _⟩, _⟩, _⟩ := h
          by_cases hn : new.isPrefixOf q = true
          · simp only [hn, if_true] at hq
            have hval := fs.names _ hq
            rw [List.isPrefixOf_iff_prefix] at hn
            obtain ⟨t, rfl⟩ := hn
            simp only [List.drop_left] at hval
            simp only [validPath, List.all_append, Bool.and_eq_true] at hval hv ⊢
            exact ⟨hv, hval.2⟩
          · simp only [hn] at hq
            by_cases ho : old.isPrefixOf q = true
            · simp [ho] at hq
            · simp only [ho] at hq
              exact fs.names q hq }
  else none

/-- The names of the entries of the directory at `p`, sorted. -/
def children (fs : FS) (p : Loc) : List GoString :=
  ((fs.dom.filterMap
    (fun q => if q.dropLast = p ∧ (fs.node q).isSome then q.getLast? else none)).dedup).insertionSort
      (fun a b => a ≤ b)

/-- The objects at and below `src`, each by its location relative to `src`,
in the order of a walk: a directory before its entries, entries by name. -/
def subtree (fs : FS) (src : Loc) : List Loc :=
  (((fs.dom.filter (fun q => src.isPrefixOf q && (fs.node q).isSome)).map
    (fun q => q.drop src.length)).dedup).insertionSort (fun a b => a ≤ b)

end FS

/-! ## The environment and the calls of the program -/

/-- A call to the operating system or to the network that can fail. -/
inductive Call where
  | httpGet (url token : GoString)
  | readBody (url : GoString)
  | mkdirTemp (path : GoString)
  | mkdirAll (path : GoString) (mode : Nat)
  | openFile (path : GoString) (mode : Nat)
  | openRead (path : GoString)
  | read (path : GoString)
  | write (path : GoString) (data : Bytes)
  | close (path : GoString)
  | stat (path : GoString)
  | lstat (path : GoString)
  | readDir (path : GoString)
  | rename (oldpath newpath : GoString)
  | removeAll (path : GoString)
  | gzipNewReader (path : GoString)
  | tarNext (path : GoString)
  deriving DecidableEq, Repr

namespace tar

/-- Go `tar.TypeReg`. -/
def TypeReg : Char := '0'

/-- Go `tar.TypeDir`. -/
def TypeDir : Char := '5'

/-- The fields of `tar.Header` that the updater reads. -/
structure Header where
  Name : GoString
  Typeflag : Char
  Mode : Int
  Size : Int
  deriving DecidableEq, Repr

/-- One archive entry as the reader delivers it: the header, the bytes that
reading the entry yields, and whether that reading ends in an error. -/
structure Entry where
  hdr : Header
  body : Bytes
  bodyErr : Bool
  deriving DecidableEq, Repr

end tar

/-- A wall-clock time. -/
structure Time where
  year : Nat
  month : Nat
  day : Nat
  hour : Nat
  minute : Nat
  second : Nat
  deriving DecidableEq, Repr

/-- Everything outside the program that its run depends on. -/
structure Env where
  /-- The working directory of the process. -/
  cwd : Loc
  /-- The environment variable `TMPDIR`. -/
  TMPDIR : GoString
  /-- The environment variable `GITHUB_TOKEN`. -/
  GITHUB_TOKEN : GoString
  /-- The number `os.MkdirTemp` draws for the directory name. -/
  random : Nat
  /-- The value of `time.Now()`. -/
  now : Time
  /-- Whether a call fails for a reason outside the model (permissions, full
  disk, network), given the calls made so far. -/
  fault : List Call → Call → Bool
  /-- How many bytes a failing write has written. -/
  shortWrite : List Call → Nat
  /-- The answer to a GET request: the status code and the body. -/
  httpDo : GoString → Option (Nat × Bytes)
  /-- Whether `url.Parse` refuses an address for its syntax (an invalid escape,
  host or port); the grammar of `net/url` is not modelled beyond the control
  characters, see `http.NewRequestWithContext`. -/
  badURL : GoString → Bool
  /-- Decompression and parsing of a gzip-compressed tar stream: `none` when
  the gzip header is invalid, else the entries and whether the stream ends in
  an error instead of its end mark. -/
  gunzipTar : Bytes → Option (List tar.Entry × Bool)

/-- The state the program acts on: the file system and the calls made so far,
newest first. -/
structure World where
  fs : FS
  log : List Call

/-- Adds a call to the log. -/
def World.record (w : World) (c : Call) : World := { w with log := c :: w.log }

namespace time

/-- A number in decimal, padded with zeros to `width` digits. -/
def appendInt (n width : Nat) : GoString :=
  let d := Nat.toDigits 10 n
  List.replicate (width - d.length) '0' ++ d

/-- Go `t.Format("20060102-150405")`. -/
def Format (t : Time) : GoString :=
  appendInt t.year 4 ++ appendInt t.month 2 ++ appendInt t.day 2 ++ ['-'] ++
    appendInt t.hour 2 ++ appendInt t.minute 2 ++ appendInt t.second 2

end time

namespace os

/-- The outcome of the walk that the kernel makes along a path. -/
inductive Walk where
  /-- Every directory named on the way is there. -/
  | found
  /-- `ENOENT`: a name on the way is not there. -/
  | noent
  /-- `ENOTDIR`: a name on the way is a file. -/
  | notdir
  deriving DecidableEq, Repr

/-- The walk along the elements of a path from the location `cur` (kept in
reverse): a name that another element follows is looked up and has to be a
directory that exists, `..` goes to the parent, empty and dot elements stay.
The last element is left to the call.  `pathKey` names the location that the
walk reaches when it is `found`. -/
def walkFrom (fs : FS) : List GoString → List GoString → Walk
  | _, [] => .found
  | _, [_] => .found
  | cur, e :: e2 :: rest =>
    if e = [] ∨ e = ['.'] ∨ e = filepath.dotdot then
      walkFrom fs (filepath.cleanStep true cur e) (e2 :: rest)
    else
      match fs.node (e :: cur).reverse with
      | none => .noent
      | some (.file _ _) => .notdir
      | some (.dir _) => walkFrom fs (e :: cur) (e2 :: rest)

/-- The walk along a path, from the root for a rooted path and from the
working directory otherwise. -/
def walk (fs : FS) (cwd : Loc) (path : GoString) : Walk :=
  walkFrom fs (if filepath.isRooted path then [] else cwd.reverse) (strings.Split '/' path)

/-- A path without its trailing separators (`splitPath` of `os.RemoveAll`); a
path of separators only is the root. -/
def trimSlashes (path : GoString) : GoString :=
  if strings.TrimRight path '/' = [] then ['/'] else strings.TrimRight path '/'

/-- Whether the last element of a path, trailing separators apart, is `.` or
`..`: the kernel renames and removes no such entry. -/
def endsInDots (path : GoString) : Bool :=
  match (strings.Split '/' (trimSlashes path)).getLast? with
  | some e => e == ['.'] || e == filepath.dotdot
  | none => false

/-- Go `os.TempDir` on Unix. -/
def TempDir (env : Env) : GoString := if env.TMPDIR = [] then "/tmp".data else env.TMPDIR

/-- Go `os.MkdirAll`. -/
def MkdirAll (env : Env) (path : GoString) (mode : Nat) (w : World) : Option Err × World :=
  let c := Call.mkdirAll path mode
  if env.fault w.log c || path.isEmpty then (some (.os "mkdir".data path), w.record c)
  else
    match w.fs.mkdirAll (pathKey env.cwd path) mode with
    | none => (some (.os "mkdir".data path), w.record c)
    | some fs => (none, { fs := fs, log := c :: w.log })

/-- The path that `os.MkdirTemp("", pattern)` makes for a pattern `prefix*`:
the temporary directory, the separator unless it is there already, the prefix
and the random number. -/
def tempPath (env : Env) (pre : GoString) : GoString :=
  let dir := TempDir env
  let name := pre ++ Nat.toDigits 10 env.random
  if dir.getLast? = some '/' then dir ++ name else dir ++ '/' :: name

/-- Go `os.MkdirTemp("", pattern)` for a pattern `prefix*`: one new directory
with mode 0700 under the temporary directory, which the kernel has to find. -/
def MkdirTemp (env : Env) (pre : GoString) (w : World) : Except Err GoString × World :=
  let path := tempPath env pre
  let c := Call.mkdirTemp path
  if env.fault w.log c || walk w.fs env.cwd path != .found then
    (.error (.os "mkdirtemp".data path), w.record c)
  else
    match w.fs.mkdir (pathKey env.cwd path) 0o700 with
    | none => (.error (.os "mkdirtemp".data path), w.record c)
    | some fs => (.ok path, { fs := fs, log := c :: w.log })

/-- Go `os.OpenFile(name, O_CREATE|O_RDWR|O_TRUNC, mode)`. -/
def OpenFile (env : Env) (path : GoString) (mode : Nat) (w : World) : Option Err × World :=
  let c := Call.openFile path mode
  if env.fault w.log c || path.isEmpty then (some (.os "open".data path), w.record c)
  else
    match w.fs.create (pathKey env.cwd path) mode with
    | none => (some (.os "open".data path), w.record c)
    | some fs => (none, { fs := fs, log := c :: w.log })

/-- Writing `data` through the open file `path`; a failing write leaves the
first bytes written. -/
def Write (env : Env) (path : GoString) (data : Bytes) (w : World) : Option Err × World :=
  let c := Call.write path data
  if env.fault w.log c then
    match w.fs.write (pathKey env.cwd path) (data.take (env.shortWrite w.log)) with
    | none => (some (.os "write".data path), w.record c)
    | some fs => (some (.os "write".data path), { fs := fs, log := c :: w.log })
  else
    match w.fs.write (pathKey env.cwd path) data with
    | none => (some (.os "write".data path), w.record c)
    | some fs => (none, { fs := fs, log := c :: w.log })

/-- Go `f.Close()`. -/
def Close (env : Env) (path : GoString) (w : World) : Option Err × World :=
  let c := Call.close path
  if env.fault w.log c then (some (.os "close".data path), w.record c) else (none, w.record c)

/-- Go `os.Open`: the object that the open file refers to. -/
def Open (env : Env) (path : GoString) (w : World) : Except Err Node × World :=
  let c := Call.openRead path
  if env.fault w.log c || path.isEmpty then (.error (.os "open".data path), w.record c)
  else
    match w.fs.node (pathKey env.cwd path) with
    | none => (.error (.os "open".data path), w.record c)
    | some n => (.ok n, w.record c)

/-- Reading an open file to its end; a directory cannot be read. -/
def Read (env : Env) (path : GoString) (f : Node) (w : World) : Except Err Bytes × World :=
  let c := Call.read path
  if env.fault w.log c then (.error (.os "read".data path), w.record c)
  else
    match f with
    | .dir _ => (.error (.os "read".data path), w.record c)
    | .file _ data => (.ok data, w.record c)

/-- Go `os.Stat`: the object at the end of the walk along the path as it is
given. -/
def Stat (env : Env) (path : GoString) (w : World) : Except Err Node × World :=
  let c := Call.stat path
  if env.fault w.log c || path.isEmpty || walk w.fs env.cwd path != .found then
    (.error (.os "stat".data path), w.record c)
  else
    match w.fs.node (pathKey env.cwd path) with
    | none => (.error (.os "stat".data path), w.record c)
    | some n => (.ok n, w.record c)

/-- Go `os.Lstat` (there are no symbolic links in the model). -/
def Lstat (env : Env) (path : GoString) (w : World) : Except Err Node × World :=
  let c := Call.lstat path
  if env.fault w.log c || path.isEmpty then (.error (.os "lstat".data path), w.record c)
  else
    match w.fs.node (pathKey env.cwd path) with
    | none => (.error (.os "lstat".data path), w.record c)
    | some n => (.ok n, w.record c)

/-- Go `os.ReadDir`: the entries of a directory sorted by name, each with
whether it is a directory. -/
def ReadDir (env : Env) (path : GoString) (w : World) :
    Except Err (List (GoString × Bool)) × World :=
  let c := Call.readDir path
  if env.fault w.log c || path.isEmpty || !w.fs.isDir (pathKey env.cwd path) then
    (.error (.os "readdir".data path), w.record c)
  else
    (.ok ((w.fs.children (pathKey env.cwd path)).map
      (fun n => (n, w.fs.isDir (pathKey env.cwd path ++ [n])))), w.record c)

/-- Go `os.Rename`: the kernel walks both paths as they are given and renames
no entry `.` or `..`. -/
def Rename (env : Env) (oldpath newpath : GoString) (w : World) : Option Err × World :=
  let c := Call.rename oldpath newpath
  if env.fault w.log c || oldpath.isEmpty || newpath.isEmpty ||
      walk w.fs env.cwd oldpath != .found || walk w.fs env.cwd newpath != .found ||
      endsInDots oldpath || endsInDots newpath then
    (some (.os "rename".data oldpath), w.record c)
  else
    match w.fs.rename (pathKey env.cwd oldpath) (pathKey env.cwd newpath) with
    | none => (some (.os "rename".data oldpath), w.record c)
    | some fs => (none, { fs := fs, log := c :: w.log })

/-- The test `endsWithDot` of `os.RemoveAll`. -/
def endsWithDot (path : GoString) : Bool :=
  path == ['.'] || (path.length ≥ 2 && path.reverse.take 2 == ['.', '/'])

/-- Go `os.RemoveAll`: nothing to do for the empty path, an error for a path
that ends in a dot element; else the path is walked as it is given, trailing
separators apart: when a name on the way is not there nothing is removed and
no error is reported (`ENOENT`), when one is a file the call fails, and so it
does for an entry `..`; otherwise the tree is removed (no error when there is
none).  What a failing call has removed before its error is not modelled. -/
def RemoveAll (env : Env) (path : GoString) (w : World) : Option Err × World :=
  let c := Call.removeAll path
  if path.isEmpty then (none, w.record c)
  else if endsWithDot path || env.fault w.log c then
    (some (.os "RemoveAll".data path), w.record c)
  else
    match walk w.fs env.cwd (trimSlashes path) with
    | .noent => (none, w.record c)
    | .notdir => (some (.os "RemoveAll".data path), w.record c)
    | .found =>
      if endsInDots path then (some (.os "RemoveAll".data path), w.record c)
      else (none, { fs := w.fs.removeAll (pathKey env.cwd path), log := c :: w.log })

end os

namespace http

/-- Go `stringContainsCTLByte` of `net/url`: whether the string holds an ASCII
control character. -/
def stringContainsCTLByte (s : GoString) : Bool :=
  s.any (fun c => decide (c.toNat < 32) || decide (c.toNat = 127))

/-- Go `http.NewRequestWithContext(ctx, http.MethodGet, url, nil)`: the error,
if any.  The request is refused when `url.Parse` refuses the address: for a
control character before the first `#`, and for the syntax errors that
`env.badURL` stands for.  No request is sent and nothing is recorded. -/
def NewRequestWithContext (env : Env) (url : GoString) : Option Err :=
  if stringContainsCTLByte (url.takeWhile (fun c => c != '#')) || env.badURL url then
    some (.os "parse".data url)
  else none

/-- The call `client.Do(req)` for a GET request with the headers the updater
sets (`Accept`, and `Authorization` when `GITHUB_TOKEN` is set), and its
answer. -/
def Get (env : Env) (url : GoString) (w : World) : Option (Nat × Bytes) × World :=
  let c := Call.httpGet url env.GITHUB_TOKEN
  if env.fault w.log c then (none, w.record c) else (env.httpDo url, w.record c)

end http

namespace strings

/-- Go `strings.Index`: the position of the first occurrence of `sub`. -/
def Index : GoString → GoString → Option Nat
  | [], sub => if sub.isEmpty then some 0 else none
  | c :: cs, sub =>
    if HasPrefix (c :: cs) sub then some 0
    else (Index cs sub).map (fun i => i + 1)

/-- Go `strings.SplitN(s, sep, n)` for a one-character separator and `n ≥ 0`:
at most `n` pieces, the last one being the unsplit rest. -/
def SplitN (sep : Char) : GoString → Nat → List GoString
  | _, 0 => []
  | s, 1 => [s]
  | [], _ + 2 => [[]]
  | c :: cs, n + 2 =>
    if c = sep then [] :: SplitN sep cs (n + 1)
    else
      match SplitN sep cs (n + 2) with
      | [] => [[c]]
      | h :: t => (c :: h) :: t

/-- Case folding of one character: the ASCII letters, and the two characters
outside ASCII that fold to an ASCII letter (the long s and the Kelvin sign). -/
def foldRune (c : Char) : Char :=
  if c = Char.ofNat 0x17F then 's'
  else if c = Char.ofNat 0x212A then 'k'
  else c.toLower

/-- Go `strings.EqualFold` when one of the two strings is ASCII: equality
under simple case folding. -/
def EqualFold (s t : GoString) : Bool := s.map foldRune == t.map foldRune

end strings

/-- Go `string(b)` for a byte slice. -/
def bytesToString (b : Bytes) : GoString := b.map (fun x => Char.ofNat (x % 256))

namespace updater

/-- Transcription of `Options`: configures a configuration bundle update. -/
structure Options where
  Source : GoString
  Ref : GoString
  TargetCfgDir : GoString
  BackupEnabled : Bool
  Checksum : GoString
  deriving DecidableEq, Repr

/-- Transcription of `verifySHA256`. -/
def verifySHA256 (env : Env) (path expectedHex : GoString) (w : World) : Option Err × World :=
  match validateFilePath (filepath.Dir path) (filepath.Base path) with
  | .error e => (some (.wrap "invalid file path".data e), w)
  | .ok _ =>
    match os.Open env path w with
    | (.error e, w1) => (some e, w1)
    | (.ok f, w1) =>
      -- the deferred `f.Close()` runs on every return below; its error is printed only
      match os.Read env path f w1 with
      | (.error e, w2) => (some e, (os.Close env path w2).2)
      | (.ok data, w2) =>
        let got := hex.EncodeToString (sha256.Sum256 data)
        let expected := strings.TrimPrefix (strings.ToLower expectedHex) "0x".data
        if got ≠ expected then
          (some (.sha256Mismatch got expected), (os.Close env path w2).2)
        else (none, (os.Close env path w2).2)

/-- The first part of `resolveLatestRef` (lines 99 to 111): the address of the
release metadata, from the owner and the repository that follow `/repos/`. -/
def latestURL (source : GoString) : Except Err GoString :=
  match strings.Index source "/repos/".data with
  | none => .error (.cannotParse source)
  | some idx =>
    let rest := source.drop (idx + "/repos/".data.length)
    match strings.SplitN '/' rest 3 with
    | owner :: repo :: _ =>
      .ok ("https://api.github.com/repos/".data ++ owner ++ "/".data ++ repo ++
        "/releases/latest".data)
    | _ => .error (.cannotParse source)

/-- The last part of `resolveLatestRef` (lines 139 to 160): the value that
follows the key `"tag_name":` in the body, between the next two quotes. -/
def tagName (b : GoString) : Except Err GoString :=
  let key := "\"tag_name\":".data
  match strings.Index b key with
  | none => .error (.text "tag_name not found in latest release response".data)
  | some k =>
    let after := b.drop (k + key.length)
    match strings.Index after ['"'] with
    | none => .error (.text "malformed tag_name in response".data)
    | some s =>
      let after := after.drop (s + 1)
      match strings.Index after ['"'] with
      | none => .error (.text "malformed tag_name in response".data)
      | some e =>
        let tag := after.take e
        if tag = [] then .error (.text "empty latest tag".data) else .ok tag

/-- Transcription of `resolveLatestRef`: inspects the GitHub API to find the
latest release tag. -/
def resolveLatestRef (env : Env) (source : GoString) (w : World) : Except Err GoString × World :=
  match latestURL source with
  | .error e => (.error e, w)
  | .ok url =>
    match http.NewRequestWithContext env url with
    | some e => (.error e, w)
    | none =>
      match http.Get env url w with
      | (none, w1) => (.error (.os "Get".data url), w1)
      | (some (status, body), w1) =>
        if status / 100 ≠ 2 then (.error (.unexpectedStatus status url), w1)
        else
          let c := Call.readBody url
          if env.fault w1.log c then (.error (.os "read".data url), w1.record c)
          else (tagName (bytesToString body), w1.record c)

/-- Transcription of `download`. -/
def download (env : Env) (url dest : GoString) (w : World) : Option Err × World :=
  match http.NewRequestWithContext env url with
  | some e => (some e, w)
  | none =>
    match http.Get env url w with
    | (none, w1) => (some (.os "Get".data url), w1)
    | (some (status, body), w1) =>
      if status / 100 ≠ 2 then (some (.unexpectedStatus status url), w1)
      else
        match validateFilePath (filepath.Dir dest) (filepath.Base dest) with
        | .error e => (some (.wrap "invalid destination path".data e), w1)
        | .ok _ =>
          match os.OpenFile env dest 0o600 w1 with
          | (some e, w2) => (some e, w2)
          | (none, w2) =>
            -- `io.Copy(f, resp.Body)`, then the deferred `f.Close()`
            let r := os.Write env dest body w2
            (r.1, (os.Close env dest r.2).2)

/-- The size limit of one extracted file: 100 MiB. -/
def maxSize : Nat := 100 * 1024 * 1024

/-- Conversion of an `int64` to `uint32`. -/
def uint32 (x : Int) : Nat := (x % 4294967296).toNat

/-- The mode `untarGz` computes for an entry (lines 329 to 338 and 350 to
359): the declared mode, capped at 0o7777 and converted to `uint32`; when its
permission bits are a greater number than `ceiling` they are replaced by
`ceiling`, the other bits stay. -/
def entryMode (declared : Int) (ceiling : Nat) : Nat :=
  let mode := if declared > 0o7777 then 0o7777 else uint32 declared
  if mode &&& 0o777 > ceiling then ceiling ||| (mode &&& (4294967295 ^^^ 0o777)) else mode

/-- The body of the loop of `untarGz` for one entry. -/
def untarEntry (env : Env) (dest : GoString) (e : tar.Entry) (w : World) : Option Err × World :=
  match safeFilePath dest e.hdr.Name with
  | .error err => (some (.wrap "unsafe tar entry".data err), w)
  | .ok target =>
    if e.hdr.Typeflag = tar.TypeDir then
      os.MkdirAll env target (entryMode e.hdr.Mode 0o750) w
    else if e.hdr.Typeflag = tar.TypeReg then
      match os.MkdirAll env (filepath.Dir target) 0o750 w with
      | (some err, w1) => (some err, w1)
      | (none, w1) =>
        match os.OpenFile env target (entryMode e.hdr.Mode 0o600) w1 with
        | (some err, w2) => (some err, w2)
        | (none, w2) =>
          if e.hdr.Size > (maxSize : Int) then
            match os.Close env target w2 with
            | (some err, w3) => (some (.wrap "error closing writer".data err), w3)
            | (none, w3) => (some (.fileTooLarge e.hdr.Name e.hdr.Size maxSize), w3)
          else
            -- `io.Copy(w, &io.LimitedReader{R: tr, N: maxSize})`
            let r := os.Write env target (e.body.take maxSize) w2
            let r := if r.1 = none ∧ e.bodyErr = true ∧ e.body.length < maxSize
              then (some (.os "read".data target), r.2) else r
            match r with
            | (some err, w3) =>
              match os.Close env target w3 with
              | (some err2, w4) => (some (.wrap "error closing writer".data err2), w4)
              | (none, w4) => (some err, w4)
            | (none, w3) => (none, (os.Close env target w3).2)
    else (none, w)

/-- The loop of `untarGz` over the entries of the stream. -/
def untarLoop (env : Env) (src dest : GoString) (endErr : Bool) :
    List tar.Entry → World → Option Err × World
  | [], w =>
    let c := Call.tarNext src
    if env.fault w.log c || endErr then (some (.os "tar".data src), w.record c)
    else (none, w.record c)
  | e :: es, w =>
    let c := Call.tarNext src
    if env.fault w.log c then (some (.os "tar".data src), w.record c)
    else
      match untarEntry env dest e (w.record c) with
      | (some err, w1) => (some err, w1)
      | (none, w1) => untarLoop env src dest endErr es w1

/-- Transcription of `untarGz`. -/
def untarGz (env : Env) (src dest : GoString) (w : World) : Option Err × World :=
  match validateFilePath (filepath.Dir src) (filepath.Base src) with
  | .error e => (some (.wrap "invalid source path".data e), w)
  | .ok _ =>
    match os.Open env src w with
    | (.error e, w1) => (some e, w1)
    | (.ok f, w1) =>
      -- the deferred `f.Close()` and `gz.Close()` report their errors only
      let c := Call.gzipNewReader src
      let stream :=
        match f with
        | .file _ data => env.gunzipTar data
        | .dir _ => none
      if env.fault w1.log c then
        (some (.os "gzip".data src), (os.Close env src (w1.record c)).2)
      else
        match stream with
        | none => (some (.os "gzip".data src), (os.Close env src (w1.record c)).2)
        | some (entries, endErr) =>
          let r := untarLoop env src dest endErr entries (w1.record c)
          (r.1, (os.Close env src r.2).2)

/-- Transcription of `findTopLevelDir`. -/
def findTopLevelDir (env : Env) (root : GoString) (w : World) : Except Err GoString × World :=
  match os.ReadDir env root w with
  | (.error e, w1) => (.error e, w1)
  | (.ok entries, w1) =>
    match entries.find? (fun e => e.2) with
    | some e => (.ok (filepath.Join [root, e.1]), w1)
    | none => (.error (.noDirectory root), w1)

/-- The path `filepath.WalkDir` hands to its function for the object at
`sfx` below the root `src`: the root as given, joined with one name after the
other. -/
def walkPath (src : GoString) (sfx : Loc) : GoString :=
  sfx.foldl (fun p n => filepath.Join [p, n]) src

/-- The function that `copyDir` gives to `filepath.WalkDir`, for the object
at `sfx` below `src`; for a directory the walk then reads its entries. -/
def copyEntry (env : Env) (src dst : GoString) (sfx : Loc) (w : World) : Option Err × World :=
  let path := walkPath src sfx
  match filepath.Rel src path with
  | none => (some (.relError path src), w)
  | some rel =>
    match safeFilePath dst rel with
    | .error e => (some (.wrap "unsafe target path".data e), w)
    | .ok target =>
      if w.fs.isDir (pathKey env.cwd path) then
        match os.MkdirAll env target 0o750 w with
        | (some e, w1) => (some e, w1)
        | (none, w1) =>
          match os.ReadDir env path w1 with
          | (.error e, w2) => (some e, w2)
          | (.ok _, w2) => (none, w2)
      else
        match os.Open env path w with
        | (.error e, w1) => (some e, w1)
        | (.ok f, w1) =>
          -- the deferred `srcF.Close()` runs on every return below
          let r : Option Err × World :=
            match os.MkdirAll env (filepath.Dir target) 0o750 w1 with
            | (some e, w2) => (some e, w2)
            | (none, w2) =>
              match os.OpenFile env target 0o600 w2 with
              | (some e, w3) => (some e, w3)
              | (none, w3) =>
                -- `io.Copy(dstF, srcF)`
                match os.Read env path f w3 with
                | (.error e, w4) => (some e, (os.Close env target w4).2)
                | (.ok data, w4) =>
                  match os.Write env target data w4 with
                  | (some e, w5) => (some e, (os.Close env target w5).2)
                  | (none, w5) => os.Close env target w5
          (r.1, (os.Close env path r.2).2)

/-- The walk of `copyDir` over the objects found below `src`. -/
def copyLoop (env : Env) (src dst : GoString) : List Loc → World → Option Err × World
  | [], w => (none, w)
  | sfx :: rest, w =>
    match copyEntry env src dst sfx w with
    | (some e, w1) => (some e, w1)
    | (none, w1) => copyLoop env src dst rest w1

/-- Transcription of `copyDir`: `filepath.WalkDir` visits `src` and everything
below it in lexical order.  The objects visited are those that are below `src`
when the walk starts; the walk makes objects only at and above locations below
`dst`. -/
def copyDir (env : Env) (src dst : GoString) (w : World) : Option Err × World :=
  match os.Lstat env src w with
  | (.error e, w1) => (some e, w1)
  | (.ok _, w1) => copyLoop env src dst (w1.fs.subtree (pathKey env.cwd src)) w1

/-- Lines 192 to 221 of `Update`: download, optional verification, extraction
and location of the `cfg` directory of the bundle. -/
def fetchBundle (env : Env) (opt : Options) (url tmpDir : GoString) (w : World) :
    Except Err GoString × World :=
  let tarPath := filepath.Join [tmpDir, "src.tar.gz".data]
  match download env url tarPath w with
  | (some e, w1) => (.error (.wrap "download tarball".data e), w1)
  | (none, w1) =>
    match (if opt.Checksum ≠ [] then verifySHA256 env tarPath opt.Checksum w1 else (none, w1)) with
    | (some e, w2) => (.error (.wrap "checksum verification failed".data e), w2)
    | (none, w2) =>
      let extractDir := filepath.Join [tmpDir, "extract".data]
      match os.MkdirAll env extractDir 0o750 w2 with
      | (some e, w3) => (.error (.wrap "mkdir extract".data e), w3)
      | (none, w3) =>
        match untarGz env tarPath extractDir w3 with
        | (some e, w4) => (.error (.wrap "extract tarball".data e), w4)
        | (none, w4) =>
          match findTopLevelDir env extractDir w4 with
          | (.error e, w5) => (.error (.wrap "locate top-level dir".data e), w5)
          | (.ok top, w5) =>
            let sourceCfg := filepath.Join [top, "cfg".data]
            match os.Stat env sourceCfg w5 with
            | (.error _, w6) => (.error (.cfgNotFound sourceCfg), w6)
            | (.ok fi, w6) =>
              if fi.isDir then (.ok sourceCfg, w6) else (.error (.cfgNotFound sourceCfg), w6)

/-- The path of the backup: `fmt.Sprintf("%s.bak-%s", ...)` of line 226. -/
def backupPath (env : Env) (opt : Options) : GoString :=
  strings.TrimRight opt.TargetCfgDir '/' ++ ".bak-".data ++ time.Format env.now

/-- Lines 223 to 231 of `Update`: backup of the target if requested. -/
def backupTarget (env : Env) (opt : Options) (w : World) : Option Err × World :=
  if opt.BackupEnabled then
    match os.Stat env opt.TargetCfgDir w with
    | (.error _, w1) => (none, w1)
    | (.ok _, w1) =>
      match os.Rename env opt.TargetCfgDir (backupPath env opt) w1 with
      | (some e, w2) => (some (.wrap "backup cfg dir".data e), w2)
      | (none, w2) => (none, w2)
  else (none, w)

/-- Lines 233 to 240 of `Update`: the target is removed and made again from
the bundle.  `os.RemoveAll` reports no error for a path that does not exist, so
no error of the model satisfies `errors.Is(err, os.ErrNotExist)` and every
error of the removal is returned. -/
def replaceTarget (env : Env) (opt : Options) (sourceCfg : GoString) (w : World) :
    Option Err × World :=
  match os.RemoveAll env opt.TargetCfgDir w with
  | (some e, w1) => (some (.wrap "remove old cfg".data e), w1)
  | (none, w1) =>
    match copyDir env sourceCfg opt.TargetCfgDir w1 with
    | (some e, w2) => (some (.wrap "copy cfg".data e), w2)
    | (none, w2) => (none, w2)

/-- Lines 192 to 240 of `Update`: what runs between the creation of the
temporary directory and its deferred removal. -/
def updateInScratch (env : Env) (opt : Options) (url tmpDir : GoString) (w : World) :
    Option Err × World :=
  match fetchBundle env opt url tmpDir w with
  | (.error e, w1) => (some e, w1)
  | (.ok sourceCfg, w1) =>
    match backupTarget env opt w1 with
    | (some e, w2) => (some e, w2)
    | (none, w2) => replaceTarget env opt sourceCfg w2

/-- Lines 170 to 178 of `Update`: the reference to download, with the
shorthand `latest` resolved to the most recent release tag. -/
def resolveRef (env : Env) (opt : Options) (w : World) : Except Err GoString × World :=
  if strings.EqualFold opt.Ref "latest".data then
    match resolveLatestRef env opt.Source w with
    | (.error e, w1) => (.error (.wrap "resolve latest release".data e), w1)
    | (.ok latest, w1) => (.ok latest, w1)
  else (.ok opt.Ref, w)

/-- Line 180 of `Update`: the address of the tarball. -/
def tarballURL (opt : Options) (ref : GoString) : GoString :=
  strings.TrimRight opt.Source '/' ++ "/".data ++ strings.TrimLeft ref '/'

/-- Transcription of `Update`: downloads the repository tarball at the given
ref, extracts the `cfg/` directory and replaces the local `cfg/` directory.
The result is the returned error (`none` for `nil`) and the state at return. -/
def Update (env : Env) (opt : Options) (w : World) : Option Err × World :=
  if opt.Source = [] ∨ opt.Ref = [] ∨ opt.TargetCfgDir = [] then
    (some (.text "invalid updater options: source, ref and target cfg dir are required".data), w)
  else
    match resolveRef env opt w with
    | (.error e, w1) => (some e, w1)
    | (.ok ref, w1) =>
      match os.MkdirTemp env "kube-bench-update-".data w1 with
      | (.error e, w2) => (some (.wrap "create temp dir".data e), w2)
      | (.ok tmpDir, w2) =>
        -- the deferred `os.RemoveAll(tmpDir)`: its error is logged only
        let r := updateInScratch env opt (tarballURL opt ref) tmpDir w2
        (r.1, (os.RemoveAll env tmpDir r.2).2)

end updater

/-! ## Notions used in the statements -/

namespace filepath

/-- An element that `Clean` keeps: not empty, not a lone dot, without separator. -/
def proper (e : GoString) : Prop := e ≠ [] ∧ e ≠ ['.'] ∧ '/' ∉ e

/-- The shape of the elements `Clean` has kept (newest first): every element is
proper, and a parent element `..` occurs only in a path that is not rooted and
only above other parent elements. -/
def StackOk (r : Bool) : List GoString → Prop
  | [] => True
  | e :: kept => proper e ∧ StackOk r kept ∧ (e = dotdot → r = false ∧ ∀ x ∈ kept, x = dotdot)

/-- Lexical containment: `full` is the cleaned `root` or lies below it.  Both
are rooted or both are not, the elements of `full` start with the elements of
the cleaned root, and no element after those contains two consecutive dots
(none is the parent element). -/
def lexWithin (root full : GoString) : Prop :=
  isRooted full = isRooted (Clean root) ∧
  ∃ rest, elemsOf full = elemsOf (Clean root) ++ rest ∧
    ∀ e ∈ rest, strings.Contains e dotdot = false

end filepath

/-- Where resolution starts: the root for a rooted path, else the working
directory. -/
def startOf (cwd : Loc) (r : Bool) : Loc := if r then [] else cwd

/-- The elements of the cleaned name. -/
def updater.nameElems (name : GoString) : List GoString :=
  filepath.cleanElems (filepath.isRooted name) (strings.Split '/' name)

/-- The two locations lie on one line of descent: one is at or above the other. -/
def comparable (a b : Loc) : Prop := a <+: b ∨ b <+: a

/-- Between two states only locations in `S` differ, and no location that
held a directory differs. -/
def Step (S : Loc → Prop) (w w' : World) : Prop :=
  ∀ q, w'.fs.node q ≠ w.fs.node q → S q ∧ w.fs.isDir q = false

/-- The calls made between two states all satisfy `P`. -/
def Logged (P : Call → Prop) (w w' : World) : Prop :=
  ∃ new, w'.log = new ++ w.log ∧ ∀ c ∈ new, P c

/-- The calls of a piece of a run, whatever they are, only extend the log. -/
def updater.LogExt (w w' : World) : Prop := ∃ new, w'.log = new ++ w.log

/-- A piece of a run: what it may change and what it may call. -/
def Run (S : Loc → Prop) (P : Call → Prop) (w w' : World) : Prop :=
  Step S w w' ∧ Logged P w w'

/-- What `untarGz` may call for the archive `src` and the root `dest`: the
archive is opened and read; files are opened and written only at or below the
root, at most `maxSize` bytes at a time; `MkdirAll` is called only on the line
of descent of the root. -/
def updater.untarCalls (cwd : Loc) (src dest : GoString) (c : Call) : Prop :=
  match c with
  | .openRead p => p = src
  | .gzipNewReader p => p = src
  | .tarNext p => p = src
  | .close _ => True
  | .mkdirAll p _ => comparable (pathKey cwd dest) (pathKey cwd p)
  | .openFile p _ => pathKey cwd dest <+: pathKey cwd p
  | .write p data => pathKey cwd dest <+: pathKey cwd p ∧ data.length ≤ updater.maxSize
  | _ => False

namespace strings

/-- Upper-case mapping of the ASCII letters. -/
def ToUpper (s : GoString) : GoString := s.map Char.toUpper

end strings

/-- The hexadecimal digits of either case. -/
def hexDigits : List Char := "0123456789abcdefABCDEF".data

/-- A string of exactly 64 hexadecimal digits, of either case. -/
def isHex64 (s : GoString) : Bool :=
  s.length == 64 && s.all (fun c => hexDigits.contains c)

/-! ## A concrete scene

The scene of the repository's test `TestUpdateCopiesCfgFromTarball`: an
archive with a wrapping directory and the file `cfg/cis-1.11/sample.yaml`, and
a target directory that holds the file `old.txt`. -/

namespace Scene

/-- A file system with the given directories and files. -/
def mkFs (dirs : List Loc) (files : List (Loc × Bytes)) : FS :=
  let fs := dirs.foldl (fun fs d => (fs.mkdirAll d 0o755).getD fs) FS.empty
  files.foldl (fun fs f => (((fs.create f.1 0o644).getD fs).write f.1 f.2).getD fs) fs

/-- The bytes of an ASCII string. -/
def bytes (s : String) : Bytes := s.data.map Char.toNat

/-- The file system at the start: `/tmp`, and `/work/cfg` with `old.txt`. -/
def fs0 : FS :=
  mkFs [["tmp".data], ["work".data, "cfg".data]]
    [(["work".data, "cfg".data, "old.txt".data], bytes "old"),
     (["tmp".data, "sha..bin".data], bytes "hello world"),
     (["tmp".data, "sha.bin".data], bytes "hello world")]

/-- The wrapping directory of the archive. -/
def top : GoString := "kube-bench-sha".data

/-- A directory entry of the archive. -/
def dirEntry (name : GoString) (mode : Int) : tar.Entry :=
  { hdr := { Name := name, Typeflag := tar.TypeDir, Mode := mode, Size := 0 },
    body := [], bodyErr := false }

/-- A file entry of the archive. -/
def fileEntry (name : GoString) (mode : Int) (body : Bytes) : tar.Entry :=
  { hdr := { Name := name, Typeflag := tar.TypeReg, Mode := mode, Size := body.length },
    body := body, bodyErr := false }

/-- The entries of the archive. -/
def entries : List tar.Entry :=
  [dirEntry (top ++ "/".data) 0o755,
   dirEntry (top ++ "/cfg/".data) 0o755,
   dirEntry (top ++ "/cfg/cis-1.11/".data) 0o755,
   fileEntry (top ++ "/cfg/cis-1.11/sample.yaml".data) 0o644 (bytes "key: value\n")]

/-- An entry that declares one byte more than the size limit. -/
def bigEntry : tar.Entry :=
  { hdr := { Name := "big.bin".data, Typeflag := tar.TypeReg, Mode := 0o644, Size := 104857601 },
    body := [], bodyErr := false }

/-- An environment without faults that serves the archive. -/
def env : Env where
  cwd := ["work".data]
  TMPDIR := []
  GITHUB_TOKEN := []
  random := 42
  now := { year := 2024, month := 5, day := 7, hour := 9, minute := 3, second := 1 }
  fault := fun _ _ => false
  shortWrite := fun _ => 0
  httpDo := fun _ => some (200, [31, 139])
  badURL := fun _ => false
  gunzipTar := fun _ => some (entries, false)

/-- The same environment in which the removal of the temporary directory
fails. -/
def envStuck : Env :=
  { env with fault := fun _ c => decide (c = Call.removeAll "/tmp/kube-bench-update-42".data) }

/-- The request of the test. -/
def opt : updater.Options where
  Source := "http://127.0.0.1/repos/owner/repo/tarball".data
  Ref := "v0.0.0".data
  TargetCfgDir := "/work/cfg".data
  BackupEnabled := true
  Checksum := []

/-- The state at the start. -/
def w0 : World := { fs := fs0, log := [] }

end Scene

/-- What the program may call while it works in its temporary directory `tmp`:
it makes directories and opens and writes files only on the line of descent of
`tmp`, and neither renames nor removes anything. -/
def updater.scratchCalls (cwd : Loc) (tmp : Loc) (c : Call) : Prop :=
  match c with
  | .mkdirAll p _ => comparable tmp (pathKey cwd p)
  | .openFile p _ => comparable tmp (pathKey cwd p)
  | .write p _ => comparable tmp (pathKey cwd p)
  | .mkdirTemp _ => False
  | .rename _ _ => False
  | .removeAll _ => False
  | _ => True

/-- What `Update` may call when it fails before the replacement of the target:
the temporary directory `tmpDir` is the only thing it makes with `MkdirTemp`
and the only thing it removes, and it makes directories and opens and writes
files only on the line of descent of `tmpDir`. -/
def updater.earlyCalls (cwd : Loc) (tmpDir : GoString) (c : Call) : Prop :=
  match c with
  | .mkdirAll p _ => comparable (pathKey cwd tmpDir) (pathKey cwd p)
  | .openFile p _ => comparable (pathKey cwd tmpDir) (pathKey cwd p)
  | .write p _ => comparable (pathKey cwd tmpDir) (pathKey cwd p)
  | .mkdirTemp p => p = tmpDir
  | .removeAll p => p = tmpDir
  | _ => True

namespace Scene

/-- The request of the test with a checksum that the archive does not have. -/
def optSum : updater.Options := { opt with Checksum := "00".data }

/-- The request of the test with the reference `latest`. -/
def optLatest : updater.Options := { opt with Ref := "latest".data }

/-- The request of the test without a reference. -/
def optNoRef : updater.Options := { opt with Ref := [] }

/-- An archive with the file `a` and then a file entry `a/b` that declares one
byte more than the size limit. -/
def blockedEntries : List tar.Entry :=
  [fileEntry "a".data 0o644 (bytes "x"),
   { hdr := { Name := "a/b".data, Typeflag := tar.TypeReg, Mode := 0o644,
              Size := 104857601 },
     body := [], bodyErr := false }]

/-- The environment of the scene, serving that archive. -/
def envBlocked : Env := { env with gunzipTar := fun _ => some (blockedEntries, false) }

end Scene

/-- What an object holds, its mode apart: the bytes of a file, nothing for a
directory. -/
def Node.content : Node → Option Bytes
  | .file _ data => some data
  | .dir _ => none

/-- What a location holds, modes apart: `none` when there is no object,
`some none` for a directory, `some (some data)` for a file with the bytes
`data`. -/
def FS.contentAt (fs : FS) (q : Loc) : Option (Option Bytes) := (fs.node q).map Node.content

namespace Scene

/-- The environment of the scene one second later. -/
def envLater : Env :=
  { env with now := { year := 2024, month := 5, day := 7, hour := 9, minute := 3, second := 2 } }

/-- The state that the run of the test leaves. -/
def w1 : World := (updater.Update env opt w0).2

/-- Where the bundle of the scene is found. -/
def sourceCfg : GoString := "/tmp/kube-bench-update-42/extract/kube-bench-sha/cfg".data

end Scene

/-- Whether a call goes to the network: a request or the reading of its
answer. -/
def Call.isHTTP : Call → Bool
  | .httpGet _ _ => true
  | .readBody _ => true
  | _ => false

namespace cmd

/-- Transcription of `validateFilePath` of `src/cmd/utils.go`: ensures that
the file path is safe and prevents directory traversal attacks. -/
def validateFilePath (baseDir filePath : GoString) : Except Err GoString :=
  let cleanPath := filepath.Clean filePath
  if strings.Contains cleanPath filepath.dotdot then
    .error (.pathTraversal filePath)
  else
    let fullPath := filepath.Join [baseDir, cleanPath]
    let fullPath := filepath.Clean fullPath
    match filepath.Rel baseDir fullPath with
    | none => .error (.wrap "failed to get relative path".data (.relError fullPath baseDir))
    | some relPath =>
      if strings.HasPrefix relPath filepath.dotdot then
        .error (.pathTraversal filePath)
      else
        .ok fullPath

end cmd

/-- A time of the calendar with a year of four digits. -/
def Time.wellFormed (t : Time) : Prop :=
  1000 ≤ t.year ∧ t.year ≤ 9999 ∧ 1 ≤ t.month ∧ t.month ≤ 12 ∧ 1 ≤ t.day ∧ t.day ≤ 31 ∧
  t.hour < 24 ∧ t.minute < 60 ∧ t.second < 60

/-- The time `a` is earlier than the time `b` (both in one zone). -/
def Time.before (a b : Time) : Prop :=
  a.year < b.year ∨ (a.year = b.year ∧ (a.month < b.month ∨ (a.month = b.month ∧
    (a.day < b.day ∨ (a.day = b.day ∧ (a.hour < b.hour ∨ (a.hour = b.hour ∧
      (a.minute < b.minute ∨ (a.minute = b.minute ∧ a.second < b.second)))))))))

/-- Whether a character is a decimal digit. -/
def isDigit (c : Char) : Bool := "0123456789".data.contains c

namespace findings

/-- The value of an integer as an `int32`: the sum of two `int32` wraps. -/
def int32 (x : Int) : Int := (x + 2147483648) % 4294967296 - 2147483648

/-- The fields of `securityhub.BatchImportFindingsOutput` that the publisher
reads; a count that is `nil` is `none`. -/
structure BatchImportFindingsOutput (β : Type) where
  FailedCount : Option Int
  FailedFindings : List β
  SuccessCount : Option Int

/-- Transcription of `PublisherOutput`. -/
structure PublisherOutput (β : Type) where
  FailedCount : Int
  FailedFindings : List β
  SuccessCount : Int

/-- The answer of `BatchImportFindings`: an error, or the output, which may
be `nil`. -/
abbrev Answer (β ε : Type) := Except ε (Option (BatchImportFindingsOutput β))

/-- A `SecurityHubClient`: from its state and the findings of the input, the
answer of `BatchImportFindings` and the next state. -/
abbrev SecurityHubClient (σ α β ε : Type) := σ → List α → Answer β ε × σ

/-- The variables of `PublishFinding` during its loop, the state of the client
and the calls made so far, oldest first, each with its answer. -/
structure Progress (σ α β ε : Type) where
  o : PublisherOutput β
  /-- The variable `errs`: the last error, wrapped with `finding publish failed`. -/
  errs : Option (GoString × ε)
  client : σ
  calls : List (List α × Answer β ε)

/-- The update of `o` from an output `r` (lines 67 to 77). -/
def addCounts {β : Type} (o : PublisherOutput β) (r : Option (BatchImportFindingsOutput β)) :
    PublisherOutput β :=
  match r with
  | none => o
  | some r =>
    let failed :=
      match r.FailedCount with
      | some n => if n ≠ 0 then int32 (o.FailedCount + n) else o.FailedCount
      | none => o.FailedCount
    let success :=
      match r.SuccessCount with
      | some n => if n ≠ 0 then int32 (o.SuccessCount + n) else o.SuccessCount
      | none => o.SuccessCount
    let findings :=
      if r.FailedFindings.length > 0 then o.FailedFindings ++ r.FailedFindings
      else o.FailedFindings
    { FailedCount := failed, FailedFindings := findings, SuccessCount := success }

/-- The loop of `PublishFinding` from the index `start` on; `fuel` bounds the
number of rounds. -/
def publishLoop {σ α β ε : Type} (call : SecurityHubClient σ α β ε) (finding : List α) :
    Nat → Nat → Progress σ α β ε → Progress σ α β ε
  | 0, _, s => s
  | fuel + 1, start, s =>
    if start < finding.length then
      let stop := if start + 100 > finding.length then finding.length else start + 100
      -- `finding[start:end]`
      let input := (finding.take stop).drop start
      match call s.client input with
      | (.error err, st) =>
        publishLoop call finding fuel (start + 100)
          { s with errs := some ("finding publish failed".data, err), client := st,
                   calls := s.calls ++ [(input, .error err)] }
      | (.ok r, st) =>
        publishLoop call finding fuel (start + 100)
          { s with o := addCounts s.o r, client := st, calls := s.calls ++ [(input, .ok r)] }
    else s

/-- Transcription of `PublishFinding`: publishes findings to AWS Security Hub
Service.  Every round of the loop moves `start` forward by 100, so
`len(finding)` rounds are enough. -/
def PublishFinding {σ α β ε : Type} (call : SecurityHubClient σ α β ε) (st : σ)
    (finding : List α) : Progress σ α β ε :=
  let o : PublisherOutput β := { FailedCount := 0, FailedFindings := [], SuccessCount := 0 }
  if finding.length = 0 then { o := o, errs := none, client := st, calls := [] }
  else publishLoop call finding finding.length 0 { o := o, errs := none, client := st, calls := [] }

/-- The count of successes that an answer carries. -/
def Answer.success {β ε : Type} : Answer β ε → Int
  | .ok (some r) => r.SuccessCount.getD 0
  | _ => 0

/-- The count of failures that an answer carries. -/
def Answer.failed {β ε : Type} : Answer β ε → Int
  | .ok (some r) => r.FailedCount.getD 0
  | _ => 0

/-- The `fakeClient` of the repository's tests: it counts its calls and
reports every finding as imported, or, when `fail` is set, `failedN` of them
as failed and none as imported. -/
def fakeClient (fail : Bool) (failedN : Int) : SecurityHubClient Nat Unit Unit Unit :=
  fun calls input =>
    (.ok (some { SuccessCount := some (if fail then 0 else int32 input.length),
                 FailedCount := some (if fail then failedN else 0),
                 FailedFindings := [] }), calls + 1)

end findings

namespace Scene

/-- The address of the release metadata for the source of the scene. -/
def releases : GoString := "https://api.github.com/repos/owner/repo/releases/latest".data

/-- The environment of the scene in which the release metadata name the tag
`v1.2.3`. -/
def envTag : Env :=
  { env with httpDo := fun url =>
      if url = releases then some (200, bytes "\x7b\"tag_name\":\"v1.2.3\",\"name\":\"r\"\x7d")
      else some (200, [31, 139]) }

/-- The environment of the scene in which the release metadata name a tag
that starts with a slash. -/
def envSlashTag : Env :=
  { env with httpDo := fun url =>
      if url = releases then some (200, bytes "\x7b\"tag_name\":\"/v1\"\x7d")
      else some (200, [31, 139]) }

/-- An archive whose second entry names a path outside the extraction root. -/
def escapeEntries : List tar.Entry :=
  [fileEntry "a".data 0o644 (bytes "x"),
   fileEntry "../evil".data 0o644 (bytes "y"),
   fileEntry "b".data 0o644 (bytes "z")]

/-- The environment of the scene, serving that archive. -/
def envEscape : Env := { env with gunzipTar := fun _ => some (escapeEntries, false) }

/-- An archive whose wrapping directory holds no `cfg`. -/
def noCfgEntries : List tar.Entry :=
  [fileEntry "README".data 0o644 (bytes "r"),
   dirEntry (top ++ "/".data) 0o755,
   fileEntry (top ++ "/LICENSE".data) 0o644 (bytes "l"),
   dirEntry "zzz/".data 0o755]

/-- The environment of the scene, serving that archive. -/
def envNoCfg : Env := { env with gunzipTar := fun _ => some (noCfgEntries, false) }

/-- An archive whose wrapping directory holds a file named `cfg`. -/
def cfgFileEntries : List tar.Entry :=
  [dirEntry (top ++ "/".data) 0o755,
   fileEntry (top ++ "/cfg".data) 0o644 (bytes "c")]

/-- The environment of the scene, serving that archive. -/
def envCfgFile : Env := { env with gunzipTar := fun _ => some (cfgFileEntries, false) }

/-- An archive without a directory. -/
def flatEntries : List tar.Entry := [fileEntry "README".data 0o644 (bytes "r")]

/-- The environment of the scene, serving that archive. -/
def envFlat : Env := { env with gunzipTar := fun _ => some (flatEntries, false) }

/-- The temporary directory of the scene. -/
def tmpDir : GoString := "/tmp/kube-bench-update-42".data

/-- The state in which `Update` looks for the wrapping directory, in the given
environment: after the creation of the temporary directory, the download, the
creation of the extraction directory and the extraction. -/
def extracted (env : Env) : World :=
  (updater.untarGz env (filepath.Join [tmpDir, "src.tar.gz".data]) (filepath.Join [tmpDir, "extract".data])
    (os.MkdirAll env (filepath.Join [tmpDir, "extract".data]) 0o750
      (updater.download env (updater.tarballURL opt opt.Ref) (filepath.Join [tmpDir, "src.tar.gz".data])
        (os.MkdirTemp env "kube-bench-update-".data w0).2).2).2).2

end Scene

/-- Whether a call is a rename. -/
def Call.isRename : Call → Bool
  | .rename _ _ => true
  | _ => false

namespace Scene

/-- The environment of the scene in which `os.Stat` of the target fails
although the target is there (as for a parent directory that may not be
searched). -/
def envStatFault : Env :=
  { env with fault := fun _ c => decide (c = Call.stat "/work/cfg".data) }

end Scene

/-! ## The version search of `cmd/util.go` -/

namespace unicode

/-- Go `unicode.IsSpace`: the characters with the Unicode property
White_Space. -/
def IsSpace (r : Char) : Bool :=
  (0x09 ≤ r.toNat && r.toNat ≤ 0x0d) || r.toNat == 0x20 || r.toNat == 0x85 ||
  r.toNat == 0xA0 || r.toNat == 0x1680 || (0x2000 ≤ r.toNat && r.toNat ≤ 0x200a) ||
  r.toNat == 0x2028 || r.toNat == 0x2029 || r.toNat == 0x202f || r.toNat == 0x205f ||
  r.toNat == 0x3000

end unicode

namespace strings

/-- Go `strings.TrimSpace`: the string without its leading and trailing white
space. -/
def TrimSpace (s : GoString) : GoString :=
  ((s.dropWhile unicode.IsSpace).reverse.dropWhile unicode.IsSpace).reverse

end strings

namespace strconv

/-- The value of a decimal digit, `none` for any other character. -/
def digitVal (c : Char) : Option Nat :=
  if 48 ≤ c.toNat ∧ c.toNat ≤ 57 then some (c.toNat - 48) else none

/-- The digits of a number in base 10, read from the left onto `acc`; `none`
when a character is not a digit. -/
def parseDigits : GoString → Nat → Option Nat
  | [], acc => some acc
  | c :: cs, acc =>
    match digitVal c with
    | none => none
    | some d => parseDigits cs (acc * 10 + d)

/-- Go `strconv.Atoi` where `int` has 64 bits: an optional sign and at least
one decimal digit; `none` for an error, of syntax or of range. -/
def Atoi (s : GoString) : Option Int :=
  let neg : Bool := s.head? == some '-'
  let ds := if s.head? == some '-' || s.head? == some '+' then s.tail else s
  if ds.isEmpty then none
  else
    match parseDigits ds 0 with
    | none => none
    | some n =>
      if neg then (if n ≤ 9223372036854775808 then some (-(n : Int)) else none)
      else (if n < 9223372036854775808 then some (n : Int) else none)

/-- Go `strconv.Itoa`. -/
def Itoa (i : Int) : GoString :=
  if i < 0 then '-' :: Nat.toDigits 10 i.natAbs else Nat.toDigits 10 i.toNat

end strconv

namespace cmd

/-- Transcription of `isEmpty`. -/
def isEmpty (str : GoString) : Bool := (strings.TrimSpace str).isEmpty

/-- Transcription of `decrementVersion`: decrements the version number. -/
def decrementVersion (version : GoString) : GoString :=
  let split := strings.Split '.' version
  if split.length < 2 then []
  else
    match strconv.Atoi (split.getD 1 []) with
    | none => []
    | some minor =>
      if minor ≤ 1 then []
      else strings.Join (split.set 1 (strconv.Itoa (minor - 1))) ['.']

/-- The loop of `getOcpValidVersion` on the value `ocpVer`, for at most `fuel`
tests of its condition; `none` when these are not enough. -/
def ocpLoop (ocpOriginal : GoString) : Nat → GoString → Option (Except Err GoString)
  | 0, _ => none
  | fuel + 1, ocpVer =>
    if !isEmpty ocpVer then
      if ocpVer = "3.10".data ∨ ocpVer = "4.1".data then some (.ok ocpVer)
      else ocpLoop ocpOriginal fuel (decrementVersion ocpVer)
    else
      some (.error (.text
        ("unable to find a matching Benchmark Version match for ocp version: ".data ++
          ocpOriginal)))

/-- Transcription of `getOcpValidVersion`, with a bound on the number of
rounds of its loop: `none` when the loop has not ended within the bound. -/
def getOcpValidVersion (fuel : Nat) (ocpVer : GoString) : Option (Except Err GoString) :=
  ocpLoop ocpVer fuel ocpVer

end cmd

namespace Scene

/-- The request of the test with the target written through a directory that
does not exist: `/work/x/../cfg`. -/
def optDots : updater.Options := { opt with TargetCfgDir := "/work/x/../cfg".data }

/-- The same request without the backup. -/
def optDotsPlain : updater.Options := { optDots with BackupEnabled := false }

/-- The request of the test for a reference that ends in a line feed. -/
def optCtl : updater.Options := { opt with Ref := "v1\n".data }

/-- A source whose owner holds a tab character. -/
def sourceCtl : GoString := "http://127.0.0.1/repos/ow\tner/repo/tarball".data

/-- A start in which the target holds the directory `old`. -/
def fsNest : FS :=
  mkFs [["tmp".data], ["work".data, "cfg".data, "old".data]] []

/-- An environment whose `TMPDIR` names `/work` through that directory. -/
def envNest : Env := { env with TMPDIR := "/work/cfg/old/../..".data }

/-- The state at that start. -/
def wNest : World := { fs := fsNest, log := [] }

end Scene

/-! Properties of the string functions. -/

namespace strings

theorem Split_ne_nil (sep : Char) (s : GoString) : Split sep s ≠ [] := by
  induction s with
  | nil => simp [Split]
  | cons c cs ih =>
    unfold Split
    split
    · simp
    · split
      · simp
      · simp

theorem Split_cons_sep (sep : Char) (cs : GoString) :
    Split sep (sep :: cs) = [] :: Split sep cs := by
  simp [Split]

theorem Split_cons_ne (sep c : Char) (cs : GoString) (h : c ≠ sep) :
    ∃ hd tl, Split sep cs = hd :: tl ∧ Split sep (c :: cs) = (c :: hd) :: tl := by
  cases hs : Split sep cs with
  | nil => exact absurd hs (Split_ne_nil sep cs)
  | cons hd tl =>
    refine ⟨hd, tl, rfl, ?_⟩
    rw [Split]
    simp [h, hs]

theorem Split_append (sep : Char) (a b : GoString) :
    Split sep (a ++ sep :: b) = Split sep a ++ Split sep b := by
  induction a with
  | nil => simp [Split]
  | cons c cs ih =>
    by_cases hc : c = sep
    · subst hc
      simp only [List.cons_append, Split_cons_sep, ih]
    · obtain ⟨hd, tl, h1, h2⟩ := Split_cons_ne sep c cs hc
      obtain ⟨hd2, tl2, h3, h4⟩ := Split_cons_ne sep c (cs ++ sep :: b) hc
      rw [List.cons_append, h4, h2]
      rw [ih, h1] at h3
      simp only [List.cons_append, List.cons.injEq] at h3
      obtain ⟨rfl, rfl⟩ := h3
      simp

theorem Split_of_not_mem (sep : Char) (s : GoString) (h : sep ∉ s) : Split sep s = [s] := by
  induction s with
  | nil => simp [Split]
  | cons c cs ih =>
    have hc : c ≠ sep := fun e => h (by simp [e])
    have hcs : sep ∉ cs := fun e => h (List.mem_cons_of_mem _ e)
    obtain ⟨hd, tl, h1, h2⟩ := Split_cons_ne sep c cs hc
    rw [ih hcs] at h1
    simp only [List.cons.injEq] at h1
    obtain ⟨rfl, rfl⟩ := h1
    exact h2

theorem Split_no_sep (sep : Char) (s : GoString) : ∀ e ∈ Split sep s, sep ∉ e := by
  induction s with
  | nil => simp [Split]
  | cons c cs ih =>
    by_cases hc : c = sep
    · subst hc
      rw [Split_cons_sep]
      intro e he
      rcases List.mem_cons.1 he with rfl | he
      · simp
      · exact ih e he
    · obtain ⟨hd, tl, h1, h2⟩ := Split_cons_ne sep c cs hc
      rw [h2]
      rw [h1] at ih
      intro e he
      rcases List.mem_cons.1 he with rfl | he
      · intro hm
        rcases List.mem_cons.1 hm with e1 | e1
        · exact hc e1.symm
        · exact ih hd (List.mem_cons_self _ _) e1
      · exact ih e (List.mem_cons_of_mem _ he)

theorem Join_nil (sep : GoString) : Join [] sep = [] := rfl

theorem Join_singleton (e sep : GoString) : Join [e] sep = e := by
  simp [Join, List.intercalate, List.intersperse]

theorem Join_cons_cons (e e2 : GoString) (es : List GoString) (sep : GoString) :
    Join (e :: e2 :: es) sep = e ++ sep ++ Join (e2 :: es) sep := by
  simp [Join, List.intercalate, List.intersperse]

theorem Join_append_singleton (es : List GoString) (e : GoString) (sep : GoString)
    (h : es ≠ []) : Join (es ++ [e]) sep = Join es sep ++ sep ++ e := by
  induction es with
  | nil => exact absurd rfl h
  | cons a as ih =>
    cases as with
    | nil => simp [Join_cons_cons, Join_singleton]
    | cons b bs =>
      have := ih (by simp)
      simp only [List.cons_append] at this ⊢
      rw [Join_cons_cons, this, Join_cons_cons]
      simp

theorem Split_Join (sep : Char) (es : List GoString) (hne : es ≠ [])
    (h : ∀ e ∈ es, sep ∉ e) : Split sep (Join es [sep]) = es := by
  induction es with
  | nil => exact absurd rfl hne
  | cons a as ih =>
    cases as with
    | nil =>
      rw [Join_singleton]
      exact Split_of_not_mem sep a (h a (List.mem_cons_self _ _))
    | cons b bs =>
      rw [Join_cons_cons]
      have e1 : a ++ [sep] ++ Join (b :: bs) [sep] = a ++ sep :: Join (b :: bs) [sep] := by simp
      rw [e1, Split_append, ih (by simp) (fun e he => h e (List.mem_cons_of_mem _ he)),
        Split_of_not_mem sep a (h a (List.mem_cons_self _ _))]
      rfl

theorem HasPrefix_iff (s pre : GoString) : HasPrefix s pre = true ↔ pre <+: s := by
  simp [HasPrefix]

theorem Contains_iff (s sub : GoString) : Contains s sub = true ↔ sub <:+: s := by
  induction s with
  | nil =>
    simp only [Contains, List.isEmpty_eq_true, List.infix_nil]
  | cons c cs ih =>
    simp only [Contains, Bool.or_eq_true, HasPrefix_iff, ih, List.infix_cons_iff]

theorem Contains_of_mem_Split (sep : Char) (s sub e : GoString) (he : e ∈ Split sep s)
    (h : Contains e sub = true) : Contains s sub = true := by
  rw [Contains_iff] at h ⊢
  refine h.trans ?_
  clear h
  induction s generalizing e with
  | nil =>
    simp only [Split, List.mem_singleton] at he
    subst he
    exact List.infix_refl _
  | cons c cs ih =>
    by_cases hc : c = sep
    · subst hc
      rw [Split_cons_sep] at he
      rcases List.mem_cons.1 he with rfl | he
      · exact List.nil_infix
      · exact (ih e he).trans (List.infix_cons (List.infix_refl _))
    · obtain ⟨hd, tl, h1, h2⟩ := Split_cons_ne sep c cs hc
      rw [h2] at he
      rcases List.mem_cons.1 he with rfl | he
      · have hpre : hd <+: cs := by
          clear ih he h2
          induction cs generalizing hd tl with
          | nil =>
            simp only [Split, List.cons.injEq] at h1
            rw [← h1.1]
          | cons d ds ih2 =>
            by_cases hd2 : d = sep
            · subst hd2
              rw [Split_cons_sep] at h1
              simp only [List.cons.injEq] at h1
              rw [← h1.1]
              exact List.nil_prefix
            · obtain ⟨hd3, tl3, h3, h4⟩ := Split_cons_ne sep d ds hd2
              rw [h4] at h1
              simp only [List.cons.injEq] at h1
              rw [← h1.1]
              exact (List.prefix_cons_inj d).2 (ih2 hd3 tl3 h3)
        exact ((List.prefix_cons_inj c).2 hpre).isInfix
      · have : e ∈ Split sep cs := by rw [h1]; exact List.mem_cons_of_mem _ he
        exact (ih e this).trans (List.infix_cons (List.infix_refl _))

end strings

/-! ## Lexical cleaning -/

namespace filepath

theorem proper_dotdot : proper dotdot := by
  refine ⟨by simp [dotdot], by simp [dotdot], by simp [dotdot]⟩

theorem cleanStep_skip (r : Bool) (kept : List GoString) (e : GoString)
    (h : e = [] ∨ e = ['.']) : cleanStep r kept e = kept := by
  simp [cleanStep, h]

theorem cleanStep_push (r : Bool) (kept : List GoString) (e : GoString)
    (h1 : e ≠ []) (h2 : e ≠ ['.']) (h3 : e ≠ dotdot) : cleanStep r kept e = e :: kept := by
  simp [cleanStep, h1, h2, h3]

theorem cleanStep_dotdot_nil (r : Bool) :
    cleanStep r [] dotdot = if r then [] else [dotdot] := by
  simp [cleanStep, dotdot]

theorem cleanStep_dotdot_cons (r : Bool) (top : GoString) (rest : List GoString) :
    cleanStep r (top :: rest) dotdot =
      if top = dotdot then dotdot :: top :: rest else rest := by
  simp [cleanStep, dotdot]

theorem cleanStep_ok (r : Bool) (kept : List GoString) (e : GoString)
    (hk : StackOk r kept) (he : '/' ∉ e) : StackOk r (cleanStep r kept e) := by
  by_cases h0 : e = [] ∨ e = ['.']
  · rw [cleanStep_skip r kept e h0]; exact hk
  · have h1 : e ≠ [] := fun x => h0 (Or.inl x)
    have h2 : e ≠ ['.'] := fun x => h0 (Or.inr x)
    by_cases h3 : e = dotdot
    · subst h3
      cases kept with
      | nil =>
        rw [cleanStep_dotdot_nil]
        cases r with
        | true => simp [StackOk]
        | false =>
          simp only [Bool.false_eq_true, if_false]
          exact ⟨proper_dotdot, trivial, fun _ => ⟨rfl, fun x hx => absurd hx (List.not_mem_nil _)⟩⟩
      | cons top rest =>
        rw [cleanStep_dotdot_cons]
        by_cases ht : top = dotdot
        · simp only [ht, if_true]
          have hk2 := hk
          simp only [StackOk] at hk2
          obtain ⟨hp, hrest, himp⟩ := hk2
          obtain ⟨hr, hall⟩ := himp ht
          refine ⟨proper_dotdot, ?_, fun _ => ⟨hr, ?_⟩⟩
          · rw [← ht]; exact hk
          · intro x hx
            rcases List.mem_cons.1 hx with rfl | hx
            · rfl
            · exact hall x hx
        · simp only [ht, if_false]
          exact hk.2.1
    · rw [cleanStep_push r kept e h1 h2 h3]
      exact ⟨⟨h1, h2, he⟩, hk, fun x => absurd x h3⟩

theorem foldl_ok (r : Bool) (l : List GoString) :
    ∀ st, StackOk r st → (∀ e ∈ l, '/' ∉ e) → StackOk r (l.foldl (cleanStep r) st) := by
  induction l with
  | nil => intro st h _; exact h
  | cons e es ih =>
    intro st h hl
    simp only [List.foldl_cons]
    exact ih _ (cleanStep_ok r st e h (hl e (List.mem_cons_self _ _)))
      (fun x hx => hl x (List.mem_cons_of_mem _ hx))

theorem StackOk_proper (r : Bool) : ∀ kept, StackOk r kept → ∀ e ∈ kept, proper e := by
  intro kept
  induction kept with
  | nil => intro _ e he; exact absurd he (List.not_mem_nil _)
  | cons a as ih =>
    intro h e he
    rcases List.mem_cons.1 he with rfl | he
    · exact h.1
    · exact ih h.2.1 e he

theorem StackOk_rooted : ∀ kept, StackOk true kept → ∀ e ∈ kept, e ≠ dotdot := by
  intro kept
  induction kept with
  | nil => intro _ e he; exact absurd he (List.not_mem_nil _)
  | cons a as ih =>
    intro h e he
    rcases List.mem_cons.1 he with rfl | he
    · intro hd
      have := (h.2.2 hd).1
      exact absurd this (by simp)
    · exact ih h.2.1 e he

/-- Cleaning again what has been cleaned changes nothing. -/
theorem reclean (r : Bool) : ∀ kept, StackOk r kept →
    kept.reverse.foldl (cleanStep r) [] = kept := by
  intro kept
  induction kept with
  | nil => intro _; rfl
  | cons e kept ih =>
    intro h
    rw [List.reverse_cons, List.foldl_append, ih h.2.1]
    simp only [List.foldl_cons, List.foldl_nil]
    obtain ⟨⟨h1, h2, _⟩, _, himp⟩ := h
    by_cases h3 : e = dotdot
    · subst h3
      obtain ⟨hr, hall⟩ := himp rfl
      cases kept with
      | nil => rw [cleanStep_dotdot_nil, hr]; rfl
      | cons top rest =>
        rw [cleanStep_dotdot_cons, if_pos (hall top (List.mem_cons_self _ _))]
    · exact cleanStep_push r kept e h1 h2 h3

theorem foldl_normals (r : Bool) (ns : List GoString)
    (h : ∀ e ∈ ns, proper e ∧ e ≠ dotdot) :
    ∀ st, ns.foldl (cleanStep r) st = ns.reverse ++ st := by
  induction ns with
  | nil => intro st; rfl
  | cons e es ih =>
    intro st
    obtain ⟨⟨h1, h2, _⟩, h3⟩ := h e (List.mem_cons_self _ _)
    rw [List.foldl_cons, cleanStep_push r st e h1 h2 h3,
      ih (fun x hx => h x (List.mem_cons_of_mem _ hx))]
    simp

/-- Cleaning a path as a relative path first does not change the location it
names from any starting point. -/
theorem foldl_clean_first (l : List GoString) (hl : ∀ e ∈ l, '/' ∉ e) (st : List GoString) :
    l.foldl (cleanStep true) st =
      (l.foldl (cleanStep false) []).reverse.foldl (cleanStep true) st := by
  induction l using List.reverseRecOn with
  | nil => rfl
  | append_singleton l e ih =>
    have hl2 : ∀ x ∈ l, '/' ∉ x := fun x hx => hl x (List.mem_append_left _ hx)
    have hK := foldl_ok false l [] trivial hl2
    rw [List.foldl_append, List.foldl_append, ih hl2]
    simp only [List.foldl_cons, List.foldl_nil]
    generalize l.foldl (cleanStep false) [] = K at hK ⊢
    by_cases h0 : e = [] ∨ e = ['.']
    · rw [cleanStep_skip _ _ e h0, cleanStep_skip _ _ e h0]
    · have h1 : e ≠ [] := fun x => h0 (Or.inl x)
      have h2 : e ≠ ['.'] := fun x => h0 (Or.inr x)
      by_cases h3 : e = dotdot
      · subst h3
        cases K with
        | nil => simp [cleanStep_dotdot_nil]
        | cons top rest =>
          rw [cleanStep_dotdot_cons false]
          by_cases ht : top = dotdot
          · simp only [ht, if_true]
            simp only [List.reverse_cons, List.foldl_append, List.foldl_cons, List.foldl_nil]
          · simp only [ht, if_false]
            rw [List.reverse_cons, List.foldl_append]
            simp only [List.foldl_cons, List.foldl_nil]
            obtain ⟨⟨t1, t2, _⟩, _, _⟩ := hK
            rw [cleanStep_push true _ top t1 t2 ht, cleanStep_dotdot_cons, if_neg ht]
      · rw [cleanStep_push false K e h1 h2 h3, List.reverse_cons, List.foldl_append]
        rfl

/-! ## Rendering and splitting -/

theorem isRooted_cons (c : Char) (s : GoString) : isRooted (c :: s) = decide (c = '/') := by
  by_cases hc : c = '/'
  · subst hc; rfl
  · unfold isRooted
    split
    · rename_i heq
      simp only [List.cons.injEq] at heq
      exact absurd heq.1 hc
    · simp [hc]

theorem isRooted_append (a b : GoString) (h : a ≠ []) : isRooted (a ++ b) = isRooted a := by
  cases a with
  | nil => exact absurd rfl h
  | cons c cs => rw [List.cons_append, isRooted_cons, isRooted_cons]

theorem Join_ne_nil_of_proper (es : List GoString) (hne : es ≠ [])
    (h : ∀ e ∈ es, proper e) : strings.Join es ['/'] ≠ [] ∧
      isRooted (strings.Join es ['/']) = false := by
  cases es with
  | nil => exact absurd rfl hne
  | cons a as =>
    obtain ⟨h1, _, h3⟩ := h a (List.mem_cons_self _ _)
    have hra : isRooted a = false := by
      cases a with
      | nil => exact absurd rfl h1
      | cons c cs =>
        have : c ≠ '/' := fun e => h3 (by simp [e])
        rw [isRooted_cons]
        simp [this]
    cases as with
    | nil => rw [strings.Join_singleton]; exact ⟨h1, hra⟩
    | cons b bs =>
      rw [strings.Join_cons_cons, List.append_assoc]
      refine ⟨by simp [h1], ?_⟩
      rw [isRooted_append _ _ h1]; exact hra

theorem isRooted_render (r : Bool) (es : List GoString) (h : ∀ e ∈ es, proper e) :
    isRooted (render r es) = r := by
  cases r with
  | true => simp [render, isRooted]
  | false =>
    by_cases he : es = []
    · simp [render, he, isRooted]
    · simp only [render, Bool.false_eq_true, if_false, he]
      exact (Join_ne_nil_of_proper es he h).2

theorem render_ne_nil (r : Bool) (es : List GoString) (h : ∀ e ∈ es, proper e) :
    render r es ≠ [] := by
  cases r with
  | true => simp [render]
  | false =>
    by_cases he : es = []
    · simp [render, he]
    · simp only [render, Bool.false_eq_true, if_false, he]
      exact (Join_ne_nil_of_proper es he h).1

theorem Split_render (r : Bool) (es : List GoString) (h : ∀ e ∈ es, proper e) :
    strings.Split '/' (render r es) =
      if r then (if es = [] then [[], []] else [] :: es)
      else (if es = [] then [['.']] else es) := by
  have hsep : ∀ e ∈ es, '/' ∉ e := fun e he => (h e he).2.2
  cases r with
  | true =>
    simp only [render, if_true, strings.Split_cons_sep]
    by_cases he : es = []
    · simp [he, strings.Join_nil, strings.Split]
    · simp only [he, if_false]
      rw [strings.Split_Join '/' es he hsep]
  | false =>
    by_cases he : es = []
    · simp only [render, Bool.false_eq_true, if_false, he, if_true]
      rfl
    · simp only [render, Bool.false_eq_true, if_false, he]
      exact strings.Split_Join '/' es he hsep

theorem foldl_Split_render (r r2 : Bool) (es : List GoString) (h : ∀ e ∈ es, proper e)
    (st : List GoString) :
    (strings.Split '/' (render r es)).foldl (cleanStep r2) st = es.foldl (cleanStep r2) st := by
  rw [Split_render r es h]
  cases r with
  | true =>
    by_cases he : es = []
    · simp [he, cleanStep]
    · simp only [if_true, he, if_false, List.foldl_cons]
      rw [cleanStep_skip _ _ _ (Or.inl rfl)]
  | false =>
    by_cases he : es = []
    · simp [he, cleanStep]
    · simp [he]

theorem elemsOf_render (r : Bool) (es : List GoString) (h : ∀ e ∈ es, proper e) :
    elemsOf (render r es) = es := by
  have hf : es.filter (fun e => !(e.isEmpty || e == ['.'])) = es := by
    rw [List.filter_eq_self]
    intro e he
    obtain ⟨h1, h2, _⟩ := h e he
    simp [h1, h2]
  rw [elemsOf, Split_render r es h]
  cases r with
  | true =>
    by_cases he : es = []
    · simp [he]
    · simp only [if_true, he, if_false]
      rw [List.filter_cons]
      simpa using hf
  | false =>
    by_cases he : es = []
    · simp [he]
    · simpa [he] using hf

/-- The result of `Clean`, as rendered elements of the right shape. -/
theorem Clean_eq (p : GoString) :
    Clean p = render (isRooted p) (cleanElems (isRooted p) (strings.Split '/' p)) ∧
    StackOk (isRooted p) ((strings.Split '/' p).foldl (cleanStep (isRooted p)) []) :=
  ⟨rfl, foldl_ok _ _ [] trivial (strings.Split_no_sep '/' p)⟩

theorem cleanElems_proper (r : Bool) (l : List GoString) (hl : ∀ e ∈ l, '/' ∉ e) :
    ∀ e ∈ cleanElems r l, proper e := by
  intro e he
  rw [cleanElems, List.mem_reverse] at he
  exact StackOk_proper r _ (foldl_ok r l [] trivial hl) e he

theorem Clean_render (r : Bool) (kept : List GoString) (h : StackOk r kept) :
    Clean (render r kept.reverse) = render r kept.reverse := by
  have hp : ∀ e ∈ kept.reverse, proper e := fun e he =>
    StackOk_proper r kept h e (List.mem_reverse.1 he)
  rw [Clean, isRooted_render r _ hp, cleanElems, foldl_Split_render r r _ hp, reclean r kept h]

theorem Clean_idem (p : GoString) : Clean (Clean p) = Clean p := by
  obtain ⟨h1, h2⟩ := Clean_eq p
  rw [h1, cleanElems]
  exact Clean_render _ _ h2

theorem Clean_ne_nil (p : GoString) : Clean p ≠ [] :=
  render_ne_nil _ _ (cleanElems_proper _ _ (strings.Split_no_sep '/' p))

theorem isRooted_Clean (p : GoString) : isRooted (Clean p) = isRooted p :=
  isRooted_render _ _ (cleanElems_proper _ _ (strings.Split_no_sep '/' p))

end filepath

/-! ## Locations -/

theorem resolveFrom_append (st : Loc) (a b : List GoString) :
    resolveFrom st (a ++ b) = resolveFrom (resolveFrom st a) b := by
  simp [resolveFrom, List.foldl_append]

theorem resolveFrom_normals (st : Loc) (ns : List GoString)
    (h : ∀ e ∈ ns, filepath.proper e ∧ e ≠ filepath.dotdot) : resolveFrom st ns = st ++ ns := by
  simp [resolveFrom, filepath.foldl_normals true ns h]

theorem resolveFrom_nil (st : Loc) : resolveFrom st [] = st := by
  simp [resolveFrom]

theorem resolveFrom_skip (st : Loc) (e : GoString) (l : List GoString)
    (h : e = [] ∨ e = ['.']) : resolveFrom st (e :: l) = resolveFrom st l := by
  simp [resolveFrom, filepath.cleanStep_skip _ _ e h]

theorem pathKey_eq (cwd : Loc) (p : GoString) :
    pathKey cwd p = resolveFrom (startOf cwd (filepath.isRooted p)) (strings.Split '/' p) := by
  unfold pathKey startOf
  split <;> rfl

theorem pathKey_render (cwd : Loc) (r : Bool) (es : List GoString)
    (h : ∀ e ∈ es, filepath.proper e) :
    pathKey cwd (filepath.render r es) = resolveFrom (startOf cwd r) es := by
  rw [pathKey_eq, filepath.isRooted_render r es h]
  simp only [resolveFrom, filepath.foldl_Split_render r true es h]

theorem resolveFrom_cleanElems (cwd : Loc) (r : Bool) (l : List GoString)
    (hl : ∀ e ∈ l, '/' ∉ e) :
    resolveFrom (startOf cwd r) (filepath.cleanElems r l) = resolveFrom (startOf cwd r) l := by
  cases r with
  | true =>
    simp only [startOf, if_true, resolveFrom, filepath.cleanElems, List.reverse_nil]
    rw [filepath.reclean true _ (filepath.foldl_ok true l [] trivial hl)]
  | false =>
    simp only [startOf, Bool.false_eq_true, if_false, resolveFrom, filepath.cleanElems]
    rw [← filepath.foldl_clean_first l hl]

theorem pathKey_Clean (cwd : Loc) (p : GoString) :
    pathKey cwd (filepath.Clean p) = pathKey cwd p := by
  rw [filepath.Clean, pathKey_render cwd _ _
    (filepath.cleanElems_proper _ _ (strings.Split_no_sep '/' p)),
    resolveFrom_cleanElems cwd _ _ (strings.Split_no_sep '/' p), pathKey_eq]

theorem pathKey_nil (cwd : Loc) : pathKey cwd [] = cwd := by
  rw [pathKey_eq]
  simp [startOf, filepath.isRooted, strings.Split, resolveFrom, filepath.cleanStep]

theorem validName_of_normal (e : GoString) (h : filepath.proper e) (hd : e ≠ filepath.dotdot) :
    validName e = true := by
  obtain ⟨h1, h2, h3⟩ := h
  simp [validName, h1, h2, h3, hd]

theorem normal_of_validName (e : GoString) (h : validName e = true) :
    filepath.proper e ∧ e ≠ filepath.dotdot := by
  simp only [validName, Bool.and_eq_true, Bool.not_eq_true', List.isEmpty_eq_false,
    bne_iff_ne, ne_eq] at h
  obtain ⟨⟨⟨h1, h2⟩, h3⟩, h4⟩ := h
  refine ⟨⟨?_, h3, ?_⟩, h4⟩
  · intro e0; subst e0; simp at h1
  · intro hm
    have : List.contains e '/' = true := by simpa using hm
    rw [this] at h2
    exact absurd h2 (by simp)

/-! ## What `validateFilePath` accepts -/

namespace updater

open filepath

theorem Clean_nil : Clean [] = ['.'] := by decide

theorem Join_pair_nil (b : GoString) (hb : b ≠ []) : filepath.Join [[], b] = Clean b := by
  cases b with
  | nil => exact absurd rfl hb
  | cons c cs =>
    simp [filepath.Join, List.dropWhile, strings.Join_singleton]

theorem Join_pair (a b : GoString) (ha : a ≠ []) :
    filepath.Join [a, b] = Clean (a ++ '/' :: b) := by
  cases a with
  | nil => exact absurd rfl ha
  | cons c cs =>
    simp [filepath.Join, List.dropWhile, strings.Join_cons_cons, strings.Join_singleton]

theorem mem_Split_render (r : Bool) (es : List GoString) (h : ∀ e ∈ es, proper e)
    (e : GoString) (he : e ∈ es) : e ∈ strings.Split '/' (render r es) := by
  rw [Split_render r es h]
  have hne : es ≠ [] := by intro h0; rw [h0] at he; exact absurd he (List.not_mem_nil _)
  cases r with
  | true => simp [hne, he]
  | false => simp [hne, he]

theorem nameElems_normal (name : GoString)
    (hC : strings.Contains (Clean name) dotdot = false) :
    ∀ e ∈ nameElems name, (proper e ∧ e ≠ dotdot) ∧ strings.Contains e dotdot = false := by
  intro e he
  have hp := cleanElems_proper (isRooted name) _ (strings.Split_no_sep '/' name)
  have h1 : strings.Contains e dotdot = false := by
    by_contra hcon
    have hcon : strings.Contains e dotdot = true := by simpa using hcon
    have := strings.Contains_of_mem_Split '/' (Clean name) dotdot e
      (mem_Split_render _ _ hp e he) hcon
    rw [hC] at this
    exact absurd this (by simp)
  refine ⟨⟨hp e he, ?_⟩, h1⟩
  intro hd
  rw [hd] at h1
  exact absurd h1 (by decide)

/-- The shape of an accepted path: the cleaned base directory followed by the
elements of the cleaned name, none of which contains two consecutive dots. -/
theorem validateFilePath_ok (root name full : GoString)
    (h : validateFilePath root name = .ok full) :
    (∀ e ∈ nameElems name, (proper e ∧ e ≠ dotdot) ∧ strings.Contains e dotdot = false) ∧
    ((root = [] ∧ isRooted name = false ∧ full = render false (nameElems name)) ∨
     (root ≠ [] ∧ full = render (isRooted root)
        (cleanElems (isRooted root) (strings.Split '/' root) ++ nameElems name))) := by
  unfold validateFilePath at h
  simp only at h
  by_cases hC : strings.Contains (Clean name) dotdot = true
  · simp [hC] at h
  · have hC : strings.Contains (Clean name) dotdot = false := by simpa using hC
    simp only [hC, Bool.false_eq_true, if_false] at h
    have hn := nameElems_normal name hC
    refine ⟨hn, ?_⟩
    cases hrel : filepath.Rel root (Clean (filepath.Join [root, Clean name])) with
    | none => simp [hrel] at h
    | some rel =>
      simp only [hrel] at h
      split at h
      · exact absurd h (by simp)
      · simp only [Except.ok.injEq] at h
        by_cases hr : root = []
        · left
          subst hr
          rw [Join_pair_nil _ (Clean_ne_nil name), Clean_idem, Clean_idem] at h hrel
          have hroot : isRooted name = false := by
            by_contra hx
            have hx : isRooted name = true := by simpa using hx
            have hx2 : isRooted (Clean name) = true := by rw [isRooted_Clean]; exact hx
            unfold filepath.Rel at hrel
            simp only [Clean_idem, Clean_nil] at hrel
            have hne : Clean name ≠ ['.'] := by
              intro e0; rw [e0] at hx2; exact absurd hx2 (by decide)
            have hfalse : isRooted ([] : GoString) = false := rfl
            simp only [hne, if_false, if_true, hx2, hfalse] at hrel
            exact absurd hrel (by simp)
          refine ⟨rfl, hroot, ?_⟩
          rw [← h, Clean, nameElems, hroot]
        · right
          refine ⟨hr, ?_⟩
          rw [Join_pair root _ hr, Clean_idem] at h
          rw [← h, Clean, isRooted_append _ _ hr]
          rw [strings.Split_append, cleanElems, List.foldl_append]
          have hp : ∀ e ∈ nameElems name, proper e := fun e he => (hn e he).1.1
          have e2 : Clean name = render (isRooted name) (nameElems name) := rfl
          rw [e2, foldl_Split_render _ _ _ hp,
            foldl_normals _ _ (fun e he => (hn e he).1)]
          simp [cleanElems]

/-- An accepted path names the location of the base directory followed by the
elements of the cleaned name. -/
theorem validateFilePath_key (cwd : Loc) (root name full : GoString)
    (h : validateFilePath root name = .ok full) :
    pathKey cwd full = pathKey cwd root ++ nameElems name ∧
    validPath (nameElems name) = true := by
  obtain ⟨hn, hcase⟩ := validateFilePath_ok root name full h
  have hv : validPath (nameElems name) = true := by
    simp only [validPath, List.all_eq_true]
    intro e he
    exact validName_of_normal e (hn e he).1.1 (hn e he).1.2
  refine ⟨?_, hv⟩
  rcases hcase with ⟨hr, _, hf⟩ | ⟨hr, hf⟩
  · subst hr
    rw [hf, pathKey_render cwd false _ (fun e he => (hn e he).1.1), pathKey_nil]
    simp only [startOf, Bool.false_eq_true, if_false]
    exact resolveFrom_normals _ _ (fun e he => (hn e he).1)
  · have hpE := cleanElems_proper (isRooted root) _ (strings.Split_no_sep '/' root)
    rw [hf, pathKey_render cwd _ _ (by
      intro e he
      rcases List.mem_append.1 he with he | he
      · exact hpE e he
      · exact (hn e he).1.1),
      resolveFrom_append, resolveFrom_normals _ _ (fun e he => (hn e he).1),
      resolveFrom_cleanElems cwd _ _ (strings.Split_no_sep '/' root), ← pathKey_eq]

/-- Lexical containment of every accepted path. -/
theorem validateFilePath_within (root name full : GoString)
    (h : validateFilePath root name = .ok full) : lexWithin root full := by
  obtain ⟨hn, hcase⟩ := validateFilePath_ok root name full h
  rcases hcase with ⟨hr, _, hf⟩ | ⟨hr, hf⟩
  · subst hr
    have hp : ∀ e ∈ nameElems name, proper e := fun e he => (hn e he).1.1
    refine ⟨?_, nameElems name, ?_, fun e he => (hn e he).2⟩
    · rw [hf, isRooted_render false _ hp, Clean_nil]; rfl
    · rw [hf, elemsOf_render false _ hp, Clean_nil]; rfl
  · have hpE := cleanElems_proper (isRooted root) _ (strings.Split_no_sep '/' root)
    have hp : ∀ e ∈ cleanElems (isRooted root) (strings.Split '/' root) ++ nameElems name,
        proper e := by
      intro e he
      rcases List.mem_append.1 he with he | he
      · exact hpE e he
      · exact (hn e he).1.1
    refine ⟨?_, nameElems name, ?_, fun e he => (hn e he).2⟩
    · rw [hf, isRooted_render _ _ hp, isRooted_Clean]
    · rw [hf, elemsOf_render _ _ hp, Clean, elemsOf_render _ _ hpE]

end updater

/-! ## The file system operations -/

namespace FS

@[simp] theorem setNode_node (fs : FS) (p : Loc) (n : Node) (hv hp hc) (q : Loc) :
    (fs.setNode p n hv hp hc).node q = if q = p then some n else fs.node q := rfl

@[simp] theorem removeAll_node (fs : FS) (p q : Loc) :
    (fs.removeAll p).node q = if p.isPrefixOf q then none else fs.node q := rfl

theorem isDir_iff (fs : FS) (p : Loc) : fs.isDir p = true ↔ ∃ mode, fs.node p = some (.dir mode) := by
  unfold isDir
  split
  · rename_i m h; simp [h]
  · rename_i h
    simp only [Bool.false_eq_true, false_iff, not_exists]
    intro m hm
    exact h m hm

/-- Everything above an object is a directory. -/
theorem prefix_isDir (fs : FS) (p : Loc) : ∀ sfx : Loc, sfx ≠ [] → fs.node (p ++ sfx) ≠ none →
    fs.isDir p = true := by
  intro sfx
  induction sfx using List.reverseRecOn with
  | nil => intro h; exact absurd rfl h
  | append_singleton l n ih =>
    intro _ hn
    rw [← List.append_assoc] at hn
    obtain ⟨mode, hm⟩ := fs.parents (p ++ l) n hn
    by_cases hl : l = []
    · subst hl
      rw [List.append_nil] at hm
      exact (fs.isDir_iff p).2 ⟨mode, hm⟩
    · exact ih hl (by rw [hm]; simp)

theorem mkdir_spec (fs fs' : FS) (p : Loc) (mode : Nat) (h : fs.mkdir p mode = some fs') :
    fs.node p = none ∧ validPath p = true ∧
      ∀ q, fs'.node q = if q = p then some (.dir mode) else fs.node q := by
  unfold mkdir at h
  split at h
  · rename_i hc
    simp only [Option.some.injEq] at h
    subst h
    exact ⟨hc.2.1, hc.1, fun q => rfl⟩
  · exact absurd h (by simp)

theorem mkdirAllRev_spec (mode : Nat) : ∀ (rp : List GoString) (fs fs' : FS),
    fs.mkdirAllRev mode rp = some fs' →
    (∃ m, fs'.node rp.reverse = some (.dir m)) ∧
    ∀ q, fs'.node q ≠ fs.node q →
      q <+: rp.reverse ∧ fs.node q = none ∧ fs'.node q = some (.dir mode) := by
  intro rp
  induction rp with
  | nil =>
    intro fs fs' h
    unfold mkdirAllRev at h
    split at h
    · rename_i m hm
      simp only [Option.some.injEq] at h
      subst h
      exact ⟨⟨m, hm⟩, fun q hq => absurd rfl hq⟩
    · exact absurd h (by simp)
    · rename_i hn
      obtain ⟨h1, _, h3⟩ := mkdir_spec fs fs' [] mode h
      refine ⟨⟨mode, by simp [h3]⟩, ?_⟩
      intro q hq
      rw [h3] at hq ⊢
      by_cases hq0 : q = []
      · subst hq0
        exact ⟨List.prefix_refl _, h1, by simp⟩
      · simp [hq0] at hq
  | cons n rest ih =>
    intro fs fs' h
    unfold mkdirAllRev at h
    split at h
    · rename_i m hm
      simp only [Option.some.injEq] at h
      subst h
      exact ⟨⟨m, hm⟩, fun q hq => absurd rfl hq⟩
    · exact absurd h (by simp)
    · rename_i hn
      cases h1 : fs.mkdirAllRev mode rest with
      | none => simp [h1] at h
      | some fs1 =>
        simp only [h1] at h
        obtain ⟨_, hch⟩ := ih fs fs1 h1
        obtain ⟨g1, _, g3⟩ := mkdir_spec fs1 fs' _ mode h
        refine ⟨⟨mode, by simp [g3]⟩, ?_⟩
        intro q hq
        by_cases hqp : q = (n :: rest).reverse
        · subst hqp
          exact ⟨List.prefix_refl _, hn, by simp [g3]⟩
        · rw [g3] at hq ⊢
          simp only [hqp, if_false] at hq ⊢
          obtain ⟨a, b, c⟩ := hch q hq
          refine ⟨?_, b, c⟩
          rw [List.reverse_cons]
          exact a.trans (List.prefix_append _ _)

theorem mkdirAll_spec (fs fs' : FS) (p : Loc) (mode : Nat) (h : fs.mkdirAll p mode = some fs') :
    (∃ m, fs'.node p = some (.dir m)) ∧
    ∀ q, fs'.node q ≠ fs.node q → q <+: p ∧ fs.node q = none ∧ fs'.node q = some (.dir mode) := by
  have := mkdirAllRev_spec mode p.reverse fs fs' h
  simpa using this

theorem create_spec (fs fs' : FS) (p : Loc) (mode : Nat) (h : fs.create p mode = some fs') :
    fs.isDir p = false ∧ (∃ m, fs'.node p = some (.file m []) ∧
      (fs.node p = none → m = mode)) ∧
      (fs.node p = none → validPath p = true ∧ fs.parentOk p = true ∧ p ≠ []) ∧
      ∀ q, q ≠ p → fs'.node q = fs.node q := by
  unfold create at h
  split at h
  · exact absurd h (by simp)
  · rename_i m d hm
    simp only [Option.some.injEq] at h
    subst h
    refine ⟨by simp [isDir, hm], ⟨m, by simp, fun h0 => by rw [hm] at h0; exact absurd h0 (by simp)⟩,
      fun h0 => by rw [hm] at h0; exact absurd h0 (by simp), fun q hq => by simp [hq]⟩
  · rename_i hn
    split at h
    · rename_i hc
      simp only [Option.some.injEq] at h
      subst h
      exact ⟨by simp [isDir, hn], ⟨mode, by simp, fun _ => rfl⟩, fun _ => hc, fun q hq => by simp [hq]⟩
    · exact absurd h (by simp)

theorem write_spec (fs fs' : FS) (p : Loc) (data : Bytes) (h : fs.write p data = some fs') :
    (∃ m d, fs.node p = some (.file m d) ∧ fs'.node p = some (.file m data)) ∧
      ∀ q, q ≠ p → fs'.node q = fs.node q := by
  unfold write at h
  split at h
  · rename_i m d hm
    simp only [Option.some.injEq] at h
    subst h
    exact ⟨⟨m, d, hm, by simp⟩, fun q hq => by simp [hq]⟩
  · exact absurd h (by simp)

theorem rename_spec (fs fs' : FS) (old new : Loc) (h : fs.rename old new = some fs') :
    (old = new ∧ fs' = fs) ∨
    (fs.renameOk old new = true ∧ ∀ q, fs'.node q =
      if new.isPrefixOf q then fs.node (old ++ q.drop new.length)
      else if old.isPrefixOf q then none else fs.node q) := by
  unfold rename at h
  split at h
  · rename_i he
    split at h
    · exact absurd h (by simp)
    · simp only [Option.some.injEq] at h
      exact Or.inl ⟨he, h.symm⟩
  · split at h
    · rename_i hok
      simp only [Option.some.injEq] at h
      subst h
      exact Or.inr ⟨hok, fun q => rfl⟩
    · exact absurd h (by simp)

end FS

/-! ## What a call can change -/

theorem comparable_of_prefix_of_within (d p q : Loc) (hp : d <+: p) (hq : q <+: p) :
    comparable d q :=
  List.prefix_or_prefix_of_prefix hp hq

theorem Step.srefl (S : Loc → Prop) (w : World) : Step S w w :=
  fun _ hq => absurd rfl hq

theorem Step.of_fs_eq (S : Loc → Prop) (w w' : World) (h : w'.fs = w.fs) : Step S w w' :=
  fun q hq => absurd (by rw [h]) hq

theorem Step.strans {S : Loc → Prop} {w1 w2 w3 : World} (h12 : Step S w1 w2)
    (h23 : Step S w2 w3) : Step S w1 w3 := by
  intro q hq
  by_cases h1 : w2.fs.node q = w1.fs.node q
  · have h2 : w3.fs.node q ≠ w2.fs.node q := by rw [h1]; exact hq
    obtain ⟨a, b⟩ := h23 q h2
    refine ⟨a, ?_⟩
    simpa [FS.isDir, h1] using b
  · exact h12 q h1

theorem Step.smono {S T : Loc → Prop} {w w' : World} (h : Step S w w')
    (hST : ∀ q, S q → T q) : Step T w w' :=
  fun q hq => ⟨hST q (h q hq).1, (h q hq).2⟩

namespace os

theorem isDir_false_of_none (fs : FS) (q : Loc) (h : fs.node q = none) : fs.isDir q = false := by
  simp [FS.isDir, h]

theorem MkdirAll_step (env : Env) (path : GoString) (mode : Nat) (w : World) :
    Step (fun q => q <+: pathKey env.cwd path) w (MkdirAll env path mode w).2 := by
  unfold MkdirAll
  simp only
  split
  · exact Step.of_fs_eq _ _ _ rfl
  · split
    · exact Step.of_fs_eq _ _ _ rfl
    · rename_i fs h
      intro q hq
      obtain ⟨a, b, _⟩ := (FS.mkdirAll_spec _ _ _ _ h).2 q hq
      exact ⟨a, isDir_false_of_none _ _ b⟩

theorem MkdirAll_ok (env : Env) (path : GoString) (mode : Nat) (w : World)
    (h : (MkdirAll env path mode w).1 = none) :
    (MkdirAll env path mode w).2.fs.isDir (pathKey env.cwd path) = true := by
  unfold MkdirAll at h ⊢
  simp only at h ⊢
  split
  · rename_i hc; simp [hc] at h
  · rename_i hc
    split
    · rename_i hn; simp [hc, hn] at h
    · rename_i fs hs
      exact (FS.isDir_iff _ _).2 (FS.mkdirAll_spec _ _ _ _ hs).1

theorem OpenFile_step (env : Env) (path : GoString) (mode : Nat) (w : World) :
    Step (fun q => q = pathKey env.cwd path) w (OpenFile env path mode w).2 := by
  unfold OpenFile
  simp only
  split
  · exact Step.of_fs_eq _ _ _ rfl
  · split
    · exact Step.of_fs_eq _ _ _ rfl
    · rename_i fs h
      intro q hq
      obtain ⟨a, _, _, d⟩ := FS.create_spec _ _ _ _ h
      by_cases hqp : q = pathKey env.cwd path
      · subst hqp; exact ⟨rfl, a⟩
      · exact absurd (d q hqp) hq

theorem Write_step (env : Env) (path : GoString) (data : Bytes) (w : World) :
    Step (fun q => q = pathKey env.cwd path) w (Write env path data w).2 := by
  have key : ∀ (fs : FS) (d : Bytes), w.fs.write (pathKey env.cwd path) d = some fs →
      ∀ q, fs.node q ≠ w.fs.node q → q = pathKey env.cwd path ∧ w.fs.isDir q = false := by
    intro fs d h q hq
    obtain ⟨⟨m, d0, h1, _⟩, h2⟩ := FS.write_spec _ _ _ _ h
    by_cases hqp : q = pathKey env.cwd path
    · subst hqp; exact ⟨rfl, by simp [FS.isDir, h1]⟩
    · exact absurd (h2 q hqp) hq
  unfold Write
  simp only
  split
  · split
    · exact Step.of_fs_eq _ _ _ rfl
    · rename_i fs h; exact key fs _ h
  · split
    · exact Step.of_fs_eq _ _ _ rfl
    · rename_i fs h; exact key fs _ h

theorem Close_fs (env : Env) (path : GoString) (w : World) : (Close env path w).2.fs = w.fs := by
  unfold Close; simp only; split <;> rfl

theorem Open_fs (env : Env) (path : GoString) (w : World) : (Open env path w).2.fs = w.fs := by
  unfold Open; simp only; split
  · rfl
  · split <;> rfl

theorem Read_fs (env : Env) (path : GoString) (f : Node) (w : World) :
    (Read env path f w).2.fs = w.fs := by
  unfold Read; simp only; split
  · rfl
  · split <;> rfl

theorem Stat_fs (env : Env) (path : GoString) (w : World) : (Stat env path w).2.fs = w.fs := by
  unfold Stat; simp only; split
  · rfl
  · split <;> rfl

theorem Lstat_fs (env : Env) (path : GoString) (w : World) : (Lstat env path w).2.fs = w.fs := by
  unfold Lstat; simp only; split
  · rfl
  · split <;> rfl

theorem ReadDir_fs (env : Env) (path : GoString) (w : World) :
    (ReadDir env path w).2.fs = w.fs := by
  unfold ReadDir; simp only; split <;> rfl

theorem MkdirTemp_spec (env : Env) (pre : GoString) (w : World) :
    ((MkdirTemp env pre w).1 = .ok (tempPath env pre) ∧
      w.fs.node (pathKey env.cwd (tempPath env pre)) = none ∧
      ∀ q, (MkdirTemp env pre w).2.fs.node q =
        if q = pathKey env.cwd (tempPath env pre) then some (.dir 0o700) else w.fs.node q) ∨
    ((∃ e, (MkdirTemp env pre w).1 = .error e) ∧ (MkdirTemp env pre w).2.fs = w.fs) := by
  unfold MkdirTemp
  simp only
  split
  · exact Or.inr ⟨⟨_, rfl⟩, rfl⟩
  · split
    · exact Or.inr ⟨⟨_, rfl⟩, rfl⟩
    · rename_i fs h
      obtain ⟨a, _, c⟩ := FS.mkdir_spec _ _ _ _ h
      exact Or.inl ⟨rfl, a, c⟩

/-- What `os.RemoveAll` does to the file system: nothing, or the removal of
the tree at the location of the path. -/
theorem RemoveAll_fs (env : Env) (path : GoString) (w : World) :
    (RemoveAll env path w).2.fs = w.fs ∨
    (RemoveAll env path w).2.fs = w.fs.removeAll (pathKey env.cwd path) := by
  unfold RemoveAll
  simp only
  split
  · exact Or.inl rfl
  · split
    · exact Or.inl rfl
    · split
      · exact Or.inl rfl
      · exact Or.inl rfl
      · split
        · exact Or.inl rfl
        · exact Or.inr rfl

theorem RemoveAll_node (env : Env) (path : GoString) (w : World) (q : Loc)
    (hq : ¬ pathKey env.cwd path <+: q) :
    (RemoveAll env path w).2.fs.node q = w.fs.node q := by
  rcases RemoveAll_fs env path w with h | h
  · rw [h]
  · have : (pathKey env.cwd path).isPrefixOf q = false := by
      rw [← Bool.not_eq_true, List.isPrefixOf_iff_prefix]; exact hq
    rw [h]
    simp [this]

/-- What is not there before `os.RemoveAll` is not there after it. -/
theorem RemoveAll_none (env : Env) (path : GoString) (w : World) (q : Loc)
    (hq : w.fs.node q = none) : (RemoveAll env path w).2.fs.node q = none := by
  rcases RemoveAll_fs env path w with h | h
  · rw [h]; exact hq
  · rw [h, FS.removeAll_node]
    split
    · rfl
    · exact hq

/-- A removal without error of a path that the kernel can walk leaves nothing
at or below its location. -/
theorem RemoveAll_ok (env : Env) (path : GoString) (w : World)
    (h : (RemoveAll env path w).1 = none) (hp : path ≠ [])
    (hw : walk w.fs env.cwd (trimSlashes path) = .found) (q : Loc)
    (hq : pathKey env.cwd path <+: q) : (RemoveAll env path w).2.fs.node q = none := by
  unfold RemoveAll at h ⊢
  simp only at h ⊢
  have hp2 : path.isEmpty = false := by simpa using hp
  simp only [hp2, Bool.false_eq_true, if_false, hw] at h ⊢
  split
  · rename_i hc; simp [hc] at h
  · split
    · rename_i hc; simp [hc] at h
    · have : (pathKey env.cwd path).isPrefixOf q = true := by
        rw [List.isPrefixOf_iff_prefix]; exact hq
      simp [this]

theorem Get_fs (env : Env) (url : GoString) (w : World) : (http.Get env url w).2.fs = w.fs := by
  unfold http.Get; simp only; split <;> rfl

end os

/-! ## Pieces of a run -/

theorem Logged.lrefl (P : Call → Prop) (w : World) : Logged P w w :=
  ⟨[], rfl, fun _ h => absurd h (List.not_mem_nil _)⟩

theorem Logged.ltrans {P : Call → Prop} {w1 w2 w3 : World} (h12 : Logged P w1 w2)
    (h23 : Logged P w2 w3) : Logged P w1 w3 := by
  obtain ⟨n1, e1, p1⟩ := h12
  obtain ⟨n2, e2, p2⟩ := h23
  refine ⟨n2 ++ n1, by rw [e2, e1, List.append_assoc], ?_⟩
  intro c hc
  rcases List.mem_append.1 hc with h | h
  · exact p2 c h
  · exact p1 c h

theorem Logged.lmono {P Q : Call → Prop} {w w' : World} (h : Logged P w w')
    (hPQ : ∀ c, P c → Q c) : Logged Q w w' := by
  obtain ⟨n, e, p⟩ := h
  exact ⟨n, e, fun c hc => hPQ c (p c hc)⟩

theorem Logged.lone {P : Call → Prop} {w w' : World} (c : Call) (h : w'.log = c :: w.log)
    (hP : P c) : Logged P w w' :=
  ⟨[c], h, fun x hx => by rw [List.mem_singleton.1 hx]; exact hP⟩

theorem Run.refl (S : Loc → Prop) (P : Call → Prop) (w : World) : Run S P w w :=
  ⟨Step.srefl S w, Logged.lrefl P w⟩

theorem Run.trans {S : Loc → Prop} {P : Call → Prop} {w1 w2 w3 : World}
    (h12 : Run S P w1 w2) (h23 : Run S P w2 w3) : Run S P w1 w3 :=
  ⟨h12.1.strans h23.1, h12.2.ltrans h23.2⟩

theorem Run.mono {S T : Loc → Prop} {P Q : Call → Prop} {w w' : World} (h : Run S P w w')
    (hST : ∀ q, S q → T q) (hPQ : ∀ c, P c → Q c) : Run T Q w w' :=
  ⟨h.1.smono hST, h.2.lmono hPQ⟩

/-- A call that leaves the file system as it is. -/
theorem Run.quiet {S : Loc → Prop} {P : Call → Prop} {w w' : World} (c : Call)
    (hfs : w'.fs = w.fs) (hlog : w'.log = c :: w.log) (hP : P c) : Run S P w w' :=
  ⟨Step.of_fs_eq S w w' hfs, Logged.lone c hlog hP⟩

namespace os

theorem MkdirAll_log (env : Env) (path : GoString) (mode : Nat) (w : World) :
    (MkdirAll env path mode w).2.log = Call.mkdirAll path mode :: w.log := by
  unfold MkdirAll; simp only; split
  · rfl
  · split <;> rfl

theorem OpenFile_log (env : Env) (path : GoString) (mode : Nat) (w : World) :
    (OpenFile env path mode w).2.log = Call.openFile path mode :: w.log := by
  unfold OpenFile; simp only; split
  · rfl
  · split <;> rfl

theorem Write_log (env : Env) (path : GoString) (data : Bytes) (w : World) :
    (Write env path data w).2.log = Call.write path data :: w.log := by
  unfold Write; simp only; split
  · split <;> rfl
  · split <;> rfl

theorem Close_log (env : Env) (path : GoString) (w : World) :
    (Close env path w).2.log = Call.close path :: w.log := by
  unfold Close; simp only; split <;> rfl

theorem Open_log (env : Env) (path : GoString) (w : World) :
    (Open env path w).2.log = Call.openRead path :: w.log := by
  unfold Open; simp only; split
  · rfl
  · split <;> rfl

theorem Read_log (env : Env) (path : GoString) (f : Node) (w : World) :
    (Read env path f w).2.log = Call.read path :: w.log := by
  unfold Read; simp only; split
  · rfl
  · split <;> rfl

theorem Stat_log (env : Env) (path : GoString) (w : World) :
    (Stat env path w).2.log = Call.stat path :: w.log := by
  unfold Stat; simp only; split
  · rfl
  · split <;> rfl

theorem Lstat_log (env : Env) (path : GoString) (w : World) :
    (Lstat env path w).2.log = Call.lstat path :: w.log := by
  unfold Lstat; simp only; split
  · rfl
  · split <;> rfl

theorem ReadDir_log (env : Env) (path : GoString) (w : World) :
    (ReadDir env path w).2.log = Call.readDir path :: w.log := by
  unfold ReadDir; simp only; split <;> rfl

theorem Rename_log (env : Env) (a b : GoString) (w : World) :
    (Rename env a b w).2.log = Call.rename a b :: w.log := by
  unfold Rename; simp only; split
  · rfl
  · split <;> rfl

theorem RemoveAll_log (env : Env) (path : GoString) (w : World) :
    (RemoveAll env path w).2.log = Call.removeAll path :: w.log := by
  unfold RemoveAll; simp only; split
  · rfl
  · split
    · rfl
    · split
      · rfl
      · rfl
      · split <;> rfl

theorem MkdirTemp_log (env : Env) (pre : GoString) (w : World) :
    (MkdirTemp env pre w).2.log = Call.mkdirTemp (tempPath env pre) :: w.log := by
  unfold MkdirTemp; simp only; split
  · rfl
  · split <;> rfl

theorem Get_log (env : Env) (url : GoString) (w : World) :
    (http.Get env url w).2.log = Call.httpGet url env.GITHUB_TOKEN :: w.log := by
  unfold http.Get; simp only; split <;> rfl

variable {S : Loc → Prop} {P : Call → Prop}

theorem MkdirAll_run (env : Env) (path : GoString) (mode : Nat) (w : World)
    (hS : ∀ q, q <+: pathKey env.cwd path → S q) (hP : P (Call.mkdirAll path mode)) :
    Run S P w (MkdirAll env path mode w).2 :=
  ⟨(MkdirAll_step env path mode w).smono hS, Logged.lone _ (MkdirAll_log env path mode w) hP⟩

theorem OpenFile_run (env : Env) (path : GoString) (mode : Nat) (w : World)
    (hS : S (pathKey env.cwd path)) (hP : P (Call.openFile path mode)) :
    Run S P w (OpenFile env path mode w).2 :=
  ⟨(OpenFile_step env path mode w).smono (fun q hq => by rw [hq]; exact hS),
    Logged.lone _ (OpenFile_log env path mode w) hP⟩

theorem Write_run (env : Env) (path : GoString) (data : Bytes) (w : World)
    (hS : S (pathKey env.cwd path)) (hP : P (Call.write path data)) :
    Run S P w (Write env path data w).2 :=
  ⟨(Write_step env path data w).smono (fun q hq => by rw [hq]; exact hS),
    Logged.lone _ (Write_log env path data w) hP⟩

theorem Close_run (env : Env) (path : GoString) (w : World) (hP : P (Call.close path)) :
    Run S P w (Close env path w).2 :=
  Run.quiet _ (Close_fs env path w) (Close_log env path w) hP

theorem Open_run (env : Env) (path : GoString) (w : World) (hP : P (Call.openRead path)) :
    Run S P w (Open env path w).2 :=
  Run.quiet _ (Open_fs env path w) (Open_log env path w) hP

theorem Read_run (env : Env) (path : GoString) (f : Node) (w : World)
    (hP : P (Call.read path)) : Run S P w (Read env path f w).2 :=
  Run.quiet _ (Read_fs env path f w) (Read_log env path f w) hP

theorem Stat_run (env : Env) (path : GoString) (w : World) (hP : P (Call.stat path)) :
    Run S P w (Stat env path w).2 :=
  Run.quiet _ (Stat_fs env path w) (Stat_log env path w) hP

theorem Lstat_run (env : Env) (path : GoString) (w : World) (hP : P (Call.lstat path)) :
    Run S P w (Lstat env path w).2 :=
  Run.quiet _ (Lstat_fs env path w) (Lstat_log env path w) hP

theorem ReadDir_run (env : Env) (path : GoString) (w : World) (hP : P (Call.readDir path)) :
    Run S P w (ReadDir env path w).2 :=
  Run.quiet _ (ReadDir_fs env path w) (ReadDir_log env path w) hP

theorem Get_run (env : Env) (url : GoString) (w : World)
    (hP : P (Call.httpGet url env.GITHUB_TOKEN)) : Run S P w (http.Get env url w).2 :=
  Run.quiet _ (Get_fs env url w) (Get_log env url w) hP

end os

/-! ## The parent directory of a path -/

theorem comparable_refl (a : Loc) : comparable a a := Or.inl (List.prefix_refl a)

theorem comparable_symm {a b : Loc} (h : comparable a b) : comparable b a := h.symm

theorem comparable_of_prefixes {d p q : Loc} (hd : d <+: p) (hq : q <+: p) : comparable d q :=
  List.prefix_or_prefix_of_prefix hd hq

/-- One step of resolution stays on the line of descent. -/
theorem comparable_cleanStep (k : Loc) (e : GoString) :
    comparable k (filepath.cleanStep true k.reverse e).reverse := by
  by_cases h0 : e = [] ∨ e = ['.']
  · rw [filepath.cleanStep_skip _ _ e h0, List.reverse_reverse]; exact comparable_refl k
  · have h1 : e ≠ [] := fun x => h0 (Or.inl x)
    have h2 : e ≠ ['.'] := fun x => h0 (Or.inr x)
    by_cases h3 : e = filepath.dotdot
    · subst h3
      cases hk : k.reverse with
      | nil =>
        rw [filepath.cleanStep_dotdot_nil]
        exact Or.inr List.nil_prefix
      | cons top rest =>
        rw [filepath.cleanStep_dotdot_cons]
        have hk2 : k = rest.reverse ++ [top] := by
          have := congrArg List.reverse hk
          simpa using this
        split
        · left
          rw [hk2]
          simp
        · right
          rw [hk2]
          exact List.prefix_append _ _
    · rw [filepath.cleanStep_push _ _ e h1 h2 h3]
      left
      simp

theorem Split_snoc_sep (p : GoString) :
    strings.Split '/' (p ++ ['/']) = strings.Split '/' p ++ [[]] := by
  have := strings.Split_append '/' p []
  simpa [strings.Split] using this

/-- The location of `filepath.Dir(p)` and the location of `p` lie on one line
of descent. -/
theorem Dir_comparable (cwd : Loc) (p : GoString) :
    comparable (pathKey cwd (filepath.Dir p)) (pathKey cwd p) := by
  unfold filepath.Dir
  rw [pathKey_Clean]
  have hsplit := List.takeWhile_append_dropWhile (fun c => c != '/') p.reverse
  generalize hl : p.reverse.takeWhile (fun c => c != '/') = lastRev at hsplit
  generalize hd : p.reverse.dropWhile (fun c => c != '/') = preRev at hsplit
  have hp : p = preRev.reverse ++ lastRev.reverse := by
    have := congrArg List.reverse hsplit
    simpa using this.symm
  have hlast : '/' ∉ lastRev.reverse := by
    intro hm
    rw [List.mem_reverse, ← hl] at hm
    have := List.mem_takeWhile_imp hm
    simp at this
  cases hpre : preRev with
  | nil =>
    rw [hpre] at hp
    simp only [List.reverse_nil, List.nil_append] at hp
    rw [List.reverse_nil, pathKey_nil, pathKey_eq, hp,
      strings.Split_of_not_mem '/' _ hlast]
    have hr : filepath.isRooted lastRev.reverse = false := by
      cases hlr : lastRev.reverse with
      | nil => rfl
      | cons c cs =>
        rw [filepath.isRooted_cons]
        have : c ≠ '/' := by
          intro e0; apply hlast; rw [hlr, e0]; simp
        simp [this]
    rw [hr]
    simp only [startOf, Bool.false_eq_true, if_false, resolveFrom, List.foldl_cons,
      List.foldl_nil]
    exact comparable_cleanStep cwd _
  | cons c cs =>
    have hc : c = '/' := by
      have hh : (p.reverse.dropWhile (fun c => c != '/')).head? = some c := by
        rw [hd, hpre]; rfl
      have := List.head?_dropWhile_not (fun c => c != '/') p.reverse
      rw [hh] at this
      simpa using this
    subst hc
    rw [hpre] at hp
    have hp2 : p = cs.reverse ++ '/' :: lastRev.reverse := by
      rw [hp]; simp
    have hr : filepath.isRooted p = filepath.isRooted ('/' :: cs).reverse := by
      rw [hp]
      exact filepath.isRooted_append _ _ (by simp)
    have hS : strings.Split '/' p = strings.Split '/' cs.reverse ++ [lastRev.reverse] := by
      rw [hp2, strings.Split_append, strings.Split_of_not_mem '/' _ hlast]
    rw [pathKey_eq, pathKey_eq cwd p, ← hr, hS]
    have e1 : ('/' :: cs).reverse = cs.reverse ++ ['/'] := by simp
    rw [e1, Split_snoc_sep]
    rw [resolveFrom_append, resolveFrom_append]
    generalize resolveFrom (startOf cwd (filepath.isRooted p)) (strings.Split '/' cs.reverse) = k
    have e2 : resolveFrom k [[]] = k := by
      rw [resolveFrom_skip k [] [] (Or.inl rfl), resolveFrom_nil]
    rw [e2]
    simp only [resolveFrom, List.foldl_cons, List.foldl_nil]
    exact comparable_cleanStep k _

/-! ## Extraction -/

namespace updater

theorem Run.of_eq {α : Type} {S : Loc → Prop} {P : Call → Prop} {w w1 : World} {x : α × World}
    {a : α} (h : x = (a, w1)) (hr : Run S P w x.2) : Run S P w w1 := by
  rw [h] at hr; exact hr

theorem comparable_of_Dir (cwd : Loc) (D : Loc) (target : GoString)
    (hw : D <+: pathKey cwd target) (q : Loc) (hq : q <+: pathKey cwd (filepath.Dir target)) :
    comparable D q := by
  rcases Dir_comparable cwd target with h | h
  · exact comparable_of_prefixes hw (hq.trans h)
  · exact comparable_of_prefixes (hw.trans h) hq

theorem untarEntry_run (env : Env) (src dest : GoString) (e : tar.Entry) (w : World) :
    Run (comparable (pathKey env.cwd dest)) (untarCalls env.cwd src dest) w
      (untarEntry env dest e w).2 := by
  unfold untarEntry
  cases hv : safeFilePath dest e.hdr.Name with
  | error err => exact Run.refl _ _ _
  | ok target =>
    have hw : pathKey env.cwd dest <+: pathKey env.cwd target := by
      rw [(validateFilePath_key env.cwd dest _ target hv).1]
      exact List.prefix_append _ _
    simp only
    split
    · exact os.MkdirAll_run env target _ w (fun q hq => comparable_of_prefixes hw hq)
        (Or.inl hw)
    · split
      · have h1 : Run (comparable (pathKey env.cwd dest)) (untarCalls env.cwd src dest) w
            (os.MkdirAll env (filepath.Dir target) 0o750 w).2 :=
          os.MkdirAll_run env _ _ w (fun q hq => comparable_of_Dir env.cwd _ target hw q hq)
            (comparable_of_Dir env.cwd _ target hw _ (List.prefix_refl _))
        split
        · rename_i err w1 heq
          exact Run.of_eq heq h1
        · rename_i w1 heq
          have h1 := Run.of_eq heq h1
          have h2 : Run (comparable (pathKey env.cwd dest)) (untarCalls env.cwd src dest) w1
              (os.OpenFile env target (entryMode e.hdr.Mode 0o600) w1).2 :=
            os.OpenFile_run env _ _ w1 (Or.inl hw) hw
          split
          · rename_i err w2 heq2
            exact h1.trans (Run.of_eq heq2 h2)
          · rename_i w2 heq2
            have h2 := h1.trans (Run.of_eq heq2 h2)
            have hclose : ∀ w', Run (comparable (pathKey env.cwd dest))
                (untarCalls env.cwd src dest) w' (os.Close env target w').2 :=
              fun w' => os.Close_run env target w' trivial
            split
            · split
              · rename_i err w3 heq3
                exact h2.trans (Run.of_eq heq3 (hclose w2))
              · rename_i w3 heq3
                exact h2.trans (Run.of_eq heq3 (hclose w2))
            · have h3 : Run (comparable (pathKey env.cwd dest)) (untarCalls env.cwd src dest) w2
                  (os.Write env target (e.body.take maxSize) w2).2 :=
                os.Write_run env _ _ w2 (Or.inl hw) ⟨hw, List.length_take_le _ _⟩
              split
              · rename_i err w3 heq3
                have h4 : Run (comparable (pathKey env.cwd dest)) (untarCalls env.cwd src dest)
                    w2 w3 := by
                  split at heq3
                  · simp only [Prod.mk.injEq] at heq3
                    rw [← heq3.2]; exact h3
                  · exact Run.of_eq heq3 h3
                split
                · rename_i err2 w4 heq4
                  exact (h2.trans h4).trans (Run.of_eq heq4 (hclose w3))
                · rename_i w4 heq4
                  exact (h2.trans h4).trans (Run.of_eq heq4 (hclose w3))
              · rename_i w3 heq3
                have h4 : Run (comparable (pathKey env.cwd dest)) (untarCalls env.cwd src dest)
                    w2 w3 := by
                  split at heq3
                  · simp only [Prod.mk.injEq] at heq3
                    rw [← heq3.2]; exact h3
                  · exact Run.of_eq heq3 h3
                exact (h2.trans h4).trans (hclose w3)
      · exact Run.refl _ _ _

theorem record_run {S : Loc → Prop} {P : Call → Prop} (w : World) (c : Call) (hP : P c) :
    Run S P w (w.record c) :=
  Run.quiet c rfl rfl hP

theorem untarLoop_run (env : Env) (src dest : GoString) (endErr : Bool) :
    ∀ (es : List tar.Entry) (w : World),
      Run (comparable (pathKey env.cwd dest)) (untarCalls env.cwd src dest) w
        (untarLoop env src dest endErr es w).2 := by
  intro es
  induction es with
  | nil =>
    intro w
    unfold untarLoop
    simp only
    split <;> exact record_run w _ rfl
  | cons e es ih =>
    intro w
    unfold untarLoop
    simp only
    split
    · exact record_run w _ rfl
    · have h1 : Run (comparable (pathKey env.cwd dest)) (untarCalls env.cwd src dest) w
          (w.record (Call.tarNext src)) := record_run w _ rfl
      have h2 := untarEntry_run env src dest e (w.record (Call.tarNext src))
      split
      · rename_i err w1 heq
        exact h1.trans (Run.of_eq heq h2)
      · rename_i w1 heq
        exact (h1.trans (Run.of_eq heq h2)).trans (ih w1)

theorem untarGz_run (env : Env) (src dest : GoString) (w : World) :
    Run (comparable (pathKey env.cwd dest)) (untarCalls env.cwd src dest) w
      (untarGz env src dest w).2 := by
  unfold untarGz
  split
  · exact Run.refl _ _ _
  · have h1 : Run (comparable (pathKey env.cwd dest)) (untarCalls env.cwd src dest) w
        (os.Open env src w).2 := os.Open_run env src w rfl
    have hclose : ∀ w', Run (comparable (pathKey env.cwd dest))
        (untarCalls env.cwd src dest) w' (os.Close env src w').2 :=
      fun w' => os.Close_run env src w' trivial
    split
    · rename_i err w1 heq
      exact Run.of_eq heq h1
    · rename_i f w1 heq
      have h1 := Run.of_eq heq h1
      have h2 : Run (comparable (pathKey env.cwd dest)) (untarCalls env.cwd src dest) w1
          (w1.record (Call.gzipNewReader src)) := record_run w1 _ rfl
      simp only
      split
      · exact (h1.trans h2).trans (hclose _)
      · split
        · exact (h1.trans h2).trans (hclose _)
        · rename_i entries endErr heq2
          exact ((h1.trans h2).trans (untarLoop_run env src dest endErr entries _)).trans
            (hclose _)

/-- Nothing outside an existing extraction root is changed by a piece of a
run that stays on the line of descent of the root. -/
theorem outside_unchanged (D : Loc) (w w' : World) (hs : Step (comparable D) w w')
    (hd : w.fs.isDir D = true) (q : Loc) (hq : ¬ D <+: q) : w'.fs.node q = w.fs.node q := by
  by_contra hne
  obtain ⟨hc, hnd⟩ := hs q hne
  rcases hc with h | h
  · exact hq h
  · obtain ⟨sfx, hsfx⟩ := h
    have hne2 : sfx ≠ [] := by
      intro h0
      subst h0
      rw [List.append_nil] at hsfx
      apply hq
      rw [hsfx]
    have hD : w.fs.node (q ++ sfx) ≠ none := by
      rw [hsfx]
      obtain ⟨m, hm⟩ := (FS.isDir_iff _ _).1 hd
      rw [hm]; simp
    rw [FS.prefix_isDir w.fs q sfx hne2 hD] at hnd
    exact absurd hnd (by simp)

end updater

/-! # The claims -/

namespace updater

theorem validateFilePath_full (root name full : GoString)
    (h : validateFilePath root name = .ok full) :
    full = filepath.Clean (filepath.Join [root, filepath.Clean name]) := by
  unfold validateFilePath at h
  simp only at h
  split at h
  · exact absurd h (by simp)
  · split at h
    · exact absurd h (by simp)
    · split at h
      · exact absurd h (by simp)
      · simp only [Except.ok.injEq] at h
        exact h.symm

/-- C1: whenever `safeFilePath` (that is `validateFilePath`) succeeds, the
returned path is lexically the cleaned root or a descendant of it; hence a name
whose resolution against the root lies outside the root is rejected with an
error; and `untarGz` opens and writes files only at or below the extraction
root, calls `MkdirAll` only on the line of descent of the root, and changes
nothing outside a root that exists. -/
theorem safeFilePath_contained :
    (∀ root name full : GoString, safeFilePath root name = .ok full →
      filepath.lexWithin root full) ∧
    (∀ root name : GoString,
      ¬ filepath.lexWithin root
        (filepath.Clean (filepath.Join [root, filepath.Clean name])) →
      ∃ e, safeFilePath root name = .error e) ∧
    (∀ (env : Env) (src dest : GoString) (w : World),
      Logged (untarCalls env.cwd src dest) w (untarGz env src dest w).2 ∧
      (w.fs.isDir (pathKey env.cwd dest) = true →
        ∀ q, ¬ pathKey env.cwd dest <+: q →
          (untarGz env src dest w).2.fs.node q = w.fs.node q)) := by
  refine ⟨fun root name full h => validateFilePath_within root name full h, ?_, ?_⟩
  · intro root name hout
    cases h : safeFilePath root name with
    | error e => exact ⟨e, rfl⟩
    | ok full =>
      exfalso
      apply hout
      rw [← validateFilePath_full root name full h]
      exact validateFilePath_within root name full h
  · intro env src dest w
    have hrun := untarGz_run env src dest w
    exact ⟨hrun.2, fun hd q hq => outside_unchanged _ w _ hrun.1 hd q hq⟩

set_option maxRecDepth 100000 in
/-- C1 at concrete inputs: the name `a/../b` under `/x`, the name `../b`, and
the extraction of the archive of the scene into `/tmp`, which leaves
`/work/cfg/old.txt` as it was. -/
theorem safeFilePath_contained_witness :
    (safeFilePath "/x".data "a/../b".data = .ok "/x/b".data ∧
      filepath.lexWithin "/x".data "/x/b".data) ∧
    (∃ e, safeFilePath "/x".data "../b".data = .error e) ∧
    (Scene.w0.fs.isDir (pathKey Scene.env.cwd "/tmp".data) = true ∧
      (untarGz Scene.env "/tmp/sha.bin".data "/tmp".data Scene.w0).2.fs.node
        ["work".data, "cfg".data, "old.txt".data] =
      Scene.w0.fs.node ["work".data, "cfg".data, "old.txt".data]) :=
  ⟨⟨by decide, safeFilePath_contained.1 "/x".data "a/../b".data "/x/b".data (by decide)⟩,
   safeFilePath_contained.2.1 "/x".data "../b".data (by
     intro h
     obtain ⟨_, rest, h2, _⟩ := h
     have e1 : filepath.elemsOf
         (filepath.Clean (filepath.Join ["/x".data, filepath.Clean "../b".data])) =
         ["b".data] := by decide
     have e2 : filepath.elemsOf (filepath.Clean "/x".data) = ["x".data] := by decide
     rw [e1, e2] at h2
     simp only [List.cons_append, List.nil_append, List.cons.injEq] at h2
     exact absurd h2.1 (by decide)),
   ⟨by decide,
    (safeFilePath_contained.2.2 Scene.env "/tmp/sha.bin".data "/tmp".data Scene.w0).2
      (by decide) ["work".data, "cfg".data, "old.txt".data] (by decide)⟩⟩

end updater

namespace updater

/-! ## Modes and sizes of extracted entries -/

set_option maxRecDepth 100000 in
/-- C2 (the code at the failing input): a file entry that declares mode 0o577
is created with mode 0o577, which grants everything to group and others, and a
directory entry that declares mode 0o747 is created with mode 0o747, which
grants everything to others: the test of lines 336 and 357 compares the
permission bits as a number with the ceiling. -/
theorem untarGz_mode_above_ceiling :
    entryMode 0o577 0o600 = 0o577 ∧ 0o577 &&& 0o077 = 0o077 ∧
    entryMode 0o747 0o750 = 0o747 ∧ 0o747 &&& 0o007 = 0o007 ∧
    (untarEntry Scene.env "/tmp".data (Scene.fileEntry "f".data 0o577 []) Scene.w0).2.fs.node
      ["tmp".data, "f".data] = some (.file 0o577 []) ∧
    (untarEntry Scene.env "/tmp".data (Scene.dirEntry "d".data 0o747) Scene.w0).2.fs.node
      ["tmp".data, "d".data] = some (.dir 0o747) := by
  decide

theorem os.OpenFile_ok (env : Env) (path : GoString) (mode : Nat) (w : World)
    (h : (os.OpenFile env path mode w).1 = none) :
    ∃ m, (os.OpenFile env path mode w).2.fs.node (pathKey env.cwd path) = some (.file m []) := by
  unfold os.OpenFile at h ⊢
  simp only at h ⊢
  split
  · rename_i hc; simp [hc] at h
  · rename_i hc
    split
    · rename_i hn; simp [hc, hn] at h
    · rename_i fs hs
      obtain ⟨_, ⟨m, hm, _⟩, _⟩ := FS.create_spec _ _ _ _ hs
      exact ⟨m, hm⟩

theorem os.Write_ok (env : Env) (path : GoString) (data : Bytes) (w : World)
    (h : (os.Write env path data w).1 = none) :
    ∃ m, (os.Write env path data w).2.fs.node (pathKey env.cwd path) = some (.file m data) := by
  unfold os.Write at h ⊢
  simp only at h ⊢
  split
  · rename_i hc
    simp only [hc, if_true] at h
    split at h <;> exact absurd h (by simp)
  · rename_i hc
    split
    · rename_i hn; simp [hc, hn] at h
    · rename_i fs hs
      obtain ⟨⟨m, _, _, hm⟩, _⟩ := FS.write_spec _ _ _ _ hs
      exact ⟨m, hm⟩

theorem typeReg_ne_typeDir : tar.TypeReg ≠ tar.TypeDir := by decide

/-- C3, amended: for a regular-file entry with a safe name whose destination file
`untarGz` has created (the parent directories made, the file opened, and the
file closes without error): the entry fails with the error `file too large`
exactly when its declared size is greater than 100 MiB, and then nothing has
been written (the calls are `MkdirAll`, `OpenFile`, `Close`) and the file is
empty; an entry of declared size at most the cap is not rejected for its size,
the copy is one write of the first `maxSize` bytes at most, and when the entry
is processed without error the file holds exactly those bytes.  The loop of
`untarGz` returns the error of the entry, and no write of `untarGz` carries
more than `maxSize` bytes. -/
theorem untarGz_size_cap (env : Env) (dest target : GoString) (e : tar.Entry) (w : World)
    (hsafe : safeFilePath dest e.hdr.Name = .ok target)
    (hreg : e.hdr.Typeflag = tar.TypeReg)
    (hmk : (os.MkdirAll env (filepath.Dir target) 0o750 w).1 = none)
    (hopen : (os.OpenFile env target (entryMode e.hdr.Mode 0o600)
      (os.MkdirAll env (filepath.Dir target) 0o750 w).2).1 = none)
    (hclose : env.fault (Call.openFile target (entryMode e.hdr.Mode 0o600) ::
      Call.mkdirAll (filepath.Dir target) 0o750 :: w.log) (Call.close target) = false) :
    ((untarEntry env dest e w).1 = some (.fileTooLarge e.hdr.Name e.hdr.Size maxSize) ↔
      e.hdr.Size > (maxSize : Int)) ∧
    (e.hdr.Size > (maxSize : Int) →
      (untarEntry env dest e w).2.log =
        Call.close target :: Call.openFile target (entryMode e.hdr.Mode 0o600) ::
          Call.mkdirAll (filepath.Dir target) 0o750 :: w.log ∧
      ∃ m, (untarEntry env dest e w).2.fs.node (pathKey env.cwd target) = some (.file m [])) ∧
    (e.hdr.Size ≤ (maxSize : Int) →
      (untarEntry env dest e w).2.log =
        Call.close target :: Call.write target (e.body.take maxSize) ::
          Call.openFile target (entryMode e.hdr.Mode 0o600) ::
          Call.mkdirAll (filepath.Dir target) 0o750 :: w.log ∧
      (e.body.take maxSize).length ≤ maxSize ∧
      ((untarEntry env dest e w).1 = none →
        ∃ m, (untarEntry env dest e w).2.fs.node (pathKey env.cwd target) =
          some (.file m (e.body.take maxSize)))) ∧
    (∀ (src : GoString) (endErr : Bool) (es : List tar.Entry) (w0 : World) (err : Err),
      env.fault w0.log (Call.tarNext src) = false →
      (untarEntry env dest e (w0.record (Call.tarNext src))).1 = some err →
      (untarLoop env src dest endErr (e :: es) w0).1 = some err) ∧
    (∀ (src : GoString) (w0 : World), ∃ new,
      (untarGz env src dest w0).2.log = new ++ w0.log ∧
      ∀ p d, Call.write p d ∈ new → d.length ≤ maxSize) := by
  have hnd : ¬ e.hdr.Typeflag = tar.TypeDir := by rw [hreg]; exact typeReg_ne_typeDir
  -- the entry, with the two successful calls named
  rcases hx : os.MkdirAll env (filepath.Dir target) 0o750 w with ⟨r1, w1⟩
  rw [hx] at hmk hopen
  simp only at hmk hopen
  subst hmk
  have hlog1 : w1.log = Call.mkdirAll (filepath.Dir target) 0o750 :: w.log := by
    have := os.MkdirAll_log env (filepath.Dir target) 0o750 w
    rw [hx] at this; exact this
  rcases hy : os.OpenFile env target (entryMode e.hdr.Mode 0o600) w1 with ⟨r2, w2⟩
  have hopen2 := os.OpenFile_ok env target (entryMode e.hdr.Mode 0o600) w1 hopen
  rw [hy] at hopen hopen2
  simp only at hopen hopen2
  subst hopen
  have hlog2 : w2.log = Call.openFile target (entryMode e.hdr.Mode 0o600) :: w1.log := by
    have := os.OpenFile_log env target (entryMode e.hdr.Mode 0o600) w1
    rw [hy] at this; exact this
  have hcl : os.Close env target w2 = (none, w2.record (Call.close target)) := by
    unfold os.Close
    simp only [hlog2, hlog1, hclose, Bool.false_eq_true, if_false]
  have hentry : untarEntry env dest e w =
      if e.hdr.Size > (maxSize : Int) then
        (some (.fileTooLarge e.hdr.Name e.hdr.Size maxSize), w2.record (Call.close target))
      else
        (let r := os.Write env target (e.body.take maxSize) w2
         let r := if r.1 = none ∧ e.bodyErr = true ∧ e.body.length < maxSize
           then (some (.os "read".data target), r.2) else r
         match r with
         | (some err, w3) =>
           match os.Close env target w3 with
           | (some err2, w4) => (some (.wrap "error closing writer".data err2), w4)
           | (none, w4) => (some err, w4)
         | (none, w3) => (none, (os.Close env target w3).2)) := by
    unfold untarEntry
    simp only [hsafe, hreg, typeReg_ne_typeDir, if_false, if_true, hx, hy, hcl]
  have hsmall : ¬ e.hdr.Size > (maxSize : Int) →
      (untarEntry env dest e w).2.log =
        Call.close target :: Call.write target (e.body.take maxSize) :: w2.log ∧
      (∀ err, (untarEntry env dest e w).1 = some err → ∀ n s m, err ≠ .fileTooLarge n s m) ∧
      ((untarEntry env dest e w).1 = none →
        ∃ m, (untarEntry env dest e w).2.fs.node (pathKey env.cwd target) =
          some (.file m (e.body.take maxSize))) := by
    intro hs
    rw [hentry, if_neg hs]
    simp only
    have hwl := os.Write_log env target (e.body.take maxSize) w2
    have hwok := os.Write_ok env target (e.body.take maxSize) w2
    rcases hz : os.Write env target (e.body.take maxSize) w2 with ⟨r3, w3⟩
    rw [hz] at hwl hwok
    simp only at hwl hwok
    have hcl3 := os.Close_log env target w3
    have hcf3 := os.Close_fs env target w3
    have hos : ∀ (c p : GoString) n s m, Err.os c p ≠ .fileTooLarge n s m := by
      intro c p n s m h; cases h
    have hwrap : ∀ (c : GoString) (i : Err) n s m, Err.wrap c i ≠ .fileTooLarge n s m := by
      intro c i n s m h; cases h
    have hr3 : ∀ err, r3 = some err → ∃ c p, err = Err.os c p := by
      intro err he
      have : (os.Write env target (e.body.take maxSize) w2).1 = some err := by rw [hz]; exact he
      unfold os.Write at this
      simp only at this
      split at this
      · split at this <;> (simp only [Option.some.injEq] at this; exact ⟨_, _, this.symm⟩)
      · split at this
        · simp only [Option.some.injEq] at this; exact ⟨_, _, this.symm⟩
        · exact absurd this (by simp)
    cases r3 with
    | some err3 =>
      simp only [reduceCtorEq, false_and, if_false]
      obtain ⟨c, p, hcp⟩ := hr3 err3 rfl
      rcases hc : os.Close env target w3 with ⟨r4, w4⟩
      rw [hc] at hcl3
      simp only at hcl3
      cases r4 with
      | some err4 =>
        simp only
        refine ⟨by rw [hcl3, hwl], ?_, fun h => absurd h (by simp)⟩
        intro err h n s m
        simp only [Option.some.injEq] at h
        rw [← h]; exact hwrap _ _ n s m
      | none =>
        simp only
        refine ⟨by rw [hcl3, hwl], ?_, fun h => absurd h (by simp)⟩
        intro err h n s m
        simp only [Option.some.injEq] at h
        rw [← h, hcp]; exact hos _ _ n s m
    | none =>
      dsimp only
      by_cases hcond : e.bodyErr = true ∧ e.body.length < maxSize
      · rw [if_pos ⟨rfl, hcond⟩]
        dsimp only
        rcases hc : os.Close env target w3 with ⟨r4, w4⟩
        rw [hc] at hcl3
        simp only at hcl3
        cases r4 with
        | some err4 =>
          dsimp only
          refine ⟨by rw [hcl3, hwl], ?_, fun h => absurd h (by simp)⟩
          intro err h n s m
          simp only [Option.some.injEq] at h
          rw [← h]; exact hwrap _ _ n s m
        | none =>
          dsimp only
          refine ⟨by rw [hcl3, hwl], ?_, fun h => absurd h (by simp)⟩
          intro err h n s m
          simp only [Option.some.injEq] at h
          rw [← h]; exact hos _ _ n s m
      · rw [if_neg (fun h => hcond h.2)]
        dsimp only
        refine ⟨by rw [hcl3, hwl], fun err h => absurd h (by simp), fun _ => ?_⟩
        rw [hcf3]
        exact hwok rfl
  refine ⟨?_, ?_, ?_, ?_, ?_⟩
  · constructor
    · intro h
      by_contra hs
      exact (hsmall hs).2.1 _ h _ _ _ rfl
    · intro hs
      rw [hentry, if_pos hs]
  · intro hs
    rw [hentry, if_pos hs]
    exact ⟨by simp [World.record, hlog2, hlog1], hopen2⟩
  · intro hs
    have hs2 : ¬ e.hdr.Size > (maxSize : Int) := not_lt.2 hs
    obtain ⟨a, _, c⟩ := hsmall hs2
    exact ⟨by rw [a, hlog2, hlog1], List.length_take_le _ _, c⟩
  · intro src endErr es w0 err hnext herr
    unfold untarLoop
    simp only [hnext, Bool.false_eq_true, if_false]
    rcases hu : untarEntry env dest e (w0.record (Call.tarNext src)) with ⟨r, wu⟩
    rw [hu] at herr
    simp only at herr
    subst herr
    rfl
  · intro src w0
    obtain ⟨new, hnew, hP⟩ := (untarGz_run env src dest w0).2
    refine ⟨new, hnew, fun p d hmem => ?_⟩
    exact (hP _ hmem).2

set_option maxRecDepth 100000 in
/-- C3 at a concrete input: an entry that declares 104857601 bytes is
rejected with `file too large`. -/
theorem untarGz_size_cap_witness :
    (untarEntry Scene.env "/tmp".data Scene.bigEntry Scene.w0).1 =
      some (.fileTooLarge "big.bin".data 104857601 maxSize) :=
  ((untarGz_size_cap Scene.env "/tmp".data "/tmp/big.bin".data Scene.bigEntry Scene.w0
    (by decide) (by decide) (by decide) (by decide) (by decide)).1).2 (by decide)

end updater

/-! ## Digests -/

namespace hex

theorem digit_mem (n : Nat) : digit n ∈ hextable := by
  have h : ∀ i : Fin 16, hextable.getD i.val '0' ∈ hextable := by decide
  exact h ⟨n % 16, Nat.mod_lt _ (by decide)⟩

theorem EncodeToString_mem (b : Bytes) : ∀ c ∈ EncodeToString b, c ∈ hextable := by
  intro c hc
  simp only [EncodeToString, List.mem_flatMap, List.mem_cons, List.mem_singleton,
    List.not_mem_nil, or_false] at hc
  obtain ⟨v, _, hv⟩ := hc
  rcases hv with rfl | rfl <;> exact digit_mem _

theorem hextable_lower : ∀ c ∈ hextable, strings.toLowerRune c = c := by decide

theorem hextable_upper_lower : ∀ c ∈ hextable, strings.toLowerRune c.toUpper = c := by decide

theorem hextable_ne_x : ∀ c ∈ hextable, c ≠ 'x' := by decide

theorem hexDigits_lower_ne_x : ∀ c ∈ hexDigits, strings.toLowerRune c ≠ 'x' := by decide

end hex

namespace strings

theorem ToLower_of_lower (s : GoString) (h : ∀ c ∈ s, toLowerRune c = c) : ToLower s = s := by
  unfold ToLower
  conv => rhs; rw [← List.map_id s]
  exact List.map_congr_left h

theorem ToLower_ToUpper (s : GoString) (h : ∀ c ∈ s, toLowerRune c.toUpper = c) :
    ToLower (ToUpper s) = s := by
  unfold ToLower ToUpper
  rw [List.map_map]
  conv => rhs; rw [← List.map_id s]
  exact List.map_congr_left h

theorem TrimPrefix_no_x (s : GoString) (h : ∀ c ∈ s, c ≠ 'x') : TrimPrefix s "0x".data = s := by
  unfold TrimPrefix
  have : HasPrefix s "0x".data = false := by
    rw [← Bool.not_eq_true, HasPrefix_iff]
    rintro ⟨t, rfl⟩
    exact h 'x' (by simp) rfl
  simp [this]

theorem TrimPrefix_0x (s : GoString) : TrimPrefix ("0x".data ++ s) "0x".data = s := by
  unfold TrimPrefix
  have : HasPrefix ("0x".data ++ s) "0x".data = true := by
    rw [HasPrefix_iff]; exact List.prefix_append _ _
  rw [if_pos this]
  rfl

end strings

namespace updater

/-- What `verifySHA256` returns for a file that passes the path check and can
be read. -/
theorem verifySHA256_eval (env : Env) (path expected full : GoString) (w : World) (mode : Nat)
    (data : Bytes)
    (hname : validateFilePath (filepath.Dir path) (filepath.Base path) = .ok full)
    (hfile : w.fs.node (pathKey env.cwd path) = some (.file mode data))
    (hne : path ≠ [])
    (hopen : env.fault w.log (Call.openRead path) = false)
    (hread : env.fault (Call.openRead path :: w.log) (Call.read path) = false) :
    (verifySHA256 env path expected w).1 =
      if hex.EncodeToString (sha256.Sum256 data) ≠
          strings.TrimPrefix (strings.ToLower expected) "0x".data then
        some (.sha256Mismatch (hex.EncodeToString (sha256.Sum256 data))
          (strings.TrimPrefix (strings.ToLower expected) "0x".data))
      else none := by
  have hne2 : path.isEmpty = false := by simpa using hne
  have h1 : os.Open env path w = (.ok (.file mode data), w.record (Call.openRead path)) := by
    unfold os.Open
    simp only [hopen, hne2, Bool.or_self, Bool.false_eq_true, if_false, hfile]
  have h2 : os.Read env path (.file mode data) (w.record (Call.openRead path)) =
      (.ok data, (w.record (Call.openRead path)).record (Call.read path)) := by
    unfold os.Read
    simp only [World.record, hread, Bool.false_eq_true, if_false]
  unfold verifySHA256
  simp only [hname, h1, h2]
  split <;> rfl

/-- C4, amended: for every file that can be read and whose path passes the
path check of `verifySHA256` (`validateFilePath` on its directory and base
name), the verification succeeds when the expected value is the lower-case
hexadecimal SHA-256 digest of the bytes of the file, when it is that value in
upper case, and when it is that value after the prefix `0x`. -/
theorem verifySHA256_roundtrip (env : Env) (path full : GoString) (w : World) (mode : Nat)
    (data : Bytes)
    (hname : validateFilePath (filepath.Dir path) (filepath.Base path) = .ok full)
    (hfile : w.fs.node (pathKey env.cwd path) = some (.file mode data))
    (hne : path ≠ [])
    (hopen : env.fault w.log (Call.openRead path) = false)
    (hread : env.fault (Call.openRead path :: w.log) (Call.read path) = false) :
    (verifySHA256 env path (hex.EncodeToString (sha256.Sum256 data)) w).1 = none ∧
    (verifySHA256 env path (strings.ToUpper (hex.EncodeToString (sha256.Sum256 data))) w).1 =
      none ∧
    (verifySHA256 env path ("0x".data ++ hex.EncodeToString (sha256.Sum256 data)) w).1 =
      none := by
  have hm := hex.EncodeToString_mem (sha256.Sum256 data)
  have hl : strings.ToLower (hex.EncodeToString (sha256.Sum256 data)) =
      hex.EncodeToString (sha256.Sum256 data) :=
    strings.ToLower_of_lower _ (fun c hc => hex.hextable_lower c (hm c hc))
  have ht : strings.TrimPrefix (hex.EncodeToString (sha256.Sum256 data)) "0x".data =
      hex.EncodeToString (sha256.Sum256 data) :=
    strings.TrimPrefix_no_x _ (fun c hc => hex.hextable_ne_x c (hm c hc))
  refine ⟨?_, ?_, ?_⟩
  · rw [verifySHA256_eval env path _ full w mode data hname hfile hne hopen hread, hl, ht]
    simp
  · rw [verifySHA256_eval env path _ full w mode data hname hfile hne hopen hread,
      strings.ToLower_ToUpper _ (fun c hc => hex.hextable_upper_lower c (hm c hc)), ht]
    simp
  · have hl2 : strings.ToLower ("0x".data ++ hex.EncodeToString (sha256.Sum256 data)) =
        "0x".data ++ hex.EncodeToString (sha256.Sum256 data) := by
      unfold strings.ToLower at hl ⊢
      rw [List.map_append, hl]
      rfl
    rw [verifySHA256_eval env path _ full w mode data hname hfile hne hopen hread, hl2,
      strings.TrimPrefix_0x]
    simp

set_option maxRecDepth 100000 in
/-- C4, amended, at a concrete input: the file `/tmp/sha.bin` of the scene,
which holds `hello world`. -/
theorem verifySHA256_roundtrip_witness :
    (verifySHA256 Scene.env "/tmp/sha.bin".data
      (hex.EncodeToString (sha256.Sum256 (Scene.bytes "hello world"))) Scene.w0).1 = none :=
  (verifySHA256_roundtrip Scene.env "/tmp/sha.bin".data "/tmp/sha.bin".data Scene.w0 0o644
    (Scene.bytes "hello world") (by decide) (by decide) (by decide) (by decide) (by decide)).1

set_option maxRecDepth 100000 in
/-- C4 as stated fails: the file `/tmp/sha..bin` holds `hello world` and can be
read, but the verification against its own digest returns an error, because
the base name contains two consecutive dots. -/
theorem verifySHA256_rejects_own_digest :
    Scene.w0.fs.node (pathKey Scene.env.cwd "/tmp/sha..bin".data) =
      some (.file 0o644 (Scene.bytes "hello world")) ∧
    (verifySHA256 Scene.env "/tmp/sha..bin".data
      (hex.EncodeToString (sha256.Sum256 (Scene.bytes "hello world"))) Scene.w0).1 =
      some (.wrap "invalid file path".data (.pathTraversal "sha..bin".data)) := by
  decide

/-- C5, amended: for every file that can be read and whose path passes the
path check of `verifySHA256`, and every expected value of 64 hexadecimal
digits whose lower-case form differs from the digest of the file, the
verification returns the mismatch error, which carries the computed digest and
the expected value in lower case. -/
theorem verifySHA256_mismatch (env : Env) (path full expected : GoString) (w : World)
    (mode : Nat) (data : Bytes)
    (hname : validateFilePath (filepath.Dir path) (filepath.Base path) = .ok full)
    (hfile : w.fs.node (pathKey env.cwd path) = some (.file mode data))
    (hne : path ≠ [])
    (hopen : env.fault w.log (Call.openRead path) = false)
    (hread : env.fault (Call.openRead path :: w.log) (Call.read path) = false)
    (hhex : isHex64 expected = true)
    (hdiff : strings.ToLower expected ≠ hex.EncodeToString (sha256.Sum256 data)) :
    (verifySHA256 env path expected w).1 =
      some (.sha256Mismatch (hex.EncodeToString (sha256.Sum256 data))
        (strings.ToLower expected)) := by
  have hall : ∀ c ∈ expected, c ∈ hexDigits := by
    simp only [isHex64, Bool.and_eq_true, List.all_eq_true] at hhex
    intro c hc
    have := hhex.2 c hc
    simpa using this
  have ht : strings.TrimPrefix (strings.ToLower expected) "0x".data =
      strings.ToLower expected := by
    apply strings.TrimPrefix_no_x
    intro c hc
    simp only [strings.ToLower, List.mem_map] at hc
    obtain ⟨a, ha, rfl⟩ := hc
    exact hex.hexDigits_lower_ne_x a (hall a ha)
  rw [verifySHA256_eval env path _ full w mode data hname hfile hne hopen hread, ht]
  rw [if_pos (fun h => hdiff h.symm)]

set_option maxRecDepth 100000 in
/-- C5, amended, at the input of the repository's test: `hello world` against
64 zeros. -/
theorem verifySHA256_mismatch_witness :
    (verifySHA256 Scene.env "/tmp/sha.bin".data (List.replicate 64 '0') Scene.w0).1 =
      some (.sha256Mismatch (hex.EncodeToString (sha256.Sum256 (Scene.bytes "hello world")))
        (strings.ToLower (List.replicate 64 '0'))) :=
  verifySHA256_mismatch Scene.env "/tmp/sha.bin".data "/tmp/sha.bin".data (List.replicate 64 '0')
    Scene.w0 0o644 (Scene.bytes "hello world") (by decide) (by decide) (by decide) (by decide)
    (by decide) (by decide) (by decide)

set_option maxRecDepth 100000 in
/-- C5 as stated fails: for the readable file `/tmp/sha..bin` and the expected
value of 64 zeros, which differs from its digest, the error is not the
mismatch error: it is the rejection of the path, and carries no digest. -/
theorem verifySHA256_no_mismatch_error :
    Scene.w0.fs.node (pathKey Scene.env.cwd "/tmp/sha..bin".data) =
      some (.file 0o644 (Scene.bytes "hello world")) ∧
    isHex64 (List.replicate 64 '0') = true ∧
    strings.ToLower (List.replicate 64 '0') ≠
      hex.EncodeToString (sha256.Sum256 (Scene.bytes "hello world")) ∧
    (verifySHA256 Scene.env "/tmp/sha..bin".data (List.replicate 64 '0') Scene.w0).1 =
      some (.wrap "invalid file path".data (.pathTraversal "sha..bin".data)) := by
  decide

end updater

/-! ## The work in the temporary directory -/

theorem pathKey_Join_name (cwd : Loc) (a n : GoString) (ha : a ≠ [])
    (hn : validName n = true) :
    pathKey cwd (filepath.Join [a, n]) = pathKey cwd a ++ [n] := by
  obtain ⟨hp, hd⟩ := normal_of_validName n hn
  rw [updater.Join_pair a n ha, pathKey_Clean, pathKey_eq, filepath.isRooted_append _ _ ha,
    strings.Split_append, resolveFrom_append, strings.Split_of_not_mem '/' n hp.2.2,
    resolveFrom_normals _ [n] (by
      intro e he
      rw [List.mem_singleton.1 he]
      exact ⟨hp, hd⟩), ← pathKey_eq]

theorem comparable_of_child {tmp q : Loc} {x : GoString} (h : comparable (tmp ++ [x]) q) :
    comparable tmp q := by
  rcases h with h | h
  · exact Or.inl ((List.prefix_append _ _).trans h)
  · rcases List.prefix_concat_iff.1 h with h | h
    · rw [h]; exact Or.inl (List.prefix_append _ _)
    · exact Or.inr h

namespace updater

theorem untarCalls_scratch (cwd tmp : Loc) (x : GoString) (src dest : GoString)
    (hd : pathKey cwd dest = tmp ++ [x]) (c : Call) (h : untarCalls cwd src dest c) :
    scratchCalls cwd tmp c := by
  cases c <;> simp only [untarCalls, scratchCalls] at h ⊢
  · rw [hd] at h; exact comparable_of_child h
  · rw [hd] at h; exact Or.inl ((List.prefix_append _ _).trans h)
  · rw [hd] at h; exact Or.inl ((List.prefix_append _ _).trans h.1)

theorem download_run (env : Env) (url dest : GoString) (w : World) (tmp : Loc)
    (hd : comparable tmp (pathKey env.cwd dest)) :
    Run (comparable tmp) (scratchCalls env.cwd tmp) w (download env url dest w).2 := by
  unfold download
  have h1 : Run (comparable tmp) (scratchCalls env.cwd tmp) w (http.Get env url w).2 :=
    os.Get_run env url w trivial
  split
  · exact Run.refl _ _ _
  · split
    · rename_i w1 heq
      exact Run.of_eq heq h1
    · rename_i status body w1 heq
      have h1 := Run.of_eq heq h1
      split
      · exact h1
      · split
        · exact h1
        · have h2 : Run (comparable tmp) (scratchCalls env.cwd tmp) w1
              (os.OpenFile env dest 0o600 w1).2 := os.OpenFile_run env _ _ w1 hd hd
          split
          · rename_i e w2 heq2
            exact h1.trans (Run.of_eq heq2 h2)
          · rename_i w2 heq2
            have h3 : Run (comparable tmp) (scratchCalls env.cwd tmp) w2
                (os.Write env dest body w2).2 := os.Write_run env _ _ w2 hd hd
            exact ((h1.trans (Run.of_eq heq2 h2)).trans h3).trans
              (os.Close_run env dest _ trivial)

theorem verifySHA256_run (env : Env) (path expected : GoString) (w : World) (tmp : Loc) :
    Run (comparable tmp) (scratchCalls env.cwd tmp) w (verifySHA256 env path expected w).2 := by
  unfold verifySHA256
  split
  · exact Run.refl _ _ _
  · have h1 : Run (comparable tmp) (scratchCalls env.cwd tmp) w (os.Open env path w).2 :=
      os.Open_run env path w trivial
    split
    · rename_i e w1 heq
      exact Run.of_eq heq h1
    · rename_i f w1 heq
      have h1 := Run.of_eq heq h1
      have h2 : Run (comparable tmp) (scratchCalls env.cwd tmp) w1 (os.Read env path f w1).2 :=
        os.Read_run env path f w1 trivial
      have hclose : ∀ w', Run (comparable tmp) (scratchCalls env.cwd tmp) w'
          (os.Close env path w').2 := fun w' => os.Close_run env path w' trivial
      split
      · rename_i e w2 heq2
        exact (h1.trans (Run.of_eq heq2 h2)).trans (hclose w2)
      · rename_i data w2 heq2
        have h2 := h1.trans (Run.of_eq heq2 h2)
        simp only
        split
        · exact h2.trans (hclose w2)
        · exact h2.trans (hclose w2)

theorem findTopLevelDir_run (env : Env) (root : GoString) (w : World) (tmp : Loc) :
    Run (comparable tmp) (scratchCalls env.cwd tmp) w (findTopLevelDir env root w).2 := by
  unfold findTopLevelDir
  have h1 : Run (comparable tmp) (scratchCalls env.cwd tmp) w (os.ReadDir env root w).2 :=
    os.ReadDir_run env root w trivial
  split
  · rename_i e w1 heq
    exact Run.of_eq heq h1
  · rename_i entries w1 heq
    split
    · exact Run.of_eq heq h1
    · exact Run.of_eq heq h1

theorem validName_srcTarGz : validName "src.tar.gz".data = true := by decide

theorem validName_extract : validName "extract".data = true := by decide

theorem validName_cfg : validName "cfg".data = true := by decide

theorem fetchBundle_run (env : Env) (opt : Options) (url tmpDir : GoString) (w : World)
    (hne : tmpDir ≠ []) :
    Run (comparable (pathKey env.cwd tmpDir)) (scratchCalls env.cwd (pathKey env.cwd tmpDir)) w
      (fetchBundle env opt url tmpDir w).2 := by
  have hk1 := pathKey_Join_name env.cwd tmpDir _ hne validName_srcTarGz
  have hk2 := pathKey_Join_name env.cwd tmpDir _ hne validName_extract
  unfold fetchBundle
  simp only
  have h1 := download_run env url (filepath.Join [tmpDir, "src.tar.gz".data]) w
    (pathKey env.cwd tmpDir) (by rw [hk1]; exact Or.inl (List.prefix_append _ _))
  split
  · rename_i e w1 heq
    exact Run.of_eq heq h1
  · rename_i w1 heq
    have h1 := Run.of_eq heq h1
    have h2 : Run (comparable (pathKey env.cwd tmpDir))
        (scratchCalls env.cwd (pathKey env.cwd tmpDir)) w1
        (if opt.Checksum ≠ [] then
          verifySHA256 env (filepath.Join [tmpDir, "src.tar.gz".data]) opt.Checksum w1
         else (none, w1)).2 := by
      split
      · exact verifySHA256_run env _ _ w1 _
      · exact Run.refl _ _ _
    split
    · rename_i e w2 heq2
      exact h1.trans (Run.of_eq heq2 h2)
    · rename_i w2 heq2
      have h2 := h1.trans (Run.of_eq heq2 h2)
      have h3 : Run (comparable (pathKey env.cwd tmpDir))
          (scratchCalls env.cwd (pathKey env.cwd tmpDir)) w2
          (os.MkdirAll env (filepath.Join [tmpDir, "extract".data]) 0o750 w2).2 :=
        os.MkdirAll_run env _ _ w2
          (fun q hq => by
            rw [hk2] at hq
            exact comparable_of_child (Or.inr hq))
          (by
            show comparable _ _
            rw [hk2]; exact Or.inl (List.prefix_append _ _))
      split
      · rename_i e w3 heq3
        exact h2.trans (Run.of_eq heq3 h3)
      · rename_i w3 heq3
        have h3 := h2.trans (Run.of_eq heq3 h3)
        have h4 : Run (comparable (pathKey env.cwd tmpDir))
            (scratchCalls env.cwd (pathKey env.cwd tmpDir)) w3
            (untarGz env (filepath.Join [tmpDir, "src.tar.gz".data])
              (filepath.Join [tmpDir, "extract".data]) w3).2 :=
          (untarGz_run env _ _ w3).mono
            (fun q hq => by rw [hk2] at hq; exact comparable_of_child hq)
            (fun c hc => untarCalls_scratch env.cwd _ _ _ _ hk2 c hc)
        split
        · rename_i e w4 heq4
          exact h3.trans (Run.of_eq heq4 h4)
        · rename_i w4 heq4
          have h4 := h3.trans (Run.of_eq heq4 h4)
          have h5 := findTopLevelDir_run env (filepath.Join [tmpDir, "extract".data]) w4
            (pathKey env.cwd tmpDir)
          split
          · rename_i e w5 heq5
            exact h4.trans (Run.of_eq heq5 h5)
          · rename_i top w5 heq5
            have h5 := h4.trans (Run.of_eq heq5 h5)
            have h6 : Run (comparable (pathKey env.cwd tmpDir))
                (scratchCalls env.cwd (pathKey env.cwd tmpDir)) w5
                (os.Stat env (filepath.Join [top, "cfg".data]) w5).2 :=
              os.Stat_run env _ w5 trivial
            split
            · rename_i e w6 heq6
              exact h5.trans (Run.of_eq heq6 h6)
            · rename_i fi w6 heq6
              split
              · exact h5.trans (Run.of_eq heq6 h6)
              · exact h5.trans (Run.of_eq heq6 h6)

theorem resolveLatestRef_fs (env : Env) (source : GoString) (w : World) :
    (resolveLatestRef env source w).2.fs = w.fs ∧
    Logged (fun c => (∃ u t, c = Call.httpGet u t) ∨ ∃ u, c = Call.readBody u) w
      (resolveLatestRef env source w).2 := by
  unfold resolveLatestRef
  split
  · exact ⟨rfl, Logged.lrefl _ _⟩
  · rename_i url _
    have hfs := os.Get_fs env url w
    have hlog := os.Get_log env url w
    have h1 : Logged (fun c => (∃ u t, c = Call.httpGet u t) ∨ ∃ u, c = Call.readBody u) w
        (http.Get env url w).2 := Logged.lone _ hlog (Or.inl ⟨_, _, rfl⟩)
    split
    · exact ⟨rfl, Logged.lrefl _ _⟩
    · split
      · rename_i w1 heq
        rw [heq] at hfs h1
        exact ⟨hfs, h1⟩
      · rename_i status body w1 heq
        rw [heq] at hfs h1
        simp only at hfs h1
        split
        · exact ⟨hfs, h1⟩
        · simp only
          split
          · exact ⟨hfs, h1.ltrans (Logged.lone _ rfl (Or.inr ⟨_, rfl⟩))⟩
          · exact ⟨hfs, h1.ltrans (Logged.lone _ rfl (Or.inr ⟨_, rfl⟩))⟩

theorem resolveRef_fs (env : Env) (opt : Options) (w : World) :
    (resolveRef env opt w).2.fs = w.fs ∧
    Logged (fun c => (∃ u t, c = Call.httpGet u t) ∨ ∃ u, c = Call.readBody u) w
      (resolveRef env opt w).2 := by
  unfold resolveRef
  split
  · have := resolveLatestRef_fs env opt.Source w
    split
    · rename_i e w1 heq
      rw [heq] at this; exact this
    · rename_i l w1 heq
      rw [heq] at this; exact this
  · exact ⟨rfl, Logged.lrefl _ _⟩

end updater

/-! ## Backup and replacement: what they may change -/

namespace os

theorem Rename_cases (env : Env) (a b : GoString) (w : World) :
    ((∃ e, (Rename env a b w).1 = some e) ∧ (Rename env a b w).2.fs = w.fs) ∨
    ((Rename env a b w).1 = none ∧
      w.fs.rename (pathKey env.cwd a) (pathKey env.cwd b) = some (Rename env a b w).2.fs) := by
  unfold Rename
  simp only
  generalize (env.fault w.log (Call.rename a b) || a.isEmpty || b.isEmpty ||
      walk w.fs env.cwd a != .found || walk w.fs env.cwd b != .found ||
      endsInDots a || endsInDots b) = cond
  cases cond
  · rw [if_neg (by simp)]
    cases hs : w.fs.rename (pathKey env.cwd a) (pathKey env.cwd b) with
    | none => exact Or.inl ⟨⟨_, rfl⟩, rfl⟩
    | some fs => exact Or.inr ⟨rfl, rfl⟩
  · rw [if_pos rfl]
    exact Or.inl ⟨⟨_, rfl⟩, rfl⟩

theorem Rename_err_fs (env : Env) (a b : GoString) (w : World) (e : Err)
    (h : (Rename env a b w).1 = some e) : (Rename env a b w).2.fs = w.fs := by
  rcases Rename_cases env a b w with h1 | h1
  · exact h1.2
  · rw [h1.1] at h; exact absurd h (by simp)

theorem Rename_ok (env : Env) (a b : GoString) (w : World)
    (h : (Rename env a b w).1 = none) :
    w.fs.rename (pathKey env.cwd a) (pathKey env.cwd b) = some (Rename env a b w).2.fs := by
  rcases Rename_cases env a b w with h1 | h1
  · obtain ⟨e, he⟩ := h1.1
    rw [he] at h; exact absurd h (by simp)
  · exact h1.2

theorem RemoveAll_within (env : Env) (path : GoString) (w : World) :
    ∀ q, (RemoveAll env path w).2.fs.node q ≠ w.fs.node q → pathKey env.cwd path <+: q := by
  intro q hq
  by_contra hn
  exact hq (RemoveAll_node env path w q hn)

end os

namespace updater

theorem copyEntry_run (env : Env) (src dst : GoString) (sfx : Loc) (w : World) :
    Run (comparable (pathKey env.cwd dst)) (fun _ => True) w (copyEntry env src dst sfx w).2 := by
  unfold copyEntry
  simp only
  split
  · exact Run.refl _ _ _
  · rename_i rel hrel
    cases hv : safeFilePath dst rel with
    | error err => exact Run.refl _ _ _
    | ok target =>
      have hw : pathKey env.cwd dst <+: pathKey env.cwd target := by
        rw [(validateFilePath_key env.cwd dst _ target hv).1]
        exact List.prefix_append _ _
      simp only
      split
      · have h1 : Run (comparable (pathKey env.cwd dst)) (fun _ => True) w
            (os.MkdirAll env target 0o750 w).2 :=
          os.MkdirAll_run env _ _ w (fun q hq => comparable_of_prefixes hw hq) trivial
        split
        · rename_i e w1 heq
          exact Run.of_eq heq h1
        · rename_i w1 heq
          have h2 : Run (comparable (pathKey env.cwd dst)) (fun _ => True) w1
              (os.ReadDir env (walkPath src sfx) w1).2 := os.ReadDir_run env _ w1 trivial
          split
          · rename_i e w2 heq2
            exact (Run.of_eq heq h1).trans (Run.of_eq heq2 h2)
          · rename_i l w2 heq2
            exact (Run.of_eq heq h1).trans (Run.of_eq heq2 h2)
      · have h1 : Run (comparable (pathKey env.cwd dst)) (fun _ => True) w
            (os.Open env (walkPath src sfx) w).2 := os.Open_run env _ w trivial
        have hclose : ∀ p w', Run (comparable (pathKey env.cwd dst)) (fun _ => True) w'
            (os.Close env p w').2 := fun p w' => os.Close_run env p w' trivial
        split
        · rename_i e w1 heq
          exact Run.of_eq heq h1
        · rename_i f w1 heq
          have h1 := Run.of_eq heq h1
          simp only
          refine Run.trans ?_ (hclose _ _)
          have h2 : Run (comparable (pathKey env.cwd dst)) (fun _ => True) w1
              (os.MkdirAll env (filepath.Dir target) 0o750 w1).2 :=
            os.MkdirAll_run env _ _ w1
              (fun q hq => comparable_of_Dir env.cwd _ target hw q hq) trivial
          split
          · rename_i e w2 heq2
            exact h1.trans (Run.of_eq heq2 h2)
          · rename_i w2 heq2
            have h2 := h1.trans (Run.of_eq heq2 h2)
            have h3 : Run (comparable (pathKey env.cwd dst)) (fun _ => True) w2
                (os.OpenFile env target 0o600 w2).2 :=
              os.OpenFile_run env _ _ w2 (Or.inl hw) trivial
            split
            · rename_i e w3 heq3
              exact h2.trans (Run.of_eq heq3 h3)
            · rename_i w3 heq3
              have h3 := h2.trans (Run.of_eq heq3 h3)
              have h4 : Run (comparable (pathKey env.cwd dst)) (fun _ => True) w3
                  (os.Read env (walkPath src sfx) f w3).2 := os.Read_run env _ f w3 trivial
              split
              · rename_i e w4 heq4
                exact (h3.trans (Run.of_eq heq4 h4)).trans (hclose _ _)
              · rename_i data w4 heq4
                have h4 := h3.trans (Run.of_eq heq4 h4)
                have h5 : Run (comparable (pathKey env.cwd dst)) (fun _ => True) w4
                    (os.Write env target data w4).2 :=
                  os.Write_run env _ _ w4 (Or.inl hw) trivial
                split
                · rename_i e w5 heq5
                  exact (h4.trans (Run.of_eq heq5 h5)).trans (hclose _ _)
                · rename_i w5 heq5
                  exact (h4.trans (Run.of_eq heq5 h5)).trans (hclose _ _)

theorem copyLoop_run (env : Env) (src dst : GoString) :
    ∀ (l : List Loc) (w : World),
      Run (comparable (pathKey env.cwd dst)) (fun _ => True) w (copyLoop env src dst l w).2 := by
  intro l
  induction l with
  | nil => intro w; exact Run.refl _ _ _
  | cons sfx rest ih =>
    intro w
    unfold copyLoop
    have h1 := copyEntry_run env src dst sfx w
    split
    · rename_i e w1 heq
      exact Run.of_eq heq h1
    · rename_i w1 heq
      exact (Run.of_eq heq h1).trans (ih w1)

theorem copyDir_run (env : Env) (src dst : GoString) (w : World) :
    Run (comparable (pathKey env.cwd dst)) (fun _ => True) w (copyDir env src dst w).2 := by
  unfold copyDir
  have h1 : Run (comparable (pathKey env.cwd dst)) (fun _ => True) w
      (os.Lstat env src w).2 := os.Lstat_run env src w trivial
  split
  · rename_i e w1 heq
    exact Run.of_eq heq h1
  · rename_i n w1 heq
    exact (Run.of_eq heq h1).trans (copyLoop_run env src dst _ w1)

theorem LogExt.of_logged {P : Call → Prop} {w w' : World} (h : Logged P w w') : LogExt w w' := by
  obtain ⟨n, hn, _⟩ := h
  exact ⟨n, hn⟩

theorem LogExt.xrefl (w : World) : LogExt w w := ⟨[], rfl⟩

theorem LogExt.xtrans {w1 w2 w3 : World} (h12 : LogExt w1 w2) (h23 : LogExt w2 w3) :
    LogExt w1 w3 := by
  obtain ⟨n1, e1⟩ := h12
  obtain ⟨n2, e2⟩ := h23
  exact ⟨n2 ++ n1, by rw [e2, e1, List.append_assoc]⟩

theorem LogExt.xone {w w' : World} (c : Call) (h : w'.log = c :: w.log) : LogExt w w' :=
  ⟨[c], h⟩

theorem backupTarget_log (env : Env) (opt : Options) (w : World) :
    LogExt w (backupTarget env opt w).2 := by
  unfold backupTarget
  split
  · have h1 := LogExt.xone _ (os.Stat_log env opt.TargetCfgDir w)
    split
    · rename_i e w1 heq
      rw [heq] at h1; exact h1
    · rename_i n w1 heq
      rw [heq] at h1
      have h2 := LogExt.xone _ (os.Rename_log env opt.TargetCfgDir (backupPath env opt) w1)
      split
      · rename_i e w2 heq2
        rw [heq2] at h2; exact h1.xtrans h2
      · rename_i w2 heq2
        rw [heq2] at h2; exact h1.xtrans h2
  · exact LogExt.xrefl w

theorem replaceTarget_log (env : Env) (opt : Options) (sourceCfg : GoString) (w : World) :
    LogExt w (replaceTarget env opt sourceCfg w).2 := by
  unfold replaceTarget
  have h1 := LogExt.xone _ (os.RemoveAll_log env opt.TargetCfgDir w)
  split
  · rename_i e w1 heq
    rw [heq] at h1; exact h1
  · rename_i w1 heq
    rw [heq] at h1
    have h2 := LogExt.of_logged (copyDir_run env sourceCfg opt.TargetCfgDir w1).2
    split
    · rename_i e w2 heq2
      rw [heq2] at h2; exact h1.xtrans h2
    · rename_i w2 heq2
      rw [heq2] at h2; exact h1.xtrans h2

/-- An error of the replacement names its stage. -/
theorem replaceTarget_err (env : Env) (opt : Options) (sourceCfg : GoString) (w : World)
    (e : Err) (h : (replaceTarget env opt sourceCfg w).1 = some e) :
    ∃ inner, e = .wrap "remove old cfg".data inner ∨ e = .wrap "copy cfg".data inner := by
  unfold replaceTarget at h
  split at h
  · simp only [Option.some.injEq] at h
    exact ⟨_, Or.inl h.symm⟩
  · split at h
    · simp only [Option.some.injEq] at h
      exact ⟨_, Or.inr h.symm⟩
    · exact absurd h (by simp)

/-- A failed backup has changed nothing. -/
theorem backupTarget_err (env : Env) (opt : Options) (w : World) (e : Err)
    (h : (backupTarget env opt w).1 = some e) :
    (backupTarget env opt w).2.fs = w.fs ∧
    Logged (fun c => (∃ p, c = Call.stat p) ∨ ∃ a b, c = Call.rename a b) w
      (backupTarget env opt w).2 := by
  unfold backupTarget at h ⊢
  split
  · rename_i hb
    simp only [hb, if_true] at h
    have hs := os.Stat_fs env opt.TargetCfgDir w
    have hl : Logged (fun c => (∃ p, c = Call.stat p) ∨ ∃ a b, c = Call.rename a b) w
        (os.Stat env opt.TargetCfgDir w).2 :=
      Logged.lone _ (os.Stat_log env opt.TargetCfgDir w) (Or.inl ⟨_, rfl⟩)
    split
    · rename_i e1 w1 heq
      rw [heq] at h; exact absurd h (by simp)
    · rename_i n w1 heq
      rw [heq] at h hs hl
      simp only at h hs hl
      have hr := os.Rename_err_fs env opt.TargetCfgDir (backupPath env opt) w1
      have hl2 : Logged (fun c => (∃ p, c = Call.stat p) ∨ ∃ a b, c = Call.rename a b) w1
          (os.Rename env opt.TargetCfgDir (backupPath env opt) w1).2 :=
        Logged.lone _ (os.Rename_log env _ _ w1) (Or.inr ⟨_, _, rfl⟩)
      split
      · rename_i e2 w2 heq2
        rw [heq2] at hr hl2
        exact ⟨(hr e2 rfl).trans hs, hl.ltrans hl2⟩
      · rename_i w2 heq2
        rw [heq2] at h
        exact absurd h (by simp)
  · rename_i hb
    simp only [hb] at h
    exact absurd h (by simp)

end updater

/-! ## The run of `Update` before the replacement -/

namespace updater

theorem tempPath_ne_nil (env : Env) (pre : GoString) : os.tempPath env pre ≠ [] := by
  unfold os.tempPath
  simp only
  split
  · rename_i h
    intro h0
    have : os.TempDir env = [] := (List.append_eq_nil.1 h0).1
    rw [this] at h
    simp at h
  · simp

theorem MkdirTemp_ok (env : Env) (pre tmpDir : GoString) (w w2 : World)
    (h : os.MkdirTemp env pre w = (.ok tmpDir, w2)) :
    tmpDir = os.tempPath env pre ∧ w.fs.node (pathKey env.cwd tmpDir) = none ∧
    (∀ q, w2.fs.node q = if q = pathKey env.cwd tmpDir then some (.dir 0o700) else w.fs.node q) ∧
    w2.log = Call.mkdirTemp tmpDir :: w.log := by
  have hlog := os.MkdirTemp_log env pre w
  rcases os.MkdirTemp_spec env pre w with ⟨h1, h2, h3⟩ | ⟨⟨e, he⟩, _⟩
  · rw [h] at h1 h3 hlog
    simp only [Except.ok.injEq] at h1
    subst h1
    exact ⟨rfl, h2, h3, hlog⟩
  · rw [h] at he
    exact absurd he (by simp)

theorem MkdirTemp_err (env : Env) (pre : GoString) (e : Err) (w w2 : World)
    (h : os.MkdirTemp env pre w = (.error e, w2)) :
    w2.fs = w.fs ∧ w2.log = Call.mkdirTemp (os.tempPath env pre) :: w.log := by
  have hlog := os.MkdirTemp_log env pre w
  rcases os.MkdirTemp_spec env pre w with ⟨h1, _, _⟩ | ⟨_, hfs⟩
  · rw [h] at h1
    exact absurd h1 (by simp)
  · rw [h] at hfs hlog
    exact ⟨hfs, hlog⟩

theorem scratchCalls_early (cwd : Loc) (tmpDir : GoString) (c : Call)
    (h : scratchCalls cwd (pathKey cwd tmpDir) c) : earlyCalls cwd tmpDir c := by
  cases c <;> simp only [scratchCalls, earlyCalls] at h ⊢ <;> exact h

theorem not_comparable_within {tmp T q : Loc} (h : ¬ comparable tmp T) (hq : T <+: q) :
    ¬ comparable tmp q := by
  intro hc
  rcases hc with hc | hc
  · exact h (List.prefix_or_prefix_of_prefix hc hq)
  · exact h (Or.inr (hq.trans hc))

/-- What the work in the temporary directory has done when it fails before
the replacement. -/
theorem updateInScratch_early (env : Env) (opt : Options) (url tmpDir : GoString) (w : World)
    (e : Err) (hne : tmpDir ≠ [])
    (hfail : (updateInScratch env opt url tmpDir w).1 = some e)
    (hstage : ∀ inner, e ≠ .wrap "remove old cfg".data inner ∧
      e ≠ .wrap "copy cfg".data inner) :
    Run (comparable (pathKey env.cwd tmpDir)) (earlyCalls env.cwd tmpDir) w
      (updateInScratch env opt url tmpDir w).2 := by
  have hf := (fetchBundle_run env opt url tmpDir w hne).mono (fun _ h => h)
    (scratchCalls_early env.cwd tmpDir)
  unfold updateInScratch at hfail ⊢
  rcases hfb : fetchBundle env opt url tmpDir w with ⟨r1, w1⟩
  rw [hfb] at hf
  cases r1 with
  | error e1 => exact hf
  | ok sourceCfg =>
    simp only [hfb] at hfail ⊢
    rcases hb : backupTarget env opt w1 with ⟨r2, w2⟩
    simp only [hb] at hfail ⊢
    cases r2 with
    | some e2 =>
      simp only at hfail ⊢
      obtain ⟨hfs, hlog⟩ := backupTarget_err env opt w1 e2 (by rw [hb])
      rw [hb] at hfs hlog
      refine hf.trans ⟨Step.of_fs_eq _ _ _ hfs, hlog.lmono ?_⟩
      intro c hc
      rcases hc with ⟨p, rfl⟩ | ⟨a, b, rfl⟩ <;> trivial
    | none =>
      simp only at hfail
      obtain ⟨inner, hi⟩ := replaceTarget_err env opt sourceCfg w2 e hfail
      rcases hi with hi | hi
      · exact absurd hi (hstage inner).1
      · exact absurd hi (hstage inner).2

/-- C8: if `Update` fails at a step before the replacement (its error is not
the error of the removal or of the copy of lines 233 to 240), and the
temporary directory that `os.MkdirTemp` makes lies neither inside nor above the
target, then everything at and below the target is as before the call; and
`Update` has removed nothing but its temporary directory and has made
directories, opened and written files only on the line of descent of that
directory. -/
theorem Update_early_failure (env : Env) (opt : Options) (w : World) (e : Err)
    (hfail : (Update env opt w).1 = some e)
    (hstage : ∀ inner, e ≠ .wrap "remove old cfg".data inner ∧
      e ≠ .wrap "copy cfg".data inner)
    (hfresh : ¬ comparable (pathKey env.cwd (os.tempPath env "kube-bench-update-".data))
      (pathKey env.cwd opt.TargetCfgDir)) :
    (∀ q, pathKey env.cwd opt.TargetCfgDir <+: q →
      (Update env opt w).2.fs.node q = w.fs.node q) ∧
    Logged (earlyCalls env.cwd (os.tempPath env "kube-bench-update-".data)) w
      (Update env opt w).2 := by
  unfold Update at hfail ⊢
  by_cases hv : opt.Source = [] ∨ opt.Ref = [] ∨ opt.TargetCfgDir = []
  · rw [if_pos hv]
    exact ⟨fun _ _ => rfl, Logged.lrefl _ _⟩
  · rw [if_neg hv] at hfail ⊢
    obtain ⟨hfs1, hlog1⟩ := resolveRef_fs env opt w
    have hlog1 := hlog1.lmono (Q := earlyCalls env.cwd (os.tempPath env "kube-bench-update-".data))
      (by
        intro c hc
        rcases hc with ⟨u, t, rfl⟩ | ⟨u, rfl⟩ <;> trivial)
    rcases hr : resolveRef env opt w with ⟨r1, w1⟩
    rw [hr] at hfs1 hlog1
    simp only at hfs1 hlog1
    cases r1 with
    | error e1 =>
      simp only
      exact ⟨fun q _ => by rw [hfs1], hlog1⟩
    | ok ref =>
      simp only [hr] at hfail ⊢
      rcases ht : os.MkdirTemp env "kube-bench-update-".data w1 with ⟨r2, w2⟩
      cases r2 with
      | error e2 =>
        simp only
        obtain ⟨hfs2, hlog2⟩ := MkdirTemp_err env _ e2 w1 w2 ht
        exact ⟨fun q _ => by rw [hfs2, hfs1], hlog1.ltrans (Logged.lone _ hlog2 rfl)⟩
      | ok tmpDir =>
        simp only [ht] at hfail ⊢
        obtain ⟨htmp, _, hnode2, hlog2⟩ := MkdirTemp_ok env _ tmpDir w1 w2 ht
        subst htmp
        have hne := tempPath_ne_nil env "kube-bench-update-".data
        have hrun := updateInScratch_early env opt (tarballURL opt ref) _ w2 e hne hfail hstage
        constructor
        · intro q hq
          have hnc := not_comparable_within hfresh hq
          have h3 : ¬ pathKey env.cwd (os.tempPath env "kube-bench-update-".data) <+: q :=
            fun h => hnc (Or.inl h)
          rw [os.RemoveAll_node env _ _ q h3]
          have h4 : (updateInScratch env opt (tarballURL opt ref)
              (os.tempPath env "kube-bench-update-".data) w2).2.fs.node q = w2.fs.node q := by
            by_contra hne2
            exact hnc (hrun.1 q hne2).1
          rw [h4, hnode2, ← hfs1]
          have : q ≠ pathKey env.cwd (os.tempPath env "kube-bench-update-".data) := by
            intro h0
            apply h3
            rw [h0]
          simp [this]
        · exact (hlog1.ltrans (Logged.lone _ hlog2 rfl)).ltrans
            (hrun.2.ltrans (Logged.lone _ (os.RemoveAll_log env _ _) rfl))

end updater

/-! ## The temporary directory and the checksum gate -/

namespace updater

theorem Open_ok_node (env : Env) (path : GoString) (w w1 : World) (f : Node)
    (h : os.Open env path w = (.ok f, w1)) : w.fs.node (pathKey env.cwd path) = some f := by
  unfold os.Open at h
  simp only at h
  split at h
  · exact absurd (congrArg Prod.fst h) (by simp)
  · split at h
    · exact absurd (congrArg Prod.fst h) (by simp)
    · rename_i n hn
      have := congrArg Prod.fst h
      simp only [Except.ok.injEq] at this
      rw [hn, this]

theorem Read_ok_data (env : Env) (path : GoString) (w w1 : World) (mode : Nat)
    (data data2 : Bytes) (h : os.Read env path (.file mode data) w = (.ok data2, w1)) :
    data2 = data := by
  unfold os.Read at h
  simp only at h
  split at h
  · exact absurd (congrArg Prod.fst h) (by simp)
  · have := congrArg Prod.fst h
    simp only [Except.ok.injEq] at this
    exact this.symm

/-- A file whose digest differs from the expected value does not pass. -/
theorem verifySHA256_fails (env : Env) (path expected : GoString) (w : World) (mode : Nat)
    (data : Bytes) (hfile : w.fs.node (pathKey env.cwd path) = some (.file mode data))
    (hne : hex.EncodeToString (sha256.Sum256 data) ≠
      strings.TrimPrefix (strings.ToLower expected) "0x".data) :
    ∃ e, (verifySHA256 env path expected w).1 = some e := by
  unfold verifySHA256
  split
  · exact ⟨_, rfl⟩
  · split
    · exact ⟨_, rfl⟩
    · rename_i f w1 heq
      have hf := Open_ok_node env path w w1 f heq
      rw [hfile] at hf
      simp only [Option.some.injEq] at hf
      subst hf
      split
      · exact ⟨_, rfl⟩
      · rename_i data2 w2 heq2
        have hd := Read_ok_data env path w1 w2 mode data data2 heq2
        subst hd
        simp only
        rw [if_pos hne]
        exact ⟨_, rfl⟩

/-- The calls of `verifySHA256`: it opens, reads and closes the file. -/
theorem verifySHA256_logged (env : Env) (path expected : GoString) (w : World) :
    Logged (fun c => c = Call.openRead path ∨ c = Call.read path ∨ c = Call.close path) w
      (verifySHA256 env path expected w).2 := by
  unfold verifySHA256
  split
  · exact Logged.lrefl _ _
  · have h1 := Logged.lone (P := fun c => c = Call.openRead path ∨ c = Call.read path ∨
        c = Call.close path) (Call.openRead path) (os.Open_log env path w) (Or.inl rfl)
    have hclose : ∀ w', Logged (fun c => c = Call.openRead path ∨ c = Call.read path ∨
        c = Call.close path) w' (os.Close env path w').2 :=
      fun w' => Logged.lone _ (os.Close_log env path w') (Or.inr (Or.inr rfl))
    split
    · rename_i e w1 heq
      rw [heq] at h1
      exact h1
    · rename_i f w1 heq
      rw [heq] at h1
      have h2 := Logged.lone (P := fun c => c = Call.openRead path ∨ c = Call.read path ∨
        c = Call.close path) (Call.read path) (os.Read_log env path f w1) (Or.inr (Or.inl rfl))
      split
      · rename_i e w2 heq2
        rw [heq2] at h2
        exact (h1.ltrans h2).ltrans (hclose w2)
      · rename_i data w2 heq2
        rw [heq2] at h2
        simp only
        split
        · exact (h1.ltrans h2).ltrans (hclose w2)
        · exact (h1.ltrans h2).ltrans (hclose w2)

/-- Once the source passes the path check, `untarGz` starts by opening it. -/
theorem untarGz_log_open (env : Env) (src dest full : GoString) (w : World)
    (hname : validateFilePath (filepath.Dir src) (filepath.Base src) = .ok full) :
    LogExt (os.Open env src w).2 (untarGz env src dest w).2 := by
  unfold untarGz
  rw [hname]
  simp only
  have hclose : ∀ w', LogExt w' (os.Close env src w').2 :=
    fun w' => LogExt.xone _ (os.Close_log env src w')
  split
  · rename_i err w1 heq
    rw [heq]
    exact LogExt.xrefl _
  · rename_i f w1 heq
    rw [heq]
    simp only
    have h2 : LogExt w1 (w1.record (Call.gzipNewReader src)) := LogExt.xone _ rfl
    split
    · exact h2.xtrans (hclose _)
    · split
      · exact h2.xtrans (hclose _)
      · rename_i entries endErr heq2
        exact (h2.xtrans (LogExt.of_logged (untarLoop_run env src dest endErr entries _).2)).xtrans
          (hclose _)

theorem download_ok_name (env : Env) (url dest : GoString) (w w1 : World)
    (h : download env url dest w = (none, w1)) :
    ∃ full, validateFilePath (filepath.Dir dest) (filepath.Base dest) = .ok full := by
  unfold download at h
  split at h
  · exact absurd (congrArg Prod.fst h) (by simp)
  · split at h
    · exact absurd (congrArg Prod.fst h) (by simp)
    · split at h
      · exact absurd (congrArg Prod.fst h) (by simp)
      · split at h
        · exact absurd (congrArg Prod.fst h) (by simp)
        · rename_i full hfull
          exact ⟨full, hfull⟩

end updater

namespace updater

/-- After a download and without a checksum, `fetchBundle` goes on with the
extraction directory and, when that is made, with the opening of the archive. -/
theorem fetchBundle_no_checksum (env : Env) (opt : Options) (url tmpDir : GoString)
    (w w3 : World)
    (hdl : download env url (filepath.Join [tmpDir, "src.tar.gz".data]) w = (none, w3))
    (hc : opt.Checksum = []) :
    LogExt (os.MkdirAll env (filepath.Join [tmpDir, "extract".data]) 0o750 w3).2
      (fetchBundle env opt url tmpDir w).2 ∧
    ((os.MkdirAll env (filepath.Join [tmpDir, "extract".data]) 0o750 w3).1 = none →
      LogExt (os.Open env (filepath.Join [tmpDir, "src.tar.gz".data])
        (os.MkdirAll env (filepath.Join [tmpDir, "extract".data]) 0o750 w3).2).2
        (fetchBundle env opt url tmpDir w).2) := by
  obtain ⟨full, hname⟩ := download_ok_name env url _ w w3 hdl
  have hc2 : ¬ (opt.Checksum ≠ []) := fun h => h hc
  unfold fetchBundle
  simp only [hdl]
  rw [if_neg hc2]
  simp only
  rcases hm : os.MkdirAll env (filepath.Join [tmpDir, "extract".data]) 0o750 w3 with ⟨r, w4⟩
  cases r with
  | some e => exact ⟨LogExt.xrefl _, fun h => absurd h (by simp)⟩
  | none =>
    simp only
    have hopen := untarGz_log_open env (filepath.Join [tmpDir, "src.tar.gz".data])
      (filepath.Join [tmpDir, "extract".data]) full w4 hname
    have h0 : LogExt w4 (os.Open env (filepath.Join [tmpDir, "src.tar.gz".data]) w4).2 :=
      LogExt.xone _ (os.Open_log env _ w4)
    suffices h : LogExt (untarGz env (filepath.Join [tmpDir, "src.tar.gz".data])
        (filepath.Join [tmpDir, "extract".data]) w4).2
        (match untarGz env (filepath.Join [tmpDir, "src.tar.gz".data])
            (filepath.Join [tmpDir, "extract".data]) w4 with
          | (some e, w4) => ((Except.error (Err.wrap "extract tarball".data e) :
              Except Err GoString), w4)
          | (none, w4) =>
            match findTopLevelDir env (filepath.Join [tmpDir, "extract".data]) w4 with
            | (.error e, w5) => (.error (.wrap "locate top-level dir".data e), w5)
            | (.ok top, w5) =>
              match os.Stat env (filepath.Join [top, "cfg".data]) w5 with
              | (.error _, w6) => (.error (.cfgNotFound (filepath.Join [top, "cfg".data])), w6)
              | (.ok fi, w6) =>
                if fi.isDir then (.ok (filepath.Join [top, "cfg".data]), w6)
                else (.error (.cfgNotFound (filepath.Join [top, "cfg".data])), w6)).2 from
      ⟨(h0.xtrans hopen).xtrans h, fun _ => hopen.xtrans h⟩
    rcases hu : untarGz env (filepath.Join [tmpDir, "src.tar.gz".data])
      (filepath.Join [tmpDir, "extract".data]) w4 with ⟨r, w5⟩
    cases r with
    | some e => exact LogExt.xrefl _
    | none =>
      simp only
      have hf : LogExt w5 (findTopLevelDir env (filepath.Join [tmpDir, "extract".data]) w5).2 :=
        LogExt.of_logged (findTopLevelDir_run env _ w5 []).2
      rcases hft : findTopLevelDir env (filepath.Join [tmpDir, "extract".data]) w5 with ⟨r, w6⟩
      rw [hft] at hf
      cases r with
      | error e => exact hf
      | ok top =>
        simp only
        have hs : LogExt w6 (os.Stat env (filepath.Join [top, "cfg".data]) w6).2 :=
          LogExt.xone _ (os.Stat_log env _ w6)
        rcases hst : os.Stat env (filepath.Join [top, "cfg".data]) w6 with ⟨r, w7⟩
        rw [hst] at hs
        cases r with
        | error e => exact hf.xtrans hs
        | ok fi =>
          simp only
          split <;> exact hf.xtrans hs

/-- The calls of the work in the temporary directory are appended to the log. -/
theorem updateInScratch_fetch_log (env : Env) (opt : Options) (url tmpDir : GoString)
    (w : World) :
    LogExt (fetchBundle env opt url tmpDir w).2 (updateInScratch env opt url tmpDir w).2 := by
  unfold updateInScratch
  rcases hfb : fetchBundle env opt url tmpDir w with ⟨r1, w1⟩
  cases r1 with
  | error e => exact LogExt.xrefl _
  | ok sourceCfg =>
    simp only
    have hb := backupTarget_log env opt w1
    rcases hbt : backupTarget env opt w1 with ⟨r2, w2⟩
    rw [hbt] at hb
    cases r2 with
    | some e => exact hb
    | none => exact hb.xtrans (replaceTarget_log env opt sourceCfg w2)

theorem updateInScratch_log (env : Env) (opt : Options) (url tmpDir : GoString)
    (w : World) (hne : tmpDir ≠ []) :
    LogExt w (updateInScratch env opt url tmpDir w).2 :=
  (LogExt.of_logged (fetchBundle_run env opt url tmpDir w hne).2).xtrans
    (updateInScratch_fetch_log env opt url tmpDir w)

/-- The shape of `Update` once the temporary directory is made. -/
theorem Update_in_scratch (env : Env) (opt : Options) (w w1 w2 : World) (ref tmpDir : GoString)
    (hvalid : ¬ (opt.Source = [] ∨ opt.Ref = [] ∨ opt.TargetCfgDir = []))
    (href : resolveRef env opt w = (.ok ref, w1))
    (htmp : os.MkdirTemp env "kube-bench-update-".data w1 = (.ok tmpDir, w2)) :
    Update env opt w = ((updateInScratch env opt (tarballURL opt ref) tmpDir w2).1,
      (os.RemoveAll env tmpDir (updateInScratch env opt (tarballURL opt ref) tmpDir w2).2).2) := by
  unfold Update
  rw [if_neg hvalid]
  simp only [href, htmp]

end updater

namespace updater

set_option maxRecDepth 100000 in
/-- C9 as stated fails: in the scene of the test with an environment in which
the removal of the temporary directory fails, `Update` returns success and the
temporary directory, with the downloaded archive in it, is still there. -/
theorem Update_scratch_left_behind :
    (Update Scene.envStuck Scene.opt Scene.w0).1 = none ∧
    (Update Scene.envStuck Scene.opt Scene.w0).2.fs.node
      ["tmp".data, "kube-bench-update-42".data] = some (.dir 0o700) ∧
    (Update Scene.envStuck Scene.opt Scene.w0).2.fs.node
      ["tmp".data, "kube-bench-update-42".data, "src.tar.gz".data] =
      some (.file 0o600 [31, 139]) := by
  decide

set_option maxRecDepth 100000 in
/-- The removal can miss the temporary directory without an error.  With
`TMPDIR` written `/work/cfg/old/../..` the temporary directory is
`/work/kube-bench-update-42`, named through the directory `old` of the target.
The update replaces the target by a bundle without `old`; the kernel then
cannot walk the path of the temporary directory, `os.RemoveAll` reports no
error for it, and `Update` returns success with the directory and the
downloaded archive still there. -/
theorem Update_scratch_out_of_reach :
    (Update Scene.envNest Scene.opt Scene.wNest).1 = none ∧
    os.tempPath Scene.envNest "kube-bench-update-".data =
      "/work/cfg/old/../../kube-bench-update-42".data ∧
    (os.RemoveAll Scene.envNest "/work/cfg/old/../../kube-bench-update-42".data
      (updateInScratch Scene.envNest Scene.opt (tarballURL Scene.opt Scene.opt.Ref)
        "/work/cfg/old/../../kube-bench-update-42".data
        (os.MkdirTemp Scene.envNest "kube-bench-update-".data Scene.wNest).2).2).1 = none ∧
    os.walk (updateInScratch Scene.envNest Scene.opt (tarballURL Scene.opt Scene.opt.Ref)
        "/work/cfg/old/../../kube-bench-update-42".data
        (os.MkdirTemp Scene.envNest "kube-bench-update-".data Scene.wNest).2).2.fs
      Scene.envNest.cwd (os.trimSlashes "/work/cfg/old/../../kube-bench-update-42".data) =
      .noent ∧
    (Update Scene.envNest Scene.opt Scene.wNest).2.fs.node
      ["work".data, "kube-bench-update-42".data] = some (.dir 0o700) ∧
    (Update Scene.envNest Scene.opt Scene.wNest).2.fs.node
      ["work".data, "kube-bench-update-42".data, "src.tar.gz".data] =
      some (.file 0o600 [31, 139]) := by
  decide

end updater

namespace updater

set_option maxRecDepth 100000 in
/-- C8 at a concrete input: the run of the test with a checksum that the
archive does not have fails at the verification and leaves the target as it
was. -/
theorem Update_early_failure_witness :
    (∃ e, (Update Scene.env Scene.optSum Scene.w0).1 = some e) ∧
    (∀ q, pathKey Scene.env.cwd Scene.optSum.TargetCfgDir <+: q →
      (Update Scene.env Scene.optSum Scene.w0).2.fs.node q = Scene.w0.fs.node q) ∧
    Logged (earlyCalls Scene.env.cwd (os.tempPath Scene.env "kube-bench-update-".data))
      Scene.w0 (Update Scene.env Scene.optSum Scene.w0).2 :=
  have h : (Update Scene.env Scene.optSum Scene.w0).1 =
      some (.wrap "checksum verification failed".data
        (.sha256Mismatch (hex.EncodeToString (sha256.Sum256 [31, 139])) "00".data)) := by
    decide
  ⟨⟨_, h⟩, Update_early_failure Scene.env Scene.optSum Scene.w0 _ h
    (fun inner => ⟨fun h2 => by simp at h2, fun h2 => by simp at h2⟩)
    (by unfold comparable; decide)⟩

set_option maxRecDepth 100000 in
/-- C3 as stated fails: in an archive with the file `a` and then the file
entry `a/b`, whose name is safe and whose declared size is above the limit, the
extraction fails because the parent directory cannot be made, not with the
error of the size check. -/
theorem untarGz_large_entry_other_error :
    safeFilePath "/tmp".data "a/b".data = .ok "/tmp/a/b".data ∧
    (∀ e ∈ Scene.blockedEntries, e.hdr.Typeflag = tar.TypeReg) ∧
    (104857601 : Int) > maxSize ∧
    (untarGz Scene.envBlocked "/tmp/sha.bin".data "/tmp".data Scene.w0).1 =
      some (.os "mkdir".data "/tmp/a".data) := by
  decide

/-- C10: after a successful download, (a) when the request has a non-empty
checksum and the SHA-256 digest of the downloaded file differs from it,
`Update` returns the error `checksum verification failed`, and between the
download and the final removal of the temporary directory it has only opened,
read and closed the downloaded file, so no step of the extraction has run; (b)
when the checksum is empty, the first call after the download is the creation
of the extraction directory, and when that succeeds the next call opens the
archive for extraction: the file is not read for a verification. -/
theorem Update_checksum_gate (env : Env) (opt : Options) (w w1 w2 w3 : World)
    (ref tmpDir : GoString)
    (hvalid : ¬ (opt.Source = [] ∨ opt.Ref = [] ∨ opt.TargetCfgDir = []))
    (href : resolveRef env opt w = (.ok ref, w1))
    (htmp : os.MkdirTemp env "kube-bench-update-".data w1 = (.ok tmpDir, w2))
    (hdl : download env (tarballURL opt ref) (filepath.Join [tmpDir, "src.tar.gz".data]) w2 =
      (none, w3)) :
    (∀ mode data, opt.Checksum ≠ [] →
      w3.fs.node (pathKey env.cwd (filepath.Join [tmpDir, "src.tar.gz".data])) =
        some (.file mode data) →
      hex.EncodeToString (sha256.Sum256 data) ≠
        strings.TrimPrefix (strings.ToLower opt.Checksum) "0x".data →
      (∃ e, (Update env opt w).1 = some (.wrap "checksum verification failed".data e)) ∧
      ∃ new, (Update env opt w).2.log = Call.removeAll tmpDir :: (new ++ w3.log) ∧
        ∀ c ∈ new, c = Call.openRead (filepath.Join [tmpDir, "src.tar.gz".data]) ∨
          c = Call.read (filepath.Join [tmpDir, "src.tar.gz".data]) ∨
          c = Call.close (filepath.Join [tmpDir, "src.tar.gz".data])) ∧
    (opt.Checksum = [] →
      (∃ rest, (Update env opt w).2.log =
        rest ++ Call.mkdirAll (filepath.Join [tmpDir, "extract".data]) 0o750 :: w3.log) ∧
      ((os.MkdirAll env (filepath.Join [tmpDir, "extract".data]) 0o750 w3).1 = none →
        ∃ rest, (Update env opt w).2.log =
          rest ++ Call.openRead (filepath.Join [tmpDir, "src.tar.gz".data]) ::
            Call.mkdirAll (filepath.Join [tmpDir, "extract".data]) 0o750 :: w3.log)) := by
  rw [Update_in_scratch env opt w w1 w2 ref tmpDir hvalid href htmp]
  constructor
  · intro mode data hck hfile hne
    obtain ⟨e, he⟩ := verifySHA256_fails env _ opt.Checksum w3 mode data hfile hne
    have hlog := verifySHA256_logged env (filepath.Join [tmpDir, "src.tar.gz".data])
      opt.Checksum w3
    rcases hv : verifySHA256 env (filepath.Join [tmpDir, "src.tar.gz".data]) opt.Checksum w3
      with ⟨r, wv⟩
    rw [hv] at he hlog
    simp only at he
    subst he
    have hfb : fetchBundle env opt (tarballURL opt ref) tmpDir w2 =
        (.error (.wrap "checksum verification failed".data e), wv) := by
      unfold fetchBundle
      simp only [hdl]
      rw [if_pos hck, hv]
    have hu : updateInScratch env opt (tarballURL opt ref) tmpDir w2 =
        (some (.wrap "checksum verification failed".data e), wv) := by
      unfold updateInScratch
      rw [hfb]
    rw [hu]
    refine ⟨⟨e, rfl⟩, ?_⟩
    obtain ⟨new, hnew, hall⟩ := hlog
    exact ⟨new, by rw [os.RemoveAll_log, hnew], hall⟩
  · intro hc
    obtain ⟨h1, h2⟩ := fetchBundle_no_checksum env opt (tarballURL opt ref) tmpDir w2 w3 hdl hc
    have h3 := updateInScratch_fetch_log env opt (tarballURL opt ref) tmpDir w2
    have h4 : LogExt (updateInScratch env opt (tarballURL opt ref) tmpDir w2).2
        (os.RemoveAll env tmpDir (updateInScratch env opt (tarballURL opt ref) tmpDir w2).2).2 :=
      LogExt.xone _ (os.RemoveAll_log env tmpDir _)
    constructor
    · obtain ⟨rest, hrest⟩ := (h1.xtrans h3).xtrans h4
      exact ⟨rest, by rw [hrest, os.MkdirAll_log]⟩
    · intro hmk
      obtain ⟨rest, hrest⟩ := ((h2 hmk).xtrans h3).xtrans h4
      exact ⟨rest, by rw [hrest, os.Open_log, os.MkdirAll_log]⟩

set_option maxRecDepth 100000 in
/-- C10 at concrete inputs: the run of the test with the checksum `00`, which
the archive does not have, and the run of the test without a checksum. -/
theorem Update_checksum_gate_witness :
    (∃ e, (Update Scene.env Scene.optSum Scene.w0).1 =
      some (.wrap "checksum verification failed".data e)) ∧
    (∃ rest, (Update Scene.env Scene.opt Scene.w0).2.log =
      rest ++ Call.openRead "/tmp/kube-bench-update-42/src.tar.gz".data ::
        Call.mkdirAll "/tmp/kube-bench-update-42/extract".data 0o750 ::
        (download Scene.env (tarballURL Scene.opt Scene.opt.Ref)
          "/tmp/kube-bench-update-42/src.tar.gz".data
          (os.MkdirTemp Scene.env "kube-bench-update-".data Scene.w0).2).2.log) :=
  ⟨((Update_checksum_gate Scene.env Scene.optSum Scene.w0 Scene.w0
      (os.MkdirTemp Scene.env "kube-bench-update-".data Scene.w0).2
      (download Scene.env (tarballURL Scene.optSum Scene.optSum.Ref)
        "/tmp/kube-bench-update-42/src.tar.gz".data
        (os.MkdirTemp Scene.env "kube-bench-update-".data Scene.w0).2).2
      Scene.optSum.Ref "/tmp/kube-bench-update-42".data
      (by decide) rfl (Prod.ext (by decide) rfl) (Prod.ext (by decide) rfl)).1
      0o600 [31, 139] (by decide) (by decide) (by decide)).1,
   ((Update_checksum_gate Scene.env Scene.opt Scene.w0 Scene.w0
      (os.MkdirTemp Scene.env "kube-bench-update-".data Scene.w0).2
      (download Scene.env (tarballURL Scene.opt Scene.opt.Ref)
        "/tmp/kube-bench-update-42/src.tar.gz".data
        (os.MkdirTemp Scene.env "kube-bench-update-".data Scene.w0).2).2
      Scene.opt.Ref "/tmp/kube-bench-update-42".data
      (by decide) rfl (Prod.ext (by decide) rfl) (Prod.ext (by decide) rfl)).2
      (by decide)).2 (by decide)⟩

end updater

/-! ## The paths of the walk of `copyDir` -/

namespace filepath

theorem cleanStep_cases (k : Loc) (e : GoString) :
    (∃ x, (cleanStep true k.reverse e).reverse = k ++ [x]) ∨
    (cleanStep true k.reverse e).reverse <+: k := by
  by_cases h0 : e = [] ∨ e = ['.']
  · rw [cleanStep_skip _ _ e h0, List.reverse_reverse]; exact Or.inr (List.prefix_refl k)
  · have h1 : e ≠ [] := fun x => h0 (Or.inl x)
    have h2 : e ≠ ['.'] := fun x => h0 (Or.inr x)
    by_cases h3 : e = dotdot
    · subst h3
      cases hk : k.reverse with
      | nil =>
        rw [cleanStep_dotdot_nil]
        exact Or.inr List.nil_prefix
      | cons top rest =>
        rw [cleanStep_dotdot_cons]
        have hk2 : k = rest.reverse ++ [top] := by
          have := congrArg List.reverse hk
          simpa using this
        split
        · left
          exact ⟨dotdot, by rw [hk2]; simp⟩
        · right
          rw [hk2]
          exact List.prefix_append _ _
    · rw [cleanStep_push _ _ e h1 h2 h3]
      left
      exact ⟨e, by simp⟩

theorem stack_push_ok (r : Bool) (kept : List GoString) (ns : List GoString)
    (hk : StackOk r kept) (h : ∀ e ∈ ns, proper e ∧ e ≠ dotdot) :
    StackOk r (ns.reverse ++ kept) := by
  induction ns using List.reverseRecOn with
  | nil => simpa using hk
  | append_singleton l e ih =>
    have hl : ∀ x ∈ l, proper x ∧ x ≠ dotdot := fun x hx => h x (List.mem_append_left _ hx)
    have he := h e (List.mem_append_right _ (List.mem_singleton_self e))
    rw [List.reverse_append, List.reverse_singleton, List.singleton_append, List.cons_append]
    exact ⟨he.1, ih hl, fun hd => absurd hd he.2⟩

/-- Joining a name to a path pushes the name on the cleaned elements. -/
theorem Join_name_render (x n : GoString) (hx : x ≠ []) (hn : proper n ∧ n ≠ dotdot) :
    Join [x, n] = render (isRooted x)
      (((strings.Split '/' x).foldl (cleanStep (isRooted x)) []).reverse ++ [n]) := by
  rw [updater.Join_pair x n hx, Clean, isRooted_append _ _ hx, cleanElems, strings.Split_append,
    strings.Split_of_not_mem '/' n hn.1.2.2, List.foldl_append]
  simp only [List.foldl_cons, List.foldl_nil]
  rw [cleanStep_push _ _ n hn.1.1 hn.1.2.1 hn.2]
  simp

end filepath

namespace updater

open filepath

theorem walkPath_snoc (src : GoString) (sfx : Loc) (n : GoString) :
    walkPath src (sfx ++ [n]) = filepath.Join [walkPath src sfx, n] := by
  simp [walkPath, List.foldl_append]

/-- The path of the walk for an object below the root, in cleaned form. -/
theorem walkPath_render (src : GoString) (hsrc : src ≠ []) :
    ∀ sfx : Loc, sfx ≠ [] → (∀ e ∈ sfx, proper e ∧ e ≠ dotdot) →
      walkPath src sfx = render (isRooted src)
        (((strings.Split '/' src).foldl (cleanStep (isRooted src)) []).reverse ++ sfx) := by
  intro sfx
  induction sfx using List.reverseRecOn with
  | nil => intro h; exact absurd rfl h
  | append_singleton l n ih =>
    intro _ hall
    have hl : ∀ x ∈ l, proper x ∧ x ≠ dotdot := fun x hx => hall x (List.mem_append_left _ hx)
    have hn := hall n (List.mem_append_right _ (List.mem_singleton_self n))
    rw [walkPath_snoc]
    by_cases hl0 : l = []
    · subst hl0
      simp only [walkPath, List.foldl_nil, List.nil_append]
      exact Join_name_render src n hsrc hn
    · have hK := (Clean_eq src).2
      have hp : ∀ e ∈ ((strings.Split '/' src).foldl (cleanStep (isRooted src)) []).reverse ++ l,
          proper e := by
        intro e he
        rcases List.mem_append.1 he with he | he
        · exact StackOk_proper _ _ hK e (List.mem_reverse.1 he)
        · exact (hl e he).1
      rw [ih hl0 hl, Join_name_render _ n (render_ne_nil _ _ hp) hn, isRooted_render _ _ hp,
        foldl_Split_render _ _ _ hp, List.foldl_append, reclean _ _ hK, foldl_normals _ l hl]
      simp

theorem walkPath_key (cwd : Loc) (src : GoString) (hsrc : src ≠ []) :
    ∀ sfx : Loc, validPath sfx = true →
      pathKey cwd (walkPath src sfx) = pathKey cwd src ++ sfx := by
  intro sfx
  induction sfx using List.reverseRecOn with
  | nil => intro _; simp [walkPath]
  | append_singleton l n ih =>
    intro hv
    simp only [validPath, List.all_append, List.all_cons, List.all_nil, Bool.and_true,
      Bool.and_eq_true] at hv
    have hne : walkPath src l ≠ [] := by
      by_cases hl0 : l = []
      · subst hl0; simpa [walkPath] using hsrc
      · have hl : ∀ e ∈ l, proper e ∧ e ≠ dotdot := by
          intro e he
          exact normal_of_validName e (List.all_eq_true.1 hv.1 e he)
        rw [walkPath_render src hsrc l hl0 hl]
        apply render_ne_nil
        intro e he
        rcases List.mem_append.1 he with he | he
        · exact StackOk_proper _ _ (Clean_eq src).2 e (List.mem_reverse.1 he)
        · exact (hl e he).1
    rw [walkPath_snoc, pathKey_Join_name cwd _ n hne hv.2, ih hv.1, List.append_assoc]

end updater

namespace filepath

theorem relWalk_nil (ts : List GoString) : relWalk [] ts = some ([], ts) := by
  cases ts <;> rfl

theorem relWalk_common (X ts : List GoString) : relWalk X (X ++ ts) = some ([], ts) := by
  induction X with
  | nil => exact relWalk_nil ts
  | cons x xs ih => simp [relWalk, ih]

theorem render_ne_slash (r : Bool) (es : List GoString) (hne : es ≠ [])
    (h : ∀ e ∈ es, proper e) : render r es ≠ ['/'] := by
  obtain ⟨h1, h2⟩ := Join_ne_nil_of_proper es hne h
  cases r with
  | true =>
    simp only [render, if_true]
    intro h0
    simp only [List.cons.injEq, true_and] at h0
    exact h1 h0
  | false =>
    simp only [render, Bool.false_eq_true, if_false, hne]
    intro h0
    rw [h0] at h2
    simp [isRooted] at h2

theorem relParts_render (r : Bool) (es : List GoString) (hne : es ≠ [])
    (h : ∀ e ∈ es, proper e) : relParts (render r es) = if r then [] :: es else es := by
  unfold relParts
  rw [if_neg (render_ne_nil r es h), if_neg (render_ne_slash r es hne h), Split_render r es h]
  simp [hne]

theorem render_ne_dot (es : List GoString) (hne : es ≠ []) (h : ∀ e ∈ es, proper e) :
    render false es ≠ ['.'] := by
  intro h0
  have h1 := Split_render false es h
  rw [h0] at h1
  simp only [Bool.false_eq_true, if_false, hne] at h1
  have h2 : strings.Split '/' ['.'] = [['.']] := by decide
  rw [h2] at h1
  have := (h ['.'] (by rw [← h1]; simp)).2.1
  exact this rfl

theorem relParts_base (r : Bool) (es : List GoString) (h : ∀ e ∈ es, proper e) :
    relParts (if render r es = ['.'] then [] else render r es) = (if r then [] :: es else es) ∧
    isRooted (if render r es = ['.'] then [] else render r es) = r := by
  cases r with
  | true =>
    have h1 : render true es ≠ ['.'] := by simp [render]
    rw [if_neg h1]
    refine ⟨?_, isRooted_render true es h⟩
    by_cases he : es = []
    · subst he
      simp [render, relParts, strings.Join_nil]
    · exact relParts_render true es he h
  | false =>
    by_cases he : es = []
    · subst he
      simp [render, relParts, isRooted]
    · rw [if_neg (render_ne_dot es he h)]
      exact ⟨relParts_render false es he h, isRooted_render false es h⟩

/-- The relative path from a directory to an object below it. -/
theorem Rel_below (r : Bool) (E sfx : List GoString) (base targ : GoString)
    (hE : ∀ e ∈ E, proper e) (hs : ∀ e ∈ sfx, proper e) (hne : sfx ≠ [])
    (hb : Clean base = render r E) (ht : Clean targ = render r (E ++ sfx)) :
    Rel base targ = some (strings.Join sfx ['/']) := by
  have hall : ∀ e ∈ E ++ sfx, proper e := by
    intro e he
    rcases List.mem_append.1 he with he | he
    · exact hE e he
    · exact hs e he
  have hneq : render r (E ++ sfx) ≠ render r E := by
    intro h
    have := congrArg elemsOf h
    rw [elemsOf_render r _ hall, elemsOf_render r _ hE] at this
    exact hne (by simpa using this)
  have hne2 : E ++ sfx ≠ [] := by simp [hne]
  obtain ⟨hp1, hp2⟩ := relParts_base r E hE
  unfold Rel
  simp only [hb, ht]
  rw [if_neg hneq, hp2, isRooted_render r _ hall, hp1, relParts_render r _ hne2 hall]
  cases r with
  | true =>
    have := relWalk_common ([] :: E) sfx
    simp only [List.cons_append] at this
    simp [this]
  | false =>
    simp [relWalk_common E sfx]

theorem Rel_self (p : GoString) : Rel p p = some ['.'] := by
  simp [Rel]

end filepath

namespace updater

open filepath

theorem Rel_walk (src : GoString) (hsrc : src ≠ []) (sfx : Loc) (hne : sfx ≠ [])
    (hall : ∀ e ∈ sfx, proper e ∧ e ≠ dotdot) :
    filepath.Rel src (walkPath src sfx) = some (strings.Join sfx ['/']) := by
  have hK := (Clean_eq src).2
  have hE : ∀ e ∈ ((strings.Split '/' src).foldl (cleanStep (isRooted src)) []).reverse,
      proper e := fun e he => StackOk_proper _ _ hK e (List.mem_reverse.1 he)
  apply Rel_below (isRooted src) _ sfx src _ hE (fun e he => (hall e he).1) hne rfl
  rw [walkPath_render src hsrc sfx hne hall]
  have := Clean_render (isRooted src) _ (stack_push_ok (isRooted src) _ sfx hK hall)
  simpa using this

theorem nameElems_dot : nameElems ['.'] = [] := by decide

theorem nameElems_Join (sfx : Loc) (hne : sfx ≠ [])
    (hall : ∀ e ∈ sfx, proper e ∧ e ≠ dotdot) :
    nameElems (strings.Join sfx ['/']) = sfx := by
  have hp : ∀ e ∈ sfx, proper e := fun e he => (hall e he).1
  obtain ⟨_, hr⟩ := Join_ne_nil_of_proper sfx hne hp
  unfold nameElems
  rw [hr, strings.Split_Join '/' sfx hne (fun e he => (hp e he).2.2), cleanElems,
    foldl_normals false sfx hall]
  simp

end updater

/-! ## The objects that `copyDir` makes -/

/-- The location of a path is the location of its directory after one more
step of resolution, with the last element of the path. -/
theorem Dir_key_step (cwd : Loc) (p : GoString) :
    (filepath.cleanStep true (pathKey cwd (filepath.Dir p)).reverse
      (p.reverse.takeWhile (fun c => c != '/')).reverse).reverse = pathKey cwd p := by
  unfold filepath.Dir
  rw [pathKey_Clean]
  have hsplit := List.takeWhile_append_dropWhile (fun c => c != '/') p.reverse
  generalize hl : p.reverse.takeWhile (fun c => c != '/') = lastRev at hsplit
  generalize hd : p.reverse.dropWhile (fun c => c != '/') = preRev at hsplit
  have hp : p = preRev.reverse ++ lastRev.reverse := by
    have := congrArg List.reverse hsplit
    simpa using this.symm
  have hlast : '/' ∉ lastRev.reverse := by
    intro hm
    rw [List.mem_reverse, ← hl] at hm
    have := List.mem_takeWhile_imp hm
    simp at this
  cases hpre : preRev with
  | nil =>
    rw [hpre] at hp
    simp only [List.reverse_nil, List.nil_append] at hp
    rw [List.reverse_nil, pathKey_nil, pathKey_eq cwd p, hp,
      strings.Split_of_not_mem '/' _ hlast]
    have hr : filepath.isRooted lastRev.reverse = false := by
      cases hlr : lastRev.reverse with
      | nil => rfl
      | cons c cs =>
        rw [filepath.isRooted_cons]
        have : c ≠ '/' := by
          intro e0; apply hlast; rw [hlr, e0]; simp
        simp [this]
    rw [hr]
    simp only [startOf, Bool.false_eq_true, if_false, resolveFrom, List.foldl_cons,
      List.foldl_nil]
  | cons c cs =>
    have hc : c = '/' := by
      have hh : (p.reverse.dropWhile (fun c => c != '/')).head? = some c := by
        rw [hd, hpre]; rfl
      have := List.head?_dropWhile_not (fun c => c != '/') p.reverse
      rw [hh] at this
      simpa using this
    subst hc
    rw [hpre] at hp
    have hp2 : p = cs.reverse ++ '/' :: lastRev.reverse := by
      rw [hp]; simp
    have hr : filepath.isRooted p = filepath.isRooted ('/' :: cs).reverse := by
      rw [hp]
      exact filepath.isRooted_append _ _ (by simp)
    have hS : strings.Split '/' p = strings.Split '/' cs.reverse ++ [lastRev.reverse] := by
      rw [hp2, strings.Split_append, strings.Split_of_not_mem '/' _ hlast]
    rw [pathKey_eq, pathKey_eq cwd p, ← hr, hS]
    have e1 : ('/' :: cs).reverse = cs.reverse ++ ['/'] := by simp
    rw [e1, Split_snoc_sep]
    rw [resolveFrom_append, resolveFrom_append]
    generalize resolveFrom (startOf cwd (filepath.isRooted p)) (strings.Split '/' cs.reverse) = k
    have e2 : resolveFrom k [[]] = k := by
      rw [resolveFrom_skip k [] [] (Or.inl rfl), resolveFrom_nil]
    rw [e2]
    simp only [resolveFrom, List.foldl_cons, List.foldl_nil]

theorem Dir_key_cases (cwd : Loc) (p : GoString) :
    (∃ x, pathKey cwd p = pathKey cwd (filepath.Dir p) ++ [x]) ∨
    pathKey cwd p <+: pathKey cwd (filepath.Dir p) := by
  rw [← Dir_key_step cwd p]
  exact filepath.cleanStep_cases _ _

namespace FS

theorem mem_subtree (fs : FS) (S sfx : Loc) :
    sfx ∈ fs.subtree S ↔ fs.node (S ++ sfx) ≠ none := by
  unfold subtree
  rw [(List.perm_insertionSort _ _).mem_iff, List.mem_dedup, List.mem_map]
  constructor
  · rintro ⟨q, hq, rfl⟩
    rw [List.mem_filter] at hq
    simp only [Bool.and_eq_true, List.isPrefixOf_iff_prefix] at hq
    obtain ⟨_, ⟨t, rfl⟩, hs⟩ := hq
    simp only [List.drop_left]
    intro h0
    rw [h0] at hs
    simp at hs
  · intro h
    refine ⟨S ++ sfx, ?_, by simp⟩
    rw [List.mem_filter]
    refine ⟨fs.complete _ h, ?_⟩
    simp only [Bool.and_eq_true, List.isPrefixOf_iff_prefix]
    refine ⟨List.prefix_append _ _, ?_⟩
    cases hn : fs.node (S ++ sfx) with
    | none => exact absurd hn h
    | some n => rfl

theorem valid_suffix (fs : FS) (S sfx : Loc) (h : fs.node (S ++ sfx) ≠ none) :
    validPath sfx = true := by
  have := fs.names _ h
  simp only [validPath, List.all_append, Bool.and_eq_true] at this ⊢
  exact this.2

end FS

namespace os

theorem MkdirAll_nodes (env : Env) (path : GoString) (mode : Nat) (w : World)
    (h : (MkdirAll env path mode w).1 = none) :
    (MkdirAll env path mode w).2.fs.isDir (pathKey env.cwd path) = true ∧
    ∀ q, (MkdirAll env path mode w).2.fs.node q ≠ w.fs.node q →
      q <+: pathKey env.cwd path ∧ w.fs.node q = none ∧
      (MkdirAll env path mode w).2.fs.node q = some (.dir mode) := by
  refine ⟨MkdirAll_ok env path mode w h, ?_⟩
  unfold MkdirAll at h ⊢
  simp only at h ⊢
  split
  · rename_i hc; simp [hc] at h
  · rename_i hc
    split
    · rename_i hn; simp [hc, hn] at h
    · rename_i fs hs
      exact (FS.mkdirAll_spec _ _ _ _ hs).2

theorem OpenFile_nodes (env : Env) (path : GoString) (mode : Nat) (w : World)
    (h : (OpenFile env path mode w).1 = none) :
    w.fs.isDir (pathKey env.cwd path) = false ∧
    (∃ m, (OpenFile env path mode w).2.fs.node (pathKey env.cwd path) = some (.file m [])) ∧
    ∀ q, q ≠ pathKey env.cwd path → (OpenFile env path mode w).2.fs.node q = w.fs.node q := by
  unfold OpenFile at h ⊢
  simp only at h ⊢
  split
  · rename_i hc; simp [hc] at h
  · rename_i hc
    split
    · rename_i hn; simp [hc, hn] at h
    · rename_i fs hs
      obtain ⟨h1, ⟨m, hm, _⟩, _, h4⟩ := FS.create_spec _ _ _ _ hs
      exact ⟨h1, ⟨m, hm⟩, h4⟩

theorem Write_nodes (env : Env) (path : GoString) (data : Bytes) (w : World)
    (h : (Write env path data w).1 = none) :
    (∃ m, (Write env path data w).2.fs.node (pathKey env.cwd path) = some (.file m data)) ∧
    ∀ q, q ≠ pathKey env.cwd path → (Write env path data w).2.fs.node q = w.fs.node q := by
  unfold Write at h ⊢
  simp only at h ⊢
  split
  · rename_i hc
    simp only [hc, if_true] at h
    split at h <;> exact absurd h (by simp)
  · rename_i hc
    split
    · rename_i hn; simp [hc, hn] at h
    · rename_i fs hs
      obtain ⟨⟨m, _, _, hm⟩, h2⟩ := FS.write_spec _ _ _ _ hs
      exact ⟨⟨m, hm⟩, h2⟩

end os

namespace updater

open filepath

theorem copyEntry_rel (src : GoString) (hsrc : src ≠ []) (sfx : Loc)
    (hv : validPath sfx = true) :
    ∃ rel, filepath.Rel src (walkPath src sfx) = some rel ∧ nameElems rel = sfx := by
  by_cases h0 : sfx = []
  · subst h0
    exact ⟨['.'], by simp [walkPath, Rel_self], nameElems_dot⟩
  · have hall : ∀ e ∈ sfx, proper e ∧ e ≠ dotdot := fun e he =>
      normal_of_validName e (List.all_eq_true.1 hv e he)
    exact ⟨_, Rel_walk src hsrc sfx h0 hall, nameElems_Join sfx h0 hall⟩

theorem contentAt_dir (fs : FS) (q : Loc) (h : fs.isDir q = true) :
    fs.contentAt q = some none := by
  obtain ⟨m, hm⟩ := (FS.isDir_iff fs q).1 h
  simp [FS.contentAt, hm, Node.content]

/-- One step of the walk: the object at `sfx` below the source is made at
`sfx` below the destination, and besides that only missing directories above
it are made. -/
theorem copyEntry_spec (env : Env) (src dst : GoString) (sfx : Loc) (w w1 : World)
    (hsrc : src ≠ []) (hex : w.fs.node (pathKey env.cwd src ++ sfx) ≠ none)
    (h : copyEntry env src dst sfx w = (none, w1)) :
    w1.fs.contentAt (pathKey env.cwd dst ++ sfx) =
      w.fs.contentAt (pathKey env.cwd src ++ sfx) ∧
    ∀ q, q ≠ pathKey env.cwd dst ++ sfx →
      w1.fs.node q = w.fs.node q ∨
      (q <+: pathKey env.cwd dst ++ sfx ∧ w1.fs.node q = some (.dir 0o750)) := by
  have hv := FS.valid_suffix w.fs _ sfx hex
  obtain ⟨rel, hrel, hne⟩ := copyEntry_rel src hsrc sfx hv
  have hpk := walkPath_key env.cwd src hsrc sfx hv
  unfold copyEntry at h
  simp only [hrel] at h
  cases hsf : safeFilePath dst rel with
  | error e =>
    rw [hsf] at h
    exact absurd (congrArg Prod.fst h) (by simp)
  | ok target =>
    rw [hsf] at h
    simp only at h
    have hkey : pathKey env.cwd target = pathKey env.cwd dst ++ sfx := by
      have := (validateFilePath_key env.cwd dst rel target hsf).1
      rw [hne] at this
      exact this
    rw [hpk] at h
    by_cases hd : w.fs.isDir (pathKey env.cwd src ++ sfx) = true
    · rw [if_pos hd] at h
      have hmk := os.MkdirAll_nodes env target 0o750 w
      rcases hm : os.MkdirAll env target 0o750 w with ⟨r1, wa⟩
      rw [hm] at h hmk
      cases r1 with
      | some e => exact absurd (congrArg Prod.fst h) (by simp)
      | none =>
        simp only at h
        have hfs := os.ReadDir_fs env (walkPath src sfx) wa
        rcases hrd : os.ReadDir env (walkPath src sfx) wa with ⟨r2, wb⟩
        rw [hrd] at h hfs
        cases r2 with
        | error e => exact absurd (congrArg Prod.fst h) (by simp)
        | ok l =>
          simp only at h hfs
          have hw : w1 = wb := (congrArg Prod.snd h).symm
          subst hw
          obtain ⟨hdir2, hch2⟩ := hmk rfl
          simp only at hdir2 hch2
          rw [hkey] at hdir2 hch2
          constructor
          · rw [contentAt_dir _ _ hd, contentAt_dir _ _ (by rw [hfs]; exact hdir2)]
          · intro q _
            rw [hfs]
            by_cases hq : wa.fs.node q = w.fs.node q
            · exact Or.inl hq
            · exact Or.inr ⟨(hch2 q hq).1, (hch2 q hq).2.2⟩
    · rw [if_neg hd] at h
      have hofs := os.Open_fs env (walkPath src sfx) w
      rcases ho : os.Open env (walkPath src sfx) w with ⟨r1, wa⟩
      rw [ho] at h hofs
      cases r1 with
      | error e => exact absurd (congrArg Prod.fst h) (by simp)
      | ok f =>
        simp only at h hofs
        have hf := Open_ok_node env _ w wa f ho
        rw [hpk] at hf
        cases f with
        | dir m0 =>
          exfalso
          apply hd
          simp [FS.isDir, hf]
        | file m0 data0 =>
          have hmk := os.MkdirAll_nodes env (filepath.Dir target) 0o750 wa
          rcases hm : os.MkdirAll env (filepath.Dir target) 0o750 wa with ⟨r2, wb⟩
          rw [hm] at h hmk
          cases r2 with
          | some e => exact absurd (congrArg Prod.fst h) (by simp)
          | none =>
            simp only at h
            obtain ⟨hdirD, hchD⟩ := hmk rfl
            simp only at hdirD hchD
            have hopen := os.OpenFile_nodes env target 0o600 wb
            rcases hof : os.OpenFile env target 0o600 wb with ⟨r3, wc⟩
            rw [hof] at h hopen
            cases r3 with
            | some e => exact absurd (congrArg Prod.fst h) (by simp)
            | none =>
              simp only at h
              obtain ⟨hnd, _, hoth⟩ := hopen rfl
              simp only at hoth
              rw [hkey] at hnd hoth
              have hrfs := os.Read_fs env (walkPath src sfx) (.file m0 data0) wc
              rcases hr : os.Read env (walkPath src sfx) (.file m0 data0) wc with ⟨r4, wd⟩
              rw [hr] at h hrfs
              cases r4 with
              | error e => exact absurd (congrArg Prod.fst h) (by simp)
              | ok data =>
                simp only at h hrfs
                have hdata := Read_ok_data env _ wc wd m0 data0 data hr
                subst hdata
                have hwr := os.Write_nodes env target data wd
                rcases hwt : os.Write env target data wd with ⟨r5, we⟩
                rw [hwt] at h hwr
                cases r5 with
                | some e => exact absurd (congrArg Prod.fst h) (by simp)
                | none =>
                  simp only at h
                  obtain ⟨⟨m, hm2⟩, hoth2⟩ := hwr rfl
                  simp only at hm2 hoth2
                  rw [hkey] at hm2 hoth2
                  have hw1 : w1.fs = we.fs := by
                    have hh := congrArg Prod.snd h
                    simp only at hh
                    rw [← hh, os.Close_fs, os.Close_fs]
                  -- the directory of the target is just above the target
                  have hK : ∃ x, pathKey env.cwd dst ++ sfx =
                      pathKey env.cwd (filepath.Dir target) ++ [x] := by
                    rcases Dir_key_cases env.cwd target with hx | hx
                    · rw [← hkey]; exact hx
                    · exfalso
                      rw [hkey] at hx
                      obtain ⟨t, ht⟩ := hx
                      have : wb.fs.isDir (pathKey env.cwd dst ++ sfx) = true := by
                        by_cases ht0 : t = []
                        · subst ht0
                          rw [List.append_nil] at ht
                          rw [ht]; exact hdirD
                        · apply FS.prefix_isDir wb.fs _ t ht0
                          rw [ht]
                          obtain ⟨mm, hmm⟩ := (FS.isDir_iff _ _).1 hdirD
                          rw [hmm]; simp
                      rw [this] at hnd
                      exact absurd hnd (by simp)
                  obtain ⟨x, hx⟩ := hK
                  constructor
                  · rw [FS.contentAt, FS.contentAt, hw1, hm2, hf]
                    rfl
                  · intro q hq
                    rw [hw1, hoth2 q hq, hrfs, hoth q hq]
                    by_cases hqc : wb.fs.node q = wa.fs.node q
                    · left; rw [hqc, hofs]
                    · right
                      obtain ⟨h1, _, h3⟩ := hchD q hqc
                      refine ⟨?_, h3⟩
                      rw [hx]
                      exact h1.trans (List.prefix_append _ _)

end updater

namespace updater

theorem contentAt_congr (fs1 fs2 : FS) (p q : Loc) (h : fs1.node p = fs2.node q) :
    fs1.contentAt p = fs2.contentAt q := by
  simp [FS.contentAt, h]

theorem contentAt_eq_none (fs : FS) (q : Loc) : fs.contentAt q = none ↔ fs.node q = none := by
  simp [FS.contentAt]

/-- What lies below `S` is untouched by a step that stays on the line of
descent of an unrelated location. -/
theorem frame_of_step (S T : Loc) (w w' : World) (hST : ¬ comparable S T)
    (hs : Step (comparable T) w w') (q : Loc) (hq : S <+: q) : w'.fs.node q = w.fs.node q := by
  by_contra hne
  rcases (hs q hne).1 with h | h
  · exact hST (List.prefix_or_prefix_of_prefix hq h)
  · exact hST (Or.inl (hq.trans h))

/-- The loop of `copyDir`: when it ends without error, what lies below the
source is as before, every location below the destination is empty or holds
what the source holds at the same relative location, and the objects that
were visited are there. -/
theorem copyLoop_spec (env : Env) (src dst : GoString) (w0 : World) (hsrc : src ≠ [])
    (hST : ¬ comparable (pathKey env.cwd src) (pathKey env.cwd dst)) :
    ∀ (l : List Loc) (w w' : World),
      (∀ t ∈ l, w0.fs.node (pathKey env.cwd src ++ t) ≠ none) →
      (∀ q, pathKey env.cwd src <+: q → w.fs.node q = w0.fs.node q) →
      (∀ t, w.fs.node (pathKey env.cwd dst ++ t) = none ∨
        w.fs.contentAt (pathKey env.cwd dst ++ t) =
          w0.fs.contentAt (pathKey env.cwd src ++ t)) →
      copyLoop env src dst l w = (none, w') →
      (∀ q, pathKey env.cwd src <+: q → w'.fs.node q = w0.fs.node q) ∧
      (∀ t, w'.fs.node (pathKey env.cwd dst ++ t) = none ∨
        w'.fs.contentAt (pathKey env.cwd dst ++ t) =
          w0.fs.contentAt (pathKey env.cwd src ++ t)) ∧
      (∀ t ∈ l, w'.fs.node (pathKey env.cwd dst ++ t) ≠ none) ∧
      (∀ t, w.fs.node (pathKey env.cwd dst ++ t) ≠ none →
        w'.fs.node (pathKey env.cwd dst ++ t) ≠ none) := by
  intro l
  induction l with
  | nil =>
    intro w w' _ hfr hinv h
    unfold copyLoop at h
    have hw : w' = w := (congrArg Prod.snd h).symm
    subst hw
    exact ⟨hfr, hinv, fun t ht => absurd ht (List.not_mem_nil _), fun _ ht => ht⟩
  | cons sfx rest ih =>
    intro w w' hl hfr hinv h
    unfold copyLoop at h
    have hrun := (copyEntry_run env src dst sfx w).1
    rcases hce : copyEntry env src dst sfx w with ⟨r, w1⟩
    rw [hce] at h hrun
    cases r with
    | some e => exact absurd (congrArg Prod.fst h) (by simp)
    | none =>
      simp only at h hrun
      have hex0 := hl sfx (List.mem_cons_self _ _)
      have hex : w.fs.node (pathKey env.cwd src ++ sfx) ≠ none := by
        rw [hfr _ (List.prefix_append _ _)]; exact hex0
      obtain ⟨hcont, hoth⟩ := copyEntry_spec env src dst sfx w w1 hsrc hex hce
      have hfr1 : ∀ q, pathKey env.cwd src <+: q → w1.fs.node q = w0.fs.node q := by
        intro q hq
        rw [frame_of_step _ _ w w1 hST hrun q hq]
        exact hfr q hq
      have hsrcw : w.fs.contentAt (pathKey env.cwd src ++ sfx) =
          w0.fs.contentAt (pathKey env.cwd src ++ sfx) :=
        contentAt_congr _ _ _ _ (hfr _ (List.prefix_append _ _))
      have hnew : w1.fs.node (pathKey env.cwd dst ++ sfx) ≠ none := by
        intro h0
        have h1 := (contentAt_eq_none _ _).2 h0
        rw [hcont] at h1
        exact hex ((contentAt_eq_none _ _).1 h1)
      have hstep : ∀ t, t ≠ sfx →
          w1.fs.node (pathKey env.cwd dst ++ t) = w.fs.node (pathKey env.cwd dst ++ t) ∨
          (t <+: sfx ∧ w1.fs.node (pathKey env.cwd dst ++ t) = some (.dir 0o750)) := by
        intro t ht
        have hne : pathKey env.cwd dst ++ t ≠ pathKey env.cwd dst ++ sfx :=
          fun h0 => ht (List.append_cancel_left h0)
        rcases hoth _ hne with h1 | ⟨h1, h2⟩
        · exact Or.inl h1
        · exact Or.inr ⟨(List.prefix_append_right_inj _).1 h1, h2⟩
      have hinv1 : ∀ t, w1.fs.node (pathKey env.cwd dst ++ t) = none ∨
          w1.fs.contentAt (pathKey env.cwd dst ++ t) =
            w0.fs.contentAt (pathKey env.cwd src ++ t) := by
        intro t
        by_cases ht : t = sfx
        · subst ht
          exact Or.inr (hcont.trans hsrcw)
        · rcases hstep t ht with h1 | ⟨h1, h2⟩
          · rcases hinv t with h3 | h3
            · exact Or.inl (h1.trans h3)
            · exact Or.inr ((contentAt_congr _ _ _ _ h1).trans h3)
          · right
            obtain ⟨u, hu⟩ := h1
            have hu0 : u ≠ [] := by
              intro h0
              subst h0
              rw [List.append_nil] at hu
              exact ht hu
            have hd : w0.fs.isDir (pathKey env.cwd src ++ t) = true := by
              apply FS.prefix_isDir w0.fs _ u hu0
              rw [List.append_assoc, hu]
              exact hex0
            rw [contentAt_dir _ _ hd, FS.contentAt, h2]
            rfl
      have hkeep : ∀ t, w.fs.node (pathKey env.cwd dst ++ t) ≠ none →
          w1.fs.node (pathKey env.cwd dst ++ t) ≠ none := by
        intro t ht
        by_cases hts : t = sfx
        · subst hts; exact hnew
        · rcases hstep t hts with h1 | ⟨_, h2⟩
          · rw [h1]; exact ht
          · rw [h2]; simp
      obtain ⟨r1, r2, r3, r4⟩ := ih w1 w'
        (fun t ht => hl t (List.mem_cons_of_mem _ ht)) hfr1 hinv1 h
      refine ⟨r1, r2, ?_, fun t ht => r4 t (hkeep t ht)⟩
      intro t ht
      rcases List.mem_cons.1 ht with rfl | ht
      · exact r4 _ hnew
      · exact r3 t ht

/-- The copy of a directory into a place where nothing is: when `copyDir`
returns without error, every location below the destination holds what the
source holds at the same relative location, and nothing else. -/
theorem copyDir_spec (env : Env) (src dst : GoString) (w w' : World) (hsrc : src ≠ [])
    (hST : ¬ comparable (pathKey env.cwd src) (pathKey env.cwd dst))
    (hempty : ∀ t, w.fs.node (pathKey env.cwd dst ++ t) = none)
    (h : copyDir env src dst w = (none, w')) :
    ∀ t, w'.fs.contentAt (pathKey env.cwd dst ++ t) =
      w.fs.contentAt (pathKey env.cwd src ++ t) := by
  unfold copyDir at h
  have hfs := os.Lstat_fs env src w
  rcases hl : os.Lstat env src w with ⟨r, wl⟩
  rw [hl] at h hfs
  cases r with
  | error e => exact absurd (congrArg Prod.fst h) (by simp)
  | ok n =>
    simp only at h hfs
    obtain ⟨_, r2, r3, _⟩ := copyLoop_spec env src dst wl hsrc hST
      (wl.fs.subtree (pathKey env.cwd src)) wl w'
      (fun t ht => (FS.mem_subtree _ _ _).1 ht) (fun _ _ => rfl)
      (fun t => Or.inl (by rw [hfs]; exact hempty t)) h
    intro t
    rw [← hfs]
    by_cases hs : wl.fs.node (pathKey env.cwd src ++ t) = none
    · rcases r2 t with h1 | h1
      · rw [(contentAt_eq_none _ _).2 h1, (contentAt_eq_none _ _).2 hs]
      · exact h1
    · rcases r2 t with h1 | h1
      · exact absurd h1 (r3 t ((FS.mem_subtree _ _ _).2 hs))
      · exact h1

end updater

namespace FS

theorem children_valid (fs : FS) (p : Loc) (n : GoString) (h : n ∈ fs.children p) :
    validName n = true := by
  unfold children at h
  rw [(List.perm_insertionSort _ _).mem_iff, List.mem_dedup, List.mem_filterMap] at h
  obtain ⟨q, _, hq⟩ := h
  split at hq
  · rename_i hc
    have hv := fs.names q (by
      intro h0
      rw [h0] at hc
      simp at hc)
    have hl : n ∈ q := List.mem_of_mem_getLast? hq
    exact List.all_eq_true.1 hv n hl
  · exact absurd hq (by simp)

end FS

namespace updater

theorem Join_pair_ne_nil (a n : GoString) (ha : a ≠ []) : filepath.Join [a, n] ≠ [] := by
  rw [Join_pair a n ha]
  exact filepath.Clean_ne_nil _

theorem findTopLevelDir_ok (env : Env) (root top : GoString) (w w1 : World)
    (h : findTopLevelDir env root w = (.ok top, w1)) :
    ∃ name, validName name = true ∧ top = filepath.Join [root, name] := by
  unfold findTopLevelDir at h
  split at h
  · exact absurd (congrArg Prod.fst h) (by simp)
  · rename_i entries w2 heq
    split at h
    · rename_i e he
      have hmem := List.mem_of_find?_eq_some he
      have htop := congrArg Prod.fst h
      simp only [Except.ok.injEq] at htop
      refine ⟨e.1, ?_, htop.symm⟩
      unfold os.ReadDir at heq
      simp only at heq
      split at heq
      · exact absurd (congrArg Prod.fst heq) (by simp)
      · have hl := congrArg Prod.fst heq
        simp only [Except.ok.injEq] at hl
        rw [← hl, List.mem_map] at hmem
        obtain ⟨n, hn, rfl⟩ := hmem
        exact FS.children_valid _ _ n hn
    · exact absurd (congrArg Prod.fst h) (by simp)

/-- Where the bundle is when `fetchBundle` has found it: three levels below
the temporary directory. -/
theorem fetchBundle_ok (env : Env) (opt : Options) (url tmpDir sourceCfg : GoString)
    (w w3 : World) (hne : tmpDir ≠ [])
    (h : fetchBundle env opt url tmpDir w = (.ok sourceCfg, w3)) :
    sourceCfg ≠ [] ∧
    ∃ name, pathKey env.cwd sourceCfg =
      pathKey env.cwd tmpDir ++ ["extract".data, name, "cfg".data] := by
  unfold fetchBundle at h
  simp only at h
  split at h
  · exact absurd (congrArg Prod.fst h) (by simp)
  · split at h
    · exact absurd (congrArg Prod.fst h) (by simp)
    · split at h
      · exact absurd (congrArg Prod.fst h) (by simp)
      · split at h
        · exact absurd (congrArg Prod.fst h) (by simp)
        · split at h
          · exact absurd (congrArg Prod.fst h) (by simp)
          · rename_i top w5 hft
            obtain ⟨name, hname, htop⟩ := findTopLevelDir_ok env _ top _ w5 hft
            have hsc : sourceCfg = filepath.Join [top, "cfg".data] := by
              split at h
              · exact absurd (congrArg Prod.fst h) (by simp)
              · split at h
                · have := congrArg Prod.fst h
                  simp only [Except.ok.injEq] at this
                  exact this.symm
                · exact absurd (congrArg Prod.fst h) (by simp)
            have he : filepath.Join [tmpDir, "extract".data] ≠ [] := Join_pair_ne_nil _ _ hne
            have ht : top ≠ [] := by rw [htop]; exact Join_pair_ne_nil _ _ he
            refine ⟨by rw [hsc]; exact Join_pair_ne_nil _ _ ht, name, ?_⟩
            rw [hsc, pathKey_Join_name env.cwd top _ ht validName_cfg, htop,
              pathKey_Join_name env.cwd _ name he hname,
              pathKey_Join_name env.cwd tmpDir _ hne validName_extract]
            simp

end updater

namespace updater

theorem not_comparable_below {tmp S X : Loc} (h : ¬ comparable tmp X) (hS : tmp <+: S) :
    ¬ comparable S X := by
  intro hc
  rcases hc with hc | hc
  · exact h (Or.inl (hS.trans hc))
  · exact h (List.prefix_or_prefix_of_prefix hS hc)

/-- The steps of a successful run after the bundle is found. -/
theorem updateInScratch_ok (env : Env) (opt : Options) (url tmpDir sourceCfg : GoString)
    (w w3 : World) (hfetch : fetchBundle env opt url tmpDir w = (.ok sourceCfg, w3))
    (hok : (updateInScratch env opt url tmpDir w).1 = none) :
    ∃ w4 w5 w6, backupTarget env opt w3 = (none, w4) ∧
      os.RemoveAll env opt.TargetCfgDir w4 = (none, w5) ∧
      copyDir env sourceCfg opt.TargetCfgDir w5 = (none, w6) ∧
      updateInScratch env opt url tmpDir w = (none, w6) := by
  unfold updateInScratch at hok ⊢
  rw [hfetch] at hok ⊢
  simp only at hok ⊢
  rcases hb : backupTarget env opt w3 with ⟨r, w4⟩
  rw [hb] at hok
  cases r with
  | some e => exact absurd hok (by simp)
  | none =>
    simp only at hok ⊢
    unfold replaceTarget at hok ⊢
    rcases hrm : os.RemoveAll env opt.TargetCfgDir w4 with ⟨r2, w5⟩
    rw [hrm] at hok
    cases r2 with
    | some e => exact absurd hok (by simp)
    | none =>
      simp only at hok ⊢
      rcases hcd : copyDir env sourceCfg opt.TargetCfgDir w5 with ⟨r3, w6⟩
      rw [hcd] at hok
      cases r3 with
      | some e => exact absurd hok (by simp)
      | none =>
        exact ⟨w4, w5, w6, rfl, hrm, hcd, rfl⟩

/-- What the backup does to the file system: nothing, or the rename of the
target to the backup path. -/
theorem backupTarget_fs (env : Env) (opt : Options) (w w4 : World)
    (h : backupTarget env opt w = (none, w4)) :
    w4.fs = w.fs ∨
    (opt.BackupEnabled = true ∧
      w.fs.rename (pathKey env.cwd opt.TargetCfgDir) (pathKey env.cwd (backupPath env opt)) =
        some w4.fs) := by
  unfold backupTarget at h
  split at h
  · rename_i hen
    have hsfs := os.Stat_fs env opt.TargetCfgDir w
    split at h
    · rename_i e w1 hst
      rw [hst] at hsfs
      left
      have hw : w4 = w1 := (congrArg Prod.snd h).symm
      subst hw
      exact hsfs
    · rename_i n w1 hst
      rw [hst] at hsfs
      simp only at hsfs
      have hro := os.Rename_ok env opt.TargetCfgDir (backupPath env opt) w1
      split at h
      · exact absurd (congrArg Prod.fst h) (by simp)
      · rename_i w2 hrn
        rw [hrn] at hro
        have hw : w4 = w2 := (congrArg Prod.snd h).symm
        subst hw
        right
        refine ⟨hen, ?_⟩
        rw [← hsfs]
        exact hro rfl
  · left
    have hw : w4 = w := (congrArg Prod.snd h).symm
    rw [hw]

theorem isPrefixOf_false {a q : Loc} (h : ¬ a <+: q) : a.isPrefixOf q = false := by
  cases hq : a.isPrefixOf q with
  | false => rfl
  | true => exact absurd (List.isPrefixOf_iff_prefix.1 hq) h

/-- The backup leaves alone what lies below a location that is related
neither to the target nor to the backup path. -/
theorem backupTarget_frame (env : Env) (opt : Options) (w w4 : World) (S : Loc)
    (hT : ¬ comparable S (pathKey env.cwd opt.TargetCfgDir))
    (hB : opt.BackupEnabled = true → ¬ comparable S (pathKey env.cwd (backupPath env opt)))
    (h : backupTarget env opt w = (none, w4)) :
    ∀ q, S <+: q → w4.fs.node q = w.fs.node q := by
  intro q hq
  rcases backupTarget_fs env opt w w4 h with hfs | ⟨hen, hrn⟩
  · rw [hfs]
  · rcases FS.rename_spec _ _ _ _ hrn with ⟨_, hfs⟩ | ⟨_, hnode⟩
    · rw [hfs]
    · rw [hnode q, isPrefixOf_false (fun hb => hB hen (List.prefix_or_prefix_of_prefix hq hb)),
        isPrefixOf_false (fun ht => hT (List.prefix_or_prefix_of_prefix hq ht))]
      simp

/-- What the target holds after a successful run in which the removal of the
target has left nothing at its location. -/
theorem Update_target_content (env : Env) (opt : Options) (w w1 w2 w3 w4 : World)
    (ref tmpDir sourceCfg : GoString)
    (hvalid : ¬ (opt.Source = [] ∨ opt.Ref = [] ∨ opt.TargetCfgDir = []))
    (href : resolveRef env opt w = (.ok ref, w1))
    (htmp : os.MkdirTemp env "kube-bench-update-".data w1 = (.ok tmpDir, w2))
    (hfetch : fetchBundle env opt (tarballURL opt ref) tmpDir w2 = (.ok sourceCfg, w3))
    (hok : (Update env opt w).1 = none)
    (hb4 : backupTarget env opt w3 = (none, w4))
    (hclear : ∀ w5, os.RemoveAll env opt.TargetCfgDir w4 = (none, w5) →
      ∀ t, w5.fs.node (pathKey env.cwd opt.TargetCfgDir ++ t) = none)
    (hfreshT : ¬ comparable (pathKey env.cwd tmpDir) (pathKey env.cwd opt.TargetCfgDir))
    (hfreshB : opt.BackupEnabled = true →
      ¬ comparable (pathKey env.cwd tmpDir) (pathKey env.cwd (backupPath env opt))) :
    ∀ sfx, (Update env opt w).2.fs.contentAt (pathKey env.cwd opt.TargetCfgDir ++ sfx) =
      w3.fs.contentAt (pathKey env.cwd sourceCfg ++ sfx) := by
  have hne : tmpDir ≠ [] := by
    rw [(MkdirTemp_ok env _ tmpDir w1 w2 htmp).1]
    exact tempPath_ne_nil env _
  obtain ⟨hsrc, name, hS⟩ := fetchBundle_ok env opt _ tmpDir sourceCfg w2 w3 hne hfetch
  have htS : pathKey env.cwd tmpDir <+: pathKey env.cwd sourceCfg := by
    rw [hS]; exact List.prefix_append _ _
  have hST := not_comparable_below hfreshT htS
  rw [Update_in_scratch env opt w w1 w2 ref tmpDir hvalid href htmp] at hok ⊢
  simp only at hok ⊢
  obtain ⟨w4b, w5, w6, hb, hrm, hcd, hu⟩ := updateInScratch_ok env opt _ tmpDir sourceCfg w2 w3
    hfetch hok
  have h44 : w4b = w4 := by
    have := hb.symm.trans hb4
    exact congrArg Prod.snd this
  subst h44
  rw [hu]
  simp only
  intro sfx
  have h1 : ¬ pathKey env.cwd tmpDir <+: pathKey env.cwd opt.TargetCfgDir ++ sfx :=
    fun h => hfreshT (List.prefix_or_prefix_of_prefix h (List.prefix_append _ _))
  have h2 : ¬ pathKey env.cwd opt.TargetCfgDir <+: pathKey env.cwd sourceCfg ++ sfx :=
    fun h => hST (Or.symm (List.prefix_or_prefix_of_prefix h (List.prefix_append _ _)))
  have hempty : ∀ t, w5.fs.node (pathKey env.cwd opt.TargetCfgDir ++ t) = none := hclear w5 hrm
  have h54 : w5.fs.node (pathKey env.cwd sourceCfg ++ sfx) =
      w4b.fs.node (pathKey env.cwd sourceCfg ++ sfx) := by
    have := os.RemoveAll_node env opt.TargetCfgDir w4b _ h2
    rw [hrm] at this
    exact this
  rw [contentAt_congr _ w6.fs _ _ (os.RemoveAll_node env tmpDir w6 _ h1),
    copyDir_spec env sourceCfg opt.TargetCfgDir w5 w6 hsrc hST hempty hcd sfx,
    contentAt_congr _ _ _ _ h54]
  exact contentAt_congr _ _ _ _ (backupTarget_frame env opt w3 w4b _ hST
    (fun hen => not_comparable_below (hfreshB hen) htS) hb _ (List.prefix_append _ _))

/-- The replacement where the kernel can walk the target path: for a request
whose bundle has been fetched (found at `sourceCfg`), when `Update` returns
success and the path of the target can be walked at the time of its removal,
every location below the target holds exactly what the `cfg` directory of the
extracted bundle holds at the same relative location, whatever the target
held before.  The temporary directory is assumed to lie neither inside nor
above the target and the backup path. -/
theorem Update_replaces_walked (env : Env) (opt : Options) (w w1 w2 w3 w4 : World)
    (ref tmpDir sourceCfg : GoString)
    (hvalid : ¬ (opt.Source = [] ∨ opt.Ref = [] ∨ opt.TargetCfgDir = []))
    (href : resolveRef env opt w = (.ok ref, w1))
    (htmp : os.MkdirTemp env "kube-bench-update-".data w1 = (.ok tmpDir, w2))
    (hfetch : fetchBundle env opt (tarballURL opt ref) tmpDir w2 = (.ok sourceCfg, w3))
    (hok : (Update env opt w).1 = none)
    (hb4 : backupTarget env opt w3 = (none, w4))
    (hwalk : os.walk w4.fs env.cwd (os.trimSlashes opt.TargetCfgDir) = .found)
    (hfreshT : ¬ comparable (pathKey env.cwd tmpDir) (pathKey env.cwd opt.TargetCfgDir))
    (hfreshB : opt.BackupEnabled = true →
      ¬ comparable (pathKey env.cwd tmpDir) (pathKey env.cwd (backupPath env opt))) :
    ∀ sfx, (Update env opt w).2.fs.contentAt (pathKey env.cwd opt.TargetCfgDir ++ sfx) =
      w3.fs.contentAt (pathKey env.cwd sourceCfg ++ sfx) := by
  have hTne : opt.TargetCfgDir ≠ [] := fun h0 => hvalid (Or.inr (Or.inr h0))
  refine Update_target_content env opt w w1 w2 w3 w4 ref tmpDir sourceCfg hvalid href htmp hfetch
    hok hb4 ?_ hfreshT hfreshB
  intro w5 hrm t
  have := os.RemoveAll_ok env opt.TargetCfgDir w4 (by rw [hrm]) hTne hwalk
    (pathKey env.cwd opt.TargetCfgDir ++ t) (List.prefix_append _ _)
  rw [hrm] at this
  exact this

end updater

namespace updater

set_option maxRecDepth 100000 in
/-- C6 (the code at the failing input): the request of the test with the
target written `/work/x/../cfg`, where no directory `/work/x` exists and
`/work/cfg` holds the file `old.txt`.  `os.Stat` and `os.RemoveAll` get the
path as it is written, so the kernel finds nothing: no backup is made and
nothing is removed, while `copyDir` writes through the cleaned path
`/work/cfg`.  `Update` returns success, with and without the backup, and the
target holds the file `old.txt` as before beside the file
`cis-1.11/sample.yaml` of the bundle. -/
theorem Update_keeps_old_file :
    ((Update Scene.env Scene.optDotsPlain Scene.w0).1 = none ∧
      (Update Scene.env Scene.optDotsPlain Scene.w0).2.fs.node
        ["work".data, "cfg".data, "old.txt".data] = some (.file 0o644 (Scene.bytes "old")) ∧
      (Update Scene.env Scene.optDotsPlain Scene.w0).2.fs.node
        ["work".data, "cfg".data, "cis-1.11".data, "sample.yaml".data] =
        some (.file 0o600 (Scene.bytes "key: value\n"))) ∧
    ((Update Scene.env Scene.optDots Scene.w0).1 = none ∧
      (Update Scene.env Scene.optDots Scene.w0).2.fs.node
        ["work".data, "cfg".data, "old.txt".data] = some (.file 0o644 (Scene.bytes "old")) ∧
      (Update Scene.env Scene.optDots Scene.w0).2.fs.node
        ["work".data, "cfg".data, "cis-1.11".data, "sample.yaml".data] =
        some (.file 0o600 (Scene.bytes "key: value\n")) ∧
      (Update Scene.env Scene.optDots Scene.w0).2.fs.node
        (pathKey Scene.env.cwd (backupPath Scene.env Scene.optDots)) = none) ∧
    pathKey Scene.env.cwd Scene.optDots.TargetCfgDir = ["work".data, "cfg".data] ∧
    os.walk Scene.w0.fs Scene.env.cwd Scene.optDots.TargetCfgDir = .noent := by
  decide

set_option maxRecDepth 100000 in
/-- The replacement at the run of the test, whose target path `/work/cfg` the
kernel can walk: afterwards the target holds the file `cis-1.11/sample.yaml`
of the bundle and no longer the file `old.txt`; and after a second run on the
state that the first run has left, the target holds the same. -/
theorem Update_replaces_walked_test :
    ((Update Scene.env Scene.opt Scene.w0).2.fs.contentAt
        (pathKey Scene.env.cwd Scene.opt.TargetCfgDir ++
          ["cis-1.11".data, "sample.yaml".data]) =
        some (some (Scene.bytes "key: value\n")) ∧
      (Update Scene.env Scene.opt Scene.w0).2.fs.contentAt
        (pathKey Scene.env.cwd Scene.opt.TargetCfgDir ++ ["old.txt".data]) = none) ∧
    ((Update Scene.envLater Scene.opt Scene.w1).2.fs.contentAt
        (pathKey Scene.envLater.cwd Scene.opt.TargetCfgDir ++
          ["cis-1.11".data, "sample.yaml".data]) =
        some (some (Scene.bytes "key: value\n")) ∧
      (Update Scene.envLater Scene.opt Scene.w1).2.fs.contentAt
        (pathKey Scene.envLater.cwd Scene.opt.TargetCfgDir ++ ["old.txt".data]) = none) :=
  have first := Update_replaces_walked Scene.env Scene.opt Scene.w0 Scene.w0
    (os.MkdirTemp Scene.env "kube-bench-update-".data Scene.w0).2
    (fetchBundle Scene.env Scene.opt (tarballURL Scene.opt Scene.opt.Ref)
      "/tmp/kube-bench-update-42".data
      (os.MkdirTemp Scene.env "kube-bench-update-".data Scene.w0).2).2
    (backupTarget Scene.env Scene.opt
      (fetchBundle Scene.env Scene.opt (tarballURL Scene.opt Scene.opt.Ref)
        "/tmp/kube-bench-update-42".data
        (os.MkdirTemp Scene.env "kube-bench-update-".data Scene.w0).2).2).2
    Scene.opt.Ref "/tmp/kube-bench-update-42".data Scene.sourceCfg
    (by decide) rfl (Prod.ext (by decide) rfl) (Prod.ext (by decide) rfl) (by decide)
    (Prod.ext (by decide) rfl) (by decide)
    (by unfold comparable; decide) (fun _ => by unfold comparable; decide)
  have second := Update_replaces_walked Scene.envLater Scene.opt Scene.w1 Scene.w1
    (os.MkdirTemp Scene.envLater "kube-bench-update-".data Scene.w1).2
    (fetchBundle Scene.envLater Scene.opt (tarballURL Scene.opt Scene.opt.Ref)
      "/tmp/kube-bench-update-42".data
      (os.MkdirTemp Scene.envLater "kube-bench-update-".data Scene.w1).2).2
    (backupTarget Scene.envLater Scene.opt
      (fetchBundle Scene.envLater Scene.opt (tarballURL Scene.opt Scene.opt.Ref)
        "/tmp/kube-bench-update-42".data
        (os.MkdirTemp Scene.envLater "kube-bench-update-".data Scene.w1).2).2).2
    Scene.opt.Ref "/tmp/kube-bench-update-42".data Scene.sourceCfg
    (by decide) rfl (Prod.ext (by decide) rfl) (Prod.ext (by decide) rfl) (by decide)
    (Prod.ext (by decide) rfl) (by decide)
    (by unfold comparable; decide) (fun _ => by unfold comparable; decide)
  ⟨⟨(first _).trans (by decide), (first _).trans (by decide)⟩,
   ⟨(second _).trans (by decide), (second _).trans (by decide)⟩⟩

end updater

/-! ## The backup path -/

namespace time

theorem digitChar_ne_slash : ∀ d, d < 10 → Nat.digitChar d ≠ '/' := by decide

theorem toDigitsCore_no_slash : ∀ (fuel n : Nat) (ds : List Char), (∀ c ∈ ds, c ≠ '/') →
    ∀ c ∈ Nat.toDigitsCore 10 fuel n ds, c ≠ '/' := by
  intro fuel
  induction fuel with
  | zero => intro n ds h; simpa [Nat.toDigitsCore] using h
  | succ k ih =>
    intro n ds h
    have hd : ∀ c ∈ Nat.digitChar (n % 10) :: ds, c ≠ '/' := by
      intro c hc
      rcases List.mem_cons.1 hc with rfl | hc
      · exact digitChar_ne_slash _ (Nat.mod_lt _ (by decide))
      · exact h c hc
    unfold Nat.toDigitsCore
    simp only
    split
    · exact hd
    · exact ih _ _ hd

theorem appendInt_no_slash (n width : Nat) : '/' ∉ appendInt n width := by
  intro h
  unfold appendInt at h
  simp only [List.mem_append] at h
  rcases h with h | h
  · have := List.eq_of_mem_replicate h
    exact absurd this (by decide)
  · exact toDigitsCore_no_slash _ _ [] (fun _ hc => absurd hc (List.not_mem_nil _)) _ h rfl

theorem Format_no_slash (t : Time) : '/' ∉ Format t := by
  unfold Format
  simp only [List.mem_append, not_or]
  exact ⟨⟨⟨⟨⟨⟨appendInt_no_slash _ _, appendInt_no_slash _ _⟩, appendInt_no_slash _ _⟩,
    by decide⟩, appendInt_no_slash _ _⟩, appendInt_no_slash _ _⟩, appendInt_no_slash _ _⟩

end time

namespace strings

theorem TrimRight_split (s : GoString) (c : Char) :
    ∃ k, s = TrimRight s c ++ List.replicate k c := by
  have h := List.takeWhile_append_dropWhile (fun x => x == c) s.reverse
  generalize hA : s.reverse.takeWhile (fun x => x == c) = A at h
  have hAll : ∀ b ∈ A, b = c := by
    intro b hb
    rw [← hA] at hb
    simpa using List.mem_takeWhile_imp hb
  have hr : A.reverse = List.replicate A.length c := by
    rw [List.eq_replicate_iff]
    exact ⟨by simp, fun b hb => hAll b (List.mem_reverse.1 hb)⟩
  refine ⟨A.length, ?_⟩
  have h2 := congrArg List.reverse h
  rw [List.reverse_append, List.reverse_reverse, hr] at h2
  exact h2.symm

end strings

namespace filepath

theorem cleanStep_ne (k : Loc) (e suf : GoString) (hs : suf ≠ []) :
    (cleanStep true k.reverse e).reverse ≠ k ++ [e ++ suf] := by
  have hne : e ≠ e ++ suf := fun h => hs (by simpa using h)
  by_cases h0 : e = [] ∨ e = ['.']
  · rw [cleanStep_skip _ _ e h0, List.reverse_reverse]
    intro h
    simp at h
  · have h1 : e ≠ [] := fun x => h0 (Or.inl x)
    have h2 : e ≠ ['.'] := fun x => h0 (Or.inr x)
    by_cases h3 : e = dotdot
    · cases hk : k.reverse with
      | nil =>
        rw [h3, cleanStep_dotdot_nil]
        intro h
        simp at h
      | cons top rest =>
        have hk2 : k = rest.reverse ++ [top] := by
          have := congrArg List.reverse hk
          simpa using this
        rw [h3, cleanStep_dotdot_cons]
        split
        · intro h
          rw [hk2] at h
          simp only [List.reverse_cons, List.append_assoc, List.append_cancel_left_eq,
            List.cons.injEq, and_true, true_and] at h
          exact hs (by simpa using h)
        · intro h
          rw [hk2] at h
          have := congrArg List.length h
          simp at this
    · rw [cleanStep_push _ _ e h1 h2 h3]
      intro h
      simp only [List.reverse_cons, List.reverse_reverse, List.append_cancel_left_eq,
        List.cons.injEq, and_true] at h
      exact hne h

end filepath

theorem pathKey_trailing (cwd : Loc) (s : GoString) (hs : s ≠ []) :
    ∀ k, pathKey cwd (s ++ List.replicate k '/') = pathKey cwd s := by
  intro k
  induction k with
  | zero => simp
  | succ k ih =>
    rw [List.replicate_succ', ← List.append_assoc, pathKey_eq,
      filepath.isRooted_append _ _ (by simp [hs]), Split_snoc_sep, resolveFrom_append,
      ← pathKey_eq, ih, resolveFrom_skip _ [] [] (Or.inl rfl), resolveFrom_nil]

namespace updater

/-- The path of the backup names the directory of the trimmed target, and
in it an entry whose name ends in the suffix. -/
theorem backup_key (cwd : Loc) (s suf : GoString) (hsl : '/' ∉ suf) (hb : 'b' ∈ suf) :
    pathKey cwd (s ++ suf) = pathKey cwd (filepath.Dir s) ++
      [(s.reverse.takeWhile (fun c => c != '/')).reverse ++ suf] := by
  have hall : ∀ a ∈ suf.reverse, (fun c => c != '/') a = true := by
    intro a ha
    have : a ≠ '/' := fun h0 => hsl (by rw [← h0]; exact List.mem_reverse.1 ha)
    simpa using this
  have hdir : filepath.Dir (s ++ suf) = filepath.Dir s := by
    unfold filepath.Dir
    rw [List.reverse_append, List.dropWhile_append_of_pos hall]
  have hlast : ((s ++ suf).reverse.takeWhile (fun c => c != '/')).reverse =
      (s.reverse.takeWhile (fun c => c != '/')).reverse ++ suf := by
    rw [List.reverse_append, List.takeWhile_append_of_pos hall]
    simp
  have hstep := Dir_key_step cwd (s ++ suf)
  rw [hdir, hlast] at hstep
  rw [← hstep]
  have hmem : 'b' ∈ (s.reverse.takeWhile (fun c => c != '/')).reverse ++ suf :=
    List.mem_append_right _ hb
  rw [filepath.cleanStep_push]
  · simp
  · intro h0; rw [h0] at hmem; exact absurd hmem (by simp)
  · intro h0; rw [h0] at hmem; exact absurd hmem (by decide)
  · intro h0; rw [h0] at hmem; exact absurd hmem (by decide)

theorem backupPath_key_ne (env : Env) (opt : Options) (hT : opt.TargetCfgDir ≠ []) :
    pathKey env.cwd opt.TargetCfgDir ≠ pathKey env.cwd (backupPath env opt) := by
  have hsl : '/' ∉ ".bak-".data ++ time.Format env.now := by
    intro h
    rcases List.mem_append.1 h with h | h
    · exact absurd h (by decide)
    · exact time.Format_no_slash _ h
  have hb : 'b' ∈ ".bak-".data ++ time.Format env.now :=
    List.mem_append_left _ (by decide)
  have hB : pathKey env.cwd (backupPath env opt) =
      pathKey env.cwd (filepath.Dir (strings.TrimRight opt.TargetCfgDir '/')) ++
        [((strings.TrimRight opt.TargetCfgDir '/').reverse.takeWhile
          (fun c => c != '/')).reverse ++ (".bak-".data ++ time.Format env.now)] := by
    unfold backupPath
    rw [List.append_assoc]
    exact backup_key env.cwd (strings.TrimRight opt.TargetCfgDir '/') _ hsl hb
  rw [hB]
  obtain ⟨k, hk⟩ := strings.TrimRight_split opt.TargetCfgDir '/'
  by_cases hs : strings.TrimRight opt.TargetCfgDir '/' = []
  · rw [hs] at hk
    simp only [List.nil_append] at hk
    have hT0 : pathKey env.cwd opt.TargetCfgDir = [] := by
      rw [hk]
      cases k with
      | zero => rw [hk] at hT; exact absurd rfl hT
      | succ j =>
        rw [List.replicate_succ, ← List.singleton_append,
          pathKey_trailing env.cwd ['/'] (by simp) j]
        rfl
    rw [hT0]
    intro h
    simp at h
  · have hTs : pathKey env.cwd opt.TargetCfgDir =
        pathKey env.cwd (strings.TrimRight opt.TargetCfgDir '/') := by
      conv_lhs => rw [hk]
      exact pathKey_trailing env.cwd _ hs k
    rw [hTs, ← Dir_key_step env.cwd (strings.TrimRight opt.TargetCfgDir '/')]
    exact filepath.cleanStep_ne _ _ _ (by simp)

end updater

namespace updater

/-- What the work before the backup leaves alone: everything that is not on
the line of descent of the temporary directory. -/
theorem fetch_frame (env : Env) (opt : Options) (w w1 w2 w3 : World)
    (ref tmpDir sourceCfg : GoString)
    (href : resolveRef env opt w = (.ok ref, w1))
    (htmp : os.MkdirTemp env "kube-bench-update-".data w1 = (.ok tmpDir, w2))
    (hfetch : fetchBundle env opt (tarballURL opt ref) tmpDir w2 = (.ok sourceCfg, w3))
    (q : Loc) (hq : ¬ comparable (pathKey env.cwd tmpDir) q) :
    w3.fs.node q = w.fs.node q := by
  obtain ⟨htd, _, hnode2, _⟩ := MkdirTemp_ok env _ tmpDir w1 w2 htmp
  have hne : tmpDir ≠ [] := by rw [htd]; exact tempPath_ne_nil env _
  have h1 := (resolveRef_fs env opt w).1
  rw [href] at h1
  simp only at h1
  have h3 := (fetchBundle_run env opt (tarballURL opt ref) tmpDir w2 hne).1
  rw [hfetch] at h3
  simp only at h3
  have h32 : w3.fs.node q = w2.fs.node q := by
    by_contra hcon
    exact hq (h3 q hcon).1
  rw [h32, hnode2 q, if_neg (fun h0 => hq (by rw [h0]; exact comparable_refl _)), h1]

/-- A successful `os.Stat` has found the object at the location of the path,
and records its call. -/
theorem Stat_ok (env : Env) (path : GoString) (w : World) (n : Node)
    (h : (os.Stat env path w).1 = .ok n) :
    os.Stat env path w = (.ok n, w.record (Call.stat path)) ∧
    w.fs.node (pathKey env.cwd path) = some n ∧ os.walk w.fs env.cwd path = .found := by
  unfold os.Stat at h ⊢
  simp only at h ⊢
  split at h
  · exact absurd h (by simp)
  · rename_i hc
    simp only [Bool.or_eq_true, not_or, Bool.not_eq_true, bne_eq_false_iff_eq] at hc
    rw [if_neg (by simp [hc.1.1, hc.1.2, hc.2])]
    split at h
    · exact absurd h (by simp)
    · rename_i m hm
      simp only [Except.ok.injEq] at h
      subst h
      exact ⟨rfl, hm, hc.2⟩

/-- With the backup enabled and a target that `os.Stat` reports, a backup
without error is the rename of the target to the backup path. -/
theorem backupTarget_renamed (env : Env) (opt : Options) (w w4 : World) (n : Node)
    (hback : opt.BackupEnabled = true)
    (hstat : (os.Stat env opt.TargetCfgDir w).1 = .ok n)
    (h : backupTarget env opt w = (none, w4)) :
    (w.fs.rename (pathKey env.cwd opt.TargetCfgDir) (pathKey env.cwd (backupPath env opt)) =
      some w4.fs) ∧
    w4.log = Call.rename opt.TargetCfgDir (backupPath env opt) ::
      Call.stat opt.TargetCfgDir :: w.log := by
  have hs := (Stat_ok env opt.TargetCfgDir w n hstat).1
  unfold backupTarget at h
  rw [if_pos hback, hs] at h
  simp only at h
  have hro := os.Rename_ok env opt.TargetCfgDir (backupPath env opt)
    (w.record (Call.stat opt.TargetCfgDir))
  have hlog := os.Rename_log env opt.TargetCfgDir (backupPath env opt)
    (w.record (Call.stat opt.TargetCfgDir))
  rcases hrn : os.Rename env opt.TargetCfgDir (backupPath env opt)
    (w.record (Call.stat opt.TargetCfgDir)) with ⟨r, w2⟩
  rw [hrn] at h hro hlog
  cases r with
  | some e => exact absurd (congrArg Prod.fst h) (by simp)
  | none =>
    have hw : w4 = w2 := (congrArg Prod.snd h).symm
    subst hw
    simp only [World.record] at hlog
    exact ⟨hro rfl, hlog⟩

/-- After the rename of the target to the backup path nothing is at or below
the location of the target, and the removal that follows finds nothing. -/
theorem backupTarget_clears (env : Env) (opt : Options) (w w4 w5 : World) (n : Node)
    (hback : opt.BackupEnabled = true) (hT : opt.TargetCfgDir ≠ [])
    (hstat : (os.Stat env opt.TargetCfgDir w).1 = .ok n)
    (h : backupTarget env opt w = (none, w4))
    (hrm : os.RemoveAll env opt.TargetCfgDir w4 = (none, w5)) :
    ∀ t, w5.fs.node (pathKey env.cwd opt.TargetCfgDir ++ t) = none := by
  intro t
  obtain ⟨hren, _⟩ := backupTarget_renamed env opt w w4 n hback hstat h
  have h4 : w4.fs.node (pathKey env.cwd opt.TargetCfgDir ++ t) = none := by
    rcases FS.rename_spec _ _ _ _ hren with ⟨heq, _⟩ | ⟨hrok, hnode⟩
    · exact absurd heq (backupPath_key_ne env opt hT)
    · simp only [FS.renameOk, Bool.and_eq_true, Bool.not_eq_true', List.isPrefixOf_iff_prefix,
        Bool.not_eq_eq_eq_not, Bool.not_true, decide_eq_false_iff_not] at hrok
      have hTB : ¬ pathKey env.cwd opt.TargetCfgDir <+: pathKey env.cwd (backupPath env opt) := by
        intro h0
        have := hrok.1.1.2
        rw [List.isPrefixOf_iff_prefix.2 h0] at this
        exact absurd this (by simp)
      have hBT : ¬ pathKey env.cwd (backupPath env opt) <+: pathKey env.cwd opt.TargetCfgDir := by
        intro h0
        have := hrok.1.2
        rw [List.isPrefixOf_iff_prefix.2 h0] at this
        exact absurd this (by simp)
      have hq : ¬ pathKey env.cwd (backupPath env opt) <+:
          pathKey env.cwd opt.TargetCfgDir ++ t := by
        intro h0
        rcases List.prefix_or_prefix_of_prefix h0 (List.prefix_append _ _) with h1 | h1
        · exact hBT h1
        · exact hTB h1
      rw [hnode, isPrefixOf_false hq, List.isPrefixOf_iff_prefix.2 (List.prefix_append _ _)]
      simp
  have := os.RemoveAll_none env opt.TargetCfgDir w4 _ h4
  rw [hrm] at this
  exact this

/-- What the target held is found under the backup path. -/
theorem Update_backup_content (env : Env) (opt : Options) (w w1 w2 w3 : World)
    (ref tmpDir sourceCfg : GoString)
    (hvalid : ¬ (opt.Source = [] ∨ opt.Ref = [] ∨ opt.TargetCfgDir = []))
    (href : resolveRef env opt w = (.ok ref, w1))
    (htmp : os.MkdirTemp env "kube-bench-update-".data w1 = (.ok tmpDir, w2))
    (hfetch : fetchBundle env opt (tarballURL opt ref) tmpDir w2 = (.ok sourceCfg, w3))
    (hok : (Update env opt w).1 = none)
    (hback : opt.BackupEnabled = true) (n : Node)
    (hstat : (os.Stat env opt.TargetCfgDir w3).1 = .ok n)
    (hfreshT : ¬ comparable (pathKey env.cwd tmpDir) (pathKey env.cwd opt.TargetCfgDir))
    (hfreshB : ¬ comparable (pathKey env.cwd tmpDir) (pathKey env.cwd (backupPath env opt))) :
    (∃ rest, (Update env opt w).2.log =
      rest ++ Call.removeAll opt.TargetCfgDir ::
        Call.rename opt.TargetCfgDir (backupPath env opt) ::
        Call.stat opt.TargetCfgDir :: w3.log) ∧
    ∀ sfx, (Update env opt w).2.fs.node (pathKey env.cwd (backupPath env opt) ++ sfx) =
      w.fs.node (pathKey env.cwd opt.TargetCfgDir ++ sfx) := by
  have hTne : opt.TargetCfgDir ≠ [] := fun h0 => hvalid (Or.inr (Or.inr h0))
  have hfr := fetch_frame env opt w w1 w2 w3 ref tmpDir sourceCfg href htmp hfetch
  rw [Update_in_scratch env opt w w1 w2 ref tmpDir hvalid href htmp] at hok ⊢
  simp only at hok ⊢
  obtain ⟨w4, w5, w6, hb, hrm, hcd, hu⟩ := updateInScratch_ok env opt _ tmpDir sourceCfg w2 w3
    hfetch hok
  rw [hu]
  simp only
  obtain ⟨hren, hlog4⟩ := backupTarget_renamed env opt w3 w4 n hback hstat hb
  have hl5 : w5.log = Call.removeAll opt.TargetCfgDir :: w4.log := by
    have := os.RemoveAll_log env opt.TargetCfgDir w4
    rw [hrm] at this
    exact this
  have hl6 : LogExt w5 w6 := by
    have := (copyDir_run env sourceCfg opt.TargetCfgDir w5).2
    rw [hcd] at this
    exact LogExt.of_logged this
  have hs6 : Step (comparable (pathKey env.cwd opt.TargetCfgDir)) w5 w6 := by
    have := (copyDir_run env sourceCfg opt.TargetCfgDir w5).1
    rw [hcd] at this
    exact this
  have hl7 : LogExt w6 (os.RemoveAll env tmpDir w6).2 :=
    LogExt.xone _ (os.RemoveAll_log env tmpDir w6)
  refine ⟨?_, ?_⟩
  · obtain ⟨rest, hrest⟩ := hl6.xtrans hl7
    exact ⟨rest, by rw [hrest, hl5, hlog4]⟩
  intro sfx
  rcases FS.rename_spec _ _ _ _ hren with ⟨heq, _⟩ | ⟨hrok, hnode⟩
  · exact absurd heq (backupPath_key_ne env opt hTne)
  · simp only [FS.renameOk, Bool.and_eq_true, Bool.not_eq_true', List.isPrefixOf_iff_prefix,
      Bool.not_eq_eq_eq_not, Bool.not_true, decide_eq_false_iff_not] at hrok
    have hTB : ¬ pathKey env.cwd opt.TargetCfgDir <+: pathKey env.cwd (backupPath env opt) := by
      intro h0
      have := hrok.1.1.2
      rw [List.isPrefixOf_iff_prefix.2 h0] at this
      exact absurd this (by simp)
    have hBT : ¬ pathKey env.cwd (backupPath env opt) <+: pathKey env.cwd opt.TargetCfgDir := by
      intro h0
      have := hrok.1.2
      rw [List.isPrefixOf_iff_prefix.2 h0] at this
      exact absurd this (by simp)
    have hq1 : ¬ pathKey env.cwd opt.TargetCfgDir <+:
        pathKey env.cwd (backupPath env opt) ++ sfx := by
      intro h0
      rcases List.prefix_or_prefix_of_prefix h0 (List.prefix_append _ _) with h1 | h1
      · exact hTB h1
      · exact hBT h1
    have hq2 : ¬ pathKey env.cwd tmpDir <+: pathKey env.cwd (backupPath env opt) ++ sfx :=
      fun h0 => hfreshB (List.prefix_or_prefix_of_prefix h0 (List.prefix_append _ _))
    have h76 := os.RemoveAll_node env tmpDir w6 _ hq2
    have h65 : w6.fs.node (pathKey env.cwd (backupPath env opt) ++ sfx) =
        w5.fs.node (pathKey env.cwd (backupPath env opt) ++ sfx) := by
      by_contra hcon
      rcases (hs6 _ hcon).1 with h1 | h1
      · exact hq1 h1
      · exact hBT ((List.prefix_append _ _).trans h1)
    have h54 : w5.fs.node (pathKey env.cwd (backupPath env opt) ++ sfx) =
        w4.fs.node (pathKey env.cwd (backupPath env opt) ++ sfx) := by
      have := os.RemoveAll_node env opt.TargetCfgDir w4 _ hq1
      rw [hrm] at this
      exact this
    rw [h76, h65, h54, hnode, List.isPrefixOf_iff_prefix.2 (List.prefix_append _ _)]
    simp only [if_true, List.drop_left]
    exact hfr _ (not_comparable_within hfreshT (List.prefix_append _ _))

end updater

namespace updater

/-- C7: with the backup enabled and a target that exists, that is, that
`os.Stat` finds on the path as it is written (the code takes every error of
`os.Stat` for absence), a successful `Update` has called `os.Rename` from the
target to `<target>.bak-<timestamp>` right after `os.Stat` and right before the
removal of the target, and at return every location below the
backup path holds what the same relative location below the target held
before the call; so every file that was in the target and whose relative path
does not occur in the bundle is found with its mode and bytes under the backup
path, and nothing is at its place under the target.  The temporary directory
that `os.MkdirTemp` makes is assumed to lie neither inside nor above the target
and the backup path. -/
theorem Update_backs_up (env : Env) (opt : Options) (w w1 w2 w3 : World)
    (ref tmpDir sourceCfg : GoString) (n : Node)
    (hvalid : ¬ (opt.Source = [] ∨ opt.Ref = [] ∨ opt.TargetCfgDir = []))
    (href : resolveRef env opt w = (.ok ref, w1))
    (htmp : os.MkdirTemp env "kube-bench-update-".data w1 = (.ok tmpDir, w2))
    (hfetch : fetchBundle env opt (tarballURL opt ref) tmpDir w2 = (.ok sourceCfg, w3))
    (hok : (Update env opt w).1 = none)
    (hback : opt.BackupEnabled = true)
    (hstat : (os.Stat env opt.TargetCfgDir w3).1 = .ok n)
    (hfreshT : ¬ comparable (pathKey env.cwd tmpDir) (pathKey env.cwd opt.TargetCfgDir))
    (hfreshB : ¬ comparable (pathKey env.cwd tmpDir) (pathKey env.cwd (backupPath env opt))) :
    (∃ rest, (Update env opt w).2.log =
      rest ++ Call.removeAll opt.TargetCfgDir ::
        Call.rename opt.TargetCfgDir (backupPath env opt) ::
        Call.stat opt.TargetCfgDir :: w3.log) ∧
    (∀ sfx, (Update env opt w).2.fs.node (pathKey env.cwd (backupPath env opt) ++ sfx) =
      w.fs.node (pathKey env.cwd opt.TargetCfgDir ++ sfx)) ∧
    (∀ sfx mode data,
      w.fs.node (pathKey env.cwd opt.TargetCfgDir ++ sfx) = some (.file mode data) →
      w3.fs.node (pathKey env.cwd sourceCfg ++ sfx) = none →
      (Update env opt w).2.fs.node (pathKey env.cwd (backupPath env opt) ++ sfx) =
        some (.file mode data) ∧
      (Update env opt w).2.fs.node (pathKey env.cwd opt.TargetCfgDir ++ sfx) = none) := by
  obtain ⟨hlog, hbak⟩ := Update_backup_content env opt w w1 w2 w3 ref tmpDir sourceCfg hvalid
    href htmp hfetch hok hback n hstat hfreshT hfreshB
  refine ⟨hlog, hbak, ?_⟩
  intro sfx mode data hold hnone
  refine ⟨by rw [hbak sfx]; exact hold, ?_⟩
  have hTne : opt.TargetCfgDir ≠ [] := fun h0 => hvalid (Or.inr (Or.inr h0))
  have hok2 := hok
  rw [Update_in_scratch env opt w w1 w2 ref tmpDir hvalid href htmp] at hok2
  obtain ⟨w4, _, _, hb, _, _, _⟩ := updateInScratch_ok env opt _ tmpDir sourceCfg w2 w3
    hfetch hok2
  have := Update_target_content env opt w w1 w2 w3 w4 ref tmpDir sourceCfg hvalid href htmp hfetch
    hok hb (fun w5 hrm => backupTarget_clears env opt w3 w4 w5 n hback hTne hstat hb hrm)
    hfreshT (fun _ => hfreshB) sfx
  rw [(contentAt_eq_none _ _).2 hnone] at this
  exact (contentAt_eq_none _ _).1 this

set_option maxRecDepth 100000 in
/-- C7 at the input of the repository's test: the file `old.txt` of the target
is found under `/work/cfg.bak-20240507-090301` and no longer under `/work/cfg`. -/
theorem Update_backs_up_witness :
    backupPath Scene.env Scene.opt = "/work/cfg.bak-20240507-090301".data ∧
    (Update Scene.env Scene.opt Scene.w0).2.fs.node
      (pathKey Scene.env.cwd (backupPath Scene.env Scene.opt) ++ ["old.txt".data]) =
      some (.file 0o644 (Scene.bytes "old")) ∧
    (Update Scene.env Scene.opt Scene.w0).2.fs.node
      (pathKey Scene.env.cwd Scene.opt.TargetCfgDir ++ ["old.txt".data]) = none :=
  ⟨by decide,
   (Update_backs_up Scene.env Scene.opt Scene.w0 Scene.w0
    (os.MkdirTemp Scene.env "kube-bench-update-".data Scene.w0).2
    (fetchBundle Scene.env Scene.opt (tarballURL Scene.opt Scene.opt.Ref)
      "/tmp/kube-bench-update-42".data
      (os.MkdirTemp Scene.env "kube-bench-update-".data Scene.w0).2).2
    Scene.opt.Ref "/tmp/kube-bench-update-42".data Scene.sourceCfg (.dir 0o755)
    (by decide) rfl (Prod.ext (by decide) rfl) (Prod.ext (by decide) rfl) (by decide)
    (by decide) (by decide)
    (by unfold comparable; decide) (by unfold comparable; decide)).2.2
    ["old.txt".data] 0o644 (Scene.bytes "old") (by decide) (by decide)⟩

end updater

/-! ## The requests of a run -/

namespace updater

variable {P : Call → Prop}

theorem copyEntry_calls (env : Env) (src dst : GoString) (sfx : Loc) (w : World)
    (hP : ∀ c, c.isHTTP = false → P c) :
    Run (fun _ => True) P w (copyEntry env src dst sfx w).2 := by
  unfold copyEntry
  simp only
  split
  · exact Run.refl _ _ _
  · rename_i rel hrel
    cases hv : safeFilePath dst rel with
    | error err => exact Run.refl _ _ _
    | ok target =>
      simp only
      split
      · have h1 : Run (fun _ => True) P w (os.MkdirAll env target 0o750 w).2 :=
          os.MkdirAll_run env _ _ w (fun _ _ => trivial) (hP _ rfl)
        split
        · rename_i e w1 heq
          exact Run.of_eq heq h1
        · rename_i w1 heq
          have h2 : Run (fun _ => True) P w1 (os.ReadDir env (walkPath src sfx) w1).2 :=
            os.ReadDir_run env _ w1 (hP _ rfl)
          split
          · rename_i e w2 heq2
            exact (Run.of_eq heq h1).trans (Run.of_eq heq2 h2)
          · rename_i l w2 heq2
            exact (Run.of_eq heq h1).trans (Run.of_eq heq2 h2)
      · have h1 : Run (fun _ => True) P w (os.Open env (walkPath src sfx) w).2 :=
          os.Open_run env _ w (hP _ rfl)
        have hclose : ∀ p w', Run (fun _ => True) P w' (os.Close env p w').2 :=
          fun p w' => os.Close_run env p w' (hP _ rfl)
        split
        · rename_i e w1 heq
          exact Run.of_eq heq h1
        · rename_i f w1 heq
          have h1 := Run.of_eq heq h1
          simp only
          refine Run.trans ?_ (hclose _ _)
          have h2 : Run (fun _ => True) P w1
              (os.MkdirAll env (filepath.Dir target) 0o750 w1).2 :=
            os.MkdirAll_run env _ _ w1 (fun _ _ => trivial) (hP _ rfl)
          split
          · rename_i e w2 heq2
            exact h1.trans (Run.of_eq heq2 h2)
          · rename_i w2 heq2
            have h2 := h1.trans (Run.of_eq heq2 h2)
            have h3 : Run (fun _ => True) P w2 (os.OpenFile env target 0o600 w2).2 :=
              os.OpenFile_run env _ _ w2 trivial (hP _ rfl)
            split
            · rename_i e w3 heq3
              exact h2.trans (Run.of_eq heq3 h3)
            · rename_i w3 heq3
              have h3 := h2.trans (Run.of_eq heq3 h3)
              have h4 : Run (fun _ => True) P w3 (os.Read env (walkPath src sfx) f w3).2 :=
                os.Read_run env _ f w3 (hP _ rfl)
              split
              · rename_i e w4 heq4
                exact (h3.trans (Run.of_eq heq4 h4)).trans (hclose _ _)
              · rename_i data w4 heq4
                have h4 := h3.trans (Run.of_eq heq4 h4)
                have h5 : Run (fun _ => True) P w4 (os.Write env target data w4).2 :=
                  os.Write_run env _ _ w4 trivial (hP _ rfl)
                split
                · rename_i e w5 heq5
                  exact (h4.trans (Run.of_eq heq5 h5)).trans (hclose _ _)
                · rename_i w5 heq5
                  exact (h4.trans (Run.of_eq heq5 h5)).trans (hclose _ _)

theorem copyLoop_calls (env : Env) (src dst : GoString) (hP : ∀ c, c.isHTTP = false → P c) :
    ∀ (l : List Loc) (w : World),
      Run (fun _ => True) P w (copyLoop env src dst l w).2 := by
  intro l
  induction l with
  | nil => intro w; exact Run.refl _ _ _
  | cons sfx rest ih =>
    intro w
    unfold copyLoop
    have h1 := copyEntry_calls env src dst sfx w hP
    split
    · rename_i e w1 heq
      exact Run.of_eq heq h1
    · rename_i w1 heq
      exact (Run.of_eq heq h1).trans (ih w1)

theorem copyDir_calls (env : Env) (src dst : GoString) (w : World)
    (hP : ∀ c, c.isHTTP = false → P c) :
    Run (fun _ => True) P w (copyDir env src dst w).2 := by
  unfold copyDir
  have h1 : Run (fun _ => True) P w (os.Lstat env src w).2 :=
    os.Lstat_run env src w (hP _ rfl)
  split
  · rename_i e w1 heq
    exact Run.of_eq heq h1
  · rename_i n w1 heq
    exact (Run.of_eq heq h1).trans (copyLoop_calls env src dst hP _ w1)

theorem Logged.lof_eq {α : Type} {P : Call → Prop} {w w1 : World} {x : α × World}
    {a : α} (h : x = (a, w1)) (hr : Logged P w x.2) : Logged P w w1 := by
  rw [h] at hr; exact hr

theorem backupTarget_calls (env : Env) (opt : Options) (w : World)
    (hP : ∀ c, c.isHTTP = false → P c) : Logged P w (backupTarget env opt w).2 := by
  unfold backupTarget
  split
  · have h1 : Logged P w (os.Stat env opt.TargetCfgDir w).2 :=
      Logged.lone _ (os.Stat_log env opt.TargetCfgDir w) (hP _ rfl)
    split
    · rename_i e w1 heq
      exact Logged.lof_eq heq h1
    · rename_i n w1 heq
      have h2 : Logged P w1 (os.Rename env opt.TargetCfgDir (backupPath env opt) w1).2 :=
        Logged.lone _ (os.Rename_log env _ _ w1) (hP _ rfl)
      split
      · rename_i e w2 heq2
        exact (Logged.lof_eq heq h1).ltrans (Logged.lof_eq heq2 h2)
      · rename_i w2 heq2
        exact (Logged.lof_eq heq h1).ltrans (Logged.lof_eq heq2 h2)
  · exact Logged.lrefl _ _

theorem replaceTarget_calls (env : Env) (opt : Options) (sourceCfg : GoString) (w : World)
    (hP : ∀ c, c.isHTTP = false → P c) :
    Logged P w (replaceTarget env opt sourceCfg w).2 := by
  unfold replaceTarget
  have h1 : Logged P w (os.RemoveAll env opt.TargetCfgDir w).2 :=
    Logged.lone _ (os.RemoveAll_log env opt.TargetCfgDir w) (hP _ rfl)
  split
  · rename_i e w1 heq
    exact Logged.lof_eq heq h1
  · rename_i w1 heq
    have h2 := (copyDir_calls env sourceCfg opt.TargetCfgDir w1 hP).2
    split
    · rename_i e w2 heq2
      exact (Logged.lof_eq heq h1).ltrans (Logged.lof_eq heq2 h2)
    · rename_i w2 heq2
      exact (Logged.lof_eq heq h1).ltrans (Logged.lof_eq heq2 h2)

theorem untarCalls_quiet (cwd : Loc) (src dest : GoString) (c : Call)
    (h : untarCalls cwd src dest c) : c.isHTTP = false := by
  cases c <;> first | rfl | exact h.elim

/-- A refused request ends `download` at once. -/
theorem download_refused (env : Env) (url dest : GoString) (w : World) (e : Err)
    (hreq : http.NewRequestWithContext env url = some e) :
    download env url dest w = (some e, w) := by
  unfold download
  rw [hreq]

/-- After its request, `download` makes no further request. -/
theorem download_calls (env : Env) (url dest : GoString) (w : World)
    (hreq : http.NewRequestWithContext env url = none)
    (hP : ∀ c, c.isHTTP = false → P c) :
    Logged P (http.Get env url w).2 (download env url dest w).2 := by
  unfold download
  rw [hreq]
  simp only
  rcases hg : http.Get env url w with ⟨r, w1⟩
  cases r with
  | none => exact Logged.lrefl _ _
  | some sb =>
    obtain ⟨status, body⟩ := sb
    simp only
    split
    · exact Logged.lrefl _ _
    · split
      · exact Logged.lrefl _ _
      · have h2 : Logged P w1 (os.OpenFile env dest 0o600 w1).2 :=
          Logged.lone _ (os.OpenFile_log env _ _ w1) (hP _ rfl)
        split
        · rename_i e w2 heq2
          exact Logged.lof_eq heq2 h2
        · rename_i w2 heq2
          have h3 : Logged P w2 (os.Write env dest body w2).2 :=
            Logged.lone _ (os.Write_log env _ _ w2) (hP _ rfl)
          exact ((Logged.lof_eq heq2 h2).ltrans h3).ltrans
            (Logged.lone _ (os.Close_log env dest _) (hP _ rfl))

theorem fetchBundle_calls (env : Env) (opt : Options) (url tmpDir : GoString) (w : World)
    (hreq : http.NewRequestWithContext env url = none)
    (hP : ∀ c, c.isHTTP = false → P c) :
    Logged P (http.Get env url w).2 (fetchBundle env opt url tmpDir w).2 := by
  unfold fetchBundle
  simp only
  have h1 := download_calls env url (filepath.Join [tmpDir, "src.tar.gz".data]) w hreq hP
  split
  · rename_i e w1 heq
    exact Logged.lof_eq heq h1
  · rename_i w1 heq
    have h1 := Logged.lof_eq heq h1
    have h2 : Logged P w1
        (if opt.Checksum ≠ [] then
          verifySHA256 env (filepath.Join [tmpDir, "src.tar.gz".data]) opt.Checksum w1
         else (none, w1)).2 := by
      split
      · refine (verifySHA256_logged env _ _ w1).lmono ?_
        intro c hc
        rcases hc with rfl | rfl | rfl <;> exact hP _ rfl
      · exact Logged.lrefl _ _
    split
    · rename_i e w2 heq2
      exact h1.ltrans (Logged.lof_eq heq2 h2)
    · rename_i w2 heq2
      have h2 := h1.ltrans (Logged.lof_eq heq2 h2)
      have h3 : Logged P w2
          (os.MkdirAll env (filepath.Join [tmpDir, "extract".data]) 0o750 w2).2 :=
        Logged.lone _ (os.MkdirAll_log env _ _ w2) (hP _ rfl)
      split
      · rename_i e w3 heq3
        exact h2.ltrans (Logged.lof_eq heq3 h3)
      · rename_i w3 heq3
        have h3 := h2.ltrans (Logged.lof_eq heq3 h3)
        have h4 : Logged P w3
            (untarGz env (filepath.Join [tmpDir, "src.tar.gz".data])
              (filepath.Join [tmpDir, "extract".data]) w3).2 :=
          (untarGz_run env _ _ w3).2.lmono
            (fun c hc => hP c (untarCalls_quiet _ _ _ c hc))
        split
        · rename_i e w4 heq4
          exact h3.ltrans (Logged.lof_eq heq4 h4)
        · rename_i w4 heq4
          have h4 := h3.ltrans (Logged.lof_eq heq4 h4)
          have h5 : Logged P w4
              (findTopLevelDir env (filepath.Join [tmpDir, "extract".data]) w4).2 := by
            unfold findTopLevelDir
            have h0 : Logged P w4 (os.ReadDir env (filepath.Join [tmpDir, "extract".data])
                w4).2 := Logged.lone _ (os.ReadDir_log env _ w4) (hP _ rfl)
            split
            · rename_i e w1 heq
              exact Logged.lof_eq heq h0
            · rename_i entries w1 heq
              split
              · exact Logged.lof_eq heq h0
              · exact Logged.lof_eq heq h0
          split
          · rename_i e w5 heq5
            exact h4.ltrans (Logged.lof_eq heq5 h5)
          · rename_i top w5 heq5
            have h5 := h4.ltrans (Logged.lof_eq heq5 h5)
            have h6 : Logged P w5 (os.Stat env (filepath.Join [top, "cfg".data]) w5).2 :=
              Logged.lone _ (os.Stat_log env _ w5) (hP _ rfl)
            split
            · rename_i e w6 heq6
              exact h5.ltrans (Logged.lof_eq heq6 h6)
            · rename_i fi w6 heq6
              split
              · exact h5.ltrans (Logged.lof_eq heq6 h6)
              · exact h5.ltrans (Logged.lof_eq heq6 h6)

theorem updateInScratch_calls (env : Env) (opt : Options) (url tmpDir : GoString) (w : World)
    (hreq : http.NewRequestWithContext env url = none)
    (hP : ∀ c, c.isHTTP = false → P c) :
    Logged P (http.Get env url w).2 (updateInScratch env opt url tmpDir w).2 := by
  unfold updateInScratch
  have h1 := fetchBundle_calls env opt url tmpDir w hreq hP
  split
  · rename_i e w1 heq
    exact Logged.lof_eq heq h1
  · rename_i sourceCfg w1 heq
    have h1 := Logged.lof_eq heq h1
    have h2 := backupTarget_calls env opt w1 hP
    split
    · rename_i e w2 heq2
      exact h1.ltrans (Logged.lof_eq heq2 h2)
    · rename_i w2 heq2
      exact (h1.ltrans (Logged.lof_eq heq2 h2)).ltrans
        (replaceTarget_calls env opt sourceCfg w2 hP)

end updater

namespace updater

/-- C11: whenever `Source`, `Ref` or `TargetCfgDir` of the request is empty,
`Update` returns the error `invalid updater options` and the state at return is
the state at the call: the file system is the same and no call, to the network
or to the file system, has been added to the log. -/
theorem Update_rejects_empty (env : Env) (opt : Options) (w : World)
    (h : opt.Source = [] ∨ opt.Ref = [] ∨ opt.TargetCfgDir = []) :
    (Update env opt w).1 = some (.text
      "invalid updater options: source, ref and target cfg dir are required".data) ∧
    (Update env opt w).2 = w := by
  unfold Update
  rw [if_pos h]
  exact ⟨rfl, rfl⟩

/-- C11 at concrete inputs: the request of the test without its source,
without its reference and without its target. -/
theorem Update_rejects_empty_witness :
    (Update Scene.env { Scene.opt with Source := [] } Scene.w0).2 = Scene.w0 ∧
    (Update Scene.env Scene.optNoRef Scene.w0).2 = Scene.w0 ∧
    (Update Scene.env { Scene.opt with TargetCfgDir := [] } Scene.w0).2 = Scene.w0 :=
  ⟨(Update_rejects_empty Scene.env { Scene.opt with Source := [] } Scene.w0
      (Or.inl rfl)).2,
   (Update_rejects_empty Scene.env Scene.optNoRef Scene.w0 (Or.inr (Or.inl rfl))).2,
   (Update_rejects_empty Scene.env { Scene.opt with TargetCfgDir := [] } Scene.w0
      (Or.inr (Or.inr rfl))).2⟩

theorem resolveRef_latest_err (env : Env) (opt : Options) (w w1 : World) (e : Err)
    (h : strings.EqualFold opt.Ref "latest".data = true)
    (hr : resolveLatestRef env opt.Source w = (.error e, w1)) :
    resolveRef env opt w = (.error (.wrap "resolve latest release".data e), w1) := by
  unfold resolveRef
  rw [if_pos h]
  simp only [hr]

theorem resolveRef_latest_ok (env : Env) (opt : Options) (w w1 : World) (T : GoString)
    (h : strings.EqualFold opt.Ref "latest".data = true)
    (hr : resolveLatestRef env opt.Source w = (.ok T, w1)) :
    resolveRef env opt w = (.ok T, w1) := by
  unfold resolveRef
  rw [if_pos h]
  simp only [hr]

theorem resolveRef_other (env : Env) (opt : Options) (w : World)
    (h : strings.EqualFold opt.Ref "latest".data = false) :
    resolveRef env opt w = (.ok opt.Ref, w) := by
  unfold resolveRef
  rw [if_neg (by rw [h]; simp)]

/-- What `Update` does once the reference is known: it makes the temporary
directory and then builds the request for the tarball of the reference; when
the request is refused, `Update` removes the directory and returns the error
without any request, else it sends the request and makes no other. -/
theorem Update_after_ref (env : Env) (opt : Options) (w w1 : World) (ref : GoString)
    (hvalid : ¬ (opt.Source = [] ∨ opt.Ref = [] ∨ opt.TargetCfgDir = []))
    (href : resolveRef env opt w = (.ok ref, w1)) :
    (∀ e w2, os.MkdirTemp env "kube-bench-update-".data w1 = (.error e, w2) →
      Update env opt w = (some (.wrap "create temp dir".data e), w2) ∧
      w2.log = Call.mkdirTemp (os.tempPath env "kube-bench-update-".data) :: w1.log) ∧
    (∀ tmpDir w2, os.MkdirTemp env "kube-bench-update-".data w1 = (.ok tmpDir, w2) →
      (http.NewRequestWithContext env (strings.TrimRight opt.Source '/' ++ "/".data ++
          strings.TrimLeft ref '/') = none →
        ∃ new, (Update env opt w).2.log =
          new ++ Call.httpGet (strings.TrimRight opt.Source '/' ++ "/".data ++
            strings.TrimLeft ref '/') env.GITHUB_TOKEN :: Call.mkdirTemp tmpDir :: w1.log ∧
          ∀ c ∈ new, c.isHTTP = false) ∧
      (∀ e, http.NewRequestWithContext env (strings.TrimRight opt.Source '/' ++ "/".data ++
          strings.TrimLeft ref '/') = some e →
        (Update env opt w).1 = some (.wrap "download tarball".data e) ∧
        (Update env opt w).2.log = Call.removeAll tmpDir :: Call.mkdirTemp tmpDir :: w1.log)) := by
  constructor
  · intro e w2 ht
    refine ⟨?_, (MkdirTemp_err env _ e w1 w2 ht).2⟩
    unfold Update
    rw [if_neg hvalid]
    simp only [href, ht]
  · intro tmpDir w2 ht
    rw [Update_in_scratch env opt w w1 w2 ref tmpDir hvalid href ht]
    simp only
    constructor
    · intro hreq
      have h1 := updateInScratch_calls (P := fun c => c.isHTTP = false) env opt
        (tarballURL opt ref) tmpDir w2 hreq (fun _ h => h)
      have h2 : Logged (fun c => c.isHTTP = false)
          (updateInScratch env opt (tarballURL opt ref) tmpDir w2).2
          (os.RemoveAll env tmpDir
            (updateInScratch env opt (tarballURL opt ref) tmpDir w2).2).2 :=
        Logged.lone _ (os.RemoveAll_log env tmpDir _) rfl
      obtain ⟨new, hnew, hall⟩ := h1.ltrans h2
      refine ⟨new, ?_, hall⟩
      rw [hnew, os.Get_log, (MkdirTemp_ok env _ tmpDir w1 w2 ht).2.2.2]
      rfl
    · intro e hreq
      have hu : updateInScratch env opt (tarballURL opt ref) tmpDir w2 =
          (some (.wrap "download tarball".data e), w2) := by
        unfold updateInScratch fetchBundle
        simp only [download_refused env (tarballURL opt ref) _ w2 e hreq]
      rw [hu]
      simp only
      refine ⟨trivial, ?_⟩
      rw [os.RemoveAll_log, (MkdirTemp_ok env _ tmpDir w1 w2 ht).2.2.2]

/-- C12, amended: for every valid request, (a) when `Ref` equals `latest`
under `strings.EqualFold`, `Update` calls `resolveLatestRef`: when that fails,
`Update` returns its error as `resolve latest release` and does nothing else;
when it yields the tag `T`, `Update` makes the temporary directory and then
attempts the download of `Source` (trailing slashes removed) + `/` + `T`
(leading slashes removed): when `http.NewRequestWithContext` accepts this
address the request is sent and no further request is made, and when it
refuses the address (a control character, or another error of its syntax)
`Update` removes the directory and returns the error as `download tarball`
without a request; (b) for any other `Ref` the calls of `Update` start with
the temporary directory, followed in the same way by the request of `Source`
(trailing slashes removed) + `/` + `Ref` (leading slashes removed) or by the
return of its refusal, and there is no other request, so none for the release
metadata. -/
theorem Update_ref_resolution (env : Env) (opt : Options) (w : World)
    (hvalid : ¬ (opt.Source = [] ∨ opt.Ref = [] ∨ opt.TargetCfgDir = [])) :
    (strings.EqualFold opt.Ref "latest".data = true →
      (∀ e w1, resolveLatestRef env opt.Source w = (.error e, w1) →
        Update env opt w = (some (.wrap "resolve latest release".data e), w1)) ∧
      (∀ T w1, resolveLatestRef env opt.Source w = (.ok T, w1) →
        (∀ e w2, os.MkdirTemp env "kube-bench-update-".data w1 = (.error e, w2) →
          Update env opt w = (some (.wrap "create temp dir".data e), w2) ∧
          w2.log = Call.mkdirTemp (os.tempPath env "kube-bench-update-".data) :: w1.log) ∧
        (∀ tmpDir w2, os.MkdirTemp env "kube-bench-update-".data w1 = (.ok tmpDir, w2) →
          (http.NewRequestWithContext env (strings.TrimRight opt.Source '/' ++ "/".data ++
              strings.TrimLeft T '/') = none →
            ∃ new, (Update env opt w).2.log =
              new ++ Call.httpGet (strings.TrimRight opt.Source '/' ++ "/".data ++
                strings.TrimLeft T '/') env.GITHUB_TOKEN :: Call.mkdirTemp tmpDir :: w1.log ∧
              ∀ c ∈ new, c.isHTTP = false) ∧
          (∀ e, http.NewRequestWithContext env (strings.TrimRight opt.Source '/' ++
              "/".data ++ strings.TrimLeft T '/') = some e →
            (Update env opt w).1 = some (.wrap "download tarball".data e) ∧
            (Update env opt w).2.log =
              Call.removeAll tmpDir :: Call.mkdirTemp tmpDir :: w1.log)))) ∧
    (strings.EqualFold opt.Ref "latest".data = false →
      (∀ e w2, os.MkdirTemp env "kube-bench-update-".data w = (.error e, w2) →
        Update env opt w = (some (.wrap "create temp dir".data e), w2) ∧
        w2.log = Call.mkdirTemp (os.tempPath env "kube-bench-update-".data) :: w.log) ∧
      (∀ tmpDir w2, os.MkdirTemp env "kube-bench-update-".data w = (.ok tmpDir, w2) →
        (http.NewRequestWithContext env (strings.TrimRight opt.Source '/' ++ "/".data ++
            strings.TrimLeft opt.Ref '/') = none →
          ∃ new, (Update env opt w).2.log =
            new ++ Call.httpGet (strings.TrimRight opt.Source '/' ++ "/".data ++
              strings.TrimLeft opt.Ref '/') env.GITHUB_TOKEN :: Call.mkdirTemp tmpDir :: w.log ∧
            ∀ c ∈ new, c.isHTTP = false) ∧
        (∀ e, http.NewRequestWithContext env (strings.TrimRight opt.Source '/' ++
            "/".data ++ strings.TrimLeft opt.Ref '/') = some e →
          (Update env opt w).1 = some (.wrap "download tarball".data e) ∧
          (Update env opt w).2.log =
            Call.removeAll tmpDir :: Call.mkdirTemp tmpDir :: w.log))) := by
  constructor
  · intro hl
    constructor
    · intro e w1 hr
      unfold Update
      rw [if_neg hvalid]
      simp only [resolveRef_latest_err env opt w w1 e hl hr]
    · intro T w1 hr
      exact Update_after_ref env opt w w1 T hvalid (resolveRef_latest_ok env opt w w1 T hl hr)
  · intro hl
    exact Update_after_ref env opt w w opt.Ref hvalid (resolveRef_other env opt w hl)

set_option maxRecDepth 100000 in
/-- C12, amended, at concrete inputs: the request of the test, whose reference
`v0.0.0` is requested as it is, and the request for `latest` where the release
metadata name the tag `v1.2.3`; the reference `LATEST` and the reference with a
long s (U+017F) in place of the `s` are resolved too; and for the reference
`v1` followed by a line feed no request is made at all. -/
theorem Update_ref_resolution_witness :
    (∃ new, (Update Scene.env Scene.opt Scene.w0).2.log =
      new ++ Call.httpGet "http://127.0.0.1/repos/owner/repo/tarball/v0.0.0".data [] ::
        Call.mkdirTemp "/tmp/kube-bench-update-42".data :: Scene.w0.log ∧
      ∀ c ∈ new, c.isHTTP = false) ∧
    (∃ new, (Update Scene.envTag Scene.optLatest Scene.w0).2.log =
      new ++ Call.httpGet "http://127.0.0.1/repos/owner/repo/tarball/v1.2.3".data [] ::
        Call.mkdirTemp "/tmp/kube-bench-update-42".data ::
        (resolveLatestRef Scene.envTag Scene.optLatest.Source Scene.w0).2.log ∧
      ∀ c ∈ new, c.isHTTP = false) ∧
    strings.EqualFold "LATEST".data "latest".data = true ∧
    strings.EqualFold ['l', 'a', 't', 'e', Char.ofNat 0x17F, 't'] "latest".data = true ∧
    ((Update Scene.env Scene.optCtl Scene.w0).1 =
        some (.wrap "download tarball".data
          (.os "parse".data "http://127.0.0.1/repos/owner/repo/tarball/v1\n".data)) ∧
      (Update Scene.env Scene.optCtl Scene.w0).2.log =
        [Call.removeAll "/tmp/kube-bench-update-42".data,
         Call.mkdirTemp "/tmp/kube-bench-update-42".data]) :=
  ⟨(((Update_ref_resolution Scene.env Scene.opt Scene.w0 (by decide)).2 (by decide)).2
      "/tmp/kube-bench-update-42".data
      (os.MkdirTemp Scene.env "kube-bench-update-".data Scene.w0).2
      (Prod.ext (by decide) rfl)).1 (by decide),
   ((((Update_ref_resolution Scene.envTag Scene.optLatest Scene.w0 (by decide)).1
      (by decide)).2 "v1.2.3".data
      (resolveLatestRef Scene.envTag Scene.optLatest.Source Scene.w0).2
      (Prod.ext (by decide) rfl)).2
      "/tmp/kube-bench-update-42".data
      (os.MkdirTemp Scene.envTag "kube-bench-update-".data
        (resolveLatestRef Scene.envTag Scene.optLatest.Source Scene.w0).2).2
      (Prod.ext (by decide) rfl)).1 (by decide),
   by decide, by decide,
   (((Update_ref_resolution Scene.env Scene.optCtl Scene.w0 (by decide)).2 (by decide)).2
      "/tmp/kube-bench-update-42".data
      (os.MkdirTemp Scene.env "kube-bench-update-".data Scene.w0).2
      (Prod.ext (by decide) rfl)).2 _ (by decide)⟩

set_option maxRecDepth 100000 in
/-- C12 as stated fails: when the release metadata name the tag `/v1`,
resolution yields `/v1`, and `Update` requests `Source` + `/v1`, not `Source` +
`/` + `/v1`. -/
theorem Update_latest_tag_trimmed :
    (resolveLatestRef Scene.envSlashTag Scene.optLatest.Source Scene.w0).1 = .ok "/v1".data ∧
    Call.httpGet "http://127.0.0.1/repos/owner/repo/tarball/v1".data [] ∈
      (Update Scene.envSlashTag Scene.optLatest Scene.w0).2.log ∧
    Call.httpGet "http://127.0.0.1/repos/owner/repo/tarball//v1".data [] ∉
      (Update Scene.envSlashTag Scene.optLatest Scene.w0).2.log := by
  decide

end updater

/-! ## Searching and splitting -/

namespace strings

theorem Index_none_iff (s sub : GoString) : Index s sub = none ↔ ¬ sub <:+: s := by
  induction s with
  | nil =>
    unfold Index
    rw [List.infix_nil]
    cases sub <;> simp
  | cons c cs ih =>
    unfold Index
    rw [List.infix_cons_iff]
    by_cases h : HasPrefix (c :: cs) sub = true
    · rw [if_pos h]
      simp [(HasPrefix_iff _ _).1 h]
    · rw [if_neg h]
      have h2 : ¬ sub <+: c :: cs := fun hp => h ((HasPrefix_iff _ _).2 hp)
      simp only [Option.map_eq_none', ih]
      constructor
      · intro h3 h4
        rcases h4 with h4 | h4
        · exact h2 h4
        · exact h3 h4
      · intro h3 h4
        exact h3 (Or.inr h4)

theorem Index_prefix (sub rest : GoString) : Index (sub ++ rest) sub = some 0 := by
  cases h : sub ++ rest with
  | nil =>
    have : sub = [] := (List.append_eq_nil.1 h).1
    subst this
    rfl
  | cons c cs =>
    unfold Index
    rw [if_pos ((HasPrefix_iff _ _).2 (by rw [← h]; exact List.prefix_append _ _))]

theorem Index_cons_skip (c : Char) (s sub : GoString) (h : ¬ sub <+: c :: s) :
    Index (c :: s) sub = (Index s sub).map (fun i => i + 1) := by
  rw [Index]
  rw [if_neg (fun hp => h ((HasPrefix_iff _ _).1 hp))]

/-- The first occurrence: where the text before it, with all but the last
character of the needle, does not hold the needle. -/
theorem Index_first (pre sub rest : GoString)
    (h : ¬ sub <:+: pre ++ sub.dropLast) (hs : sub ≠ []) :
    Index (pre ++ sub ++ rest) sub = some pre.length := by
  induction pre with
  | nil => simpa using Index_prefix sub rest
  | cons c p ih =>
    have hlen : sub.length ≤ (c :: p ++ sub.dropLast).length := by
      simp only [List.length_cons, List.length_append, List.length_dropLast]
      omega
    have hnp : ¬ sub <+: c :: (p ++ sub ++ rest) := by
      intro hp
      apply h
      have e1 : c :: (p ++ sub ++ rest) =
          (c :: p ++ sub.dropLast) ++ ([sub.getLast hs] ++ rest) := by
        conv_lhs => rw [← List.dropLast_append_getLast hs]
        simp
      rw [e1] at hp
      exact (List.prefix_of_prefix_length_le hp (List.prefix_append _ _) hlen).isInfix
    have ih2 := ih (fun hi => h (by
      rw [List.cons_append]
      exact hi.trans (List.infix_cons (List.infix_refl _))))
    rw [List.cons_append, List.cons_append, Index_cons_skip c _ sub hnp, ih2]
    rfl

theorem Index_char (T rest : GoString) (c : Char) (h : c ∉ T) :
    Index (T ++ c :: rest) [c] = some T.length := by
  induction T with
  | nil => simpa using Index_prefix [c] rest
  | cons d ds ih =>
    have hd : d ≠ c := fun e => h (by simp [e])
    have hds : c ∉ ds := fun e => h (List.mem_cons_of_mem _ e)
    rw [List.cons_append, Index_cons_skip d _ [c] (by
      intro hp
      obtain ⟨t, ht⟩ := hp
      simp only [List.singleton_append, List.cons.injEq] at ht
      exact hd ht.1.symm), ih hds]
    rfl

theorem SplitN_no_sep (sep : Char) (s : GoString) (h : sep ∉ s) :
    ∀ n, SplitN sep s (n + 1) = [s] := by
  induction s with
  | nil =>
    intro n
    cases n <;> rfl
  | cons c cs ih =>
    intro n
    have hc : c ≠ sep := fun e => h (by simp [e])
    have hcs : sep ∉ cs := fun e => h (List.mem_cons_of_mem _ e)
    cases n with
    | zero => rfl
    | succ m =>
      rw [SplitN]
      rw [if_neg hc, ih hcs (m + 1)]

theorem SplitN_sep (sep : Char) (a s : GoString) (h : sep ∉ a) :
    ∀ n, SplitN sep (a ++ sep :: s) (n + 2) = a :: SplitN sep s (n + 1) := by
  induction a with
  | nil =>
    intro n
    rw [List.nil_append, SplitN]
    rw [if_pos rfl]
  | cons c cs ih =>
    intro n
    have hc : c ≠ sep := fun e => h (by simp [e])
    have hcs : sep ∉ cs := fun e => h (List.mem_cons_of_mem _ e)
    rw [List.cons_append, SplitN]
    rw [if_neg hc, ih hcs n]

end strings

namespace updater

theorem tagName_ne_nil (b t : GoString) (h : tagName b = .ok t) : t ≠ [] := by
  unfold tagName at h
  simp only at h
  split at h
  · exact absurd h (by simp)
  · split at h
    · exact absurd h (by simp)
    · split at h
      · exact absurd h (by simp)
      · split at h
        · exact absurd h (by simp)
        · rename_i hne
          simp only [Except.ok.injEq] at h
          rw [← h]
          exact hne

theorem tagName_form (T rest : GoString) (hT : T ≠ []) (hq : '"' ∉ T) :
    tagName ('{' :: ("\"tag_name\":".data ++ ('"' :: (T ++ '"' :: rest)))) = .ok T := by
  have h1 : strings.Index ('{' :: ("\"tag_name\":".data ++ ('"' :: (T ++ '"' :: rest))))
      "\"tag_name\":".data = some 1 := by
    rw [strings.Index_cons_skip _ _ _ (by
      intro hp
      obtain ⟨t, ht⟩ := hp
      have := congrArg List.head? ht
      simp at this), strings.Index_prefix]
    rfl
  have h2 : List.drop (1 + "\"tag_name\":".data.length)
      ('{' :: ("\"tag_name\":".data ++ ('"' :: (T ++ '"' :: rest)))) =
      '"' :: (T ++ '"' :: rest) := by
    rw [Nat.add_comm, List.drop_succ_cons, List.drop_left]
  have h3 : strings.Index ('"' :: (T ++ '"' :: rest)) ['"'] = some 0 :=
    strings.Index_prefix ['"'] _
  have h4 : strings.Index (T ++ '"' :: rest) ['"'] = some T.length :=
    strings.Index_char T rest '"' hq
  unfold tagName
  simp only [h1, h2, h3, Nat.zero_add, List.drop_succ_cons, List.drop_zero, h4,
    List.take_left, hT, if_false]

/-- C13: the tag extraction of `resolveLatestRef` returns an error or a tag
that is not empty, also as the result of `resolveLatestRef`; it fails with
`tag_name not found in latest release response` for a body that does not
contain the text `"tag_name":`; and for a body `{"tag_name":"T"` followed by
anything, where `T` is not empty and holds no double quote, it returns `T`. -/
theorem tagName_extracts :
    (∀ b t : GoString, tagName b = .ok t → t ≠ []) ∧
    (∀ (env : Env) (source : GoString) (w : World) (t : GoString),
      (resolveLatestRef env source w).1 = .ok t → t ≠ []) ∧
    (∀ b : GoString, ¬ "\"tag_name\":".data <:+: b →
      tagName b = .error (.text "tag_name not found in latest release response".data)) ∧
    (∀ T rest : GoString, T ≠ [] → '"' ∉ T →
      tagName ("\x7b\"tag_name\":\"".data ++ T ++ '"' :: rest) = .ok T) := by
  refine ⟨tagName_ne_nil, ?_, ?_, ?_⟩
  · intro env source w t h
    unfold resolveLatestRef at h
    split at h
    · exact absurd h (by simp)
    · split at h
      · exact absurd h (by simp)
      · split at h
        · exact absurd h (by simp)
        · split at h
          · exact absurd h (by simp)
          · simp only at h
            split at h
            · exact absurd h (by simp)
            · exact tagName_ne_nil _ t h
  · intro b hb
    unfold tagName
    simp only [(strings.Index_none_iff _ _).2 hb]
  · intro T rest hT hq
    exact tagName_form T rest hT hq

set_option maxRecDepth 100000 in
/-- C13 at the input of the specification: the tag of a body that starts with
`{"tag_name":"v1.2.3"` is `v1.2.3`, also as the result of `resolveLatestRef`;
a body without the key has none. -/
theorem tagName_extracts_witness :
    tagName "\x7b\"tag_name\":\"v1.2.3\", \"name\":\"r\"\x7d".data = .ok "v1.2.3".data ∧
    (resolveLatestRef Scene.envTag Scene.optLatest.Source Scene.w0).1 = .ok "v1.2.3".data ∧
    "v1.2.3".data ≠ [] ∧
    tagName "\x7b\"name\":\"r\"\x7d".data =
      .error (.text "tag_name not found in latest release response".data) :=
  ⟨tagName_extracts.2.2.2 "v1.2.3".data ", \"name\":\"r\"\x7d".data (by decide) (by decide),
   by decide,
   tagName_extracts.2.1 Scene.envTag Scene.optLatest.Source Scene.w0 _ (by decide),
   tagName_extracts.2.2.1 "\x7b\"name\":\"r\"\x7d".data (by
     rw [← strings.Contains_iff]
     decide)⟩

theorem latestURL_of_missing (source : GoString) (h : ¬ "/repos/".data <:+: source) :
    latestURL source = .error (.cannotParse source) := by
  unfold latestURL
  simp only [(strings.Index_none_iff _ _).2 h]

theorem latestURL_found (pre rest owner repo : GoString) (tl : List GoString)
    (h : ¬ "/repos/".data <:+: pre ++ "/repos".data)
    (hs : strings.SplitN '/' rest 3 = owner :: repo :: tl) :
    latestURL (pre ++ "/repos/".data ++ rest) =
      .ok ("https://api.github.com/repos/".data ++ owner ++ "/".data ++ repo ++
        "/releases/latest".data) := by
  have h1 := strings.Index_first pre "/repos/".data rest h (by decide)
  have h2 : List.drop (pre.length + "/repos/".data.length) (pre ++ "/repos/".data ++ rest) =
      rest := by
    rw [← List.length_append, List.drop_left]
  unfold latestURL
  simp only [h1, h2, hs]

theorem latestURL_short (pre rest : GoString)
    (h : ¬ "/repos/".data <:+: pre ++ "/repos".data) (hs : '/' ∉ rest) :
    latestURL (pre ++ "/repos/".data ++ rest) =
      .error (.cannotParse (pre ++ "/repos/".data ++ rest)) := by
  have h1 := strings.Index_first pre "/repos/".data rest h (by decide)
  have h2 : List.drop (pre.length + "/repos/".data.length) (pre ++ "/repos/".data ++ rest) =
      rest := by
    rw [← List.length_append, List.drop_left]
  unfold latestURL
  simp only [h1, h2, strings.SplitN_no_sep '/' rest hs 2]

/-- C17, amended: `resolveLatestRef` returns the error `cannot parse
owner/repo` and leaves the state as it is, so that no request is made, for a
source that does not contain `/repos/`, and for a source in which no `/`
follows the first `/repos/`; for every other source, that is
`pre/repos/owner/repo` or `pre/repos/owner/repo/...` where `/repos/` occurs
first after `pre` and `owner` and `repo` hold no `/`, it builds the request
for `https://api.github.com/repos/owner/repo/releases/latest`: when
`http.NewRequestWithContext` accepts this address, the request is its first
call and the only call after it is the reading of the answer, and when the
address is refused it returns that error and the state as it is, again
without a request. -/
theorem resolveLatestRef_source (env : Env) (w : World) :
    (∀ source : GoString, ¬ "/repos/".data <:+: source →
      resolveLatestRef env source w = (.error (.cannotParse source), w)) ∧
    (∀ pre rest : GoString, ¬ "/repos/".data <:+: pre ++ "/repos".data → '/' ∉ rest →
      resolveLatestRef env (pre ++ "/repos/".data ++ rest) w =
        (.error (.cannotParse (pre ++ "/repos/".data ++ rest)), w)) ∧
    (∀ pre owner repo tail : GoString, ¬ "/repos/".data <:+: pre ++ "/repos".data →
      '/' ∉ owner → '/' ∉ repo → (tail = [] ∨ ∃ t, tail = '/' :: t) →
      (http.NewRequestWithContext env ("https://api.github.com/repos/".data ++ owner ++
          "/".data ++ repo ++ "/releases/latest".data) = none →
        ∃ new, (resolveLatestRef env
            (pre ++ "/repos/".data ++ (owner ++ '/' :: (repo ++ tail))) w).2.log =
          new ++ Call.httpGet ("https://api.github.com/repos/".data ++ owner ++ "/".data ++
            repo ++ "/releases/latest".data) env.GITHUB_TOKEN :: w.log ∧
          ∀ c ∈ new, c = Call.readBody ("https://api.github.com/repos/".data ++ owner ++
            "/".data ++ repo ++ "/releases/latest".data)) ∧
      (∀ e, http.NewRequestWithContext env ("https://api.github.com/repos/".data ++ owner ++
          "/".data ++ repo ++ "/releases/latest".data) = some e →
        resolveLatestRef env (pre ++ "/repos/".data ++ (owner ++ '/' :: (repo ++ tail))) w =
          (.error e, w))) := by
  refine ⟨?_, ?_, ?_⟩
  · intro source h
    unfold resolveLatestRef
    simp only [latestURL_of_missing source h]
  · intro pre rest h hs
    unfold resolveLatestRef
    simp only [latestURL_short pre rest h hs]
  · intro pre owner repo tail h ho hr ht
    have hs : ∃ tl, strings.SplitN '/' (owner ++ '/' :: (repo ++ tail)) 3 =
        owner :: repo :: tl := by
      rw [strings.SplitN_sep '/' owner _ ho 1]
      rcases ht with ht | ⟨t, ht⟩
      · subst ht
        rw [List.append_nil, strings.SplitN_no_sep '/' repo hr 1]
        exact ⟨[], rfl⟩
      · subst ht
        rw [strings.SplitN_sep '/' repo t hr 0]
        exact ⟨_, rfl⟩
    obtain ⟨tl, hs⟩ := hs
    have hurl := latestURL_found pre _ owner repo tl h hs
    have hlog := os.Get_log env ("https://api.github.com/repos/".data ++ owner ++ "/".data ++
      repo ++ "/releases/latest".data) w
    constructor
    · intro hreq
      unfold resolveLatestRef
      simp only [hurl, hreq]
      rcases hg : http.Get env ("https://api.github.com/repos/".data ++ owner ++ "/".data ++
        repo ++ "/releases/latest".data) w with ⟨r, w1⟩
      rw [hg] at hlog
      simp only at hlog
      cases r with
      | none => exact ⟨[], by simpa using hlog, fun c hc => absurd hc (List.not_mem_nil _)⟩
      | some sb =>
        simp only
        split
        · exact ⟨[], by simpa using hlog, fun c hc => absurd hc (List.not_mem_nil _)⟩
        · split
          · exact ⟨[_], by simp [World.record, hlog], fun c hc => List.mem_singleton.1 hc⟩
          · exact ⟨[_], by simp [World.record, hlog], fun c hc => List.mem_singleton.1 hc⟩
    · intro e hreq
      unfold resolveLatestRef
      simp only [hurl, hreq]

set_option maxRecDepth 100000 in
/-- C17, amended, at concrete inputs: a source without `/repos/`, a source
with nothing after the owner, the source of the test, and a source whose owner
holds a tab character. -/
theorem resolveLatestRef_source_witness :
    resolveLatestRef Scene.env "http://127.0.0.1/owner/repo".data Scene.w0 =
      (.error (.cannotParse "http://127.0.0.1/owner/repo".data), Scene.w0) ∧
    resolveLatestRef Scene.env ("http://127.0.0.1".data ++ "/repos/".data ++ "owner".data)
      Scene.w0 =
      (.error (.cannotParse ("http://127.0.0.1".data ++ "/repos/".data ++ "owner".data)),
        Scene.w0) ∧
    (∃ new, (resolveLatestRef Scene.env
        ("http://127.0.0.1".data ++ "/repos/".data ++
          ("owner".data ++ '/' :: ("repo".data ++ "/tarball".data))) Scene.w0).2.log =
      new ++ Call.httpGet ("https://api.github.com/repos/".data ++ "owner".data ++ "/".data ++
        "repo".data ++ "/releases/latest".data) Scene.env.GITHUB_TOKEN :: Scene.w0.log ∧
      ∀ c ∈ new, c = Call.readBody ("https://api.github.com/repos/".data ++ "owner".data ++
        "/".data ++ "repo".data ++ "/releases/latest".data)) ∧
    resolveLatestRef Scene.env
      ("http://127.0.0.1".data ++ "/repos/".data ++
        ("ow\tner".data ++ '/' :: ("repo".data ++ "/tarball".data))) Scene.w0 =
      (.error (.os "parse".data ("https://api.github.com/repos/".data ++ "ow\tner".data ++
        "/".data ++ "repo".data ++ "/releases/latest".data)), Scene.w0) :=
  ⟨(resolveLatestRef_source Scene.env Scene.w0).1 "http://127.0.0.1/owner/repo".data
      (fun h => absurd ((strings.Contains_iff _ _).2 h) (by decide)),
   (resolveLatestRef_source Scene.env Scene.w0).2.1 "http://127.0.0.1".data "owner".data
      (fun h => absurd ((strings.Contains_iff _ _).2 h) (by decide)) (by decide),
   ((resolveLatestRef_source Scene.env Scene.w0).2.2 "http://127.0.0.1".data "owner".data
      "repo".data "/tarball".data
      (fun h => absurd ((strings.Contains_iff _ _).2 h) (by decide)) (by decide) (by decide)
      (Or.inr ⟨_, rfl⟩)).1 (by decide),
   ((resolveLatestRef_source Scene.env Scene.w0).2.2 "http://127.0.0.1".data "ow\tner".data
      "repo".data "/tarball".data
      (fun h => absurd ((strings.Contains_iff _ _).2 h) (by decide)) (by decide) (by decide)
      (Or.inr ⟨_, rfl⟩)).2 _ (by decide)⟩

set_option maxRecDepth 100000 in
/-- C17 as stated fails: the source `http://127.0.0.1/repos/ow<TAB>ner/repo/tarball`
contains `/repos/`, followed by an owner and a repository, yet
`resolveLatestRef` does not query the address of the release metadata: the
address holds a control character, `http.NewRequestWithContext` refuses it, and
the function returns that error with no call made. -/
theorem resolveLatestRef_refuses_address :
    latestURL Scene.sourceCtl =
      .ok "https://api.github.com/repos/ow\tner/repo/releases/latest".data ∧
    resolveLatestRef Scene.env Scene.sourceCtl Scene.w0 =
      (.error (.os "parse".data
        "https://api.github.com/repos/ow\tner/repo/releases/latest".data), Scene.w0) ∧
    (∀ token, Call.httpGet "https://api.github.com/repos/ow\tner/repo/releases/latest".data
      token ∉ (resolveLatestRef Scene.env Scene.sourceCtl Scene.w0).2.log) := by
  refine ⟨by decide, Prod.ext (by decide) rfl, ?_⟩
  intro token h
  have h2 : (resolveLatestRef Scene.env Scene.sourceCtl Scene.w0).2.log = [] := by decide
  rw [h2] at h
  exact absurd h (List.not_mem_nil _)

end updater

namespace updater

/-- The loop of `untarGz` stops at an entry with an unsafe name: with the
entries `pre` before it extracted, the result is the error of that entry and
the state is the one in which its header was read. -/
theorem untarLoop_bad_name (env : Env) (src dest : GoString) (endErr : Bool) (e : tar.Entry)
    (post : List tar.Entry) (err : Err) (hname : safeFilePath dest e.hdr.Name = .error err) :
    ∀ (pre : List tar.Entry) (w w2 : World),
      untarLoop env src dest false pre w = (none, w2) →
      untarLoop env src dest endErr (pre ++ e :: post) w =
        (some (.wrap "unsafe tar entry".data err), w2) := by
  intro pre
  induction pre with
  | nil =>
    intro w w2 h
    unfold untarLoop at h
    simp only [Bool.or_false] at h
    split at h
    · exact absurd (congrArg Prod.fst h) (by simp)
    · rename_i hf
      have hw := congrArg Prod.snd h
      simp only at hw
      rw [List.nil_append]
      unfold untarLoop
      simp only [hf]
      unfold untarEntry
      simp only [hname, hw]
      rfl
  | cons p ps ih =>
    intro w w2 h
    unfold untarLoop at h
    simp only at h
    rw [List.cons_append]
    unfold untarLoop
    simp only
    split at h
    · exact absurd (congrArg Prod.fst h) (by simp)
    · rename_i hf
      simp only [hf]
      rcases hp : untarEntry env dest p (w.record (Call.tarNext src)) with ⟨r, w1⟩
      rw [hp] at h
      cases r with
      | some e1 => exact absurd (congrArg Prod.fst h) (by simp)
      | none =>
        simp only at h ⊢
        exact ih w1 w2 h

/-- C14: `untarGz` stops at the first entry whose name fails the containment
check.  When the archive opens as the stream `pre ++ e :: post`, the entries
`pre` are extracted without an error (the loop over the stream that ends
before `e` returns none and leaves the state `w2`) and `safeFilePath` refuses
the name of `e`, then `untarGz` returns the error `unsafe tar entry` of `e`
whatever the later entries `post` are; the file system at the end is the one
that the extraction of `pre` has left, so nothing is made for `e` or a later
entry and nothing of the earlier entries is taken back; and the only call
after the header of `e` was read is the closing of the archive. -/
theorem untarGz_stops_at_bad_name (env : Env) (src dest v : GoString) (mode : Nat) (data : Bytes)
    (pre : List tar.Entry) (e : tar.Entry) (post : List tar.Entry) (endErr : Bool) (err : Err)
    (w w1 w2 : World)
    (hsrc : validateFilePath (filepath.Dir src) (filepath.Base src) = .ok v)
    (hopen : os.Open env src w = (.ok (.file mode data), w1))
    (hgz : env.fault w1.log (Call.gzipNewReader src) = false)
    (hstream : env.gunzipTar data = some (pre ++ e :: post, endErr))
    (hpre : untarLoop env src dest false pre (w1.record (Call.gzipNewReader src)) = (none, w2))
    (hname : safeFilePath dest e.hdr.Name = .error err) :
    (untarGz env src dest w).1 = some (.wrap "unsafe tar entry".data err) ∧
    (untarGz env src dest w).2.fs = w2.fs ∧
    (untarGz env src dest w).2.log = Call.close src :: w2.log := by
  have hloop := untarLoop_bad_name env src dest endErr e post err hname pre _ w2 hpre
  have hu : untarGz env src dest w =
      (some (.wrap "unsafe tar entry".data err), (os.Close env src w2).2) := by
    unfold untarGz
    simp only [hsrc, hopen, hgz, hstream, hloop]
    rfl
  rw [hu]
  exact ⟨rfl, os.Close_fs env src w2, os.Close_log env src w2⟩

set_option maxRecDepth 100000 in
/-- C14 at concrete inputs: an archive with the entries `a`, `../evil` and
`b`, extracted into `/tmp/out`: the extraction fails at the second entry, the
file `a` is there and the file `b` is not. -/
theorem untarGz_stops_at_bad_name_witness :
    ((untarGz Scene.envEscape "/tmp/sha.bin".data "/tmp/out".data Scene.w0).1 =
        some (.wrap "unsafe tar entry".data (.pathTraversal "../evil".data)) ∧
      (untarGz Scene.envEscape "/tmp/sha.bin".data "/tmp/out".data Scene.w0).2.fs =
        (untarLoop Scene.envEscape "/tmp/sha.bin".data "/tmp/out".data false
          [Scene.fileEntry "a".data 0o644 (Scene.bytes "x")]
          ((os.Open Scene.envEscape "/tmp/sha.bin".data Scene.w0).2.record
            (Call.gzipNewReader "/tmp/sha.bin".data))).2.fs ∧
      (untarGz Scene.envEscape "/tmp/sha.bin".data "/tmp/out".data Scene.w0).2.log =
        Call.close "/tmp/sha.bin".data ::
        (untarLoop Scene.envEscape "/tmp/sha.bin".data "/tmp/out".data false
          [Scene.fileEntry "a".data 0o644 (Scene.bytes "x")]
          ((os.Open Scene.envEscape "/tmp/sha.bin".data Scene.w0).2.record
            (Call.gzipNewReader "/tmp/sha.bin".data))).2.log) ∧
    (untarGz Scene.envEscape "/tmp/sha.bin".data "/tmp/out".data Scene.w0).2.fs.contentAt
      ["tmp".data, "out".data, "a".data] = some (some (Scene.bytes "x")) ∧
    (untarGz Scene.envEscape "/tmp/sha.bin".data "/tmp/out".data Scene.w0).2.fs.contentAt
      ["tmp".data, "out".data, "b".data] = none ∧
    (untarGz Scene.envEscape "/tmp/sha.bin".data "/tmp/out".data Scene.w0).2.fs.contentAt
      ["tmp".data, "evil".data] = none :=
  ⟨untarGz_stops_at_bad_name Scene.envEscape "/tmp/sha.bin".data "/tmp/out".data
      "/tmp/sha.bin".data 0o644 (Scene.bytes "hello world")
      [Scene.fileEntry "a".data 0o644 (Scene.bytes "x")]
      (Scene.fileEntry "../evil".data 0o644 (Scene.bytes "y"))
      [Scene.fileEntry "b".data 0o644 (Scene.bytes "z")] false (.pathTraversal "../evil".data)
      Scene.w0 (os.Open Scene.envEscape "/tmp/sha.bin".data Scene.w0).2
      (untarLoop Scene.envEscape "/tmp/sha.bin".data "/tmp/out".data false
        [Scene.fileEntry "a".data 0o644 (Scene.bytes "x")]
        ((os.Open Scene.envEscape "/tmp/sha.bin".data Scene.w0).2.record
          (Call.gzipNewReader "/tmp/sha.bin".data))).2
      (by decide) (Prod.ext (by decide) rfl) rfl rfl (Prod.ext (by decide) rfl) (by decide),
   by decide, by decide, by decide⟩

end updater

namespace updater

open filepath

/-- The base joined with a cleaned name without parent elements, as rendered
elements: those of the base followed by those of the name. -/
theorem full_render (root name : GoString) (hr : root ≠ [])
    (hn : ∀ e ∈ nameElems name, proper e ∧ e ≠ dotdot) :
    Clean (filepath.Join [root, Clean name]) = render (isRooted root)
      (cleanElems (isRooted root) (strings.Split '/' root) ++ nameElems name) := by
  rw [Join_pair root _ hr, Clean_idem, Clean, isRooted_append _ _ hr]
  rw [strings.Split_append, cleanElems, List.foldl_append]
  have hp : ∀ e ∈ nameElems name, proper e := fun e he => (hn e he).1
  have e2 : Clean name = render (isRooted name) (nameElems name) := rfl
  rw [e2, foldl_Split_render _ _ _ hp, foldl_normals _ _ hn]
  simp [cleanElems]

/-- The relative path from the base to the joined path exists and does not
start with two dots. -/
theorem Rel_full (root name : GoString) (hr : root ≠ [])
    (hC : strings.Contains (Clean name) dotdot = false) :
    ∃ rel, filepath.Rel root (Clean (filepath.Join [root, Clean name])) = some rel ∧
      strings.HasPrefix rel dotdot = false := by
  have hn := nameElems_normal name hC
  have hfull := full_render root name hr (fun e he => (hn e he).1)
  have hE := cleanElems_proper (isRooted root) _ (strings.Split_no_sep '/' root)
  by_cases hs : nameElems name = []
  · rw [hfull, hs, List.append_nil]
    refine ⟨['.'], ?_, by decide⟩
    have : render (isRooted root) (cleanElems (isRooted root) (strings.Split '/' root)) =
        Clean root := rfl
    rw [this]
    simp [filepath.Rel, Clean_idem]
  · refine ⟨strings.Join (nameElems name) ['/'], ?_, ?_⟩
    · refine Rel_below (isRooted root) _ (nameElems name) root _ hE
        (fun e he => (hn e he).1.1) hs rfl ?_
      rw [Clean_idem, hfull]
    · by_contra hp
      have hp : strings.HasPrefix (strings.Join (nameElems name) ['/']) dotdot = true := by
        simpa using hp
      rw [strings.HasPrefix_iff] at hp
      have hsuf : strings.Join (nameElems name) ['/'] <:+ Clean name := by
        have e2 : Clean name = render (isRooted name) (nameElems name) := rfl
        rw [e2, render]
        cases isRooted name with
        | true => exact ⟨['/'], by simp⟩
        | false => simp [hs]
      have : strings.Contains (Clean name) dotdot = true :=
        (strings.Contains_iff _ _).2 (hp.isInfix.trans hsuf.isInfix)
      rw [hC] at this
      exact absurd this (by simp)

/-- A name whose cleaned form is free of two consecutive dots is accepted
under every base that is not empty, as the base joined with the cleaned name. -/
theorem validateFilePath_accepts (root name : GoString) (hr : root ≠ [])
    (hC : strings.Contains (Clean name) dotdot = false) :
    validateFilePath root name = .ok (filepath.Join [root, Clean name]) := by
  obtain ⟨rel, hrel, hpre⟩ := Rel_full root name hr hC
  have hj : Clean (filepath.Join [root, Clean name]) = filepath.Join [root, Clean name] := by
    rw [Join_pair root _ hr, Clean_idem]
  rw [hj] at hrel
  unfold validateFilePath
  simp only [hC, Bool.false_eq_true, if_false, hj, hrel, hpre]

/-- A name whose cleaned form holds two consecutive dots is refused. -/
theorem validateFilePath_rejects (root name : GoString)
    (hC : strings.Contains (Clean name) dotdot = true) :
    validateFilePath root name = .error (.pathTraversal name) := by
  unfold validateFilePath
  simp only [hC, if_true]

end updater

namespace updater

open filepath

theorem ne_nil_of_isRooted (base : GoString) (h : isRooted base = true) : base ≠ [] := by
  intro hb
  rw [hb] at h
  exact absurd h (by decide)

/-- C15, as the code has it: an absolute name is not refused for being
absolute.  For an entry whose name is an absolute path, `safeFilePath` returns
an error when the extraction root is the empty string, and the error
`path traversal detected` when the cleaned name holds two consecutive dots;
under every other root an absolute name whose cleaned form holds no two
consecutive dots is accepted: the result is the root joined with the cleaned
name, which lies within the root, at the location of the root followed by the
elements of the name. -/
theorem safeFilePath_absolute_name (root name : GoString) (habs : isRooted name = true) :
    (root = [] → ∃ e, safeFilePath root name = .error e) ∧
    (strings.Contains (Clean name) dotdot = true →
      safeFilePath root name = .error (.pathTraversal name)) ∧
    (root ≠ [] → strings.Contains (Clean name) dotdot = false →
      safeFilePath root name = .ok (filepath.Join [root, Clean name]) ∧
      lexWithin root (filepath.Join [root, Clean name]) ∧
      ∀ cwd, pathKey cwd (filepath.Join [root, Clean name]) =
        pathKey cwd root ++ nameElems name) := by
  refine ⟨?_, validateFilePath_rejects root name, ?_⟩
  · intro hr
    cases h : safeFilePath root name with
    | error e => exact ⟨e, rfl⟩
    | ok full =>
      exfalso
      rcases (validateFilePath_ok root name full h).2 with ⟨_, hn, _⟩ | ⟨hne, _⟩
      · rw [habs] at hn
        exact absurd hn (by simp)
      · exact hne hr
  · intro hr hC
    have h := validateFilePath_accepts root name hr hC
    exact ⟨h, validateFilePath_within root name _ h,
      fun cwd => (validateFilePath_key cwd root name _ h).1⟩

/-- C15 at concrete inputs: the name `/etc/passwd` under the roots `/tmp` and
the empty string, and the name `/a/..b`. -/
theorem safeFilePath_absolute_name_witness :
    (∃ e, safeFilePath [] "/etc/passwd".data = .error e) ∧
    safeFilePath "/tmp".data "/a/..b".data = .error (.pathTraversal "/a/..b".data) ∧
    safeFilePath "/tmp".data "/etc/passwd".data =
        .ok (filepath.Join ["/tmp".data, Clean "/etc/passwd".data]) ∧
    filepath.Join ["/tmp".data, Clean "/etc/passwd".data] = "/tmp/etc/passwd".data ∧
    pathKey ["work".data] (filepath.Join ["/tmp".data, Clean "/etc/passwd".data]) =
      ["tmp".data, "etc".data, "passwd".data] :=
  ⟨(safeFilePath_absolute_name [] "/etc/passwd".data (by decide)).1 rfl,
   (safeFilePath_absolute_name "/tmp".data "/a/..b".data (by decide)).2.1 (by decide),
   ((safeFilePath_absolute_name "/tmp".data "/etc/passwd".data (by decide)).2.2
      (by decide) (by decide)).1,
   by decide,
   (((safeFilePath_absolute_name "/tmp".data "/etc/passwd".data (by decide)).2.2
      (by decide) (by decide)).2.2 ["work".data]).trans (by decide)⟩

/-- C15 as stated fails: the absolute name `/etc/passwd` is accepted under the
extraction root `/tmp`, as the path `/tmp/etc/passwd`. -/
theorem safeFilePath_accepts_absolute :
    isRooted "/etc/passwd".data = true ∧
    safeFilePath "/tmp".data "/etc/passwd".data = .ok "/tmp/etc/passwd".data := by
  decide

/-- C20: `validateFilePath` of the package `cmd` is the function of the
package `updater`; under an absolute base directory it succeeds exactly when
the cleaned name holds no two consecutive dots, with the error
`path traversal detected` otherwise, and what it returns is the base joined
with the cleaned name; whenever the first check lets a name pass, the relative
path from the base to the joined path exists and does not start with two
dots, so the second check never fires.  The name `a/../b` is accepted as
`/base/b`; the name `a..b` is refused although it names the entry `a..b` of
the base. -/
theorem validateFilePath_iff :
    (∀ base name : GoString, cmd.validateFilePath base name = validateFilePath base name) ∧
    (∀ base name : GoString, isRooted base = true →
      ((∃ full, validateFilePath base name = .ok full) ↔
        strings.Contains (Clean name) dotdot = false) ∧
      (strings.Contains (Clean name) dotdot = false →
        validateFilePath base name = .ok (filepath.Join [base, Clean name])) ∧
      (strings.Contains (Clean name) dotdot = true →
        validateFilePath base name = .error (.pathTraversal name)) ∧
      (strings.Contains (Clean name) dotdot = false →
        ∃ rel, filepath.Rel base (Clean (filepath.Join [base, Clean name])) = some rel ∧
          strings.HasPrefix rel dotdot = false)) ∧
    validateFilePath "/base".data "a/../b".data = .ok "/base/b".data ∧
    (validateFilePath "/base".data "a..b".data = .error (.pathTraversal "a..b".data) ∧
      pathKey [] (filepath.Join ["/base".data, "a..b".data]) = ["base".data, "a..b".data]) := by
  refine ⟨fun _ _ => rfl, ?_, by decide, by decide, by decide⟩
  intro base name hb
  have hr := ne_nil_of_isRooted base hb
  refine ⟨⟨?_, fun hC => ⟨_, validateFilePath_accepts base name hr hC⟩⟩,
    validateFilePath_accepts base name hr, validateFilePath_rejects base name,
    Rel_full base name hr⟩
  rintro ⟨full, hfull⟩
  by_contra hC
  have hC : strings.Contains (Clean name) dotdot = true := by simpa using hC
  rw [validateFilePath_rejects base name hC] at hfull
  exact absurd hfull (by simp)

/-- C20 at concrete inputs: the base `/work/cfg` with the names
`cis-1.11/./config.yaml` and `x/..y`. -/
theorem validateFilePath_iff_witness :
    cmd.validateFilePath "/work/cfg".data "cis-1.11/./config.yaml".data =
      .ok "/work/cfg/cis-1.11/config.yaml".data ∧
    validateFilePath "/work/cfg".data "x/..y".data = .error (.pathTraversal "x/..y".data) ∧
    (∃ rel, filepath.Rel "/work/cfg".data
        (Clean (filepath.Join ["/work/cfg".data, Clean "cis-1.11/./config.yaml".data])) =
          some rel ∧ strings.HasPrefix rel dotdot = false) :=
  ⟨(validateFilePath_iff.1 _ _).trans
      (((validateFilePath_iff.2.1 "/work/cfg".data "cis-1.11/./config.yaml".data
        (by decide)).2.1 (by decide)).trans (by decide)),
   (validateFilePath_iff.2.1 "/work/cfg".data "x/..y".data (by decide)).2.2.1 (by decide),
   (validateFilePath_iff.2.1 "/work/cfg".data "cis-1.11/./config.yaml".data
      (by decide)).2.2.2 (by decide)⟩

end updater

namespace os

/-- The listing of a directory is sorted by name. -/
theorem ReadDir_sorted (env : Env) (path : GoString) (w w1 : World)
    (entries : List (GoString × Bool)) (h : ReadDir env path w = (.ok entries, w1)) :
    (entries.map Prod.fst).Sorted (fun a b => a ≤ b) := by
  unfold ReadDir at h
  simp only at h
  split at h
  · exact absurd (congrArg Prod.fst h) (by simp)
  · have hl := congrArg Prod.fst h
    simp only [Except.ok.injEq] at hl
    rw [← hl, List.map_map]
    have : (Prod.fst ∘ fun n => (n, w.fs.isDir (pathKey env.cwd path ++ [n]))) = id := rfl
    rw [this, List.map_id]
    unfold FS.children
    exact List.sorted_insertionSort _ _

end os

namespace updater

/-- The result of `findTopLevelDir` on a listing whose first directory is `e`. -/
theorem findTopLevelDir_first (env : Env) (root : GoString) (w w1 : World)
    (pre post : List (GoString × Bool)) (e : GoString × Bool)
    (h : os.ReadDir env root w = (.ok (pre ++ e :: post), w1))
    (hpre : ∀ x ∈ pre, x.2 = false) (he : e.2 = true) :
    findTopLevelDir env root w = (.ok (filepath.Join [root, e.1]), w1) := by
  have hf : (pre ++ e :: post).find? (fun e => e.2) = some e := by
    rw [List.find?_append, List.find?_eq_none.2 (fun x hx => by simp [hpre x hx])]
    simp [he]
  unfold findTopLevelDir
  simp only [h, hf]

/-- The result of `findTopLevelDir` on a listing without a directory. -/
theorem findTopLevelDir_none (env : Env) (root : GoString) (w w1 : World)
    (entries : List (GoString × Bool))
    (h : os.ReadDir env root w = (.ok entries, w1)) (hno : ∀ x ∈ entries, x.2 = false) :
    findTopLevelDir env root w = (.error (.noDirectory root), w1) := by
  have hf : entries.find? (fun e => e.2) = none :=
    List.find?_eq_none.2 (fun x hx => by simp [hno x hx])
  unfold findTopLevelDir
  simp only [h, hf]

/-- The end of `fetchBundle` when the wrapping directory holds no directory
`cfg`. -/
theorem fetchBundle_no_cfg (env : Env) (opt : Options) (url tmpDir top : GoString)
    (w w1 w2 w3 w4 w5 : World)
    (hdl : download env url (filepath.Join [tmpDir, "src.tar.gz".data]) w = (none, w1))
    (hck : (if opt.Checksum ≠ [] then
        verifySHA256 env (filepath.Join [tmpDir, "src.tar.gz".data]) opt.Checksum w1
      else (none, w1)) = (none, w2))
    (hmk : os.MkdirAll env (filepath.Join [tmpDir, "extract".data]) 0o750 w2 = (none, w3))
    (hun : untarGz env (filepath.Join [tmpDir, "src.tar.gz".data])
      (filepath.Join [tmpDir, "extract".data]) w3 = (none, w4))
    (hfind : findTopLevelDir env (filepath.Join [tmpDir, "extract".data]) w4 = (.ok top, w5))
    (hcfg : w5.fs.isDir (pathKey env.cwd (filepath.Join [top, "cfg".data])) = false) :
    (fetchBundle env opt url tmpDir w).1 =
      .error (.cfgNotFound (filepath.Join [top, "cfg".data])) := by
  have hst : ∀ fi w6, os.Stat env (filepath.Join [top, "cfg".data]) w5 = (.ok fi, w6) →
      fi.isDir = false := by
    intro fi w6 h
    unfold os.Stat at h
    simp only at h
    split at h
    · exact absurd (congrArg Prod.fst h) (by simp)
    · rcases hn : w5.fs.node (pathKey env.cwd (filepath.Join [top, "cfg".data])) with _ | n
      · rw [hn] at h
        exact absurd (congrArg Prod.fst h) (by simp)
      · rw [hn] at h
        have hfi := congrArg Prod.fst h
        simp only [Except.ok.injEq] at hfi
        rw [← hfi]
        unfold FS.isDir at hcfg
        rw [hn] at hcfg
        cases n with
        | dir m => exact absurd hcfg (by simp)
        | file m d => rfl
  unfold fetchBundle
  simp only [hdl, hck, hmk, hun, hfind]
  rcases hs : os.Stat env (filepath.Join [top, "cfg".data]) w5 with ⟨r, w6⟩
  cases r with
  | error e => rfl
  | ok fi =>
    simp only [hst fi w6 hs]
    rfl

/-- C16: when the listing of the extraction root succeeds, its entries are
sorted by name, `findTopLevelDir` returns the root joined with the name of the
first entry that is a directory, and it fails, with the error
`no directory found`, exactly when no entry is a directory; and when `Update`
has come as far as the wrapping directory `top` and no directory is at
`top/cfg`, `Update` returns the error `cfg not found in tarball`. -/
theorem findTopLevelDir_selects :
    (∀ (env : Env) (root : GoString) (w w1 : World) (entries : List (GoString × Bool)),
      os.ReadDir env root w = (.ok entries, w1) →
      (entries.map Prod.fst).Sorted (fun a b => a ≤ b) ∧
      (∀ pre e post, entries = pre ++ e :: post → (∀ x ∈ pre, x.2 = false) → e.2 = true →
        findTopLevelDir env root w = (.ok (filepath.Join [root, e.1]), w1)) ∧
      ((∀ x ∈ entries, x.2 = false) →
        findTopLevelDir env root w = (.error (.noDirectory root), w1)) ∧
      ((∃ err, (findTopLevelDir env root w).1 = .error err) ↔ ∀ x ∈ entries, x.2 = false)) ∧
    (∀ (env : Env) (opt : Options) (ref tmpDir top : GoString)
      (w w1 w2 w3 w4 w5 w6 w7 : World),
      ¬ (opt.Source = [] ∨ opt.Ref = [] ∨ opt.TargetCfgDir = []) →
      resolveRef env opt w = (.ok ref, w1) →
      os.MkdirTemp env "kube-bench-update-".data w1 = (.ok tmpDir, w2) →
      download env (tarballURL opt ref) (filepath.Join [tmpDir, "src.tar.gz".data]) w2 =
        (none, w3) →
      (if opt.Checksum ≠ [] then
          verifySHA256 env (filepath.Join [tmpDir, "src.tar.gz".data]) opt.Checksum w3
        else (none, w3)) = (none, w4) →
      os.MkdirAll env (filepath.Join [tmpDir, "extract".data]) 0o750 w4 = (none, w5) →
      untarGz env (filepath.Join [tmpDir, "src.tar.gz".data])
        (filepath.Join [tmpDir, "extract".data]) w5 = (none, w6) →
      findTopLevelDir env (filepath.Join [tmpDir, "extract".data]) w6 = (.ok top, w7) →
      w7.fs.isDir (pathKey env.cwd (filepath.Join [top, "cfg".data])) = false →
      (Update env opt w).1 = some (.cfgNotFound (filepath.Join [top, "cfg".data]))) := by
  constructor
  · intro env root w w1 entries h
    refine ⟨os.ReadDir_sorted env root w w1 entries h, ?_,
      findTopLevelDir_none env root w w1 entries h, ?_, ?_⟩
    · intro pre e post hsplit hpre he
      rw [hsplit] at h
      exact findTopLevelDir_first env root w w1 pre post e h hpre he
    · rintro ⟨err, herr⟩ x hx
      by_contra hd
      have hd : x.2 = true := by simpa using hd
      have hsome : (entries.find? (fun e => e.2)).isSome = true := by
        rw [List.find?_isSome]
        exact ⟨x, hx, hd⟩
      obtain ⟨e, he⟩ := Option.isSome_iff_exists.1 hsome
      obtain ⟨he2, pre, post, hsplit, hpre⟩ := List.find?_eq_some.1 he
      rw [hsplit] at h
      rw [findTopLevelDir_first env root w w1 pre post e h
        (fun a ha => by simpa using hpre a ha) he2] at herr
      exact absurd herr (by simp)
    · intro hno
      exact ⟨_, congrArg Prod.fst (findTopLevelDir_none env root w w1 entries h hno)⟩
  · intro env opt ref tmpDir top w w1 w2 w3 w4 w5 w6 w7 hvalid href htmp hdl hck hmk hun
      hfind hcfg
    rw [Update_in_scratch env opt w w1 w2 ref tmpDir hvalid href htmp]
    have hf := fetchBundle_no_cfg env opt (tarballURL opt ref) tmpDir top w2 w3 w4 w5 w6 w7
      hdl hck hmk hun hfind hcfg
    simp only
    unfold updateInScratch
    rcases hfb : fetchBundle env opt (tarballURL opt ref) tmpDir w2 with ⟨r, wf⟩
    rw [hfb] at hf
    simp only at hf
    rw [hf]

end updater

namespace updater

set_option maxRecDepth 100000 in
/-- C16 at concrete inputs: an archive with the file `README`, the directory
`kube-bench-sha` without `cfg`, and the directory `zzz`; an archive whose
wrapping directory holds a file `cfg`; an archive without a directory. -/
theorem findTopLevelDir_selects_witness :
    findTopLevelDir Scene.envNoCfg (filepath.Join [Scene.tmpDir, "extract".data])
        (Scene.extracted Scene.envNoCfg) =
      (.ok (filepath.Join [filepath.Join [Scene.tmpDir, "extract".data], Scene.top]),
        (os.ReadDir Scene.envNoCfg (filepath.Join [Scene.tmpDir, "extract".data])
          (Scene.extracted Scene.envNoCfg)).2) ∧
    findTopLevelDir Scene.envFlat (filepath.Join [Scene.tmpDir, "extract".data])
        (Scene.extracted Scene.envFlat) =
      (.error (.noDirectory (filepath.Join [Scene.tmpDir, "extract".data])),
        (os.ReadDir Scene.envFlat (filepath.Join [Scene.tmpDir, "extract".data])
          (Scene.extracted Scene.envFlat)).2) ∧
    (Update Scene.envNoCfg Scene.opt Scene.w0).1 =
      some (.cfgNotFound (filepath.Join
        ["/tmp/kube-bench-update-42/extract/kube-bench-sha".data, "cfg".data])) ∧
    (Update Scene.envCfgFile Scene.opt Scene.w0).1 =
      some (.cfgNotFound (filepath.Join
        ["/tmp/kube-bench-update-42/extract/kube-bench-sha".data, "cfg".data])) :=
  ⟨(findTopLevelDir_selects.1 Scene.envNoCfg (filepath.Join [Scene.tmpDir, "extract".data])
      (Scene.extracted Scene.envNoCfg) _
      [("README".data, false), (Scene.top, true), ("zzz".data, true)]
      (Prod.ext (by decide) rfl)).2.1 [("README".data, false)] (Scene.top, true)
      [("zzz".data, true)] rfl (by decide) rfl,
   (findTopLevelDir_selects.1 Scene.envFlat (filepath.Join [Scene.tmpDir, "extract".data])
      (Scene.extracted Scene.envFlat) _ [("README".data, false)]
      (Prod.ext (by decide) rfl)).2.2.1 (by decide),
   findTopLevelDir_selects.2 Scene.envNoCfg Scene.opt Scene.opt.Ref Scene.tmpDir
      "/tmp/kube-bench-update-42/extract/kube-bench-sha".data Scene.w0 Scene.w0
      (os.MkdirTemp Scene.envNoCfg "kube-bench-update-".data Scene.w0).2
      (download Scene.envNoCfg (tarballURL Scene.opt Scene.opt.Ref)
        (filepath.Join [Scene.tmpDir, "src.tar.gz".data])
        (os.MkdirTemp Scene.envNoCfg "kube-bench-update-".data Scene.w0).2).2
      (download Scene.envNoCfg (tarballURL Scene.opt Scene.opt.Ref)
        (filepath.Join [Scene.tmpDir, "src.tar.gz".data])
        (os.MkdirTemp Scene.envNoCfg "kube-bench-update-".data Scene.w0).2).2
      (os.MkdirAll Scene.envNoCfg (filepath.Join [Scene.tmpDir, "extract".data]) 0o750
        (download Scene.envNoCfg (tarballURL Scene.opt Scene.opt.Ref)
          (filepath.Join [Scene.tmpDir, "src.tar.gz".data])
          (os.MkdirTemp Scene.envNoCfg "kube-bench-update-".data Scene.w0).2).2).2
      (Scene.extracted Scene.envNoCfg)
      (findTopLevelDir Scene.envNoCfg (filepath.Join [Scene.tmpDir, "extract".data])
        (Scene.extracted Scene.envNoCfg)).2
      (by decide) rfl (Prod.ext (by decide) rfl) (Prod.ext (by decide) rfl) rfl
      (Prod.ext (by decide) rfl) (Prod.ext (by decide) rfl) (Prod.ext (by decide) rfl)
      (by decide),
   findTopLevelDir_selects.2 Scene.envCfgFile Scene.opt Scene.opt.Ref Scene.tmpDir
      "/tmp/kube-bench-update-42/extract/kube-bench-sha".data Scene.w0 Scene.w0
      (os.MkdirTemp Scene.envCfgFile "kube-bench-update-".data Scene.w0).2
      (download Scene.envCfgFile (tarballURL Scene.opt Scene.opt.Ref)
        (filepath.Join [Scene.tmpDir, "src.tar.gz".data])
        (os.MkdirTemp Scene.envCfgFile "kube-bench-update-".data Scene.w0).2).2
      (download Scene.envCfgFile (tarballURL Scene.opt Scene.opt.Ref)
        (filepath.Join [Scene.tmpDir, "src.tar.gz".data])
        (os.MkdirTemp Scene.envCfgFile "kube-bench-update-".data Scene.w0).2).2
      (os.MkdirAll Scene.envCfgFile (filepath.Join [Scene.tmpDir, "extract".data]) 0o750
        (download Scene.envCfgFile (tarballURL Scene.opt Scene.opt.Ref)
          (filepath.Join [Scene.tmpDir, "src.tar.gz".data])
          (os.MkdirTemp Scene.envCfgFile "kube-bench-update-".data Scene.w0).2).2).2
      (Scene.extracted Scene.envCfgFile)
      (findTopLevelDir Scene.envCfgFile (filepath.Join [Scene.tmpDir, "extract".data])
        (Scene.extracted Scene.envCfgFile)).2
      (by decide) rfl (Prod.ext (by decide) rfl) (Prod.ext (by decide) rfl) rfl
      (Prod.ext (by decide) rfl) (Prod.ext (by decide) rfl) (Prod.ext (by decide) rfl)
      (by decide)⟩

end updater

namespace time

theorem toDigitsCore_small (fuel n : Nat) (ds : List Char) (h : n < 10) :
    Nat.toDigitsCore 10 (fuel + 1) n ds = Nat.digitChar n :: ds := by
  simp [Nat.toDigitsCore, Nat.mod_eq_of_lt h, Nat.div_eq_of_lt h]

theorem toDigitsCore_big (fuel n : Nat) (ds : List Char) (h : 10 ≤ n) :
    Nat.toDigitsCore 10 (fuel + 1) n ds =
      Nat.toDigitsCore 10 fuel (n / 10) (Nat.digitChar (n % 10) :: ds) := by
  have : n / 10 ≠ 0 := by omega
  simp [Nat.toDigitsCore, this]

/-- Two digits with padding. -/
theorem appendInt_two : ∀ n, n < 100 →
    appendInt n 2 = [Nat.digitChar (n / 10), Nat.digitChar (n % 10)] := by
  decide

theorem appendInt_four_small : ∀ n, n < 100 →
    appendInt n 4 = [Nat.digitChar (n / 100 / 10), Nat.digitChar (n / 100 % 10),
      Nat.digitChar (n % 100 / 10), Nat.digitChar (n % 100 % 10)] := by
  decide

/-- Four digits with padding. -/
theorem appendInt_four (n : Nat) (h : n < 10000) :
    appendInt n 4 = [Nat.digitChar (n / 100 / 10), Nat.digitChar (n / 100 % 10),
      Nat.digitChar (n % 100 / 10), Nat.digitChar (n % 100 % 10)] := by
  by_cases hs : n < 100
  · exact appendInt_four_small n hs
  · obtain ⟨k, rfl⟩ : ∃ k, n = k + 3 := ⟨n - 3, by omega⟩
    have e1 : (k + 3) % 100 / 10 = (k + 3) / 10 % 10 := by omega
    have e2 : (k + 3) % 100 % 10 = (k + 3) % 10 := by omega
    have e3 : (k + 3) / 100 = (k + 3) / 10 / 10 := by omega
    unfold appendInt Nat.toDigits
    simp only
    rw [toDigitsCore_big _ _ _ (by omega), toDigitsCore_big _ _ _ (by omega), e1, e2, e3]
    by_cases h3 : (k + 3) / 10 / 10 < 10
    · rw [toDigitsCore_small _ _ _ h3]
      have : (k + 3) / 10 / 10 / 10 = 0 := by omega
      rw [this, Nat.mod_eq_of_lt h3]
      rfl
    · rw [toDigitsCore_big _ _ _ (by omega), toDigitsCore_small _ _ _ (by omega)]
      rfl

theorem digitChar_lt : ∀ a, a < 10 → ∀ b, b < 10 → a < b →
    Nat.digitChar a < Nat.digitChar b := by
  decide

theorem digitChar_isDigit : ∀ a, a < 10 → isDigit (Nat.digitChar a) = true := by
  decide

theorem cons_lt (c : Char) (s t : GoString) (h : s < t) : c :: s < c :: t :=
  List.Lex.cons h

theorem two_lt (a b : Nat) (hb : b < 100) (h : a < b) (s t : GoString) :
    Nat.digitChar (a / 10) :: Nat.digitChar (a % 10) :: s <
      Nat.digitChar (b / 10) :: Nat.digitChar (b % 10) :: t := by
  by_cases h1 : a / 10 < b / 10
  · exact List.Lex.rel (digitChar_lt _ (by omega) _ (by omega) h1)
  · have e : a / 10 = b / 10 := by omega
    rw [e]
    exact cons_lt _ _ _ (List.Lex.rel (digitChar_lt _ (by omega) _ (by omega) (by omega)))

theorem four_lt (a b : Nat) (hb : b < 10000) (h : a < b) (s t : GoString) :
    Nat.digitChar (a / 100 / 10) :: Nat.digitChar (a / 100 % 10) ::
      Nat.digitChar (a % 100 / 10) :: Nat.digitChar (a % 100 % 10) :: s <
    Nat.digitChar (b / 100 / 10) :: Nat.digitChar (b / 100 % 10) ::
      Nat.digitChar (b % 100 / 10) :: Nat.digitChar (b % 100 % 10) :: t := by
  by_cases h1 : a / 100 < b / 100
  · exact two_lt _ _ (by omega) h1 _ _
  · have e : a / 100 = b / 100 := by omega
    rw [e]
    exact cons_lt _ _ _ (cons_lt _ _ _ (two_lt _ _ (by omega) (by omega) _ _))

/-- The layout of a formatted time, digit by digit. -/
theorem Format_digits (t : Time) (h : t.wellFormed) :
    Format t =
      [Nat.digitChar (t.year / 100 / 10), Nat.digitChar (t.year / 100 % 10),
       Nat.digitChar (t.year % 100 / 10), Nat.digitChar (t.year % 100 % 10),
       Nat.digitChar (t.month / 10), Nat.digitChar (t.month % 10),
       Nat.digitChar (t.day / 10), Nat.digitChar (t.day % 10), '-',
       Nat.digitChar (t.hour / 10), Nat.digitChar (t.hour % 10),
       Nat.digitChar (t.minute / 10), Nat.digitChar (t.minute % 10),
       Nat.digitChar (t.second / 10), Nat.digitChar (t.second % 10)] := by
  obtain ⟨h1, h2, h3, h4, h5, h6, h7, h8, h9⟩ := h
  unfold Format
  rw [appendInt_four _ (by omega), appendInt_two _ (by omega), appendInt_two _ (by omega),
    appendInt_two _ (by omega), appendInt_two _ (by omega), appendInt_two _ (by omega)]
  rfl

/-- The format is sortable. -/
theorem Format_lt (a b : Time) (ha : a.wellFormed) (hb : b.wellFormed) (h : a.before b) :
    Format a < Format b := by
  rw [Format_digits a ha, Format_digits b hb]
  obtain ⟨_, h2, _, h4, _, h6, h7, h8, h9⟩ := hb
  rcases h with h | ⟨e1, h⟩
  · exact four_lt _ _ (by omega) h _ _
  rw [e1]
  refine cons_lt _ _ _ (cons_lt _ _ _ (cons_lt _ _ _ (cons_lt _ _ _ ?_)))
  rcases h with h | ⟨e2, h⟩
  · exact two_lt _ _ (by omega) h _ _
  rw [e2]
  refine cons_lt _ _ _ (cons_lt _ _ _ ?_)
  rcases h with h | ⟨e3, h⟩
  · exact two_lt _ _ (by omega) h _ _
  rw [e3]
  refine cons_lt _ _ _ (cons_lt _ _ _ (cons_lt _ _ _ ?_))
  rcases h with h | ⟨e4, h⟩
  · exact two_lt _ _ (by omega) h _ _
  rw [e4]
  refine cons_lt _ _ _ (cons_lt _ _ _ ?_)
  rcases h with h | ⟨e5, h⟩
  · exact two_lt _ _ (by omega) h _ _
  rw [e5]
  refine cons_lt _ _ _ (cons_lt _ _ _ ?_)
  exact two_lt _ _ (by omega) h _ _

theorem before_or (a b : Time) (h : a ≠ b) : a.before b ∨ b.before a := by
  obtain ⟨ay, am, ad, ah, ai, as⟩ := a
  obtain ⟨b1, b2, b3, b4, b5, b6⟩ := b
  simp only [ne_eq, Time.mk.injEq] at h
  unfold Time.before
  simp only
  omega

/-- Times that differ are formatted differently. -/
theorem Format_inj (a b : Time) (ha : a.wellFormed) (hb : b.wellFormed)
    (h : Format a = Format b) : a = b := by
  by_contra hne
  rcases before_or a b hne with hlt | hlt
  · have := Format_lt a b ha hb hlt
    rw [h] at this
    exact lt_irrefl _ this
  · have := Format_lt b a hb ha hlt
    rw [h] at this
    exact lt_irrefl _ this

end time

namespace strings

/-- What `TrimRight` returns does not end with the character cut off. -/
theorem TrimRight_last (s : GoString) (c : Char) : (TrimRight s c).getLast? ≠ some c := by
  unfold TrimRight
  rw [List.getLast?_reverse]
  intro h
  have := List.head?_dropWhile_not (fun x => x == c) s.reverse
  rw [h] at this
  simp at this

end strings

namespace updater

/-- C18: the backup path is the target path without its trailing separators,
followed by `.bak-` and the formatted time, and it is the path to which
`backupTarget` renames the target.  For a time of the calendar with a year of
four digits the formatted time has 15 characters, `YYYYMMDD-HHMMSS`: eight
digits, a hyphen and six digits, each field padded with zeros.  Times that
differ are formatted differently, the earlier of two times is formatted as the
smaller string in the order of the dictionary, and so the earlier of two
backups of one target has the smaller name. -/
theorem backupPath_format :
    (∀ (env : Env) (opt : Options),
      backupPath env opt =
        strings.TrimRight opt.TargetCfgDir '/' ++ ".bak-".data ++ time.Format env.now ∧
      (∃ k, opt.TargetCfgDir =
        strings.TrimRight opt.TargetCfgDir '/' ++ List.replicate k '/') ∧
      (strings.TrimRight opt.TargetCfgDir '/').getLast? ≠ some '/') ∧
    (∀ (env : Env) (opt : Options) (w w1 : World) (n : Node), opt.BackupEnabled = true →
      os.Stat env opt.TargetCfgDir w = (.ok n, w1) →
      (backupTarget env opt w).2.log =
        Call.rename opt.TargetCfgDir (backupPath env opt) :: w1.log) ∧
    (∀ t : Time, t.wellFormed →
      (time.Format t).length = 15 ∧
      (∀ c ∈ (time.Format t).take 8, isDigit c = true) ∧
      (time.Format t).get? 8 = some '-' ∧
      (∀ c ∈ (time.Format t).drop 9, isDigit c = true) ∧
      time.Format t =
        [Nat.digitChar (t.year / 100 / 10), Nat.digitChar (t.year / 100 % 10),
         Nat.digitChar (t.year % 100 / 10), Nat.digitChar (t.year % 100 % 10),
         Nat.digitChar (t.month / 10), Nat.digitChar (t.month % 10),
         Nat.digitChar (t.day / 10), Nat.digitChar (t.day % 10), '-',
         Nat.digitChar (t.hour / 10), Nat.digitChar (t.hour % 10),
         Nat.digitChar (t.minute / 10), Nat.digitChar (t.minute % 10),
         Nat.digitChar (t.second / 10), Nat.digitChar (t.second % 10)]) ∧
    (∀ a b : Time, a.wellFormed → b.wellFormed → time.Format a = time.Format b → a = b) ∧
    (∀ a b : Time, a.wellFormed → b.wellFormed → a.before b →
      time.Format a < time.Format b) ∧
    (∀ (env1 env2 : Env) (opt : Options), env1.now.wellFormed → env2.now.wellFormed →
      env1.now.before env2.now → backupPath env1 opt < backupPath env2 opt) := by
  refine ⟨fun env opt => ⟨rfl, strings.TrimRight_split _ _, strings.TrimRight_last _ _⟩,
    ?_, ?_, time.Format_inj, time.Format_lt, ?_⟩
  · intro env opt w w1 n hb hs
    unfold backupTarget
    simp only [hb, if_true, hs]
    have hl := os.Rename_log env opt.TargetCfgDir (backupPath env opt) w1
    rcases hr : os.Rename env opt.TargetCfgDir (backupPath env opt) w1 with ⟨r, w2⟩
    rw [hr] at hl
    cases r with
    | none => exact hl
    | some e => exact hl
  · intro t ht
    have hd := time.Format_digits t ht
    obtain ⟨h1, h2, h3, h4, h5, h6, h7, h8, h9⟩ := ht
    refine ⟨by rw [hd]; rfl, ?_, by rw [hd]; rfl, ?_, hd⟩
    · rw [hd]
      intro c hc
      simp only [List.take, List.mem_cons, List.mem_singleton, List.not_mem_nil, or_false]
        at hc
      rcases hc with rfl | rfl | rfl | rfl | rfl | rfl | rfl | rfl <;>
        exact time.digitChar_isDigit _ (by omega)
    · rw [hd]
      intro c hc
      simp only [List.drop, List.mem_cons, List.mem_singleton, List.not_mem_nil, or_false]
        at hc
      rcases hc with rfl | rfl | rfl | rfl | rfl | rfl <;>
        exact time.digitChar_isDigit _ (by omega)
  · intro env1 env2 opt h1 h2 hlt
    unfold backupPath
    exact List.Lex.append_left _ (time.Format_lt _ _ h1 h2 hlt) _

set_option maxRecDepth 100000 in
/-- C18 at concrete inputs: the time of the scene, 2024-05-07 09:03:01, and
the second after it, with the target `/work/cfg/`. -/
theorem backupPath_format_witness :
    backupPath Scene.env { Scene.opt with TargetCfgDir := "/work/cfg//".data } =
      "/work/cfg.bak-20240507-090301".data ∧
    (time.Format Scene.env.now).length = 15 ∧
    time.Format Scene.env.now < time.Format Scene.envLater.now ∧
    backupPath Scene.env Scene.opt < backupPath Scene.envLater Scene.opt ∧
    (backupTarget Scene.env Scene.opt Scene.w0).2.log =
      Call.rename "/work/cfg".data "/work/cfg.bak-20240507-090301".data ::
        (os.Stat Scene.env Scene.opt.TargetCfgDir Scene.w0).2.log :=
  ⟨(backupPath_format.1 Scene.env
      { Scene.opt with TargetCfgDir := "/work/cfg//".data }).1.trans (by decide),
   (backupPath_format.2.2.1 Scene.env.now (by unfold Time.wellFormed; decide)).1,
   backupPath_format.2.2.2.2.1 Scene.env.now Scene.envLater.now
     (by unfold Time.wellFormed; decide) (by unfold Time.wellFormed; decide)
     (by unfold Time.before; decide),
   backupPath_format.2.2.2.2.2 Scene.env Scene.envLater Scene.opt
     (by unfold Time.wellFormed; decide) (by unfold Time.wellFormed; decide)
     (by unfold Time.before; decide),
   (backupPath_format.2.1 Scene.env Scene.opt Scene.w0
      (os.Stat Scene.env Scene.opt.TargetCfgDir Scene.w0).2
      (.dir 0o755) rfl (Prod.ext (by decide) rfl)).trans (by decide)⟩

end updater

namespace findings

variable {σ α β ε : Type}

theorem int32_add (a b : Int) : int32 (int32 a + b) = int32 (a + b) := by
  unfold int32; omega

theorem int32_idem (a : Int) : int32 (int32 a) = int32 a := by
  unfold int32; omega

theorem int32_of_range (a : Int) (h1 : -2147483648 ≤ a) (h2 : a < 2147483648) :
    int32 a = a := by
  unfold int32; omega

/-- The slice `finding[start:end]` of the loop. -/
theorem slice_eq (finding : List α) (start : Nat) :
    (finding.take (if start + 100 > finding.length then finding.length
      else start + 100)).drop start = (finding.drop start).take 100 := by
  split
  · rename_i h
    rw [List.take_of_length_le (le_refl _), List.take_of_length_le]
    rw [List.length_drop]
    omega
  · rw [List.drop_take]
    congr 1
    omega

theorem addCounts_success (ε : Type) (o : PublisherOutput β) (r : Option (BatchImportFindingsOutput β))
    (h : int32 o.SuccessCount = o.SuccessCount) :
    (addCounts o r).SuccessCount =
      int32 (o.SuccessCount + Answer.success (.ok r : Answer β ε)) := by
  cases r with
  | none => simp [addCounts, Answer.success, h]
  | some r =>
    rcases hs : r.SuccessCount with _ | n
    · simp [addCounts, Answer.success, hs, h]
    · by_cases hn : n = 0
      · simp [addCounts, Answer.success, hs, hn, h]
      · simp [addCounts, Answer.success, hs, hn]

theorem addCounts_failed (ε : Type) (o : PublisherOutput β) (r : Option (BatchImportFindingsOutput β))
    (h : int32 o.FailedCount = o.FailedCount) :
    (addCounts o r).FailedCount =
      int32 (o.FailedCount + Answer.failed (.ok r : Answer β ε)) := by
  cases r with
  | none => simp [addCounts, Answer.failed, h]
  | some r =>
    rcases hs : r.FailedCount with _ | n
    · simp [addCounts, Answer.failed, hs, h]
    · by_cases hn : n = 0
      · simp [addCounts, Answer.failed, hs, hn, h]
      · simp [addCounts, Answer.failed, hs, hn]

/-- One more call in front of the calls of the rest of the loop. -/
theorem calls_step (finding : List α) (start : Nat) (hlt : start < finding.length)
    (ans : Answer β ε) (L : List (List α × Answer β ε))
    (hlen : L.length = (finding.length - (start + 100) + 99) / 100)
    (hne : ∀ c ∈ L, c.1 ≠ [] ∧ c.1.length ≤ 100)
    (hidx : ∀ i, i < L.length →
      (L.map Prod.fst)[i]? = some ((finding.drop (start + 100 + 100 * i)).take 100))
    (hjoin : (L.map Prod.fst).flatten = finding.drop (start + 100)) :
    (((finding.drop start).take 100, ans) :: L).length =
      (finding.length - start + 99) / 100 ∧
    (∀ c ∈ ((finding.drop start).take 100, ans) :: L, c.1 ≠ [] ∧ c.1.length ≤ 100) ∧
    (∀ i, i < (((finding.drop start).take 100, ans) :: L).length →
      ((((finding.drop start).take 100, ans) :: L).map Prod.fst)[i]? =
        some ((finding.drop (start + 100 * i)).take 100)) ∧
    ((((finding.drop start).take 100, ans) :: L).map Prod.fst).flatten =
      finding.drop start := by
  refine ⟨?_, ?_, ?_, ?_⟩
  · rw [List.length_cons, hlen]
    omega
  · intro c hc
    rcases List.mem_cons.1 hc with rfl | hc
    · constructor
      · intro h0
        have := congrArg List.length h0
        simp only [List.length_take, List.length_drop, List.length_nil] at this
        omega
      · simp only [List.length_take]
        omega
    · exact hne c hc
  · intro i hi
    cases i with
    | zero => simp
    | succ j =>
      have := hidx j (by simpa using hi)
      simp only [List.map_cons, List.getElem?_cons_succ]
      rw [this]
      congr 3
      omega
  · simp only [List.map_cons, List.flatten_cons, hjoin]
    rw [← List.drop_drop, List.take_append_drop]

/-- What the loop of `PublishFinding` does from the index `start` on, with
enough rounds left. -/
theorem publishLoop_spec (call : SecurityHubClient σ α β ε) (finding : List α) :
    ∀ (fuel start : Nat) (s : Progress σ α β ε), finding.length ≤ start + 100 * fuel →
      int32 s.o.SuccessCount = s.o.SuccessCount → int32 s.o.FailedCount = s.o.FailedCount →
      ∃ L, (publishLoop call finding fuel start s).calls = s.calls ++ L ∧
        (L.length = (finding.length - start + 99) / 100 ∧
         (∀ c ∈ L, c.1 ≠ [] ∧ c.1.length ≤ 100) ∧
         (∀ i, i < L.length →
           (L.map Prod.fst)[i]? = some ((finding.drop (start + 100 * i)).take 100)) ∧
         (L.map Prod.fst).flatten = finding.drop start) ∧
        (publishLoop call finding fuel start s).o.SuccessCount =
          int32 (s.o.SuccessCount + (L.map (fun c => c.2.success)).sum) ∧
        (publishLoop call finding fuel start s).o.FailedCount =
          int32 (s.o.FailedCount + (L.map (fun c => c.2.failed)).sum) ∧
        ((∀ c ∈ L, ∀ e, c.2 ≠ .error e) →
          (publishLoop call finding fuel start s).errs = s.errs) := by
  have hstop : ∀ (start : Nat) (s : Progress σ α β ε), finding.length ≤ start →
      int32 s.o.SuccessCount = s.o.SuccessCount → int32 s.o.FailedCount = s.o.FailedCount →
      ∃ L : List (List α × Answer β ε), s.calls = s.calls ++ L ∧
        (L.length = (finding.length - start + 99) / 100 ∧
         (∀ c ∈ L, c.1 ≠ [] ∧ c.1.length ≤ 100) ∧
         (∀ i, i < L.length →
           (L.map Prod.fst)[i]? = some ((finding.drop (start + 100 * i)).take 100)) ∧
         (L.map Prod.fst).flatten = finding.drop start) ∧
        s.o.SuccessCount = int32 (s.o.SuccessCount + (L.map (fun c => c.2.success)).sum) ∧
        s.o.FailedCount = int32 (s.o.FailedCount + (L.map (fun c => c.2.failed)).sum) ∧
        ((∀ c ∈ L, ∀ e, c.2 ≠ .error e) → s.errs = s.errs) := by
    intro start s hle hS hF
    refine ⟨[], by simp, ⟨?_, ?_, ?_, ?_⟩, by simpa using hS.symm, by simpa using hF.symm,
      fun _ => rfl⟩
    · simp only [List.length_nil]
      omega
    · intro c hc
      exact absurd hc (List.not_mem_nil _)
    · intro i hi
      exact absurd hi (by simp)
    · simp [List.drop_eq_nil_of_le hle]
  intro fuel
  induction fuel with
  | zero =>
    intro start s hle hS hF
    unfold publishLoop
    exact hstop start s (by omega) hS hF
  | succ k ih =>
    intro start s hle hS hF
    unfold publishLoop
    by_cases hlt : start < finding.length
    · simp only [if_pos hlt]
      rw [slice_eq]
      rcases hc : call s.client ((finding.drop start).take 100) with ⟨ans, st⟩
      cases ans with
      | error err =>
        simp only
        obtain ⟨L, hcalls, ⟨h1, h2, h3, h4⟩, hsum, hfail, herr⟩ := ih (start + 100)
          { s with errs := some ("finding publish failed".data, err), client := st,
                   calls := s.calls ++ [((finding.drop start).take 100, .error err)] }
          (by omega) hS hF
        refine ⟨((finding.drop start).take 100, .error err) :: L, ?_,
          calls_step finding start hlt _ L h1 h2 h3 h4, ?_, ?_, ?_⟩
        · rw [hcalls]; simp
        · rw [hsum]; simp [Answer.success]
        · rw [hfail]; simp [Answer.failed]
        · intro hno
          exact absurd rfl (hno _ (List.mem_cons_self _ _) err)
      | ok r =>
        simp only
        obtain ⟨L, hcalls, ⟨h1, h2, h3, h4⟩, hsum, hfail, herr⟩ := ih (start + 100)
          { s with o := addCounts s.o r, client := st,
                   calls := s.calls ++ [((finding.drop start).take 100, .ok r)] }
          (by omega)
          (by simp only; rw [addCounts_success ε s.o r hS, int32_idem])
          (by simp only; rw [addCounts_failed ε s.o r hF, int32_idem])
        refine ⟨((finding.drop start).take 100, .ok r) :: L, ?_,
          calls_step finding start hlt _ L h1 h2 h3 h4, ?_, ?_, ?_⟩
        · rw [hcalls]; simp
        · rw [hsum]
          simp only [List.map_cons, List.sum_cons]
          rw [addCounts_success ε s.o r hS, int32_add, add_assoc]
        · rw [hfail]
          simp only [List.map_cons, List.sum_cons]
          rw [addCounts_failed ε s.o r hF, int32_add, add_assoc]
        · intro hno
          rw [herr (fun c hc => hno c (List.mem_cons_of_mem _ hc))]
    · rw [if_neg hlt]
      exact hstop start s (by omega) hS hF

end findings

namespace findings

/-- C19: for every client and every list of findings, `PublishFinding` calls
`BatchImportFindings` as many times as the number of findings divided by 100
and rounded up, not at all for an empty list; every call carries a slice that
is not empty and has at most 100 findings, the call number `i` (from 0)
carrying the findings from the index `100 * i` on, so that the slices in the
order of the calls make up the input; and when no call returns an error, the
returned error is nil and the returned counts are the sums of the counts of
the calls, added as `int32` as the program adds them: the sums themselves
whenever these are in the range of `int32`. -/
theorem PublishFinding_batches {σ α β ε : Type} (call : SecurityHubClient σ α β ε) (st : σ)
    (finding : List α) :
    (PublishFinding call st finding).calls.length = (finding.length + 99) / 100 ∧
    (finding = [] → (PublishFinding call st finding).calls = []) ∧
    (∀ c ∈ (PublishFinding call st finding).calls, c.1 ≠ [] ∧ c.1.length ≤ 100) ∧
    (∀ i, i < (PublishFinding call st finding).calls.length →
      ((PublishFinding call st finding).calls.map Prod.fst)[i]? =
        some ((finding.drop (100 * i)).take 100)) ∧
    ((PublishFinding call st finding).calls.map Prod.fst).flatten = finding ∧
    ((∀ c ∈ (PublishFinding call st finding).calls, Except.isOk c.2 = true) →
      (PublishFinding call st finding).errs = none ∧
      (PublishFinding call st finding).o.SuccessCount =
        int32 (((PublishFinding call st finding).calls.map (fun c => c.2.success)).sum) ∧
      (PublishFinding call st finding).o.FailedCount =
        int32 (((PublishFinding call st finding).calls.map (fun c => c.2.failed)).sum) ∧
      (-2147483648 ≤ ((PublishFinding call st finding).calls.map (fun c => c.2.success)).sum →
        ((PublishFinding call st finding).calls.map (fun c => c.2.success)).sum < 2147483648 →
        (PublishFinding call st finding).o.SuccessCount =
          ((PublishFinding call st finding).calls.map (fun c => c.2.success)).sum) ∧
      (-2147483648 ≤ ((PublishFinding call st finding).calls.map (fun c => c.2.failed)).sum →
        ((PublishFinding call st finding).calls.map (fun c => c.2.failed)).sum < 2147483648 →
        (PublishFinding call st finding).o.FailedCount =
          ((PublishFinding call st finding).calls.map (fun c => c.2.failed)).sum)) := by
  by_cases h0 : finding.length = 0
  · have hnil : finding = [] := List.length_eq_zero.1 h0
    subst hnil
    simp [PublishFinding, int32]
  · obtain ⟨L, hcalls, ⟨h1, h2, h3, h4⟩, hsum, hfail, herr⟩ :=
      publishLoop_spec call finding finding.length 0
        { o := { FailedCount := 0, FailedFindings := [], SuccessCount := 0 }, errs := none,
          client := st, calls := [] } (by omega) rfl rfl
    have hP : PublishFinding call st finding = publishLoop call finding finding.length 0
        { o := { FailedCount := 0, FailedFindings := [], SuccessCount := 0 }, errs := none,
          client := st, calls := [] } := by
      unfold PublishFinding
      simp only [if_neg h0]
    rw [← hP] at hcalls hsum hfail herr
    simp only [List.nil_append, zero_add] at hcalls hsum hfail herr
    rw [hcalls]
    refine ⟨by rw [h1]; rfl, fun hnil => absurd (by rw [hnil]; rfl) h0, h2, ?_, by simpa using h4,
      ?_⟩
    · intro i hi
      have := h3 i hi
      rw [zero_add] at this
      exact this
    · intro hok
      have hno : ∀ c ∈ L, ∀ e, c.2 ≠ .error e := by
        intro c hc e he
        have := hok c hc
        rw [he] at this
        exact absurd this (by simp [Except.isOk, Except.toBool])
      refine ⟨herr hno, hsum, hfail, fun ha hb => ?_, fun ha hb => ?_⟩
      · rw [hsum, int32_of_range _ ha hb]
      · rw [hfail, int32_of_range _ ha hb]

set_option maxRecDepth 100000 in
/-- C19 at concrete inputs, the tests of the repository: 250 findings go out
in three calls and all are counted as imported; an empty list makes no call;
150 findings of which each call reports 10 as failed give the failed count 20. -/
theorem PublishFinding_batches_witness :
    ((PublishFinding (fakeClient false 0) 0 (List.replicate 250 ())).calls.length = 3 ∧
      (PublishFinding (fakeClient false 0) 0 (List.replicate 250 ())).client = 3 ∧
      (PublishFinding (fakeClient false 0) 0 (List.replicate 250 ())).errs = none ∧
      (PublishFinding (fakeClient false 0) 0 (List.replicate 250 ())).o.SuccessCount = 250 ∧
      (PublishFinding (fakeClient false 0) 0 (List.replicate 250 ())).o.FailedCount = 0) ∧
    (PublishFinding (fakeClient false 0) 0 []).calls = [] ∧
    ((PublishFinding (fakeClient true 10) 0 (List.replicate 150 ())).calls.length = 2 ∧
      (PublishFinding (fakeClient true 10) 0 (List.replicate 150 ())).o.FailedCount = 20 ∧
      (PublishFinding (fakeClient true 10) 0 (List.replicate 150 ())).o.SuccessCount = 0) :=
  have a := PublishFinding_batches (fakeClient false 0) 0 (List.replicate 250 ())
  have b := PublishFinding_batches (fakeClient true 10) 0 (List.replicate 150 ())
  have a2 := a.2.2.2.2.2 (by decide)
  have b2 := b.2.2.2.2.2 (by decide)
  ⟨⟨a.1.trans (by decide), by decide, a2.1, (a2.2.2.2.1 (by decide) (by decide)).trans
      (by decide), (a2.2.2.2.2 (by decide) (by decide)).trans (by decide)⟩,
   (PublishFinding_batches (fakeClient false 0) 0 []).2.1 rfl,
   ⟨b.1.trans (by decide), (b2.2.2.2.2 (by decide) (by decide)).trans (by decide),
    (b2.2.2.2.1 (by decide) (by decide)).trans (by decide)⟩⟩

end findings

/-! ## The version search -/

namespace strconv

theorem digitVal_digitChar : ∀ d, d < 10 → digitVal (Nat.digitChar d) = some d := by
  decide

theorem digitChar_plain : ∀ d, d < 10 →
    Nat.digitChar d ≠ '.' ∧ Nat.digitChar d ≠ '-' ∧ Nat.digitChar d ≠ '+' ∧
      unicode.IsSpace (Nat.digitChar d) = false := by
  decide

/-- Reading the digits that `Nat.toDigits` has written gives the number. -/
theorem parseDigits_toDigitsCore : ∀ (fuel n : Nat) (ds : List Char), n < fuel →
    parseDigits (Nat.toDigitsCore 10 fuel n ds) 0 = parseDigits ds n := by
  intro fuel
  induction fuel with
  | zero => intro n ds h; exact absurd h (Nat.not_lt_zero _)
  | succ k ih =>
    intro n ds h
    have hd := digitVal_digitChar (n % 10) (Nat.mod_lt _ (by decide))
    unfold Nat.toDigitsCore
    simp only
    split
    · rename_i h0
      have hn : n % 10 = n := by omega
      rw [parseDigits, hd]
      simp only [hn, Nat.zero_mul, Nat.zero_add]
    · rename_i h0
      rw [ih (n / 10) _ (by omega), parseDigits, hd]
      simp only
      congr 1
      omega

theorem parseDigits_toDigits (n : Nat) : parseDigits (Nat.toDigits 10 n) 0 = some n := by
  unfold Nat.toDigits
  rw [parseDigits_toDigitsCore _ _ _ (Nat.lt_succ_self n)]
  rfl

theorem toDigitsCore_mem (Q : Char → Prop) (hQ : ∀ d, d < 10 → Q (Nat.digitChar d)) :
    ∀ (fuel n : Nat) (ds : List Char), (∀ c ∈ ds, Q c) →
      ∀ c ∈ Nat.toDigitsCore 10 fuel n ds, Q c := by
  intro fuel
  induction fuel with
  | zero => intro n ds h; simpa [Nat.toDigitsCore] using h
  | succ k ih =>
    intro n ds h
    have hd : ∀ c ∈ Nat.digitChar (n % 10) :: ds, Q c := by
      intro c hc
      rcases List.mem_cons.1 hc with rfl | hc
      · exact hQ _ (Nat.mod_lt _ (by decide))
      · exact h c hc
    unfold Nat.toDigitsCore
    simp only
    split
    · exact hd
    · exact ih _ _ hd

theorem toDigits_mem (Q : Char → Prop) (hQ : ∀ d, d < 10 → Q (Nat.digitChar d)) (n : Nat) :
    ∀ c ∈ Nat.toDigits 10 n, Q c :=
  toDigitsCore_mem Q hQ _ _ [] (fun _ hc => absurd hc (List.not_mem_nil _))

theorem toDigitsCore_ne_nil : ∀ (fuel n : Nat) (ds : List Char), ds ≠ [] ∨ fuel ≠ 0 →
    Nat.toDigitsCore 10 fuel n ds ≠ [] := by
  intro fuel
  induction fuel with
  | zero =>
    intro n ds h
    rcases h with h | h
    · simpa [Nat.toDigitsCore] using h
    · exact absurd rfl h
  | succ k ih =>
    intro n ds _
    unfold Nat.toDigitsCore
    simp only
    split
    · exact List.cons_ne_nil _ _
    · exact ih _ _ (Or.inl (List.cons_ne_nil _ _))

theorem toDigits_ne_nil (n : Nat) : Nat.toDigits 10 n ≠ [] :=
  toDigitsCore_ne_nil _ _ [] (Or.inr (Nat.succ_ne_zero n))

/-- What `Itoa` writes for a number that is not negative, `Atoi` reads. -/
theorem Atoi_Itoa (n : Nat) (h : n < 9223372036854775808) :
    Atoi (Itoa (n : Int)) = some (n : Int) := by
  have hI : Itoa (n : Int) = Nat.toDigits 10 n := by
    unfold Itoa
    rw [if_neg (by omega)]
    rfl
  rw [hI]
  have hne := toDigits_ne_nil n
  have hmem := toDigits_mem (fun c => c ≠ '-' ∧ c ≠ '+')
    (fun d hd => ⟨(digitChar_plain d hd).2.1, (digitChar_plain d hd).2.2.1⟩) n
  have hp := parseDigits_toDigits n
  rcases hl : Nat.toDigits 10 n with _ | ⟨c, cs⟩
  · exact absurd hl hne
  · rw [hl] at hmem hp
    have hc := hmem c (List.mem_cons_self _ _)
    have h1 : (some c == some '-') = false := by simp [hc.1]
    have h2 : (some c == some '+') = false := by simp [hc.2]
    unfold Atoi
    simp only [List.head?_cons, h1, h2, Bool.or_self, Bool.false_eq_true, if_false,
      List.isEmpty_cons, hp, if_pos h]

/-- Every result of `Atoi` is in the range of `int`. -/
theorem Atoi_range (s : GoString) (m : Int) (h : Atoi s = some m) :
    m < 9223372036854775808 := by
  unfold Atoi at h
  simp only at h
  generalize (if (s.head? == some '-' || s.head? == some '+') = true then s.tail else s) = ds
    at h
  by_cases he : ds.isEmpty = true
  · rw [if_pos he] at h
    exact absurd h (by simp)
  · rw [if_neg he] at h
    cases hp : parseDigits ds 0 with
    | none =>
      rw [hp] at h
      exact absurd h (by simp)
    | some n =>
      rw [hp] at h
      simp only at h
      by_cases hneg : (s.head? == some '-') = true
      · rw [if_pos hneg] at h
        by_cases hr : n ≤ 9223372036854775808
        · rw [if_pos hr] at h
          simp only [Option.some.injEq] at h
          omega
        · rw [if_neg hr] at h
          exact absurd h (by simp)
      · rw [if_neg hneg] at h
        by_cases hr : n < 9223372036854775808
        · rw [if_pos hr] at h
          simp only [Option.some.injEq] at h
          omega
        · rw [if_neg hr] at h
          exact absurd h (by simp)

end strconv

namespace cmd

/-- A string with a character that is not white space is not empty. -/
theorem isEmpty_false (s : GoString) (c : Char) (hc : c ∈ s) (hs : unicode.IsSpace c = false) :
    isEmpty s = false := by
  by_contra h
  have h : isEmpty s = true := by simpa using h
  unfold isEmpty strings.TrimSpace at h
  rw [List.isEmpty_iff, List.reverse_eq_nil_iff, List.dropWhile_eq_nil_iff] at h
  have hall : ∀ x ∈ s.dropWhile unicode.IsSpace, unicode.IsSpace x = true :=
    fun x hx => h x (List.mem_reverse.2 hx)
  have hnil : s.dropWhile unicode.IsSpace = [] := by
    rcases hd : s.dropWhile unicode.IsSpace with _ | ⟨x, xs⟩
    · rfl
    · have h1 := List.head?_dropWhile_not unicode.IsSpace s
      rw [hd] at h1 hall
      simp only [List.head?_cons] at h1
      rw [hall x (List.mem_cons_self _ _)] at h1
      exact absurd h1 (by simp)
  rw [List.dropWhile_eq_nil_iff] at hnil
  rw [hnil c hc] at hs
  exact absurd hs (by simp)

theorem loop_empty (orig : GoString) (f : Nat) (v : GoString) (h : isEmpty v = true) :
    ocpLoop orig (f + 1) v = some (.error (.text
      ("unable to find a matching Benchmark Version match for ocp version: ".data ++
        orig))) := by
  unfold ocpLoop
  simp [h]

theorem loop_found (orig : GoString) (f : Nat) (v : GoString) (h1 : isEmpty v = false)
    (h : v = "3.10".data ∨ v = "4.1".data) : ocpLoop orig (f + 1) v = some (.ok v) := by
  unfold ocpLoop
  simp only [h1, Bool.not_false, if_true]
  rw [if_pos h]

theorem loop_next (orig : GoString) (f : Nat) (v : GoString) (h1 : isEmpty v = false)
    (h : ¬ (v = "3.10".data ∨ v = "4.1".data)) :
    ocpLoop orig (f + 1) v = ocpLoop orig f (decrementVersion v) := by
  rw [ocpLoop]
  simp only [h1, Bool.not_false, if_true]
  rw [if_neg h]

theorem dec_short (v : GoString) (h : (strings.Split '.' v).length < 2) :
    decrementVersion v = [] := by
  unfold decrementVersion
  simp only [h, if_true]

theorem dec_bad (v : GoString) (h : strconv.Atoi ((strings.Split '.' v).getD 1 []) = none) :
    decrementVersion v = [] := by
  unfold decrementVersion
  simp only [h]
  split <;> rfl

theorem dec_low (v : GoString) (m : Int)
    (h : strconv.Atoi ((strings.Split '.' v).getD 1 []) = some m) (hm : m ≤ 1) :
    decrementVersion v = [] := by
  unfold decrementVersion
  simp only [h, hm, if_true]
  split <;> rfl

theorem dec_ok (v : GoString) (m : Int) (hl : 2 ≤ (strings.Split '.' v).length)
    (h : strconv.Atoi ((strings.Split '.' v).getD 1 []) = some m) (hm : 1 < m) :
    decrementVersion v =
      strings.Join ((strings.Split '.' v).set 1 (strconv.Itoa (m - 1))) ['.'] := by
  unfold decrementVersion
  simp only [h]
  rw [if_neg (by omega), if_neg (by omega)]

theorem dec_cases (v : GoString) :
    decrementVersion v = [] ∨
    ∃ m, 2 ≤ (strings.Split '.' v).length ∧
      strconv.Atoi ((strings.Split '.' v).getD 1 []) = some m ∧ 1 < m := by
  by_cases hl : (strings.Split '.' v).length < 2
  · exact Or.inl (dec_short v hl)
  · cases h : strconv.Atoi ((strings.Split '.' v).getD 1 []) with
    | none => exact Or.inl (dec_bad v h)
    | some m =>
      by_cases hm : m ≤ 1
      · exact Or.inl (dec_low v m h hm)
      · exact Or.inr ⟨m, by omega, rfl, by omega⟩

/-- What `Itoa` writes for a number that is not negative: digits. -/
theorem Itoa_plain (k : Int) (hk : 0 ≤ k) :
    strconv.Itoa k ≠ [] ∧
    ∀ c ∈ strconv.Itoa k, c ≠ '.' ∧ unicode.IsSpace c = false := by
  have hI : strconv.Itoa k = Nat.toDigits 10 k.toNat := by
    unfold strconv.Itoa
    rw [if_neg (by omega)]
  rw [hI]
  exact ⟨strconv.toDigits_ne_nil _,
    strconv.toDigits_mem (fun c => c ≠ '.' ∧ unicode.IsSpace c = false)
      (fun d hd => ⟨(strconv.digitChar_plain d hd).1, (strconv.digitChar_plain d hd).2.2.2⟩) _⟩

/-- The parts of a decremented version: those of the version, with the
second part written anew. -/
theorem dec_split (v : GoString) (m : Int) (hl : 2 ≤ (strings.Split '.' v).length)
    (h : strconv.Atoi ((strings.Split '.' v).getD 1 []) = some m) (hm : 1 < m) :
    strings.Split '.' (decrementVersion v) =
      (strings.Split '.' v).set 1 (strconv.Itoa (m - 1)) := by
  rw [dec_ok v m hl h hm]
  refine strings.Split_Join '.' _ ?_ ?_
  · intro h0
    have := congrArg List.length h0
    rw [List.length_set] at this
    simp only [List.length_nil] at this
    omega
  · intro e he
    rcases List.mem_or_eq_of_mem_set he with he | he
    · exact strings.Split_no_sep '.' v e he
    · rw [he]
      intro hdot
      exact ((Itoa_plain (m - 1) (by omega)).2 _ hdot).1 rfl

theorem dec_ne_nil (v : GoString) (m : Int) (hl : 2 ≤ (strings.Split '.' v).length)
    (h : strconv.Atoi ((strings.Split '.' v).getD 1 []) = some m) (hm : 1 < m) :
    decrementVersion v ≠ [] := by
  intro h0
  have := congrArg List.length (dec_split v m hl h hm)
  rw [h0, List.length_set] at this
  simp only [strings.Split, List.length_singleton] at this
  omega

/-- The minor part of a decremented version is one less. -/
theorem dec_minor (v : GoString) (m : Int) (hl : 2 ≤ (strings.Split '.' v).length)
    (h : strconv.Atoi ((strings.Split '.' v).getD 1 []) = some m) (hm : 1 < m) :
    strconv.Atoi ((strings.Split '.' (decrementVersion v)).getD 1 []) = some (m - 1) ∧
    strconv.Atoi (strconv.Itoa (m - 1)) = some (m - 1) := by
  have hr := strconv.Atoi_range _ m h
  have hA : strconv.Atoi (strconv.Itoa (m - 1)) = some (m - 1) := by
    have := strconv.Atoi_Itoa (m - 1).toNat (by omega)
    have e : (((m - 1).toNat : Nat) : Int) = m - 1 := by omega
    rw [e] at this
    exact this
  refine ⟨?_, hA⟩
  rw [dec_split v m hl h hm]
  have : ((strings.Split '.' v).set 1 (strconv.Itoa (m - 1))).getD 1 [] =
      strconv.Itoa (m - 1) := by
    rcases hs : strings.Split '.' v with _ | ⟨a, _ | ⟨b, t⟩⟩
    · rw [hs] at hl; simp at hl
    · rw [hs] at hl; simp at hl
    · rfl
  rw [this, hA]

/-- More rounds do not change a result of the loop. -/
theorem loop_mono (orig : GoString) : ∀ (f : Nat) (v : GoString) (r : Except Err GoString),
    ocpLoop orig f v = some r → ∀ f', f ≤ f' → ocpLoop orig f' v = some r := by
  intro f
  induction f with
  | zero => intro v r h; exact absurd h (by simp [ocpLoop])
  | succ k ih =>
    intro v r h f' hf
    obtain ⟨g, rfl⟩ : ∃ g, f' = g + 1 := ⟨f' - 1, by omega⟩
    by_cases he : isEmpty v = true
    · rw [loop_empty orig k v he] at h
      rw [loop_empty orig g v he, h]
    · have he : isEmpty v = false := by simpa using he
      by_cases hs : v = "3.10".data ∨ v = "4.1".data
      · rw [loop_found orig k v he hs] at h
        rw [loop_found orig g v he hs, h]
      · rw [loop_next orig k v he hs] at h
        rw [loop_next orig g v he hs]
        exact ih _ r h g (by omega)

/-- One round of the loop: it ends, or it goes on with a minor part that is
one less. -/
theorem loop_step (orig : GoString) (f : Nat) (v : GoString) :
    (∃ r, ocpLoop orig (f + 2) v = some r ∧
      (r = .ok "3.10".data ∨ r = .ok "4.1".data ∨ r = .error (.text
        ("unable to find a matching Benchmark Version match for ocp version: ".data ++
          orig)))) ∨
    (∃ m, 2 ≤ (strings.Split '.' v).length ∧
      strconv.Atoi ((strings.Split '.' v).getD 1 []) = some m ∧ 1 < m ∧
      ocpLoop orig (f + 2) v = ocpLoop orig (f + 1) (decrementVersion v)) := by
  by_cases he : isEmpty v = true
  · exact Or.inl ⟨_, loop_empty orig (f + 1) v he, Or.inr (Or.inr rfl)⟩
  · have he : isEmpty v = false := by simpa using he
    by_cases hs : v = "3.10".data ∨ v = "4.1".data
    · refine Or.inl ⟨_, loop_found orig (f + 1) v he hs, ?_⟩
      rcases hs with hs | hs
      · exact Or.inl (by rw [hs])
      · exact Or.inr (Or.inl (by rw [hs]))
    · have hn := loop_next orig (f + 1) v he hs
      rcases dec_cases v with hd | ⟨m, hl, hm, h1⟩
      · refine Or.inl ⟨_, ?_, Or.inr (Or.inr rfl)⟩
        rw [hn, hd]
        exact loop_empty orig f [] (by decide)
      · exact Or.inr ⟨m, hl, hm, h1, hn⟩

/-- The loop ends within as many rounds as the minor part counts, and two
more. -/
theorem loop_total (orig : GoString) : ∀ (n : Nat) (v : GoString),
    (∀ m, strconv.Atoi ((strings.Split '.' v).getD 1 []) = some m → m ≤ (n : Int)) →
    ∃ r, ocpLoop orig (n + 2) v = some r ∧
      (r = .ok "3.10".data ∨ r = .ok "4.1".data ∨ r = .error (.text
        ("unable to find a matching Benchmark Version match for ocp version: ".data ++
          orig))) := by
  intro n
  induction n with
  | zero =>
    intro v hb
    rcases loop_step orig 0 v with h | ⟨m, _, hm, h1, _⟩
    · exact h
    · have := hb m hm
      simp only [Nat.cast_zero] at this
      omega
  | succ k ih =>
    intro v hb
    rcases loop_step orig (k + 1) v with h | ⟨m, hl, hm, h1, hn⟩
    · exact h
    · have hmk := hb m hm
      obtain ⟨r, hr, hshape⟩ := ih (decrementVersion v) (by
        intro m2 hm2
        rw [(dec_minor v m hl hm h1).1] at hm2
        simp only [Option.some.injEq] at hm2
        push_cast at hmk
        omega)
      exact ⟨r, by rw [hn]; exact hr, hshape⟩

theorem split_two (a m : GoString) (ha : '.' ∉ a) (hm : '.' ∉ m) :
    strings.Split '.' (a ++ '.' :: m) = [a, m] := by
  have := strings.Split_Join '.' [a, m] (by simp) (by
    intro e he
    simp only [List.mem_cons, List.mem_singleton, List.not_mem_nil, or_false] at he
    rcases he with rfl | rfl
    · exact ha
    · exact hm)
  rw [strings.Join_cons_cons, strings.Join_singleton] at this
  simpa using this

theorem Itoa_no_dot (n : Nat) : '.' ∉ strconv.Itoa (n : Int) :=
  fun h => ((Itoa_plain (n : Int) (by omega)).2 _ h).1 rfl

theorem Itoa_inj (a b : Nat) (ha : a < 9223372036854775808) (hb : b < 9223372036854775808)
    (h : strconv.Itoa (a : Int) = strconv.Itoa (b : Int)) : a = b := by
  have h1 := strconv.Atoi_Itoa a ha
  rw [h, strconv.Atoi_Itoa b hb] at h1
  simp only [Option.some.injEq] at h1
  omega

/-- The decrement of a version of two parts. -/
theorem dec_two (a : GoString) (k : Nat) (ha : '.' ∉ a) (hk : 1 ≤ k)
    (hr : k + 1 < 9223372036854775808) :
    decrementVersion (a ++ '.' :: strconv.Itoa ((k + 1 : Nat) : Int)) =
      a ++ '.' :: strconv.Itoa (k : Int) := by
  have hs := split_two a _ ha (Itoa_no_dot (k + 1))
  have hA := strconv.Atoi_Itoa (k + 1) hr
  rw [dec_ok _ ((k + 1 : Nat) : Int) (by rw [hs]; simp) (by rw [hs]; exact hA)
    (by push_cast; omega), hs]
  have e : (((k + 1 : Nat) : Int) - 1) = (k : Int) := by push_cast; omega
  rw [e]
  simp [strings.Join_cons_cons, strings.Join_singleton]

/-- Decrementing goes down from the minor part `n` to the minor part `t` of a
version that the loop looks for. -/
theorem loop_down (orig a : GoString) (t : Nat) (ht : 1 ≤ t) (ha : '.' ∉ a)
    (hc : ∃ c ∈ a, unicode.IsSpace c = false)
    (hsp : a ++ '.' :: strconv.Itoa (t : Int) = "3.10".data ∨
      a ++ '.' :: strconv.Itoa (t : Int) = "4.1".data)
    (hns : ∀ n : Nat, t < n → n < 9223372036854775808 →
      ¬ (a ++ '.' :: strconv.Itoa (n : Int) = "3.10".data ∨
        a ++ '.' :: strconv.Itoa (n : Int) = "4.1".data)) :
    ∀ n : Nat, t ≤ n → n < 9223372036854775808 → ∀ f, n - t + 1 ≤ f →
      ocpLoop orig f (a ++ '.' :: strconv.Itoa (n : Int)) =
        some (.ok (a ++ '.' :: strconv.Itoa (t : Int))) := by
  obtain ⟨c, hca, hcs⟩ := hc
  have hne : ∀ n : Nat, isEmpty (a ++ '.' :: strconv.Itoa (n : Int)) = false :=
    fun n => isEmpty_false _ c (List.mem_append_left _ hca) hcs
  intro n hn
  induction n, hn using Nat.le_induction with
  | base =>
    intro _ f hf
    obtain ⟨g, rfl⟩ : ∃ g, f = g + 1 := ⟨f - 1, by omega⟩
    exact loop_found orig g _ (hne t) hsp
  | succ k hk ih =>
    intro hr f hf
    obtain ⟨g, rfl⟩ : ∃ g, f = g + 1 := ⟨f - 1, by omega⟩
    rw [loop_next orig g _ (hne (k + 1)) (hns (k + 1) (by omega) hr),
      dec_two a k ha (by omega) hr]
    exact ih (by omega) g (by omega)

theorem set_one_pair (l : List GoString) (x a b : GoString) (h : l.set 1 x = [a, b]) :
    ∃ y, l = [a, y] ∧ x = b := by
  rcases l with _ | ⟨p, _ | ⟨q, _ | ⟨r, t⟩⟩⟩
  · simp at h
  · simp at h
  · simp only [List.set_cons_succ, List.set_cons_zero, List.cons.injEq, and_true] at h
    exact ⟨q, by rw [h.1], h.2⟩
  · simp at h

theorem Join_Split (sep : Char) : ∀ s : GoString,
    strings.Join (strings.Split sep s) [sep] = s := by
  intro s
  induction s with
  | nil => simp [strings.Split, strings.Join_singleton]
  | cons c cs ih =>
    by_cases hc : c = sep
    · rw [hc, strings.Split_cons_sep]
      rcases hs : strings.Split sep cs with _ | ⟨h, t⟩
      · exact absurd hs (strings.Split_ne_nil sep cs)
      · rw [hs] at ih
        rw [strings.Join_cons_cons, ih]
        rfl
    · obtain ⟨hd, tl, h1, h2⟩ := strings.Split_cons_ne sep c cs hc
      rw [h1] at ih
      rw [h2]
      rcases tl with _ | ⟨b, bs⟩
      · rw [strings.Join_singleton] at ih ⊢
        rw [ih]
      · rw [strings.Join_cons_cons] at ih ⊢
        rw [← ih]
        simp

/-- A version of two parts is its first part, a dot and its second part. -/
theorem of_split_two (v a m : GoString) (h : strings.Split '.' v = [a, m]) :
    v = a ++ '.' :: m := by
  have := Join_Split '.' v
  rw [h, strings.Join_cons_cons, strings.Join_singleton] at this
  rw [← this]
  simp

/-- A version for which the loop finds a result has one of four forms. -/
theorem loop_only (orig : GoString) : ∀ (f : Nat) (v r : GoString),
    ocpLoop orig f v = some (.ok r) →
    v = "3.10".data ∨ v = "4.1".data ∨
    ∃ a m n, strings.Split '.' v = [a, m] ∧ strconv.Atoi m = some n ∧
      ((a = "4".data ∧ 2 ≤ n) ∨ (a = "3".data ∧ 11 ≤ n)) := by
  intro f
  induction f with
  | zero => intro v r h; exact absurd h (by simp [ocpLoop])
  | succ k ih =>
    intro v r h
    by_cases he : isEmpty v = true
    · rw [loop_empty orig k v he] at h
      exact absurd h (by simp)
    · have he : isEmpty v = false := by simpa using he
      by_cases hs : v = "3.10".data ∨ v = "4.1".data
      · rcases hs with hs | hs
        · exact Or.inl hs
        · exact Or.inr (Or.inl hs)
      · rw [loop_next orig k v he hs] at h
        rcases dec_cases v with hd | ⟨m, hl, hm, h1⟩
        · rw [hd] at h
          rcases k with _ | g
          · exact absurd h (by simp [ocpLoop])
          · rw [loop_empty orig g [] (by decide)] at h
            exact absurd h (by simp)
        · have hsplit := dec_split v m hl hm h1
          have hA := (dec_minor v m hl hm h1).2
          have key : ∀ a b : GoString, ∀ n : Int,
              strings.Split '.' (decrementVersion v) = [a, b] → strconv.Atoi b = some n →
              ∃ y, strings.Split '.' v = [a, y] ∧ strconv.Atoi y = some (n + 1) := by
            intro a b n hab hn
            rw [hsplit] at hab
            obtain ⟨y, hy, hx⟩ := set_one_pair _ _ a b hab
            refine ⟨y, hy, ?_⟩
            rw [hy] at hm
            simp only [List.getD_cons_succ, List.getD_cons_zero] at hm
            rw [← hx, hA] at hn
            simp only [Option.some.injEq] at hn
            rw [hm]
            congr 1
            omega
          right; right
          rcases ih _ r h with h3 | h4 | ⟨a, b, n, hab, hn, hcase⟩
          · obtain ⟨y, hy, hyn⟩ := key "3".data "10".data 10 (by rw [h3]; decide) (by decide)
            exact ⟨_, y, _, hy, hyn, Or.inr ⟨rfl, by omega⟩⟩
          · obtain ⟨y, hy, hyn⟩ := key "4".data "1".data 1 (by rw [h4]; decide) (by decide)
            exact ⟨_, y, _, hy, hyn, Or.inl ⟨rfl, by omega⟩⟩
          · obtain ⟨y, hy, hyn⟩ := key a b n hab hn
            refine ⟨a, y, _, hy, hyn, ?_⟩
            rcases hcase with ⟨ha, hn2⟩ | ⟨ha, hn2⟩
            · exact Or.inl ⟨ha, by omega⟩
            · exact Or.inr ⟨ha, by omega⟩

/-- A version of two parts with a numeric minor part goes down to the
version that the loop looks for. -/
theorem loop_reach (orig a m : GoString) (n : Int) (t : Nat) (ht : 1 ≤ t) (ha : '.' ∉ a)
    (hc : ∃ c ∈ a, unicode.IsSpace c = false) (hm : '.' ∉ m)
    (hn : strconv.Atoi m = some n) (hlt : (t : Int) < n)
    (hsp : a ++ '.' :: strconv.Itoa (t : Int) = "3.10".data ∨
      a ++ '.' :: strconv.Itoa (t : Int) = "4.1".data)
    (hns : ∀ n : Nat, t < n → n < 9223372036854775808 →
      ¬ (a ++ '.' :: strconv.Itoa (n : Int) = "3.10".data ∨
        a ++ '.' :: strconv.Itoa (n : Int) = "4.1".data))
    (hv : ¬ (a ++ '.' :: m = "3.10".data ∨ a ++ '.' :: m = "4.1".data)) :
    ∀ f, n.toNat - t + 1 ≤ f →
      ocpLoop orig f (a ++ '.' :: m) = some (.ok (a ++ '.' :: strconv.Itoa (t : Int))) := by
  intro f hf
  obtain ⟨c, hca, hcs⟩ := hc
  have hr := strconv.Atoi_range m n hn
  obtain ⟨g, rfl⟩ : ∃ g, f = g + 1 := ⟨f - 1, by omega⟩
  have hs := split_two a m ha hm
  rw [loop_next orig g _ (isEmpty_false _ c (List.mem_append_left _ hca) hcs) hv,
    dec_ok _ n (by rw [hs]; simp) (by rw [hs]; exact hn) (by omega), hs]
  have e : n - 1 = (((n - 1).toNat : Nat) : Int) := by omega
  have hj : strings.Join ([a, m].set 1 (strconv.Itoa (n - 1))) ['.'] =
      a ++ '.' :: strconv.Itoa (((n - 1).toNat : Nat) : Int) := by
    rw [← e]
    simp [strings.Join_cons_cons, strings.Join_singleton]
  rw [hj]
  exact loop_down orig a t ht ha ⟨c, hca, hcs⟩ hsp hns _ (by omega) (by omega) g (by omega)

end cmd

namespace cmd

theorem four_target : "4".data ++ '.' :: strconv.Itoa ((1 : Nat) : Int) = "4.1".data := by
  decide

theorem three_target : "3".data ++ '.' :: strconv.Itoa ((10 : Nat) : Int) = "3.10".data := by
  decide

theorem four_above (n : Nat) (h : 1 < n) (hr : n < 9223372036854775808) :
    ¬ ("4".data ++ '.' :: strconv.Itoa (n : Int) = "3.10".data ∨
      "4".data ++ '.' :: strconv.Itoa (n : Int) = "4.1".data) := by
  rintro (h1 | h1)
  · exact absurd (congrArg List.head? h1) (by simp)
  · rw [← four_target] at h1
    have := Itoa_inj n 1 hr (by decide) (by simpa using h1)
    omega

theorem three_above (n : Nat) (h : 10 < n) (hr : n < 9223372036854775808) :
    ¬ ("3".data ++ '.' :: strconv.Itoa (n : Int) = "3.10".data ∨
      "3".data ++ '.' :: strconv.Itoa (n : Int) = "4.1".data) := by
  rintro (h1 | h1)
  · rw [← three_target] at h1
    have := Itoa_inj n 10 hr (by decide) (by simpa using h1)
    omega
  · exact absurd (congrArg List.head? h1) (by simp)

theorem four_other (m : GoString) (n : Int) (hn : strconv.Atoi m = some n) (h : 2 ≤ n) :
    ¬ ("4".data ++ '.' :: m = "3.10".data ∨ "4".data ++ '.' :: m = "4.1".data) := by
  rintro (h1 | h1)
  · exact absurd (congrArg List.head? h1) (by simp)
  · have hm : m = "1".data := by simpa using h1
    rw [hm] at hn
    have : strconv.Atoi "1".data = some 1 := by decide
    rw [this] at hn
    simp only [Option.some.injEq] at hn
    omega

theorem three_other (m : GoString) (n : Int) (hn : strconv.Atoi m = some n) (h : 11 ≤ n) :
    ¬ ("3".data ++ '.' :: m = "3.10".data ∨ "3".data ++ '.' :: m = "4.1".data) := by
  rintro (h1 | h1)
  · have hm : m = "10".data := by simpa using h1
    rw [hm] at hn
    have : strconv.Atoi "10".data = some 10 := by decide
    rw [this] at hn
    simp only [Option.some.injEq] at hn
    omega
  · exact absurd (congrArg List.head? h1) (by simp)

/-- C22: for every input `getOcpValidVersion` terminates: there is a number of
rounds from which on its loop has ended, with the result `3.10` or `4.1` or
with the error `unable to find a matching Benchmark Version`.  A call of
`decrementVersion` returns the empty string for a version of fewer than two
parts, for a minor part that `strconv.Atoi` does not read, and for a minor
part of at most 1; otherwise it returns a string that is not empty, the parts
of the version joined with the minor part written as the number one less.  A
version `4.m` with a numeric minor part of at least 2 gives `4.1` and a version
`3.m` with a numeric minor part of at least 11 gives `3.10`, so `4.15` gives
`4.1` and `3.11` gives `3.10`; and only these versions, `4.1` and `3.10`
give a result, every other input ends in the error. -/
theorem getOcpValidVersion_terminates :
    (∀ v : GoString, ∃ fuel r,
      (∀ fuel', fuel ≤ fuel' → getOcpValidVersion fuel' v = some r) ∧
      (r = .ok "3.10".data ∨ r = .ok "4.1".data ∨ r = .error (.text
        ("unable to find a matching Benchmark Version match for ocp version: ".data ++
          v)))) ∧
    (∀ v : GoString,
      ((strings.Split '.' v).length < 2 → decrementVersion v = []) ∧
      (strconv.Atoi ((strings.Split '.' v).getD 1 []) = none → decrementVersion v = []) ∧
      (∀ m, strconv.Atoi ((strings.Split '.' v).getD 1 []) = some m → m ≤ 1 →
        decrementVersion v = []) ∧
      (∀ m, 2 ≤ (strings.Split '.' v).length →
        strconv.Atoi ((strings.Split '.' v).getD 1 []) = some m → 1 < m →
        decrementVersion v ≠ [] ∧
        decrementVersion v =
          strings.Join ((strings.Split '.' v).set 1 (strconv.Itoa (m - 1))) ['.'] ∧
        strings.Split '.' (decrementVersion v) =
          (strings.Split '.' v).set 1 (strconv.Itoa (m - 1)) ∧
        strconv.Atoi (strconv.Itoa (m - 1)) = some (m - 1))) ∧
    (∀ (m : GoString) (n : Int), '.' ∉ m → strconv.Atoi m = some n → 2 ≤ n →
      ∀ fuel, n.toNat ≤ fuel →
        getOcpValidVersion fuel ("4.".data ++ m) = some (.ok "4.1".data)) ∧
    (∀ (m : GoString) (n : Int), '.' ∉ m → strconv.Atoi m = some n → 11 ≤ n →
      ∀ fuel, n.toNat - 9 ≤ fuel →
        getOcpValidVersion fuel ("3.".data ++ m) = some (.ok "3.10".data)) ∧
    (∀ (fuel : Nat) (v r : GoString), getOcpValidVersion fuel v = some (.ok r) →
      v = "3.10".data ∨ v = "4.1".data ∨
      ∃ m n, '.' ∉ m ∧ strconv.Atoi m = some n ∧
        ((v = "4.".data ++ m ∧ 2 ≤ n) ∨ (v = "3.".data ++ m ∧ 11 ≤ n))) ∧
    getOcpValidVersion 15 "4.15".data = some (.ok "4.1".data) ∧
    getOcpValidVersion 2 "3.11".data = some (.ok "3.10".data) := by
  refine ⟨?_, ?_, ?_, ?_, ?_, by decide, by decide⟩
  · intro v
    obtain ⟨r, hr, hshape⟩ := loop_total v
      ((strconv.Atoi ((strings.Split '.' v).getD 1 [])).getD 0).toNat v (by
        intro m hm
        rw [hm]
        simp only [Option.getD_some]
        omega)
    exact ⟨_, r, fun fuel' hf => loop_mono v _ v r hr fuel' hf, hshape⟩
  · intro v
    refine ⟨dec_short v, dec_bad v, dec_low v, fun m hl hm h1 =>
      ⟨dec_ne_nil v m hl hm h1, dec_ok v m hl hm h1, dec_split v m hl hm h1,
        (dec_minor v m hl hm h1).2⟩⟩
  · intro m n hm hn h2 fuel hf
    have := loop_reach ("4.".data ++ m) "4".data m n 1 (le_refl _) (by decide)
      ⟨'4', by decide, by decide⟩ hm hn (by push_cast; omega) (Or.inr four_target)
      four_above (four_other m n hn h2) fuel (by omega)
    rw [four_target] at this
    exact this
  · intro m n hm hn h2 fuel hf
    have := loop_reach ("3.".data ++ m) "3".data m n 10 (by decide) (by decide)
      ⟨'3', by decide, by decide⟩ hm hn (by push_cast; omega) (Or.inl three_target)
      three_above (three_other m n hn h2) fuel (by omega)
    rw [three_target] at this
    exact this
  · intro fuel v r h
    rcases loop_only v fuel v r h with h1 | h1 | ⟨a, m, n, hs, hn, hcase⟩
    · exact Or.inl h1
    · exact Or.inr (Or.inl h1)
    · right; right
      have hv := of_split_two v a m hs
      have hm : '.' ∉ m := strings.Split_no_sep '.' v m (by rw [hs]; simp)
      refine ⟨m, n, hm, hn, ?_⟩
      rcases hcase with ⟨ha, h2⟩ | ⟨ha, h2⟩
      · exact Or.inl ⟨by rw [hv, ha]; rfl, h2⟩
      · exact Or.inr ⟨by rw [hv, ha]; rfl, h2⟩

set_option maxRecDepth 100000 in
/-- C22 at concrete inputs: the versions `4.15` and `3.11`, the version
`4.015` whose minor part has a zero in front, the versions `3.9` and `5.3`,
which end in the error, and the decrement of `4.15.2`. -/
theorem getOcpValidVersion_terminates_witness :
    getOcpValidVersion 15 ("4.".data ++ "15".data) = some (.ok "4.1".data) ∧
    getOcpValidVersion 2 ("3.".data ++ "11".data) = some (.ok "3.10".data) ∧
    getOcpValidVersion 15 ("4.".data ++ "015".data) = some (.ok "4.1".data) ∧
    getOcpValidVersion 20 "3.9".data = some (.error (.text
      "unable to find a matching Benchmark Version match for ocp version: 3.9".data)) ∧
    getOcpValidVersion 20 "5.3".data = some (.error (.text
      "unable to find a matching Benchmark Version match for ocp version: 5.3".data)) ∧
    (decrementVersion "4.15.2".data ≠ [] ∧
      decrementVersion "4.15.2".data =
        strings.Join ((strings.Split '.' "4.15.2".data).set 1 (strconv.Itoa (15 - 1))) ['.'] ∧
      strings.Split '.' (decrementVersion "4.15.2".data) =
        (strings.Split '.' "4.15.2".data).set 1 (strconv.Itoa (15 - 1)) ∧
      strconv.Atoi (strconv.Itoa (15 - 1)) = some (15 - 1)) ∧
    decrementVersion "4.15.2".data = "4.14.2".data :=
  ⟨getOcpValidVersion_terminates.2.2.1 "15".data 15 (by decide) (by decide) (by decide) 15
      (by decide),
   getOcpValidVersion_terminates.2.2.2.1 "11".data 11 (by decide) (by decide) (by decide) 2
      (by decide),
   getOcpValidVersion_terminates.2.2.1 "015".data 15 (by decide) (by decide) (by decide) 15
      (by decide),
   by decide, by decide,
   (getOcpValidVersion_terminates.2.1 "4.15.2".data).2.2.2 15 (by decide) (by decide)
      (by decide),
   by decide⟩

end cmd

/-! ## The backup step -/

namespace updater

variable {P : Call → Prop}

theorem copyEntry_kept (env : Env) (src dst : GoString) (sfx : Loc) (w : World)
    (hP : ∀ c, c.isRename = false → P c) :
    Run (fun _ => True) P w (copyEntry env src dst sfx w).2 := by
  unfold copyEntry
  simp only
  split
  · exact Run.refl _ _ _
  · rename_i rel hrel
    cases hv : safeFilePath dst rel with
    | error err => exact Run.refl _ _ _
    | ok target =>
      simp only
      split
      · have h1 : Run (fun _ => True) P w (os.MkdirAll env target 0o750 w).2 :=
          os.MkdirAll_run env _ _ w (fun _ _ => trivial) (hP _ rfl)
        split
        · rename_i e w1 heq
          exact Run.of_eq heq h1
        · rename_i w1 heq
          have h2 : Run (fun _ => True) P w1 (os.ReadDir env (walkPath src sfx) w1).2 :=
            os.ReadDir_run env _ w1 (hP _ rfl)
          split
          · rename_i e w2 heq2
            exact (Run.of_eq heq h1).trans (Run.of_eq heq2 h2)
          · rename_i l w2 heq2
            exact (Run.of_eq heq h1).trans (Run.of_eq heq2 h2)
      · have h1 : Run (fun _ => True) P w (os.Open env (walkPath src sfx) w).2 :=
          os.Open_run env _ w (hP _ rfl)
        have hclose : ∀ p w', Run (fun _ => True) P w' (os.Close env p w').2 :=
          fun p w' => os.Close_run env p w' (hP _ rfl)
        split
        · rename_i e w1 heq
          exact Run.of_eq heq h1
        · rename_i f w1 heq
          have h1 := Run.of_eq heq h1
          simp only
          refine Run.trans ?_ (hclose _ _)
          have h2 : Run (fun _ => True) P w1
              (os.MkdirAll env (filepath.Dir target) 0o750 w1).2 :=
            os.MkdirAll_run env _ _ w1 (fun _ _ => trivial) (hP _ rfl)
          split
          · rename_i e w2 heq2
            exact h1.trans (Run.of_eq heq2 h2)
          · rename_i w2 heq2
            have h2 := h1.trans (Run.of_eq heq2 h2)
            have h3 : Run (fun _ => True) P w2 (os.OpenFile env target 0o600 w2).2 :=
              os.OpenFile_run env _ _ w2 trivial (hP _ rfl)
            split
            · rename_i e w3 heq3
              exact h2.trans (Run.of_eq heq3 h3)
            · rename_i w3 heq3
              have h3 := h2.trans (Run.of_eq heq3 h3)
              have h4 : Run (fun _ => True) P w3 (os.Read env (walkPath src sfx) f w3).2 :=
                os.Read_run env _ f w3 (hP _ rfl)
              split
              · rename_i e w4 heq4
                exact (h3.trans (Run.of_eq heq4 h4)).trans (hclose _ _)
              · rename_i data w4 heq4
                have h4 := h3.trans (Run.of_eq heq4 h4)
                have h5 : Run (fun _ => True) P w4 (os.Write env target data w4).2 :=
                  os.Write_run env _ _ w4 trivial (hP _ rfl)
                split
                · rename_i e w5 heq5
                  exact (h4.trans (Run.of_eq heq5 h5)).trans (hclose _ _)
                · rename_i w5 heq5
                  exact (h4.trans (Run.of_eq heq5 h5)).trans (hclose _ _)

theorem copyLoop_kept (env : Env) (src dst : GoString) (hP : ∀ c, c.isRename = false → P c) :
    ∀ (l : List Loc) (w : World),
      Run (fun _ => True) P w (copyLoop env src dst l w).2 := by
  intro l
  induction l with
  | nil => intro w; exact Run.refl _ _ _
  | cons sfx rest ih =>
    intro w
    unfold copyLoop
    have h1 := copyEntry_kept env src dst sfx w hP
    split
    · rename_i e w1 heq
      exact Run.of_eq heq h1
    · rename_i w1 heq
      exact (Run.of_eq heq h1).trans (ih w1)

theorem copyDir_kept (env : Env) (src dst : GoString) (w : World)
    (hP : ∀ c, c.isRename = false → P c) :
    Run (fun _ => True) P w (copyDir env src dst w).2 := by
  unfold copyDir
  have h1 : Run (fun _ => True) P w (os.Lstat env src w).2 :=
    os.Lstat_run env src w (hP _ rfl)
  split
  · rename_i e w1 heq
    exact Run.of_eq heq h1
  · rename_i n w1 heq
    exact (Run.of_eq heq h1).trans (copyLoop_kept env src dst hP _ w1)

theorem replaceTarget_kept (env : Env) (opt : Options) (sourceCfg : GoString) (w : World)
    (hP : ∀ c, c.isRename = false → P c) :
    Logged P w (replaceTarget env opt sourceCfg w).2 := by
  unfold replaceTarget
  have h1 : Logged P w (os.RemoveAll env opt.TargetCfgDir w).2 :=
    Logged.lone _ (os.RemoveAll_log env opt.TargetCfgDir w) (hP _ rfl)
  split
  · rename_i e w1 heq
    exact Logged.lof_eq heq h1
  · rename_i w1 heq
    have h2 := (copyDir_kept env sourceCfg opt.TargetCfgDir w1 hP).2
    split
    · rename_i e w2 heq2
      exact (Logged.lof_eq heq h1).ltrans (Logged.lof_eq heq2 h2)
    · rename_i w2 heq2
      exact (Logged.lof_eq heq h1).ltrans (Logged.lof_eq heq2 h2)

end updater

namespace updater

theorem updateInScratch_backup_err (env : Env) (opt : Options) (url tmpDir s : GoString)
    (w w3 w4 : World) (e : Err) (hfetch : fetchBundle env opt url tmpDir w = (.ok s, w3))
    (hb : backupTarget env opt w3 = (some e, w4)) :
    updateInScratch env opt url tmpDir w = (some e, w4) := by
  unfold updateInScratch
  simp only [hfetch, hb]

theorem updateInScratch_backup_ok (env : Env) (opt : Options) (url tmpDir s : GoString)
    (w w3 w4 : World) (hfetch : fetchBundle env opt url tmpDir w = (.ok s, w3))
    (hb : backupTarget env opt w3 = (none, w4)) :
    updateInScratch env opt url tmpDir w = replaceTarget env opt s w4 := by
  unfold updateInScratch
  simp only [hfetch, hb]

/-- The calls of `replaceTarget` start with the removal of the target, and
none of them is a rename. -/
theorem replaceTarget_head (env : Env) (opt : Options) (s : GoString) (w : World) :
    ∃ new, (replaceTarget env opt s w).2.log =
      new ++ Call.removeAll opt.TargetCfgDir :: w.log ∧ ∀ c ∈ new, c.isRename = false := by
  have hl := os.RemoveAll_log env opt.TargetCfgDir w
  unfold replaceTarget
  rcases hr : os.RemoveAll env opt.TargetCfgDir w with ⟨r, w1⟩
  rw [hr] at hl
  simp only at hl
  cases r with
  | some e => exact ⟨[], by simpa using hl, fun c hc => absurd hc (List.not_mem_nil _)⟩
  | none =>
    simp only
    obtain ⟨new, hnew, hP⟩ := (copyDir_kept env s opt.TargetCfgDir w1
      (fun (c : Call) (h : c.isRename = false) => h)).2
    rcases hc : copyDir env s opt.TargetCfgDir w1 with ⟨r2, w2⟩
    rw [hc] at hnew
    simp only at hnew
    cases r2 with
    | some e => exact ⟨new, by simp only; rw [hnew, hl], hP⟩
    | none => exact ⟨new, by simp only; rw [hnew, hl], hP⟩

/-- When the removal of the target succeeds, the next call of `replaceTarget`
starts the copy of the bundle. -/
theorem replaceTarget_copy (env : Env) (opt : Options) (s : GoString) (w w1 : World)
    (hr : os.RemoveAll env opt.TargetCfgDir w = (none, w1)) :
    ∃ new, (replaceTarget env opt s w).2.log =
      new ++ Call.lstat s :: Call.removeAll opt.TargetCfgDir :: w.log := by
  have hl := os.RemoveAll_log env opt.TargetCfgDir w
  rw [hr] at hl
  simp only at hl
  have hls := os.Lstat_log env s w1
  have hcopy : ∃ new, (copyDir env s opt.TargetCfgDir w1).2.log =
      new ++ Call.lstat s :: w1.log := by
    unfold copyDir
    rcases hs : os.Lstat env s w1 with ⟨r, w2⟩
    rw [hs] at hls
    simp only at hls
    cases r with
    | error e => exact ⟨[], by simpa using hls⟩
    | ok n =>
      simp only
      obtain ⟨new, hnew, _⟩ := (copyLoop_kept env s opt.TargetCfgDir
        (fun (c : Call) (_ : c.isRename = false) => trivial)
        (w2.fs.subtree (pathKey env.cwd s)) w2).2
      exact ⟨new, by rw [hnew, hls]⟩
  obtain ⟨new, hnew⟩ := hcopy
  unfold replaceTarget
  simp only [hr]
  rcases hc : copyDir env s opt.TargetCfgDir w1 with ⟨r2, w2⟩
  rw [hc] at hnew
  simp only at hnew
  cases r2 with
  | some e => exact ⟨new, by simp only; rw [hnew, hl]⟩
  | none => exact ⟨new, by simp only; rw [hnew, hl]⟩

/-- C21: with backup enabled and the bundle found, when `os.Stat` of the
target returns an error, whatever the error and whether or not the target is
there, the backup step does nothing: it returns no error, the file system is
as before and the stat is its only call; `Update` goes on with the removal of
the target and the copy of the bundle, its result being that of
`replaceTarget`; the call after the stat is the removal of the target, no call
after the stat is a rename, and when the removal succeeds the next call starts
the copy.  When the stat succeeds, the call after it is the rename of the
target to the backup path. -/
theorem Update_backup_needs_stat (env : Env) (opt : Options) (w w1 w2 w3 : World)
    (ref tmpDir sourceCfg : GoString)
    (hvalid : ¬ (opt.Source = [] ∨ opt.Ref = [] ∨ opt.TargetCfgDir = []))
    (href : resolveRef env opt w = (.ok ref, w1))
    (htmp : os.MkdirTemp env "kube-bench-update-".data w1 = (.ok tmpDir, w2))
    (hfetch : fetchBundle env opt (tarballURL opt ref) tmpDir w2 = (.ok sourceCfg, w3))
    (hback : opt.BackupEnabled = true) :
    (∀ e w4, os.Stat env opt.TargetCfgDir w3 = (.error e, w4) →
      (backupTarget env opt w3 = (none, w4) ∧ w4.fs = w3.fs ∧
        w4.log = Call.stat opt.TargetCfgDir :: w3.log) ∧
      Update env opt w = ((replaceTarget env opt sourceCfg w4).1,
        (os.RemoveAll env tmpDir (replaceTarget env opt sourceCfg w4).2).2) ∧
      (∃ new, (Update env opt w).2.log =
        new ++ Call.removeAll opt.TargetCfgDir :: Call.stat opt.TargetCfgDir :: w3.log ∧
        ∀ c ∈ new, c.isRename = false) ∧
      (∀ w5, os.RemoveAll env opt.TargetCfgDir w4 = (none, w5) →
        ∃ new, (Update env opt w).2.log =
          new ++ Call.lstat sourceCfg :: Call.removeAll opt.TargetCfgDir ::
            Call.stat opt.TargetCfgDir :: w3.log)) ∧
    (∀ n w4, os.Stat env opt.TargetCfgDir w3 = (.ok n, w4) →
      ∃ new, (Update env opt w).2.log =
        new ++ Call.rename opt.TargetCfgDir (backupPath env opt) ::
          Call.stat opt.TargetCfgDir :: w3.log) := by
  have hU := Update_in_scratch env opt w w1 w2 ref tmpDir hvalid href htmp
  constructor
  · intro e w4 hstat
    have hb : backupTarget env opt w3 = (none, w4) := by
      unfold backupTarget
      simp only [hback, if_true, hstat]
    have hlog : w4.log = Call.stat opt.TargetCfgDir :: w3.log := by
      have := os.Stat_log env opt.TargetCfgDir w3
      rw [hstat] at this
      exact this
    have hfs : w4.fs = w3.fs := by
      have := os.Stat_fs env opt.TargetCfgDir w3
      rw [hstat] at this
      exact this
    have hu := updateInScratch_backup_ok env opt _ tmpDir sourceCfg w2 w3 w4 hfetch hb
    rw [hu] at hU
    refine ⟨⟨hb, hfs, hlog⟩, hU, ?_, ?_⟩
    · obtain ⟨new, hnew, hP⟩ := replaceTarget_head env opt sourceCfg w4
      refine ⟨Call.removeAll tmpDir :: new, ?_, ?_⟩
      · rw [hU]
        simp only
        rw [os.RemoveAll_log, hnew, hlog]
        rfl
      · intro c hc
        rcases List.mem_cons.1 hc with rfl | hc
        · rfl
        · exact hP c hc
    · intro w5 hrm
      obtain ⟨new, hnew⟩ := replaceTarget_copy env opt sourceCfg w4 w5 hrm
      refine ⟨Call.removeAll tmpDir :: new, ?_⟩
      rw [hU]
      simp only
      rw [os.RemoveAll_log, hnew, hlog]
      rfl
  · intro n w4 hstat
    have hlog : w4.log = Call.stat opt.TargetCfgDir :: w3.log := by
      have := os.Stat_log env opt.TargetCfgDir w3
      rw [hstat] at this
      exact this
    have hrl := os.Rename_log env opt.TargetCfgDir (backupPath env opt) w4
    rcases hr : os.Rename env opt.TargetCfgDir (backupPath env opt) w4 with ⟨r, w5⟩
    rw [hr] at hrl
    simp only at hrl
    cases r with
    | some e =>
      have hb : backupTarget env opt w3 =
          (some (.wrap "backup cfg dir".data e), w5) := by
        unfold backupTarget
        simp only [hback, if_true, hstat, hr]
      rw [updateInScratch_backup_err env opt _ tmpDir sourceCfg w2 w3 w5 _ hfetch hb] at hU
      refine ⟨[Call.removeAll tmpDir], ?_⟩
      rw [hU]
      simp only
      rw [os.RemoveAll_log, hrl, hlog]
      rfl
    | none =>
      have hb : backupTarget env opt w3 = (none, w5) := by
        unfold backupTarget
        simp only [hback, if_true, hstat, hr]
      rw [updateInScratch_backup_ok env opt _ tmpDir sourceCfg w2 w3 w5 hfetch hb] at hU
      obtain ⟨new, hnew, _⟩ := replaceTarget_head env opt sourceCfg w5
      refine ⟨Call.removeAll tmpDir :: (new ++ [Call.removeAll opt.TargetCfgDir]), ?_⟩
      rw [hU]
      simp only
      rw [os.RemoveAll_log, hnew, hrl, hlog]
      simp

end updater

namespace updater

set_option maxRecDepth 100000 in
/-- C21 at concrete inputs: the run of the test where the target is there
with its file `old.txt` and `os.Stat` of the target fails: `Update` returns no
error, no call after the stat is a rename, nothing is at the backup path, and
the target holds the bundle and no longer the file `old.txt`. -/
theorem Update_backup_needs_stat_witness :
    Scene.w0.fs.isDir (pathKey Scene.envStatFault.cwd Scene.opt.TargetCfgDir) = true ∧
    (∃ new, (Update Scene.envStatFault Scene.opt Scene.w0).2.log =
      new ++ Call.removeAll Scene.opt.TargetCfgDir :: Call.stat Scene.opt.TargetCfgDir ::
        (fetchBundle Scene.envStatFault Scene.opt (tarballURL Scene.opt Scene.opt.Ref)
          Scene.tmpDir
          (os.MkdirTemp Scene.envStatFault "kube-bench-update-".data Scene.w0).2).2.log ∧
      ∀ c ∈ new, c.isRename = false) ∧
    (Update Scene.envStatFault Scene.opt Scene.w0).1 = none ∧
    (Update Scene.envStatFault Scene.opt Scene.w0).2.fs.contentAt
      (pathKey Scene.envStatFault.cwd (backupPath Scene.envStatFault Scene.opt)) = none ∧
    (Update Scene.envStatFault Scene.opt Scene.w0).2.fs.contentAt
      ["work".data, "cfg".data, "old.txt".data] = none ∧
    (Update Scene.envStatFault Scene.opt Scene.w0).2.fs.contentAt
      ["work".data, "cfg".data, "cis-1.11".data, "sample.yaml".data] =
        some (some (Scene.bytes "key: value\n")) :=
  ⟨by decide,
   ((Update_backup_needs_stat Scene.envStatFault Scene.opt Scene.w0 Scene.w0
      (os.MkdirTemp Scene.envStatFault "kube-bench-update-".data Scene.w0).2
      (fetchBundle Scene.envStatFault Scene.opt (tarballURL Scene.opt Scene.opt.Ref)
        Scene.tmpDir
        (os.MkdirTemp Scene.envStatFault "kube-bench-update-".data Scene.w0).2).2
      Scene.opt.Ref Scene.tmpDir Scene.sourceCfg
      (by decide) rfl (Prod.ext (by decide) rfl) (Prod.ext (by decide) rfl) rfl).1
      (.os "stat".data "/work/cfg".data)
      (os.Stat Scene.envStatFault Scene.opt.TargetCfgDir
        (fetchBundle Scene.envStatFault Scene.opt (tarballURL Scene.opt Scene.opt.Ref)
          Scene.tmpDir
          (os.MkdirTemp Scene.envStatFault "kube-bench-update-".data Scene.w0).2).2).2
      (Prod.ext (by decide) rfl)).2.2.1,
   by decide, by decide, by decide, by decide⟩

end updater

/-! ## Paths without `..`: the walk and the location -/

namespace os

/-- Without `..` the resolution of the elements only adds names. -/
theorem foldl_extends (elems : List GoString) : filepath.dotdot ∉ elems →
    ∀ cur, ∃ ext, elems.foldl (filepath.cleanStep true) cur = ext ++ cur := by
  induction elems with
  | nil => intro _ cur; exact ⟨[], rfl⟩
  | cons e es ih =>
    intro h cur
    have he : e ≠ filepath.dotdot := fun h0 => h (by simp [h0])
    have hes : filepath.dotdot ∉ es := fun h0 => h (List.mem_cons_of_mem _ h0)
    rw [List.foldl_cons]
    obtain ⟨ext, hext⟩ := ih hes (filepath.cleanStep true cur e)
    rw [hext]
    by_cases h1 : e = [] ∨ e = ['.']
    · rw [filepath.cleanStep_skip _ _ e h1]; exact ⟨ext, rfl⟩
    · rw [filepath.cleanStep_push _ _ e (fun h0 => h1 (Or.inl h0)) (fun h0 => h1 (Or.inr h0)) he]
      exact ⟨ext ++ [e], by simp⟩

/-- Without `..`, a walk that meets a missing name ends at a location where
nothing is. -/
theorem walkFrom_noent (fs : FS) : ∀ (elems cur : List GoString),
    filepath.dotdot ∉ elems → walkFrom fs cur elems = .noent →
    fs.node (elems.foldl (filepath.cleanStep true) cur).reverse = none := by
  intro elems
  induction elems with
  | nil => intro cur _ h; simp [walkFrom] at h
  | cons e es ih =>
    intro cur hd h
    cases es with
    | nil => simp [walkFrom] at h
    | cons e2 rest =>
      have he : e ≠ filepath.dotdot := fun h0 => hd (by simp [h0])
      have hes : filepath.dotdot ∉ e2 :: rest := fun h0 => hd (List.mem_cons_of_mem _ h0)
      rw [List.foldl_cons]
      unfold walkFrom at h
      by_cases h1 : e = [] ∨ e = ['.']
      · have h1b : e = [] ∨ e = ['.'] ∨ e = filepath.dotdot := by
          rcases h1 with h1 | h1
          · exact Or.inl h1
          · exact Or.inr (Or.inl h1)
        rw [if_pos h1b] at h
        exact ih _ hes h
      · have h1b : ¬ (e = [] ∨ e = ['.'] ∨ e = filepath.dotdot) := by
          intro h0
          rcases h0 with h0 | h0 | h0
          · exact h1 (Or.inl h0)
          · exact h1 (Or.inr h0)
          · exact he h0
        rw [if_neg h1b] at h
        rw [filepath.cleanStep_push _ _ e (fun h0 => h1 (Or.inl h0)) (fun h0 => h1 (Or.inr h0)) he]
        cases hn : fs.node (e :: cur).reverse with
        | none =>
          obtain ⟨ext, hext⟩ := foldl_extends (e2 :: rest) hes (e :: cur)
          rw [hext, List.reverse_append]
          by_cases hx : ext = []
          · subst hx; simpa using hn
          · by_contra hcon
            have := fs.prefix_isDir (e :: cur).reverse ext.reverse (by simpa using hx) hcon
            rw [isDir_false_of_none fs _ hn] at this
            exact absurd this (by simp)
        | some n =>
          rw [hn] at h
          cases n with
          | file m d => simp at h
          | dir m => exact ih _ hes h

/-- Without `..` in the path, a walk that meets a missing name means that
nothing is at the location of the path. -/
theorem walk_noent (fs : FS) (cwd : Loc) (path : GoString)
    (hd : filepath.dotdot ∉ strings.Split '/' path) (h : walk fs cwd path = .noent) :
    fs.node (pathKey cwd path) = none := by
  unfold walk at h
  unfold pathKey resolveFrom
  split
  · rename_i hr
    rw [if_pos hr] at h
    simpa using walkFrom_noent fs _ [] hd h
  · rename_i hr
    rw [if_neg hr] at h
    exact walkFrom_noent fs _ _ hd h

/-- Where nothing is, nothing is below. -/
theorem none_below (fs : FS) (p q : Loc) (h : fs.node p = none) (hq : p <+: q) :
    fs.node q = none := by
  obtain ⟨sfx, rfl⟩ := hq
  by_cases hs : sfx = []
  · subst hs; simpa using h
  · by_contra hcon
    have := fs.prefix_isDir p sfx hs hcon
    rw [isDir_false_of_none fs _ h] at this
    exact absurd this (by simp)

/-- A removal without error of a path that is written without `..` and without
trailing separators leaves nothing at or below its location. -/
theorem RemoveAll_plain (env : Env) (path : GoString) (w : World)
    (h : (RemoveAll env path w).1 = none) (hp : path ≠ [])
    (ht : trimSlashes path = path) (hd : filepath.dotdot ∉ strings.Split '/' path) (q : Loc)
    (hq : pathKey env.cwd path <+: q) : (RemoveAll env path w).2.fs.node q = none := by
  cases hw : walk w.fs env.cwd (trimSlashes path) with
  | found => exact RemoveAll_ok env path w h hp hw q hq
  | noent =>
    rw [ht] at hw
    exact RemoveAll_none env path w q (none_below w.fs _ q (walk_noent w.fs env.cwd path hd hw) hq)
  | notdir =>
    unfold RemoveAll at h
    simp only [hw] at h
    have hp2 : path.isEmpty = false := by simpa using hp
    simp only [hp2, Bool.false_eq_true, if_false] at h
    split at h <;> simp at h

end os

namespace os

/-- The name of the temporary directory: the prefix and a decimal number. -/
theorem tempName_spec (env : Env) :
    '/' ∉ "kube-bench-update-".data ++ Nat.toDigits 10 env.random ∧
    "kube-bench-update-".data ++ Nat.toDigits 10 env.random ≠ filepath.dotdot ∧
    ("kube-bench-update-".data ++ Nat.toDigits 10 env.random).getLast? ≠ some '/' := by
  have hd : '/' ∉ Nat.toDigits 10 env.random := fun h =>
    strconv.toDigits_mem (fun c => c ≠ '/') (by decide) env.random _ h rfl
  have hs : '/' ∉ "kube-bench-update-".data ++ Nat.toDigits 10 env.random := by
    intro h
    rcases List.mem_append.1 h with h | h
    · exact absurd h (by decide)
    · exact hd h
  refine ⟨hs, ?_, ?_⟩
  · intro h
    have := congrArg List.head? h
    simp [filepath.dotdot] at this
  · intro h
    exact hs (List.mem_of_getLast?_eq_some h)

/-- The path that `os.MkdirTemp` makes has no trailing separator. -/
theorem tempPath_trim (env : Env) :
    trimSlashes (tempPath env "kube-bench-update-".data) =
      tempPath env "kube-bench-update-".data := by
  have hlast : (tempPath env "kube-bench-update-".data).getLast? ≠ some '/' := by
    obtain ⟨_, _, h3⟩ := tempName_spec env
    have hne : "kube-bench-update-".data ++ Nat.toDigits 10 env.random ≠ [] := by simp
    unfold tempPath
    simp only
    split
    · rw [List.getLast?_append_of_ne_nil _ hne]; exact h3
    · rw [show TempDir env ++ '/' :: ("kube-bench-update-".data ++ Nat.toDigits 10 env.random) =
        (TempDir env ++ ['/']) ++ ("kube-bench-update-".data ++ Nat.toDigits 10 env.random) by simp,
        List.getLast?_append_of_ne_nil _ hne]
      exact h3
  have ht : strings.TrimRight (tempPath env "kube-bench-update-".data) '/' =
      tempPath env "kube-bench-update-".data := by
    unfold strings.TrimRight
    have hne := updater.tempPath_ne_nil env "kube-bench-update-".data
    cases hr : (tempPath env "kube-bench-update-".data).reverse with
    | nil => exact absurd (List.reverse_eq_nil_iff.1 hr) hne
    | cons c cs =>
      have hc : c ≠ '/' := by
        intro h0
        apply hlast
        rw [← List.reverse_reverse (tempPath env "kube-bench-update-".data), hr,
          List.getLast?_reverse]
        simp [h0]
      rw [List.dropWhile_cons_of_neg (by simpa using hc), ← hr, List.reverse_reverse]
  unfold trimSlashes
  rw [ht, if_neg (updater.tempPath_ne_nil env _)]

/-- A temporary directory that is written without `..` gives a path without
`..`. -/
theorem tempPath_plain (env : Env) (h : filepath.dotdot ∉ strings.Split '/' (TempDir env)) :
    filepath.dotdot ∉ strings.Split '/' (tempPath env "kube-bench-update-".data) := by
  obtain ⟨h1, h2, _⟩ := tempName_spec env
  unfold tempPath
  simp only
  split
  · rename_i hl
    obtain ⟨d, hd⟩ : ∃ d, TempDir env = d ++ ['/'] := by
      cases hr : (TempDir env).reverse with
      | nil =>
        have := List.reverse_eq_nil_iff.1 hr
        rw [this] at hl
        simp at hl
      | cons c cs =>
        have hT : TempDir env = cs.reverse ++ [c] := by
          rw [← List.reverse_reverse (TempDir env), hr, List.reverse_cons]
        rw [hT] at hl
        simp at hl
        exact ⟨cs.reverse, by rw [hT, hl]⟩
    rw [hd] at h ⊢
    rw [Split_snoc_sep] at h
    rw [show d ++ ['/'] ++ ("kube-bench-update-".data ++ Nat.toDigits 10 env.random) =
      d ++ '/' :: ("kube-bench-update-".data ++ Nat.toDigits 10 env.random) by simp,
      strings.Split_append, strings.Split_of_not_mem _ _ h1]
    intro hm
    rcases List.mem_append.1 hm with hm | hm
    · exact h (List.mem_append_left _ hm)
    · exact h2 (List.mem_singleton.1 hm).symm
  · rw [strings.Split_append, strings.Split_of_not_mem _ _ h1]
    intro hm
    rcases List.mem_append.1 hm with hm | hm
    · exact h hm
    · exact h2 (List.mem_singleton.1 hm).symm

end os

namespace updater

/-- C9, amended: the return paths of `Update` taken before the temporary
directory exists (invalid request, failed resolution of the reference, failed
`os.MkdirTemp`) leave the file system as it was; on every return path taken
after `os.MkdirTemp` has made the directory, the last call of `Update` is
`os.RemoveAll` on that directory, and when this call reports no error, nothing
is left at or below the directory at return, provided that `TMPDIR` is written
without `..` or, more generally, that the kernel still finds its way along the
path of the directory (with `..` it does not when the update has removed a
directory that the path goes through). -/
theorem Update_scratch_removed (env : Env) (opt : Options) (w : World) :
    ((opt.Source = [] ∨ opt.Ref = [] ∨ opt.TargetCfgDir = []) → (Update env opt w).2 = w) ∧
    (∀ e w1, ¬ (opt.Source = [] ∨ opt.Ref = [] ∨ opt.TargetCfgDir = []) →
      resolveRef env opt w = (.error e, w1) → (Update env opt w).2.fs = w.fs) ∧
    (∀ ref w1 e w2, ¬ (opt.Source = [] ∨ opt.Ref = [] ∨ opt.TargetCfgDir = []) →
      resolveRef env opt w = (.ok ref, w1) →
      os.MkdirTemp env "kube-bench-update-".data w1 = (.error e, w2) →
      (Update env opt w).2.fs = w.fs) ∧
    (∀ ref w1 tmpDir w2, ¬ (opt.Source = [] ∨ opt.Ref = [] ∨ opt.TargetCfgDir = []) →
      resolveRef env opt w = (.ok ref, w1) →
      os.MkdirTemp env "kube-bench-update-".data w1 = (.ok tmpDir, w2) →
      (∃ rest, (Update env opt w).2.log = Call.removeAll tmpDir :: (rest ++ w2.log)) ∧
      ((os.RemoveAll env tmpDir
          (updateInScratch env opt (tarballURL opt ref) tmpDir w2).2).1 = none →
        (filepath.dotdot ∉ strings.Split '/' (os.TempDir env) ∨
          os.walk (updateInScratch env opt (tarballURL opt ref) tmpDir w2).2.fs env.cwd
            (os.trimSlashes tmpDir) = .found) →
        ∀ q, pathKey env.cwd tmpDir <+: q → (Update env opt w).2.fs.node q = none)) := by
  refine ⟨?_, ?_, ?_, ?_⟩
  · intro hv
    unfold Update
    rw [if_pos hv]
  · intro e w1 hv hr
    have h1 := (resolveRef_fs env opt w).1
    unfold Update
    rw [if_neg hv]
    simp only [hr]
    rw [hr] at h1
    exact h1
  · intro ref w1 e w2 hv hr ht
    have h1 := (resolveRef_fs env opt w).1
    rw [hr] at h1
    unfold Update
    rw [if_neg hv]
    simp only [hr, ht]
    rw [(MkdirTemp_err env _ e w1 w2 ht).1]
    exact h1
  · intro ref w1 tmpDir w2 hv hr ht
    have hne : tmpDir ≠ [] := by
      rw [(MkdirTemp_ok env _ tmpDir w1 w2 ht).1]
      exact tempPath_ne_nil env _
    rw [Update_in_scratch env opt w w1 w2 ref tmpDir hv hr ht]
    constructor
    · obtain ⟨new, hnew⟩ := updateInScratch_log env opt (tarballURL opt ref) tmpDir w2 hne
      exact ⟨new, by rw [os.RemoveAll_log, hnew]⟩
    · intro hok hwalk q hq
      rcases hwalk with hplain | hwalk
      · have htd := (MkdirTemp_ok env _ tmpDir w1 w2 ht).1
        subst htd
        exact os.RemoveAll_plain env _ _ hok hne (os.tempPath_trim env)
          (os.tempPath_plain env hplain) q hq
      · exact os.RemoveAll_ok env tmpDir _ hok hne hwalk q hq

set_option maxRecDepth 100000 in
/-- C9, amended, at concrete inputs: a request without a reference, a request
for `latest` whose release metadata cannot be read, a temporary directory that
exists already, and the run of the test, after which nothing is left at the
place of the temporary directory. -/
theorem Update_scratch_removed_witness :
    (Update Scene.env Scene.optNoRef Scene.w0).2 = Scene.w0 ∧
    (Update Scene.env Scene.optLatest Scene.w0).2.fs = Scene.w0.fs ∧
    (Update Scene.env Scene.opt
      (os.MkdirTemp Scene.env "kube-bench-update-".data Scene.w0).2).2.fs =
      (os.MkdirTemp Scene.env "kube-bench-update-".data Scene.w0).2.fs ∧
    (Update Scene.env Scene.opt Scene.w0).2.fs.node
      ["tmp".data, "kube-bench-update-42".data] = none :=
  ⟨(Update_scratch_removed Scene.env Scene.optNoRef Scene.w0).1 (by decide),
   (Update_scratch_removed Scene.env Scene.optLatest Scene.w0).2.1 _
     (resolveRef Scene.env Scene.optLatest Scene.w0).2 (by decide)
     (Prod.ext (by decide) rfl),
   (Update_scratch_removed Scene.env Scene.opt
      (os.MkdirTemp Scene.env "kube-bench-update-".data Scene.w0).2).2.2.1
     Scene.opt.Ref _ (Err.os "mkdirtemp".data "/tmp/kube-bench-update-42".data)
     (os.MkdirTemp Scene.env "kube-bench-update-".data
       (os.MkdirTemp Scene.env "kube-bench-update-".data Scene.w0).2).2
     (by decide) rfl (Prod.ext (by decide) rfl),
   ((Update_scratch_removed Scene.env Scene.opt Scene.w0).2.2.2
     Scene.opt.Ref Scene.w0 "/tmp/kube-bench-update-42".data
     (os.MkdirTemp Scene.env "kube-bench-update-".data Scene.w0).2
     (by decide) rfl (Prod.ext (by decide) rfl)).2 (by decide) (Or.inl (by decide))
     ["tmp".data, "kube-bench-update-42".data] (by decide)⟩

end updater
